import Mathlib

/-! FureyEngine: brushes, collision states and the world scheduler.

A shallow embedding of the collision subsystem (`BrushComponent`, `Transform`, `Math`), of
the frame scheduler (`World`, `Actor`, `Component`) with its timers, of the movement, physics
and state machine components and of the axes of `Controller` of FureyEngine.

Conventions of the embedding:

* the `float` values of geometry, movement and physics, and the delta time they are
  multiplied with, are exact rationals (`ℚ`);
* the `double` values of the timers (delays, the delta time, the time scale) are IEEE 754
  binary64 values, `Double`, with the rounding of the machine arithmetic, and the `int` a
  repeating timer counts down is a 32-bit integer;
* the trigonometry of glm (an external library) is a parameter, `Trig`;
* object identity (a raw pointer) is a natural number, `Ptr`;
* a delegate is represented by the list of the invocations made on it, oldest first;
  bound handlers are assumed not to change engine state;
* a `std::function` is the target it stores, and `std::function::target` follows the C++
  standard library;
* a call that may throw returns the state it leaves together with the exception;
* the wall-clock time between two calls of World::Update, the input read from the keyboard or
  a controller and SDL_sqrt are parameters.
-/

namespace FureyEngine

/-! ## Vectors, transforms and `Math` -/

/-- Object identity: the address of an actor or of a component. -/
abbrev Ptr := Nat

/-- The type glm::vec2, with rational coordinates. -/
structure Vec2 where
  x : ℚ
  y : ℚ
deriving DecidableEq

/-- Cosine and sine of an angle given in degrees: `glm::cos (glm::radians d)` and
`glm::sin (glm::radians d)`. glm is an external library, so both are parameters. -/
structure Trig where
  cos : ℚ → ℚ
  sin : ℚ → ℚ

/-- Trigonometry restricted to unrotated objects: right at 0 degrees (cos 0 = 1, sin 0 = 0),
which is the only angle the concrete scenarios below use. -/
def Trig.unrotated : Trig := ⟨fun _ => 1, fun _ => 0⟩

/-- Transform.h: position, rotation (degrees) and scale of an object. -/
structure Transform where
  Position : Vec2 := ⟨0, 0⟩
  Rotation : ℚ := 0
  Scale : Vec2 := ⟨1, 1⟩
deriving DecidableEq

/-- Math::Rotate (Math.h 56-63): the direction rotated by the given degrees. -/
def Math.Rotate (T : Trig) (Direction : Vec2) (Degrees : ℚ) : Vec2 :=
  let Cos := T.cos (-Degrees)
  let Theta := T.sin (-Degrees)
  ⟨Direction.x * Cos - Direction.y * Theta, Direction.x * Theta + Direction.y * Cos⟩

/-- Math::DoesLineOverlapLine (Math.h 124-151). -/
def Math.DoesLineOverlapLine (LineAPointA LineAPointB LineBPointA LineBPointB : Vec2) : Bool :=
  if LineAPointA = LineBPointA ∨ LineAPointA = LineBPointB ∨
      LineAPointB = LineBPointA ∨ LineAPointB = LineBPointB then true
  else
    let LineADirection : Vec2 := ⟨LineAPointB.x - LineAPointA.x, LineAPointB.y - LineAPointA.y⟩
    let LineBDirection : Vec2 := ⟨LineBPointB.x - LineBPointA.x, LineBPointB.y - LineBPointA.y⟩
    let Denominator := LineADirection.x * LineBDirection.y - LineADirection.y * LineBDirection.x
    if |Denominator| < 1 / 100000 then false
    else
      let IntersectionA := ((LineBPointA.x - LineAPointA.x) * LineBDirection.y -
        (LineBPointA.y - LineAPointA.y) * LineBDirection.x) / Denominator
      let IntersectionB := ((LineBPointA.x - LineAPointA.x) * LineADirection.y -
        (LineBPointA.y - LineAPointA.y) * LineADirection.x) / Denominator
      if 0 ≤ IntersectionA ∧ IntersectionA ≤ 1 ∧ 0 ≤ IntersectionB ∧ IntersectionB ≤ 1 then true
      else false

/-- Transform::WorldToRelative (Transform.cpp 84-112). -/
def Transform.WorldToRelative (T : Trig) (WorldTransform ParentTransform : Transform) :
    Transform :=
  let p0 : Vec2 := ⟨WorldTransform.Position.x - ParentTransform.Position.x,
    WorldTransform.Position.y - ParentTransform.Position.y⟩
  let rot := WorldTransform.Rotation - ParentTransform.Rotation
  let p1 := Math.Rotate T p0 (-ParentTransform.Rotation)
  let sx := if ParentTransform.Scale.x ≠ 0 then WorldTransform.Scale.x / ParentTransform.Scale.x
    else 0
  let px := if ParentTransform.Scale.x ≠ 0 then p1.x / ParentTransform.Scale.x else 0
  let sy := if ParentTransform.Scale.y ≠ 0 then WorldTransform.Scale.y / ParentTransform.Scale.y
    else 0
  let py := if ParentTransform.Scale.y ≠ 0 then p1.y / ParentTransform.Scale.y else 0
  { Position := ⟨px, py⟩, Rotation := rot, Scale := ⟨sx, sy⟩ }

/-- Transform::RelativeToWorld (Transform.cpp 115-133). -/
def Transform.RelativeToWorld (T : Trig) (RelativeTransform ParentTransform : Transform) :
    Transform :=
  let s : Vec2 := ⟨RelativeTransform.Scale.x * ParentTransform.Scale.x,
    RelativeTransform.Scale.y * ParentTransform.Scale.y⟩
  let p0 : Vec2 := ⟨RelativeTransform.Position.x * ParentTransform.Scale.x,
    RelativeTransform.Position.y * ParentTransform.Scale.y⟩
  let p1 := Math.Rotate T p0 ParentTransform.Rotation
  { Position := ⟨p1.x + ParentTransform.Position.x, p1.y + ParentTransform.Position.y⟩,
    Rotation := RelativeTransform.Rotation + ParentTransform.Rotation,
    Scale := s }

/-! ## BrushComponent -/

/-- BrushComponent::CollisionState (BrushComponent.h 20-32). -/
inductive CollisionState where
  | NONE
  | COLLISION_ENTER
  | COLLISION_STAY
  | COLLISION_EXIT
deriving DecidableEq, Repr

/-- The preprocessor flag FIRE_WHILE_COLLIDING (BrushComponent.h 8), defined as 1. -/
def FIRE_WHILE_COLLIDING : Bool := true

/-- BrushComponent::OverlappingEdges (BrushComponent.h 38-53), as bit flags. -/
abbrev OverlappingEdges := Nat

def OverlappingEdges.NONE : OverlappingEdges := 0
def OverlappingEdges.TOP : OverlappingEdges := 1
def OverlappingEdges.BOTTOM : OverlappingEdges := 2
def OverlappingEdges.LEFT : OverlappingEdges := 4
def OverlappingEdges.RIGHT : OverlappingEdges := 8

/-- Math::AddEnumFlag (Math.h 86-90) with the default number type, unsigned char. -/
def Math.AddEnumFlag (Enum Flag : Nat) : Nat := (Enum % 256) ||| (Flag % 256)

/-- The container std::map from brush pointers to collision states, as an association list
kept in key order. -/
abbrev StateMap := List (Ptr × CollisionState)

/-- The call `m.count(k)` as a truth value. -/
def StateMap.count (m : StateMap) (k : Ptr) : Bool := m.any (fun e => e.1 == k)

/-- The value stored for `k`, when there is one. -/
def StateMap.find (m : StateMap) (k : Ptr) : Option CollisionState :=
  (m.find? (fun e => e.1 == k)).map (fun e => e.2)

/-- The assignment `m[k] = v`: overwrites the entry of `k` or inserts one at its place in key
order. -/
def StateMap.assign : StateMap → Ptr → CollisionState → StateMap
  | [], k, v => [(k, v)]
  | (k', v') :: m, k, v =>
    if k = k' then (k, v) :: m
    else if k < k' then (k, v) :: (k', v') :: m
    else (k', v') :: StateMap.assign m k v

/-- The call `m.erase(k)`. -/
def StateMap.erase (m : StateMap) (k : Ptr) : StateMap := m.filter (fun e => !(e.1 == k))

/-- A brush component as seen through a valid reference: the fields of BrushComponent and of its
base class Component that the collision code reads, together with the transform of the owning
actor (what `GetActor()->Transform` evaluates to). `OnCollision` lists the invocations of the
delegate of that name, each with its two arguments (this brush, the other brush). -/
structure BrushComponent where
  ptr : Ptr
  Active : Bool := true
  BeginTick : Bool := false
  Bounds : Transform := {}
  Trigger : Bool := false
  Layer : String := "All"
  TickLate : Bool := true
  CollisionStates : StateMap := []
  ActorTransform : Transform := {}
  OnCollision : List (Ptr × Ptr) := []
deriving DecidableEq

namespace BrushComponent

/-- Component::IsActive (Component.cpp 77-79). -/
def IsActive (b : BrushComponent) : Bool := b.Active

/-- The world transform of the brush: `Transform::RelativeToWorld(Bounds, GetActor()->Transform)`,
the inner call shared by the corner getters and by IsWithinBounds. -/
def WorldBounds (T : Trig) (b : BrushComponent) : Transform :=
  Transform.RelativeToWorld T b.Bounds b.ActorTransform

/-- BrushComponent::BottomLeft (BrushComponent.cpp 196-200). -/
def BottomLeft (T : Trig) (b : BrushComponent) : Vec2 :=
  (Transform.RelativeToWorld T { Position := ⟨-1/2, -1/2⟩ } (b.WorldBounds T)).Position

/-- BrushComponent::BottomRight (BrushComponent.cpp 203-207). -/
def BottomRight (T : Trig) (b : BrushComponent) : Vec2 :=
  (Transform.RelativeToWorld T { Position := ⟨1/2, -1/2⟩ } (b.WorldBounds T)).Position

/-- BrushComponent::TopLeft (BrushComponent.cpp 210-214). -/
def TopLeft (T : Trig) (b : BrushComponent) : Vec2 :=
  (Transform.RelativeToWorld T { Position := ⟨-1/2, 1/2⟩ } (b.WorldBounds T)).Position

/-- BrushComponent::TopRight (BrushComponent.cpp 217-221). -/
def TopRight (T : Trig) (b : BrushComponent) : Vec2 :=
  (Transform.RelativeToWorld T { Position := ⟨1/2, 1/2⟩ } (b.WorldBounds T)).Position

/-- BrushComponent::IsWithinBounds (BrushComponent.cpp 224-234). -/
def IsWithinBounds (T : Trig) (b : BrushComponent) (WorldPosition : Vec2) : Bool :=
  if b.Bounds.Scale = ⟨0, 0⟩ then false
  else
    let RelativeTransform :=
      Transform.WorldToRelative T { Position := WorldPosition } (b.WorldBounds T)
    decide (|RelativeTransform.Position.x| ≤ 1/2 ∧ |RelativeTransform.Position.y| ≤ 1/2)

/-- BrushComponent::IsOverlappingEdge (BrushComponent.cpp 237-279), for a valid reference
`OtherBrush`. An edge value other than the four named ones takes the `default` case. -/
def IsOverlappingEdge (T : Trig) (b OtherBrush : BrushComponent)
    (OverlappedEdge : OverlappingEdges) : Bool :=
  if OtherBrush.Bounds.Scale = ⟨0, 0⟩ then false
  else
    let against (PointA PointB : Vec2) : Bool :=
      Math.DoesLineOverlapLine PointA PointB (OtherBrush.BottomLeft T) (OtherBrush.BottomRight T) ||
      Math.DoesLineOverlapLine PointA PointB (OtherBrush.TopLeft T) (OtherBrush.TopRight T) ||
      Math.DoesLineOverlapLine PointA PointB (OtherBrush.BottomLeft T) (OtherBrush.TopLeft T) ||
      Math.DoesLineOverlapLine PointA PointB (OtherBrush.BottomRight T) (OtherBrush.TopRight T)
    if OverlappedEdge = OverlappingEdges.TOP then against (b.TopLeft T) (b.TopRight T)
    else if OverlappedEdge = OverlappingEdges.BOTTOM then against (b.BottomLeft T) (b.BottomRight T)
    else if OverlappedEdge = OverlappingEdges.LEFT then against (b.BottomLeft T) (b.TopLeft T)
    else if OverlappedEdge = OverlappingEdges.RIGHT then against (b.BottomRight T) (b.TopRight T)
    else false

/-- BrushComponent::GetOverlappedEdges (BrushComponent.cpp 282-311), for a valid reference. -/
def GetOverlappedEdges (T : Trig) (b OtherBrush : BrushComponent) : OverlappingEdges :=
  if OtherBrush.Bounds.Scale = ⟨0, 0⟩ then OverlappingEdges.NONE
  else
    let e0 := OverlappingEdges.NONE
    let e1 := if b.IsOverlappingEdge T OtherBrush OverlappingEdges.TOP
      then Math.AddEnumFlag e0 OverlappingEdges.TOP else e0
    let e2 := if b.IsOverlappingEdge T OtherBrush OverlappingEdges.BOTTOM
      then Math.AddEnumFlag e1 OverlappingEdges.BOTTOM else e1
    let e3 := if b.IsOverlappingEdge T OtherBrush OverlappingEdges.LEFT
      then Math.AddEnumFlag e2 OverlappingEdges.LEFT else e2
    let e4 := if b.IsOverlappingEdge T OtherBrush OverlappingEdges.RIGHT
      then Math.AddEnumFlag e3 OverlappingEdges.RIGHT else e3
    e4

/-- BrushComponent::CollisionStateWith (BrushComponent.cpp 314-322), for a valid reference. -/
def CollisionStateWith (b OtherBrush : BrushComponent) : CollisionState :=
  if b.CollisionStates.count OtherBrush.ptr then
    (b.CollisionStates.find OtherBrush.ptr).getD CollisionState.NONE
  else CollisionState.NONE

/-- BrushComponent::IsOverlapping (BrushComponent.cpp 325-335), for a valid reference. -/
def IsOverlapping (T : Trig) (b OtherBrush : BrushComponent) : Bool :=
  if b.Bounds.Scale = ⟨0, 0⟩ then false
  else
    decide (b.GetOverlappedEdges T OtherBrush ≠ OverlappingEdges.NONE) ||
    b.IsWithinBounds T (OtherBrush.BottomLeft T) ||
    b.IsWithinBounds T (OtherBrush.BottomRight T) ||
    b.IsWithinBounds T (OtherBrush.TopLeft T) ||
    b.IsWithinBounds T (OtherBrush.TopRight T)

/-- BrushComponent::IsColliding (BrushComponent.cpp 338-352). `AllBrushes` is the registry of
the brush's world, `AllBrushes[GetActor()->GetWorld()]`, in iteration order; the result is the
returned reference, `none` for nullref. -/
def IsColliding (T : Trig) (AllBrushes : List BrushComponent) (b : BrushComponent) :
    Option BrushComponent :=
  if b.Bounds.Scale = ⟨0, 0⟩ ∨ b.IsActive = false then none
  else
    AllBrushes.find? (fun Element =>
      if Element.ptr = b.ptr ∨ Element.Trigger = true then false
      else b.IsOverlapping T Element)

/-- The collision test shared by the loops of Start, Tick and LateTick (BrushComponent.cpp 83-85,
104-106, 142-144): the other brush is active, is not a trigger, passes the layer test and
overlaps this brush. -/
def scanTest (T : Trig) (b OtherBrush : BrushComponent) : Bool :=
  OtherBrush.IsActive && !OtherBrush.Trigger &&
    (b.Layer == "All" || b.Layer == OtherBrush.Layer) && b.IsOverlapping T OtherBrush

/-- One iteration of the loop of BrushComponent::Start (BrushComponent.cpp 78-89). -/
def startElement (T : Trig) (b Element : BrushComponent) : BrushComponent :=
  if Element.ptr = b.ptr then b
  else if b.scanTest T Element then
    { b with
      CollisionStates := b.CollisionStates.assign Element.ptr CollisionState.COLLISION_EXIT
      OnCollision := b.OnCollision ++ [(b.ptr, Element.ptr)] }
  else b

/-- BrushComponent::Start (BrushComponent.cpp 73-90); the base Component::Start does nothing. -/
def Start (T : Trig) (AllBrushes : List BrushComponent) (b : BrushComponent) : BrushComponent :=
  AllBrushes.foldl (startElement T) b

/-- One iteration of the loop of BrushComponent::Tick (BrushComponent.cpp 99-126), which is
also, word for word, the loop of BrushComponent::LateTick (BrushComponent.cpp 137-164). -/
def scanElement (T : Trig) (b Element : BrushComponent) : BrushComponent :=
  if Element.ptr = b.ptr then b
  else if b.scanTest T Element then
    if b.CollisionStates.count Element.ptr then
      if FIRE_WHILE_COLLIDING then
        { b with
          CollisionStates := b.CollisionStates.assign Element.ptr CollisionState.COLLISION_STAY
          OnCollision := b.OnCollision ++ [(b.ptr, Element.ptr)] }
      else b
    else
      { b with
        CollisionStates := b.CollisionStates.assign Element.ptr CollisionState.COLLISION_ENTER
        OnCollision := b.OnCollision ++ [(b.ptr, Element.ptr)] }
  else
    if b.CollisionStates.count Element.ptr then
      if b.CollisionStates.find Element.ptr = some CollisionState.COLLISION_EXIT then
        { b with CollisionStates := b.CollisionStates.erase Element.ptr }
      else
        { b with
          CollisionStates := b.CollisionStates.assign Element.ptr CollisionState.COLLISION_EXIT
          OnCollision := b.OnCollision ++ [(b.ptr, Element.ptr)] }
    else b

/-- BrushComponent::Tick (BrushComponent.cpp 93-128); the base Component::Tick does nothing and
the delta time is not used. -/
def Tick (T : Trig) (AllBrushes : List BrushComponent) (b : BrushComponent) : BrushComponent :=
  if !b.TickLate then AllBrushes.foldl (scanElement T) b else b

/-- BrushComponent::LateTick (BrushComponent.cpp 131-166); the base Component::LateTick does
nothing and the delta time is not used. -/
def LateTick (T : Trig) (AllBrushes : List BrushComponent) (b : BrushComponent) :
    BrushComponent :=
  if b.TickLate then AllBrushes.foldl (scanElement T) b else b

/-- BrushComponent::SetActive (BrushComponent.cpp 172-184), after Component::SetActive
(Component.cpp 83-86) has stored the flag. -/
def SetActive (b : BrushComponent) (Active : Bool) : BrushComponent :=
  let b0 := { b with Active := Active }
  if !Active then
    let b1 := b0.CollisionStates.foldl (fun (acc : BrushComponent) e =>
      { acc with
        CollisionStates := acc.CollisionStates.assign e.1 CollisionState.COLLISION_EXIT
        OnCollision := acc.OnCollision ++ [(acc.ptr, e.1)] }) b0
    { b1 with CollisionStates := [] }
  else b0

end BrushComponent

end FureyEngine

namespace FureyEngine
namespace BrushComponent

/-- The change that one loop iteration of Tick or LateTick makes to the entry of the scanned
brush, read off the branches of `scanElement`: `hit` is the value of the collision test and
`s` the entry before the iteration (`none` when the map has no entry). -/
def pairNext (hit : Bool) (s : Option CollisionState) : Option CollisionState :=
  match hit, s with
  | true, none => some CollisionState.COLLISION_ENTER
  | true, some s => if FIRE_WHILE_COLLIDING then some CollisionState.COLLISION_STAY else some s
  | false, none => none
  | false, some CollisionState.COLLISION_EXIT => none
  | false, some _ => some CollisionState.COLLISION_EXIT

/-- Whether that loop iteration invokes OnCollision, read off the branches of `scanElement`. -/
def pairFires (hit : Bool) (s : Option CollisionState) : Bool :=
  match hit, s with
  | true, none => true
  | true, some _ => FIRE_WHILE_COLLIDING
  | false, none => false
  | false, some CollisionState.COLLISION_EXIT => false
  | false, some _ => true

end BrushComponent
end FureyEngine

namespace FureyEngine

/-! ## Concrete brushes of the scenarios -/

/-- A solid, unrotated brush on layer "All" with the given bounds scale, attached to an
unscaled, unrotated actor at the given position. -/
def Scenario.box (p : Ptr) (Position Scale : Vec2) : BrushComponent :=
  { ptr := p, Bounds := { Scale := Scale }, ActorTransform := { Position := Position } }

/-- A 10x10 brush at the origin. -/
def Scenario.solid : BrushComponent := Scenario.box 1 ⟨0, 0⟩ ⟨10, 10⟩

/-- A 10x10 brush at (5,0) that has been deactivated. -/
def Scenario.inactive : BrushComponent := { Scenario.box 2 ⟨5, 0⟩ ⟨10, 10⟩ with Active := false }

/-- A degenerate brush (bounds scale (0,0)) at the origin. -/
def Scenario.degenerate : BrushComponent := Scenario.box 2 ⟨0, 0⟩ ⟨0, 0⟩

/-- A 2x2 brush at the origin, strictly inside `Scenario.solid`. -/
def Scenario.inner : BrushComponent := Scenario.box 2 ⟨0, 0⟩ ⟨2, 2⟩

/-- A 10x10 brush at the origin on the named layer "X". -/
def Scenario.named : BrushComponent := { Scenario.box 1 ⟨0, 0⟩ ⟨10, 10⟩ with Layer := "X" }

/-- A 10x10 brush at (5,0) on layer "All". -/
def Scenario.onAll : BrushComponent := Scenario.box 2 ⟨5, 0⟩ ⟨10, 10⟩

end FureyEngine
namespace FureyEngine

/-- A 10x10 trigger brush at the origin on layer "All". -/
def Scenario.trigger : BrushComponent := { Scenario.box 1 ⟨0, 0⟩ ⟨10, 10⟩ with Trigger := true }

end FureyEngine

namespace FureyEngine

/-! ## Actors, components and the world

User code (overrides of the virtual methods Spawn, Start, Tick, LateTick of an actor class and
Attach, Start, Tick, LateTick of a component class) is a script: a list of calls into the world
API. The classes are given by a table, the program. The calls the scheduler makes are recorded
in a trace. Worlds are modelled without scheduled timer events. -/

/-- A call into the world API made by user code. `DestroyThis` is `DestroyActor(this)` from an
actor and `DestroyActor(GetActor())` from a component; in `DestroyActor` the argument `none` is
a null pointer. -/
inductive Action where
  | SpawnActor (cls : Nat) (Transform : Transform)
  | DestroyActor (DestroyedActor : Option Ptr)
  | DestroyThis
deriving DecidableEq

abbrev Script := List Action

/-- The overrides of an actor class; the base class Actor has empty bodies (Actor.cpp 105-127). -/
structure ActorClass where
  Spawn : Script := []
  Start : Script := []
  Tick : Script := []
  LateTick : Script := []
deriving DecidableEq

/-- The overrides of a component class; the base class Component has empty bodies
(Component.cpp 50-72). -/
structure ComponentClass where
  Attach : Script := []
  Start : Script := []
  Tick : Script := []
  LateTick : Script := []
deriving DecidableEq

/-- The classes of a program, by class number. -/
structure Program where
  actor : Nat → ActorClass
  component : Nat → ComponentClass

/-- The program whose classes are all the base classes Actor and Component. -/
def Program.base : Program := ⟨fun _ => {}, fun _ => {}⟩

/-- Who receives a call of the scheduler. -/
inductive Object where
  | world
  | actor (p : Ptr)
  | component (p : Ptr)
deriving DecidableEq

/-- The virtual methods and delegates the scheduler invokes. -/
inductive Method where
  | Load | OnLoad | Spawn | OnSpawn | Attach | OnAttach | Start | OnStart
  | Tick | OnTick | LateTick | OnLateTick | Remove | OnRemove | Destroy | OnDestroy
deriving DecidableEq

/-- One entry of the trace: a method or delegate invoked on an object. -/
structure Call where
  object : Object
  method : Method
deriving DecidableEq

/-- A component of an actor: a BrushComponent, or a component of a scripted class with the
fields of Component.h (address, Active, BeginTick). -/
inductive Component where
  | Plain (ptr : Ptr) (cls : Nat) (Active : Bool) (BeginTick : Bool)
  | Brush (b : BrushComponent)
deriving DecidableEq

/-- The address of the component (`Component.get()`). -/
def Component.ptr : Component → Ptr
  | .Plain p _ _ _ => p
  | .Brush b => b.ptr

/-- Component::IsActive (Component.cpp 77-79). -/
def Component.IsActive : Component → Bool
  | .Plain _ _ a _ => a
  | .Brush b => b.Active

/-- The field Component::BeginTick (Component.h 47). -/
def Component.BeginTick : Component → Bool
  | .Plain _ _ _ t => t
  | .Brush b => b.BeginTick

/-- Actor.h: the fields of an actor the scheduler and the brushes use. `cls` is its class. -/
structure Actor where
  ptr : Ptr
  cls : Nat := 0
  Active : Bool := true
  BeginTick : Bool := false
  Transform : Transform := {}
  Components : List Component := []
deriving DecidableEq

/-- Actor::IsActive (Actor.cpp 132-134). -/
def Actor.IsActive (a : Actor) : Bool := a.Active

/-- The component `c` of the actor seen as the brush at address `p`, when it is that brush:
the brush with the transform of the actor filled in. -/
def Actor.brushView (a : Actor) (p : Ptr) : Component → Option BrushComponent
  | .Brush b => if b.ptr = p then some { b with ActorTransform := a.Transform } else none
  | .Plain _ _ _ _ => none

/-- A callback bound to World::Cleanup: the closure of Actor::RemoveComponent (Actor.h 153-164)
for a component of an actor, or the closure of World::DestroyActor (World.h 236-247). -/
inductive CleanupCall where
  | RemoveComponent (actor : Ptr) (component : Ptr)
  | DestroyActor (actor : Ptr)
deriving DecidableEq

/-- World.h: the state of a world. `AllBrushes` is the entry of this world in the static map
BrushComponent::AllBrushes, in the order of the set; `Heap` is the next free address; `Trace`
lists the calls made by the scheduler so far, oldest first. -/
structure World where
  Active : Bool := true
  BeginTick : Bool := false
  TotalTicks : Nat := 0
  Actors : List Actor := []
  Cleanup : List CleanupCall := []
  AllBrushes : List Ptr := []
  Heap : Ptr := 1
  Trace : List Call := []
deriving DecidableEq

namespace World

/-- Record a call in the trace. -/
def call (w : World) (o : Object) (m : Method) : World :=
  { w with Trace := w.Trace ++ [⟨o, m⟩] }

/-- The brush at address `p`, as a brush of the model: the component found in the actors'
component lists, with the transform of the owning actor filled in. -/
def findBrush (w : World) (p : Ptr) : Option BrushComponent :=
  w.Actors.findSome? fun a => a.Components.findSome? (a.brushView p)

/-- The brushes of `AllBrushes[world]`, dereferenced, in the order of the set. -/
def registry (w : World) : List BrushComponent := w.AllBrushes.filterMap w.findBrush

/-- BrushComponent::CollisionStateWith between the brushes at two addresses; an address that
holds no brush is a null reference. -/
def CollisionStateWith (w : World) (Brush OtherBrush : Ptr) : CollisionState :=
  match w.findBrush Brush, w.findBrush OtherBrush with
  | some b, some o => b.CollisionStateWith o
  | _, _ => CollisionState.NONE

/-- The call `set.insert(p)` on a std::set of addresses. -/
def setInsert : List Ptr → Ptr → List Ptr
  | [], p => [p]
  | q :: s, p => if p = q then q :: s else if p < q then p :: q :: s else q :: setInsert s p

/-- Replace the component at position `j` of the actor at position `i`. -/
def setComponent (w : World) (i j : Nat) (c : Component) : World :=
  { w with Actors := w.Actors.modify (fun a => { a with Components := a.Components.set j c }) i }

/-- World::SpawnActor (World.h 213-220): a new actor of the given class (constructed with the
default arguments, so active) is appended to Actors and given the transform. -/
def SpawnActor (w : World) (cls : Nat) (Transform : Transform) : Ptr × World :=
  (w.Heap, { w with
    Actors := w.Actors ++ [{ ptr := w.Heap, cls := cls, Transform := Transform }]
    Heap := w.Heap + 1 })

/-- Actor::AttachComponent (Actor.h 136-142) for a BrushComponent built by its first
constructor (BrushComponent.cpp 11-16), on the actor at the given address. -/
def AttachBrush (w : World) (actor : Ptr) (Bounds : Transform) (Trigger : Bool := false)
    (Layer : String := "All") (TickLate : Bool := true) : Ptr × World :=
  (w.Heap, { w with
    Actors := w.Actors.map fun a =>
      if a.ptr = actor then
        { a with Components := a.Components ++ [Component.Brush
          { ptr := w.Heap, Bounds := Bounds, Trigger := Trigger, Layer := Layer,
            TickLate := TickLate, ActorTransform := a.Transform }] }
      else a
    Heap := w.Heap + 1 })

/-- Actor::AttachComponent (Actor.h 136-142) for a component of a scripted class. -/
def AttachComponent (w : World) (actor : Ptr) (cls : Nat) : Ptr × World :=
  (w.Heap, { w with
    Actors := w.Actors.map fun a =>
      if a.ptr = actor then
        { a with Components := a.Components ++ [Component.Plain w.Heap cls true false] }
      else a
    Heap := w.Heap + 1 })

/-- Actor::SetPosition (Actor.cpp 88-90) on the actor at the given address. -/
def SetPosition (w : World) (actor : Ptr) (Position : Vec2) : World :=
  { w with Actors := w.Actors.map fun a =>
      if a.ptr = actor then { a with Transform := { a.Transform with Position := Position } }
      else a }

/-- Actor::RemoveComponent (Actor.h 145-169) on the actor at address `actor`: when the
component is one of the actor's, a closure is bound to the world's Cleanup. -/
def RemoveComponent (w : World) (actor : Ptr) (RemovedComponent : Option Ptr) : Bool × World :=
  match RemovedComponent with
  | none => (false, w)
  | some c =>
    match w.Actors.find? (fun a => a.ptr == actor) with
    | none => (false, w)
    | some a =>
      if a.Components.any (fun x => x.ptr == c) then
        (true, { w with Cleanup := w.Cleanup ++ [CleanupCall.RemoveComponent actor c] })
      else (false, w)

/-- World::DestroyActor (World.h 223-252). -/
def DestroyActor (w : World) (DestroyedActor : Option Ptr) : Bool × World :=
  match DestroyedActor with
  | none => (false, w)
  | some p =>
    match w.Actors.find? (fun a => a.ptr == p) with
    | none => (false, w)
    | some a =>
      let w1 := a.Components.foldl (fun w c => (w.RemoveComponent a.ptr (some c.ptr)).2) w
      (true, { w1 with Cleanup := w1.Cleanup ++ [CleanupCall.DestroyActor p] })

/-- Run one call of user code made from the actor at address `self` (or from one of its
components). -/
def act (self : Ptr) (w : World) : Action → World
  | .SpawnActor cls t => (w.SpawnActor cls t).2
  | .DestroyActor p => (w.DestroyActor p).2
  | .DestroyThis => (w.DestroyActor (some self)).2

/-- Run the body of an override. -/
def run (w : World) (self : Ptr) (s : Script) : World := s.foldl (act self) w

/-- The value FLT_MAX of float.h. -/
def FLT_MAX : ℚ := 340282346638528859811704183484516925440

/-- BrushComponent::Attach (BrushComponent.cpp 56-70) for the brush `b`: the brush is inserted
into the registry; a bounds scale of (FLT_MAX, FLT_MAX) is replaced, and since the model has
no render components the replacement is (0, 0). -/
def attachBrush (w : World) (i j : Nat) (b : BrushComponent) : World :=
  let w1 := { w with AllBrushes := setInsert w.AllBrushes b.ptr }
  if b.Bounds.Scale = ⟨FLT_MAX, FLT_MAX⟩ then
    w1.setComponent i j (.Brush { b with Bounds := { b.Bounds with Scale := ⟨0, 0⟩ } })
  else w1

/-- The body of the component loop of the tick phase (World.cpp 164-175 and 235-246) for the
component at position `j` of the actor at position `i`. -/
def tickComponent (P : Program) (T : Trig) (i j : Nat) (w : World) : World :=
  match w.Actors[i]? with
  | none => w
  | some a =>
    match a.Components[j]? with
    | none => w
    | some c =>
      if !c.IsActive then w
      else
        match c with
        | .Plain p cls _ bt =>
          if bt then
            (((w.call (.component p) .Tick).run a.ptr (P.component cls).Tick).call
              (.component p) .OnTick)
          else
            (((w.call (.component p) .Attach).run a.ptr (P.component cls).Attach).call
              (.component p) .OnAttach)
        | .Brush b =>
          if b.BeginTick then
            (((w.call (.component b.ptr) .Tick).setComponent i j
              (.Brush (BrushComponent.Tick T w.registry
                { b with ActorTransform := a.Transform }))).call (.component b.ptr) .OnTick)
          else
            (((w.call (.component b.ptr) .Attach).attachBrush i j b).call
              (.component b.ptr) .OnAttach)

/-- The body of the actor loop of the tick phase (World.cpp 151-176 and 222-247) for the actor
at position `i`. No call of the model adds or removes a component during the inner loop, so it
visits the components present when it starts. -/
def tickActor (P : Program) (T : Trig) (i : Nat) (w : World) : World :=
  match w.Actors[i]? with
  | none => w
  | some a =>
    if !a.IsActive then w
    else
      let w1 :=
        if a.BeginTick then
          (((w.call (.actor a.ptr) .Tick).run a.ptr (P.actor a.cls).Tick).call
            (.actor a.ptr) .OnTick)
        else
          (((w.call (.actor a.ptr) .Spawn).run a.ptr (P.actor a.cls).Spawn).call
            (.actor a.ptr) .OnSpawn)
      (List.range a.Components.length).foldl (fun w j => w.tickComponent P T i j) w1

/-- The body of the component loop of the late-tick phase (World.cpp 197-209 and 268-280). -/
def lateComponent (P : Program) (T : Trig) (i j : Nat) (w : World) : World :=
  match w.Actors[i]? with
  | none => w
  | some a =>
    match a.Components[j]? with
    | none => w
    | some c =>
      if !c.IsActive then w
      else
        match c with
        | .Plain p cls act bt =>
          if bt then
            (((w.call (.component p) .LateTick).run a.ptr (P.component cls).LateTick).call
              (.component p) .OnLateTick)
          else
            ((((w.call (.component p) .Start).run a.ptr (P.component cls).Start).call
              (.component p) .OnStart).setComponent i j (.Plain p cls act true))
        | .Brush b =>
          if b.BeginTick then
            (((w.call (.component b.ptr) .LateTick).setComponent i j
              (.Brush (BrushComponent.LateTick T w.registry
                { b with ActorTransform := a.Transform }))).call (.component b.ptr) .OnLateTick)
          else
            (((w.call (.component b.ptr) .Start).call (.component b.ptr) .OnStart).setComponent
              i j (.Brush { BrushComponent.Start T w.registry
                { b with ActorTransform := a.Transform } with BeginTick := true }))

/-- The body of the actor loop of the late-tick phase (World.cpp 183-210 and 254-281). -/
def lateActor (P : Program) (T : Trig) (i : Nat) (w : World) : World :=
  match w.Actors[i]? with
  | none => w
  | some a =>
    if !a.IsActive then w
    else
      let w1 :=
        if a.BeginTick then
          (((w.call (.actor a.ptr) .LateTick).run a.ptr (P.actor a.cls).LateTick).call
            (.actor a.ptr) .OnLateTick)
        else
          let w0 := (((w.call (.actor a.ptr) .Start).run a.ptr (P.actor a.cls).Start).call
            (.actor a.ptr) .OnStart)
          { w0 with Actors := w0.Actors.modify (fun a => { a with BeginTick := true }) i }
      (List.range a.Components.length).foldl (fun w j => w.lateComponent P T i j) w1

/-- The range-for over the list Actors in the tick phase, from position `i` on. Actors spawned
while the loop runs are appended to the list and are reached by the same loop; `fuel` bounds
the number of iterations and the result is `none` when it does not suffice. -/
def tickPhase (P : Program) (T : Trig) : Nat → Nat → World → Option World
  | 0, _, _ => none
  | fuel + 1, i, w =>
    if i < w.Actors.length then tickPhase P T fuel (i + 1) (w.tickActor P T i) else some w

/-- The range-for over the list Actors in the late-tick phase, as `tickPhase`. -/
def latePhase (P : Program) (T : Trig) : Nat → Nat → World → Option World
  | 0, _, _ => none
  | fuel + 1, i, w =>
    if i < w.Actors.length then latePhase P T fuel (i + 1) (w.lateActor P T i) else some w

/-- Invoke one callback bound to Cleanup. The closures hold a reference to the list node of
their actor or component; they are modelled for the case that the node still exists and do
nothing otherwise. Removing a brush from its list destroys it, which takes it out of the
registry (BrushComponent.cpp 47-53). -/
def cleanupCall (w : World) : CleanupCall → World
  | .RemoveComponent actor c =>
    match w.Actors.find? (fun a => a.ptr == actor) with
    | none => w
    | some a =>
      if a.Components.any (fun x => x.ptr == c) then
        let w1 := (w.call (.component c) .Remove).call (.component c) .OnRemove
        { w1 with
          Actors := w1.Actors.map fun x =>
            if x.ptr = actor then
              { x with Components := x.Components.filter (fun y => !(y.ptr == c)) }
            else x
          AllBrushes := w1.AllBrushes.filter (fun q => !(q == c)) }
      else w
  | .DestroyActor actor =>
    if w.Actors.any (fun a => a.ptr == actor) then
      let w1 := (w.call (.actor actor) .Destroy).call (.actor actor) .OnDestroy
      { w1 with Actors := w1.Actors.filter (fun x => !(x.ptr == actor)) }
    else w

/-- The end of World::Update (World.cpp 286-290): `Cleanup(); Cleanup.Clear(); ++TotalTicks`. -/
def cleanup (w : World) : World :=
  let w1 := w.Cleanup.foldl cleanupCall w
  { w1 with Cleanup := [], TotalTicks := w1.TotalTicks + 1 }

/-- World::Update (World.cpp 110-291) for a world without scheduled events. The delta time is
not modelled: no callback of the model reads it. -/
def Update (P : Program) (T : Trig) (fuel : Nat) (w : World) : Option World :=
  if !w.Active then some w
  else if w.BeginTick then
    match tickPhase P T fuel 0 ((w.call .world .Tick).call .world .OnTick) with
    | none => none
    | some w2 =>
      match latePhase P T fuel 0 ((w2.call .world .LateTick).call .world .OnLateTick) with
      | none => none
      | some w4 => some w4.cleanup
  else
    match tickPhase P T fuel 0 ((w.call .world .Load).call .world .OnLoad) with
    | none => none
    | some w2 =>
      match latePhase P T fuel 0 ((w2.call .world .Start).call .world .OnStart) with
      | none => none
      | some w4 => some { w4 with BeginTick := true }.cleanup

end World

end FureyEngine

namespace FureyEngine

/-! ## Auxiliary notions used to state facts about a frame -/

/-- The part of a brush that the collision scans never write: everything but the state map and
the record of OnCollision calls, with the actor transform left out. -/
def BrushComponent.fixedPart (b : BrushComponent) : BrushComponent :=
  { b with CollisionStates := [], OnCollision := [], ActorTransform := {} }

/-- The address of a component when it is a brush. -/
def Component.brushPtr : Component → Option Ptr
  | .Brush b => some b.ptr
  | .Plain _ _ _ _ => none

namespace World

/-- The addresses of all brushes of the world, actor by actor. -/
def brushPtrs (w : World) : List Ptr :=
  w.Actors.flatMap fun a => a.Components.filterMap Component.brushPtr

/-- The world with the component at position `j` of the actor at position `i` replaced, a new
registry and further calls in the trace: the shape of every change a component callback makes
when the component classes are base classes. -/
def putComponent (w : World) (i j : Nat) (c : Component) (AllBrushes : List Ptr)
    (calls : List Call) : World :=
  { w with
    Actors := w.Actors.modify (fun a => { a with Components := a.Components.set j c }) i
    AllBrushes := AllBrushes
    Trace := w.Trace ++ calls }

/-- The host moves the actors between two frames: every actor gets the transform `g` assigns
to its address (Actor::SetTransform, Actor.cpp 83-85). -/
def moveActors (w : World) (g : Ptr → Transform) : World :=
  { w with Actors := w.Actors.map fun a => { a with Transform := g a.ptr } }

/-- The number of calls OnCollision(Brush, OtherBrush) the brush at address `Brush` has made. -/
def collisionCalls (w : World) (Brush OtherBrush : Ptr) : Nat :=
  match w.findBrush Brush with
  | some b => b.OnCollision.count (Brush, OtherBrush)
  | none => 0

/-- The number of times a method or delegate was invoked on an object. -/
def callCount (w : World) (o : Object) (m : Method) : Nat := w.Trace.count ⟨o, m⟩

end World

end FureyEngine
namespace FureyEngine

/-- In the world the component at position `j` of the actor at position `i` is a brush of an
active actor that, seen with the transform of its actor, agrees with `b0` in everything the
scans do not write, whose state-map entry for the address `q` is `m`, and which has called
OnCollision(b0, q) `n` times. -/
def World.Tracks (v : World) (i j : Nat) (b0 : BrushComponent) (q : Ptr)
    (m : Option CollisionState) (n : Nat) : Prop :=
  ∃ x c, v.Actors[i]? = some x ∧ x.Active = true ∧ x.Components[j]? = some (.Brush c) ∧
    { c with ActorTransform := x.Transform, CollisionStates := [], OnCollision := [] } =
      { b0 with CollisionStates := [], OnCollision := [] } ∧
    c.CollisionStates.find q = m ∧ c.OnCollision.count (b0.ptr, q) = n

end FureyEngine
namespace FureyEngine

/-- No cleanup call is pending, the brushes of the world have pairwise different addresses and
the registry is a set (strictly increasing addresses). -/
def World.Sound (v : World) : Prop :=
  v.Cleanup = [] ∧ v.brushPtrs.Nodup ∧ v.AllBrushes.Pairwise (· < ·)

/-- The entry for the other brush and the number of OnCollision calls about it after one scan
of Tick or LateTick, from the values `s` before the scan (see `pairNext`, `pairFires`). -/
def BrushComponent.scanned (T : Trig) (b OtherBrush : BrushComponent)
    (s : Option CollisionState × Nat) : Option CollisionState × Nat :=
  (pairNext (b.scanTest T OtherBrush) s.1,
    s.2 + if pairFires (b.scanTest T OtherBrush) s.1 then 1 else 0)

/-- Position `(i0, j0)` comes before position `(i, j)` in the order in which a phase visits the
components. -/
abbrev World.visited (i0 j0 i j : Nat) : Prop := i0 < i ∨ (i0 = i ∧ j0 < j)

end FureyEngine
namespace FureyEngine

/-- The tracked values of a brush after its Tick: scanned when the brush does not tick late. -/
def BrushComponent.afterTick (T : Trig) (b OtherBrush : BrushComponent)
    (s : Option CollisionState × Nat) : Option CollisionState × Nat :=
  if b.TickLate then s else b.scanned T OtherBrush s

/-- The tracked values of a brush after its LateTick: scanned when the brush ticks late. -/
def BrushComponent.afterLateTick (T : Trig) (b OtherBrush : BrushComponent)
    (s : Option CollisionState × Nat) : Option CollisionState × Nat :=
  if b.TickLate then b.scanned T OtherBrush s else s

/-- Two brushes `A0` and `B0`, at the positions `(iA, jA)` and `(iB, jB)` of a sound world, are
registered and tracked, each with its entry and its call count about the other. -/
def World.Pair (v : World) (iA jA iB jB : Nat) (A0 B0 : BrushComponent)
    (sA sB : Option CollisionState × Nat) : Prop :=
  v.Sound ∧ A0.ptr ∈ v.AllBrushes ∧ B0.ptr ∈ v.AllBrushes ∧
    v.Tracks iA jA A0 B0.ptr sA.1 sA.2 ∧ v.Tracks iB jB B0 A0.ptr sB.1 sB.2

end FureyEngine
namespace FureyEngine

/-- Whether the world is active, and the addresses of its actors in list order. -/
def World.roster (v : World) : Bool × List Ptr := (v.Active, v.Actors.map Actor.ptr)

end FureyEngine
namespace FureyEngine

/-- The brush as the collision code sees it when its actor has the transform `t`. -/
def BrushComponent.movedTo (b : BrushComponent) (t : Transform) : BrushComponent :=
  { b with ActorTransform := t }

end FureyEngine
namespace FureyEngine

/-- The world `v'` has every actor of `v`, in the same places, and its trace continues the
trace of `v` without any call of Destroy or OnDestroy. -/
def World.Defers (v v' : World) : Prop :=
  v.Actors.map Actor.ptr <+: v'.Actors.map Actor.ptr ∧
  ∃ tr, v'.Trace = v.Trace ++ tr ∧
    ∀ e ∈ tr, e.method ≠ Method.Destroy ∧ e.method ≠ Method.OnDestroy

/-- The cleanup queue ends with the closure of DestroyActor for the actor at address `p`, and
holds only closures of RemoveComponent before it. -/
def World.destroyPending (v : World) (p : Ptr) : Prop :=
  ∃ L, v.Cleanup = L ++ [CleanupCall.DestroyActor p] ∧
    ∀ c ∈ L, ∃ q r, c = CleanupCall.RemoveComponent q r

/-- Address, class and activity of an actor. -/
def Actor.header (a : Actor) : Ptr × Nat × Bool := (a.ptr, a.cls, a.Active)

/-- The world `u` has the actors of `v` with the same addresses, classes and activity, every
actor begun in `v` is begun in `u`, and the cleanup queue is the same. -/
def World.Steady (v u : World) : Prop :=
  u.Actors.map Actor.header = v.Actors.map Actor.header ∧
  u.Cleanup = v.Cleanup ∧
  ∀ k : Nat, (v.Actors.map Actor.BeginTick)[k]? = some true →
    (u.Actors.map Actor.BeginTick)[k]? = some true

end FureyEngine

namespace FureyEngine

/-! ## Concrete worlds of the scenarios -/

/-- A fresh world in which an actor is spawned at the origin and another at (5,0), each given
an unrotated, solid 10x10 brush on layer "All". The actors get the addresses 1 and 3, their
brushes the addresses 2 and 4. -/
def Scenario.twoBoxes : World :=
  let w0 : World := {}
  let w1 := (w0.SpawnActor 0 {}).2
  let w2 := (w1.AttachBrush 1 { Scale := ⟨10, 10⟩ }).2
  let w3 := (w2.SpawnActor 0 { Position := ⟨5, 0⟩ }).2
  (w3.AttachBrush 3 { Scale := ⟨10, 10⟩ }).2

/-- A program whose class 1 is an actor class that spawns a plain actor in its LateTick, and
whose other classes are the base classes. -/
def Scenario.spawnerProgram : Program :=
  ⟨fun c => if c = 1 then { LateTick := [Action.SpawnActor 0 {}] } else {}, fun _ => {}⟩

/-- A world that has begun ticking, holding one actor of class 1 (address 1) that has begun
ticking too. -/
def Scenario.spawnerWorld : World :=
  { BeginTick := true, Actors := [{ ptr := 1, cls := 1, BeginTick := true }], Heap := 2 }

/-- The calls of a trace made on the actor at address `p`. -/
def World.callsOn (w : World) (p : Ptr) : List Method :=
  (w.Trace.filter (fun c => c.object = Object.actor p)).map (fun c => c.method)

end FureyEngine
namespace FureyEngine

/-- The scenario after its first World::Update. -/
def Scenario.frame1 : Option World := Scenario.twoBoxes.Update Program.base Trig.unrotated 3

/-- The scenario after the second actor is moved to (20,0) and the world is updated again. -/
def Scenario.frame2 : Option World :=
  Scenario.frame1.bind fun w => (w.SetPosition 3 ⟨20, 0⟩).Update Program.base Trig.unrotated 3

/-- The scenario after one more World::Update. -/
def Scenario.frame3 : Option World :=
  Scenario.frame2.bind fun w => w.Update Program.base Trig.unrotated 3

/-- CollisionStateWith in both directions between the brushes at two addresses. -/
def World.statesBetween (w : World) (a b : Ptr) : CollisionState × CollisionState :=
  (w.CollisionStateWith a b, w.CollisionStateWith b a)

/-- The spawner scenario after one World::Update, and after a second one. -/
def Scenario.spawned1 : Option World :=
  Scenario.spawnerWorld.Update Scenario.spawnerProgram Trig.unrotated 4

def Scenario.spawned2 : Option World :=
  Scenario.spawned1.bind fun w => w.Update Scenario.spawnerProgram Trig.unrotated 4

/-- A program whose class 1 is an actor class that destroys its own actor in its Tick, and whose
other classes are the base classes. -/
def Scenario.selfDestroyProgram : Program :=
  ⟨fun c => if c = 1 then { Tick := [Action.DestroyThis] } else {}, fun _ => {}⟩

/-- A world that has begun ticking, holding a begun actor of class 1 (address 1) with a begun
plain component (address 2), and a begun actor of the base class (address 3). -/
def Scenario.selfDestroyWorld : World :=
  { BeginTick := true
    Actors := [
      { ptr := 1, cls := 1, BeginTick := true, Components := [Component.Plain 2 0 true true] },
      { ptr := 3, cls := 0, BeginTick := true }]
    Heap := 4 }

/-- A begun, solid, unrotated 10x10 brush on layer "All" with an empty state map. -/
def Scenario.begunBrush (p : Ptr) : BrushComponent :=
  { ptr := p, BeginTick := true, Bounds := { Scale := ⟨10, 10⟩ } }

/-- A begun actor at the origin whose one component is a begun 10x10 brush. -/
def Scenario.begunActor (p q : Ptr) : Actor :=
  { ptr := p, BeginTick := true, Components := [Component.Brush (Scenario.begunBrush q)] }

/-- A world that has begun ticking, with two begun actors (addresses 1 and 3) whose begun
brushes (addresses 2 and 4) are registered and have no entry for each other. -/
def Scenario.begun : World :=
  { BeginTick := true
    Actors := [Scenario.begunActor 1 2, Scenario.begunActor 3 4]
    AllBrushes := [2, 4]
    Heap := 5 }

/-- The actor at address 3 is placed at (5,0), every other actor at the origin. -/
def Scenario.near (p : Ptr) : Transform := if p = 3 then { Position := ⟨5, 0⟩ } else {}

/-- The actor at address 3 is placed at (20,0), every other actor at the origin. -/
def Scenario.far (p : Ptr) : Transform := if p = 3 then { Position := ⟨20, 0⟩ } else {}

/-- An actor that is not active and has not begun ticking (address 3), with an active plain
component that has not begun either (address 4). -/
def Scenario.idleActor : Actor :=
  { ptr := 3, Active := false, Components := [Component.Plain 4 0 true false] }

/-- A world that has begun ticking, holding a begun actor of class 1 (address 1) and the idle
actor. -/
def Scenario.idleWorld : World :=
  { BeginTick := true
    Actors := [{ ptr := 1, cls := 1, BeginTick := true }, Scenario.idleActor]
    Heap := 5 }

end FureyEngine

namespace FureyEngine

/-! ## Double precision

The values the engine keeps for time (delays, the delta time, the time scale) are of the C++
type double. They are modelled as IEEE 754 binary64 values with rounding to nearest, ties to
even, which is what the arithmetic of the compiled engine computes. -/

/-- A value of type double: a finite value, given by the rational it denotes, an infinity or
a NaN. The sign of a zero is not kept: no test of the engine tells -0 from +0. -/
inductive Double where
  | finite (q : ℚ)
  | inf (negative : Bool)
  | nan
deriving DecidableEq

namespace Double

/-- The rational `2 ^ k` for an integer exponent. -/
def pow2 (k : Int) : ℚ :=
  if 0 ≤ k then ((2 ^ k.toNat : Nat) : ℚ) else 1 / ((2 ^ (-k).toNat : Nat) : ℚ)

/-- The number of halvings that take `n` below 2, at most `fuel` of them. -/
def halvings : Nat → Nat → Nat
  | 0, _ => 0
  | fuel + 1, n => if 2 ≤ n then halvings fuel (n / 2) + 1 else 0

/-- The binary logarithm of a positive natural number, rounded down. -/
def log2 (n : Nat) : Nat := halvings n n

/-- The binary exponent of a positive rational: the integer `e` with 2^e <= a < 2^(e+1). -/
def exponent (a : ℚ) : Int :=
  if pow2 ((log2 a.num.toNat : Int) - (log2 a.den : Int)) ≤ a then
    (log2 a.num.toNat : Int) - (log2 a.den : Int)
  else (log2 a.num.toNat : Int) - (log2 a.den : Int) - 1

/-- The integer nearest to a non-negative rational, the even one of the two when it lies
halfway between them. -/
def nearestEven (m : ℚ) : Nat :=
  if m - ((m.num.toNat / m.den : Nat) : ℚ) < 1 / 2 then m.num.toNat / m.den
  else if 1 / 2 < m - ((m.num.toNat / m.den : Nat) : ℚ) then m.num.toNat / m.den + 1
  else if (m.num.toNat / m.den) % 2 = 0 then m.num.toNat / m.den
  else m.num.toNat / m.den + 1

/-- The spacing of the doubles around a positive rational `a`: 2^(e - 52) for the exponent `e`
of `a`, and 2^-1074 in the subnormal range. -/
def quantum (a : ℚ) : ℚ := pow2 (max (exponent a - 52) (-1074))

/-- Rounding of a real result to double: to the nearest multiple of the spacing, ties to even;
a magnitude that reaches 2^1024 becomes an infinity. -/
def ofRat (q : ℚ) : Double :=
  if q = 0 then finite 0
  else if pow2 1024 ≤ (nearestEven (|q| / quantum |q|) : ℚ) * quantum |q| then inf (decide (q < 0))
  else if q < 0 then finite (-((nearestEven (|q| / quantum |q|) : ℚ) * quantum |q|))
  else finite ((nearestEven (|q| / quantum |q|) : ℚ) * quantum |q|)

/-- The product `x * y` of two doubles. -/
def mul : Double → Double → Double
  | finite a, finite b => ofRat (a * b)
  | finite a, inf n => if a = 0 then nan else inf (n != decide (a < 0))
  | inf n, finite b => if b = 0 then nan else inf (n != decide (b < 0))
  | inf n, inf m => inf (n != m)
  | _, _ => nan

/-- The difference `x - y` of two doubles. -/
def sub : Double → Double → Double
  | finite a, finite b => ofRat (a - b)
  | finite _, inf n => inf (!n)
  | inf n, finite _ => inf n
  | inf n, inf m => if n = m then nan else inf n
  | _, _ => nan

/-- The test `x <= 0`; it is false for a NaN. -/
def le0 : Double → Bool
  | finite a => decide (a ≤ 0)
  | inf n => n
  | nan => false

/-- The test `x > 0`; it is false for a NaN. -/
def pos : Double → Bool
  | finite a => decide (0 < a)
  | inf n => !n
  | nan => false

/-- The test `x >= d` for a rational `d`; it is false for a NaN. -/
def atLeast (x : Double) (d : ℚ) : Bool :=
  match x with
  | finite a => decide (d ≤ a)
  | inf n => !n
  | nan => false

end Double

instance (n : Nat) : OfNat Double n := ⟨Double.finite n⟩

/-- The value of type int (32 bits, two's complement) with the residue of `x` modulo 2^32. -/
def Int32.wrap (x : Int) : Int := (x + 2147483648) % 4294967296 - 2147483648

end FureyEngine

namespace FureyEngine

/-! ## std::function, Event and Delegate

The engine stores callbacks as `std::function` objects and compares them with
`std::function::target`. -/

/-- The target stored in a std::function: a copy of the callable it was built from (a pointer
to function, a closure object, the result of std::bind). `type` numbers the type of the
stored callable, which is always an object type, and `addr` is its address. -/
structure Target where
  type : Nat
  addr : Ptr
deriving DecidableEq

/-- A `std::function<void(ArgumentTypes...)>`: empty (`none`, as built from nullptr) or
holding a target. -/
abbrev StdFunction := Option Target

/-- The type a call of std::function::target asks for: an object type, or the function type
`void(ArgumentTypes...)` itself, which is what Event::Unbind, Delegate::Unbind and
World::CancelInvoke ask for (`target<void()>()`). -/
inductive TypeId where
  | object (type : Nat)
  | signature
deriving DecidableEq

/-- The member std::function::target<T>() of the C++ standard library ([func.wrap.func.targ]):
a pointer to the stored target when `target_type() == typeid(T)`, a null pointer otherwise.
The stored target has an object type, so it never has the type `TypeId.signature`. -/
def StdFunction.target (f : StdFunction) (T : TypeId) : Option Ptr :=
  match f with
  | none => none
  | some t => if TypeId.object t.type = T then some t.addr else none

/-- The outcome of a call that may throw: the state it leaves and the message of the
exception thrown, if any. -/
structure Outcome (σ : Type) where
  state : σ
  thrown : Option String := none

/-- Event (Event.h 13-53): the vector Functions. -/
structure Event where
  Functions : List StdFunction := []
deriving DecidableEq

namespace Event

/-- Event::Bind (Event.cpp 11-17). -/
def Bind (e : Event) (Function : StdFunction) : Outcome Event :=
  if Function ≠ none then { state := { Functions := e.Functions ++ [Function] } }
  else { state := e, thrown := some "ERROR: Attempted to bind an invalid function to the event!" }

/-- Event::Unbind (Event.cpp 28-36): the first function whose `target<void()>()` equals that
of the argument is erased; when the loop finds none the call throws. -/
def Unbind (e : Event) (Function : StdFunction) : Outcome Event :=
  match e.Functions.findIdx? (fun g =>
      g.target TypeId.signature == Function.target TypeId.signature) with
  | some i => { state := { Functions := e.Functions.eraseIdx i } }
  | none =>
    { state := e
      thrown := some "ERROR: Attempted to unbind a non-existent function from the event!" }

/-- Event::Count (Event.cpp 66-68). -/
def Count (e : Event) : Int := e.Functions.length

/-- Event::Clear (Event.cpp 73-77). -/
def Clear (e : Event) : Event := if e.Functions ≠ [] then { Functions := [] } else e

end Event

/-- Delegate (Delegate.h 13-92): the vector Functions. -/
structure Delegate where
  Functions : List StdFunction := []
deriving DecidableEq

namespace Delegate

/-- Delegate::Bind (Delegate.h 24-30). -/
def Bind (d : Delegate) (Function : StdFunction) : Outcome Delegate :=
  if Function ≠ none then { state := { Functions := d.Functions ++ [Function] } }
  else
    { state := d
      thrown := some "ERROR: Attempted to bind an invalid function to the delegate!" }

/-- Delegate::Unbind (Delegate.h 41-50): as Event::Unbind, with
`target<void(ArgumentTypes...)>()`. -/
def Unbind (d : Delegate) (Function : StdFunction) : Outcome Delegate :=
  match d.Functions.findIdx? (fun g =>
      g.target TypeId.signature == Function.target TypeId.signature) with
  | some i => { state := { Functions := d.Functions.eraseIdx i } }
  | none =>
    { state := d
      thrown := some "ERROR: Attempted to unbind a non-existent function from the delegate!" }

/-- Delegate::Count (Delegate.h 80-82). -/
def Count (d : Delegate) : Int := d.Functions.length

end Delegate

/-- Three closures of different types, as three lambdas give. -/
def Scenario.f1 : StdFunction := some ⟨1, 101⟩

def Scenario.f2 : StdFunction := some ⟨2, 102⟩

def Scenario.g : StdFunction := some ⟨3, 103⟩

/-! ## Reference, Actor::SetWorld and Component::SetActor -/

/-- Reference (Reference.h 17-104): a weak pointer. `none` is the empty reference `nullref`,
`some p` points to the object at address `p`. -/
abbrev Reference := Option Ptr

/-- Reference::operator bool (Reference.h 101-103), `!Pointer.expired()`: the reference points
to an object that is alive. `alive` tells which objects are. -/
def Reference.valid (alive : Ptr → Bool) : Reference → Bool
  | none => false
  | some p => alive p

/-- The members Actor::SetWorld works on: the field MyWorld (Actor.h 22) and the static
counter TotalActors (Actor.h 35). -/
structure ActorBinding where
  MyWorld : Reference := none
  TotalActors : Int := 0
deriving DecidableEq

/-- Actor::SetWorld (Actor.cpp 26-35). The argument is a shared pointer, null (`none`) or
owning a world. -/
def Actor.SetWorld (alive : Ptr → Bool) (a : ActorBinding) (OwningWorld : Option Ptr) :
    Outcome ActorBinding :=
  if !Reference.valid alive a.MyWorld then
    { state := { MyWorld := OwningWorld, TotalActors := a.TotalActors + 1 } }
  else
    { state := a, thrown := some "ERROR: Cannot set the world of actor more than once!" }

/-- Actor::GetWorld (Actor.cpp 38-40). -/
def Actor.GetWorld (a : ActorBinding) : Reference := a.MyWorld

/-- The binding made by World::SpawnActor (World.h 213-220) in the world at address `self`:
the actor is new, so its MyWorld is empty, and `Actor->SetWorld(shared_from_this())` is
called on it. -/
def World.spawnBinding (alive : Ptr → Bool) (self : Ptr) (TotalActors : Int) :
    Outcome ActorBinding :=
  Actor.SetWorld alive { TotalActors := TotalActors } (some self)

/-- The members Component::SetActor works on: the field MyActor (Component.h 23) and the
static counter TotalComponents (Component.h 35). -/
structure ComponentBinding where
  MyActor : Reference := none
  TotalComponents : Int := 0
deriving DecidableEq

/-- Component::SetActor (Component.cpp 26-35). -/
def Component.SetActor (alive : Ptr → Bool) (c : ComponentBinding) (OwningActor : Option Ptr) :
    Outcome ComponentBinding :=
  if !Reference.valid alive c.MyActor then
    { state := { MyActor := OwningActor, TotalComponents := c.TotalComponents + 1 } }
  else
    { state := c, thrown := some "ERROR: Cannot set the actor of component more than once!" }

/-- Component::GetActor (Component.cpp 38-40). -/
def Component.GetActor (c : ComponentBinding) : Reference := c.MyActor

/-- The binding made by Actor::AttachComponent (Actor.h 136-142) on the actor at address
`self`: `Component->SetActor(shared_from_this())` on a new component. -/
def Actor.attachBinding (alive : Ptr → Bool) (self : Ptr) (TotalComponents : Int) :
    Outcome ComponentBinding :=
  Component.SetActor alive { TotalComponents := TotalComponents } (some self)

end FureyEngine

namespace FureyEngine

/-! ## Time and scheduled events

The members of World that deal with time are kept in a record around the world of actors:
`TimedWorld.Update` is World::Update with the delta time and the scheduled events, and
`World.Update` is the part of it that follows them. The wall-clock time that has passed since
the previous Update is an input. Delays, the delta time and the time scale are doubles, with
the rounding of the machine arithmetic. Functions scheduled as timed events are assumed not
to change engine state; their invocations are recorded. The closure that
World::RepeatAfterSeconds schedules around its function is part of the engine: after the
function it schedules its successor. -/

/-- World::TimedEvent (World.h 29-44). `node` is the address of the event in the list
ScheduledEvents, the pointer World::InvokeAfterSeconds returns. The model holds events with a
non-empty function: firing an empty one throws std::bad_function_call. `Event` is the function
the event invokes. For an event scheduled by World::RepeatAfterSeconds the stored function is
the closure of World.cpp 71-74, which invokes `Event` and then calls
RepeatAfterSeconds(Delay, Loops - 1, Event); `Repeat` holds the Delay and Loops it has
captured, Loops being a value of type int. -/
structure TimedEvent where
  node : Ptr
  Delay : Double := 0
  Event : Target
  Invoked : Bool := false
  Repeat : Option (Double × Int) := none
deriving DecidableEq

/-- The members CurrentDeltaTime, TimeScale and ScheduledEvents of World (World.h 22-23, 47,
74) around the rest of the world. `Heap` is the next free address for a timed event and
`Fired` records, oldest first, the timed events that were invoked (address and function). -/
structure TimedWorld where
  world : World := {}
  CurrentDeltaTime : Double := Double.ofRat (1 / 10000000)
  TimeScale : Double := 1
  ScheduledEvents : List TimedEvent := []
  Heap : Ptr := 0
  Fired : List (Ptr × Target) := []
deriving DecidableEq

namespace TimedWorld

/-- World::DeltaTime (World.cpp 36-38). -/
def DeltaTime (s : TimedWorld) : Double := s.CurrentDeltaTime

/-- World::InvokeAfterSeconds (World.cpp 52-56). -/
def InvokeAfterSeconds (s : TimedWorld) (Delay : Double) (Function : Target) :
    Ptr × TimedWorld :=
  (s.Heap, { s with
    ScheduledEvents := s.ScheduledEvents ++ [{ node := s.Heap, Delay := Delay, Event := Function }]
    Heap := s.Heap + 1 })

/-- World::RepeatAfterSeconds (World.cpp 61-77): the pointer returned (`none` for nullptr) and
the world after the call. `Loops` is a value of type int; a delay that is a NaN fails the test
`Delay <= 0` and is stored as it is. -/
def RepeatAfterSeconds (s : TimedWorld) (Delay : Double) (Loops : Int) (Function : Target) :
    Option Ptr × TimedWorld :=
  if Loops = 0 then (none, s)
  else
    let Delay := if Delay.le0 then Double.ofRat (1 / 1000000) else Delay
    (some s.Heap, { s with
      ScheduledEvents := s.ScheduledEvents ++
        [{ node := s.Heap, Delay := Delay, Event := Function, Repeat := some (Delay, Loops) }]
      Heap := s.Heap + 1 })

/-- World::CancelInvoke (World.cpp 94-104): the first event whose `Event.target<void()>()`
equals `Function.target<void()>()` is erased. -/
def CancelInvoke (s : TimedWorld) (Function : StdFunction) : Bool × TimedWorld :=
  match s.ScheduledEvents.findIdx? (fun e =>
      StdFunction.target (some e.Event) TypeId.signature ==
        Function.target TypeId.signature) with
  | some i => (true, { s with ScheduledEvents := s.ScheduledEvents.eraseIdx i })
  | none => (false, s)

/-- The delta time of an Update (World.cpp 119-127): the wall-clock time since the previous
Update multiplied by TimeScale, replaced by 0.0000001 when the test `CurrentDeltaTime <= 0`
succeeds. The test fails for a NaN, which is kept. -/
def delta (Elapsed TimeScale : Double) : Double :=
  if (Elapsed.mul TimeScale).le0 then Double.ofRat (1 / 10000000) else Elapsed.mul TimeScale

/-- The first loop over the scheduled events (World.cpp 130-134): every delay is reduced by the
delta time. -/
def elapse (dt : Double) (evs : List TimedEvent) : List TimedEvent :=
  evs.map fun e => { e with Delay := e.Delay.sub dt }

/-- The test `Delay <= 0` of the second loop (World.cpp 138). -/
def due (e : TimedEvent) : Bool := e.Delay.le0

/-- The second loop over the scheduled events (World.cpp 136-144): every event that is due is
invoked and marked, and a closure that erases it is bound to Cleanup. -/
def invoke (evs : List TimedEvent) : List TimedEvent :=
  evs.map fun e => if due e then { e with Invoked := true } else e

/-- What the stored function of a due event does after it has invoked `Event`: the closure
of RepeatAfterSeconds schedules its successor (World.cpp 73); a plain function does nothing to
the engine. The subtraction `Loops - 1` is one of int: for Loops = INT_MIN it overflows, which
is undefined behaviour in C++, and the model gives it the two's-complement result INT_MAX of
the machine subtraction. -/
def reschedule (s : TimedWorld) (e : TimedEvent) : TimedWorld :=
  match e.Repeat with
  | none => s
  | some (Delay, Loops) => (s.RepeatAfterSeconds Delay (Int32.wrap (Loops - 1)) e.Event).2

/-- The two loops over the scheduled events (World.cpp 119-144) with the delta time `dt`: the
delays are reduced, and every event that is due is invoked and marked. The events its closures
append are reached by the second loop, which does not invoke them: their delay, which the
first loop has not reduced, fails the test `Delay <= 0` (World.cpp 67-69). -/
def fire (dt : Double) (s : TimedWorld) : TimedWorld :=
  ((elapse dt s.ScheduledEvents).filter due).foldl reschedule
    { s with
      CurrentDeltaTime := dt
      ScheduledEvents := invoke (elapse dt s.ScheduledEvents)
      Fired := s.Fired ++ ((elapse dt s.ScheduledEvents).filter due).map fun e =>
        (e.node, e.Event) }

/-- World::Update (World.cpp 110-291). `Elapsed` is the wall-clock time in seconds since the
previous Update. In a world that has begun ticking the delta time is computed, the delays are
reduced and the events that are due are invoked; the rest of the call is `World.Update`. The
closures bound for the events erase exactly the events that were invoked, those that are due,
when Cleanup is invoked at the end; they touch nothing else, so they are run apart from the
closures of `World.Cleanup`. -/
def Update (P : Program) (T : Trig) (fuel : Nat) (Elapsed : Double) (s : TimedWorld) :
    Option TimedWorld :=
  if !s.world.Active then some s
  else if s.world.BeginTick then
    match s.world.Update P T fuel with
    | none => none
    | some w =>
      some { fire (delta Elapsed s.TimeScale) s with
        world := w
        ScheduledEvents :=
          (fire (delta Elapsed s.TimeScale) s).ScheduledEvents.filter fun e => !due e }
  else
    match s.world.Update P T fuel with
    | none => none
    | some w => some { s with world := w }

/-- A host loop: before each Update the host may set the public member TimeScale. A frame is
the pair of the time scale set and the wall-clock time that has passed. -/
def Frames (P : Program) (T : Trig) (fuel : Nat) :
    List (Double × Double) → TimedWorld → Option TimedWorld
  | [], s => some s
  | f :: fs, s =>
    match ({ s with TimeScale := f.1 }).Update P T fuel f.2 with
    | none => none
    | some s1 => Frames P T fuel fs s1

/-- The number of times the timed event at address `n` was invoked. -/
def firedCount (s : TimedWorld) (n : Ptr) : Nat := s.Fired.countP (fun p => p.1 == n)

/-- The delay of a timer of 1.0 seconds after `k` Updates with the delta time 0.1: the
subtractions of World.cpp 132, each rounded. -/
def tenths : Nat → Double
  | 0 => 1
  | k + 1 => (tenths k).sub (Double.ofRat (1 / 10))

/-- The state of a timer of 1 second after `k` frames of 0.1 seconds: the world is ticking, the
address `n` is below the next free address, the timed event at address `n` with the function
`fn` is pending with the delay `tenths k` when k < 11 and is gone otherwise, and it has been
invoked `c` times when k < 11 and `c + 1` times otherwise. -/
def Countdown (s : TimedWorld) (n : Ptr) (fn : Target) (c k : Nat) : Prop :=
  s.world.Active = true ∧ s.world.BeginTick = true ∧ n < s.Heap ∧
  s.ScheduledEvents.filter (fun e => e.node == n) =
    (if k < 11 then [{ node := n, Delay := tenths k, Event := fn }] else []) ∧
  s.firedCount n = c + (if k < 11 then 0 else 1)

/-- The number of times the function `fn` was invoked by a timed event. -/
def firedOf (s : TimedWorld) (fn : Target) : Nat := s.Fired.countP (fun p => p.2 == fn)

/-- The pending events of the function `fn`, in the order of the list: the delay of each and
what its closure has captured. -/
def pending (fn : Target) (evs : List TimedEvent) : List (Double × Option (Double × Int)) :=
  (evs.filter (fun e => e.Event == fn)).map fun e => (e.Delay, e.Repeat)

/-- What the closure of a due event of `fn` leaves pending, given the delay of the event and
what the closure has captured: nothing for a plain function or when Loops - 1 is 0, and else
one event with the captured delay (replaced by 0.000001 when it passes the test `Delay <= 0`). -/
def successor (v : Double × Option (Double × Int)) : Option (Double × Option (Double × Int)) :=
  match v.2 with
  | none => none
  | some (Delay, Loops) =>
    if Int32.wrap (Loops - 1) = 0 then none
    else
      some (if Delay.le0 then Double.ofRat (1 / 1000000) else Delay,
        some (if Delay.le0 then Double.ofRat (1 / 1000000) else Delay, Int32.wrap (Loops - 1)))

/-- The number of invocations a timer started with `Loops` makes before its counter reaches 0:
`Loops` itself when it is positive and `Loops + 2^32` when it is negative, the counter then
passing INT_MIN. -/
def rounds (Loops : Int) : Nat := (Loops % 4294967296).toNat

/-- The state of a timer that RepeatAfterSeconds(Delay, Loops, fn) started, with `D` the delay
stored, after its function has been invoked `k` times: the world is ticking, the invocations
of `fn` number `c + k`, and either `k = rounds Loops` and no event of `fn` is pending, or
`k < rounds Loops` and exactly one event of `fn` is pending, with some delay, whose closure
has captured `D` and the int `Loops - k`. -/
def Repeating (s : TimedWorld) (fn : Target) (D : Double) (Loops : Int) (c k : Nat) : Prop :=
  s.world.Active = true ∧ s.world.BeginTick = true ∧ s.firedOf fn = c + k ∧
  ((k = rounds Loops ∧ pending fn s.ScheduledEvents = []) ∨
    (k < rounds Loops ∧
      ∃ r, pending fn s.ScheduledEvents = [(r, some (D, Int32.wrap (Loops - k)))]))

end TimedWorld

/-- A begun world with two pending timers: a function `f` after 1 second and a function `g`
after 2 seconds. -/
def Scenario.twoTimers : TimedWorld :=
  { world := { BeginTick := true }
    ScheduledEvents := [
      { node := 0, Delay := 1, Event := ⟨1, 101⟩ },
      { node := 1, Delay := 2, Event := ⟨2, 102⟩ }]
    Heap := 2 }

end FureyEngine

namespace FureyEngine

/-- The world `u` has the flags Active and BeginTick and the tick count of `v`, and its cleanup
queue continues the queue of `v`. -/
def World.Keeps (v u : World) : Prop :=
  u.Active = v.Active ∧ u.BeginTick = v.BeginTick ∧ u.TotalTicks = v.TotalTicks ∧
    v.Cleanup <+: u.Cleanup

/-- The action spawns an actor. -/
def Action.spawns : Action → Bool
  | .SpawnActor _ _ => true
  | _ => false

/-- Some override of the actor class spawns an actor. -/
def ActorClass.spawns (c : ActorClass) : Bool :=
  c.Spawn.any Action.spawns || c.Start.any Action.spawns || c.Tick.any Action.spawns ||
    c.LateTick.any Action.spawns

/-- Some override of the component class spawns an actor. -/
def ComponentClass.spawns (c : ComponentClass) : Bool :=
  c.Attach.any Action.spawns || c.Start.any Action.spawns || c.Tick.any Action.spawns ||
    c.LateTick.any Action.spawns

/-- No override of the program spawns an actor. -/
def Program.noSpawn (P : Program) : Prop :=
  (∀ k, (P.actor k).spawns = false) ∧ ∀ k, (P.component k).spawns = false

/-- The actor `a` sits at position `k`; no other actor of the world has its address, no
component of another actor has the address of one of its components, and its address is below
the next free address. -/
def World.Apart (v : World) (k : Nat) (a : Actor) : Prop :=
  v.Actors[k]? = some a ∧
  (∀ (i : Nat) (x : Actor), v.Actors[i]? = some x → i ≠ k →
    x.ptr ≠ a.ptr ∧ ∀ c ∈ x.Components, c.ptr ∉ a.Components.map Component.ptr) ∧
  a.ptr < v.Heap

/-- The object is neither the actor `a` nor one of its components. -/
def Object.avoids (o : Object) (a : Actor) : Prop :=
  o ≠ Object.actor a.ptr ∧ ∀ c ∈ a.Components, o ≠ Object.component c.ptr

/-- The trace of `u` continues the trace of `v` with calls that are neither on the actor `a`
nor on one of its components. -/
def World.Quiet (a : Actor) (v u : World) : Prop :=
  ∃ tr, u.Trace = v.Trace ++ tr ∧ ∀ e ∈ tr, e.object.avoids a

/-- From `v` to `u` the actor `a` at position `k` has stayed as it is and apart, and no call
was made on it or on one of its components. -/
def World.Skips (k : Nat) (a : Actor) (v u : World) : Prop :=
  u.Apart k a ∧ World.Quiet a v u

/-- The call is one the cleanup closures make: Remove or OnRemove on a component, Destroy or
OnDestroy on an actor. -/
def Call.cleans (e : Call) : Bool :=
  match e.object, e.method with
  | .component _, .Remove => true
  | .component _, .OnRemove => true
  | .actor _, .Destroy => true
  | .actor _, .OnDestroy => true
  | _, _ => false

/-- Every actor of the world with the address of `a` has the BeginTick flag of `a` and
components of `a`, unchanged and in their order. -/
def World.Holds (a : Actor) (u : World) : Prop :=
  ∀ x ∈ u.Actors, x.ptr = a.ptr → x.BeginTick = a.BeginTick ∧ x.Components.Sublist a.Components

end FureyEngine

namespace FureyEngine

/-! ## MovementComponent and PhysicsComponent

Both components hold a reference to a brush and ask it `IsColliding()` after moving their
actor. The answer depends on the transform the actor has at that moment, so the reference is
modelled by that dependence: `none` is an invalid reference, and `some f` a valid one whose
`IsColliding()` returns `f t` (the address of the brush found, `none` for nullref) when the
actor has the transform `t`. `BrushComponent.seenFrom` is that function for a brush of the
moved actor. Casts between float and double are the identity on exact rationals. -/

/-- The reference to a brush held by a MovementComponent or a PhysicsComponent. -/
abbrev BrushRef := Option (Transform → Option Ptr)

/-- What `IsColliding()` of a brush `b` that is a component of the moved actor returns, in a
world with the registry `AllBrushes` (whose other brushes belong to other actors), when the
actor has the transform `t`. -/
def BrushComponent.seenFrom (T : Trig) (AllBrushes : List BrushComponent) (b : BrushComponent)
    (t : Transform) : Option Ptr :=
  ((b.movedTo t).IsColliding T AllBrushes).map BrushComponent.ptr

/-- The condition `BrushComponent && BrushComponent->IsColliding()` when the actor has the
transform `t`. -/
def BrushRef.collides (r : BrushRef) (t : Transform) : Bool :=
  match r with
  | none => false
  | some f => (f t).isSome

/-- Math::Lerp (Math.h 21-23). -/
def Math.Lerp (A B T : ℚ) : ℚ := (B - A) * T + A

/-- Math::Magnitude (Math.h 38-40); `sqrt` is SDL_sqrt, an external function. -/
def Math.Magnitude (sqrt : ℚ → ℚ) (Direction : Vec2) : ℚ :=
  sqrt (Direction.x * Direction.x + Direction.y * Direction.y)

/-- Math::Normalize (Math.h 44-52) with the default `Catch = 0`. -/
def Math.Normalize (sqrt : ℚ → ℚ) (Direction : Vec2) : Vec2 :=
  let Mag := Math.Magnitude sqrt Direction
  if Mag ≤ 0 then ⟨0, 0⟩ else ⟨Direction.x / Mag, Direction.y / Mag⟩

/-- MovementComponent (MovementComponent.h 15-72). The members UseKeyboard and
ControllerIndex only select the devices the input is read from. -/
structure MovementComponent where
  Speed : Vec2 := ⟨75, 75⟩
  Acceleration : Vec2 := ⟨3, 3⟩
  Deceleration : Vec2 := ⟨3, 3⟩
  Velocity : Vec2 := ⟨0, 0⟩
  BrushComponent : BrushRef := none
  RelativeToRotation : Bool := false
  SpeedModifier : ℚ := 1
  TickLate : Bool := false

namespace MovementComponent

/-- The velocity after the acceleration or deceleration step (MovementComponent.cpp 115-146).
`Input` is the input read from the keyboard or the controller (44-113) and `a` the transform
of the actor. -/
def accelerate (T : Trig) (sqrt : ℚ → ℚ) (Input : Vec2) (DeltaTime : ℚ)
    (m : MovementComponent) (a : Transform) : Vec2 :=
  if Input.x ≠ 0 ∨ Input.y ≠ 0 then
    let Magnitude := Math.Magnitude sqrt Input
    let Input1 := Math.Normalize sqrt Input
    let Input2 : Vec2 := ⟨Input1.x * Magnitude, Input1.y * Magnitude⟩
    let Input3 := if m.RelativeToRotation then Math.Rotate T Input2 a.Rotation else Input2
    ⟨Math.Lerp m.Velocity.x (m.Speed.x * Input3.x)
        (if m.Acceleration.x ≥ 0 then m.Acceleration.x * (DeltaTime * m.SpeedModifier) else 1),
      Math.Lerp m.Velocity.y (m.Speed.y * Input3.y)
        (if m.Acceleration.y ≥ 0 then m.Acceleration.y * (DeltaTime * m.SpeedModifier) else 1)⟩
  else
    ⟨Math.Lerp m.Velocity.x 0
        (if m.Deceleration.x ≥ 0 then m.Deceleration.x * (DeltaTime * m.SpeedModifier) else 1),
      Math.Lerp m.Velocity.y 0
        (if m.Deceleration.y ≥ 0 then m.Deceleration.y * (DeltaTime * m.SpeedModifier) else 1)⟩

/-- The transform of the actor after the position is advanced (MovementComponent.cpp
148-150) by the velocity `v`. -/
def advance (v : Vec2) (DeltaTime : ℚ) (m : MovementComponent) (a : Transform) : Transform :=
  { a with Position := ⟨a.Position.x + v.x * (DeltaTime * m.SpeedModifier),
      a.Position.y + v.y * (DeltaTime * m.SpeedModifier)⟩ }

/-- The body of the movement tick (MovementComponent.cpp 44-158, and 169-283 in LateTick):
the component and the transform of its actor after it. -/
def move (T : Trig) (sqrt : ℚ → ℚ) (Input : Vec2) (DeltaTime : ℚ) (m : MovementComponent)
    (a : Transform) : MovementComponent × Transform :=
  let v := accelerate T sqrt Input DeltaTime m a
  let a1 := advance v DeltaTime m a
  if m.BrushComponent.collides a1 then
    ({ m with Velocity := ⟨0, 0⟩ },
      { a1 with Position := ⟨a1.Position.x - v.x * (DeltaTime * m.SpeedModifier),
          a1.Position.y - v.y * (DeltaTime * m.SpeedModifier)⟩ })
  else ({ m with Velocity := v }, a1)

/-- MovementComponent::Tick (MovementComponent.cpp 38-160). -/
def Tick (T : Trig) (sqrt : ℚ → ℚ) (Input : Vec2) (DeltaTime : ℚ) (m : MovementComponent)
    (a : Transform) : MovementComponent × Transform :=
  if !m.TickLate then move T sqrt Input DeltaTime m a else (m, a)

/-- MovementComponent::LateTick (MovementComponent.cpp 163-285). -/
def LateTick (T : Trig) (sqrt : ℚ → ℚ) (Input : Vec2) (DeltaTime : ℚ) (m : MovementComponent)
    (a : Transform) : MovementComponent × Transform :=
  if m.TickLate then move T sqrt Input DeltaTime m a else (m, a)

end MovementComponent

/-- PhysicsComponent (PhysicsComponent.h 12-133). The delegate OnCollision is the list of
the brushes it was invoked with, oldest first. -/
structure PhysicsComponent where
  BrushComponent : BrushRef := none
  Velocity : Vec2 := ⟨0, 0⟩
  AngularVelocity : ℚ := 0
  Gravity : Vec2 := ⟨0, -100⟩
  UseGravity : Bool := true
  Friction : ℚ := 50
  Bounciness : ℚ := 1 / 10
  Mass : ℚ := 100
  SpeedModifier : ℚ := 1
  OnCollision : List Ptr := []
  TickLate : Bool := true

/-- The state a physics tick works on: the component, the transform of its actor and the
local variable Collision. -/
structure PhysicsState where
  physics : PhysicsComponent
  actor : Transform
  Collision : Bool := false

namespace PhysicsComponent

/-- One of the three friction blocks (PhysicsComponent.cpp 50-60, 63-73, 76-86) on a
velocity `v`, with `f = Friction * DeltaTime * SpeedModifier`. -/
def slow (v f : ℚ) : ℚ :=
  if v ≥ 0 then (if v - f < 0 then 0 else v - f) else (if v + f > 0 then 0 else v + f)

/-- The friction step (PhysicsComponent.cpp 44-90): the scale of the actor is multiplied by
1.001, the velocities are slowed when the brush collides, and the scale is divided by 1.001. -/
def friction (DeltaTime : ℚ) (s : PhysicsState) : PhysicsState :=
  let p := s.physics
  let a1 : Transform := { s.actor with
    Scale := ⟨s.actor.Scale.x * (1001 / 1000), s.actor.Scale.y * (1001 / 1000)⟩ }
  let f := p.Friction * DeltaTime * p.SpeedModifier
  let p1 : PhysicsComponent :=
    if p.BrushComponent.collides a1 then
      { p with
        Velocity := ⟨slow p.Velocity.x f, slow p.Velocity.y f⟩
        AngularVelocity := slow p.AngularVelocity f }
    else p
  { s with
    physics := p1
    actor := { a1 with Scale := ⟨a1.Scale.x / (1001 / 1000), a1.Scale.y / (1001 / 1000)⟩ } }

/-- The initial value of the local variable Collision (PhysicsComponent.cpp 94-95). -/
def resting (DeltaTime : ℚ) (p : PhysicsComponent) : Bool :=
  decide (|p.Velocity.x| ≤ |p.Gravity.x| * DeltaTime * 2 ∧
    |p.Velocity.y| ≤ |p.Gravity.y| * DeltaTime * 2)

/-- The part of a collision block that reports the collision (for example
PhysicsComponent.cpp 100-107): the first collision of the tick invokes OnCollision. The
OnCollision of a PhysicsComponent of the other actor is invoked too; it belongs to another
component and is not recorded. -/
def report (s : PhysicsState) (OtherBrush : Ptr) : PhysicsState :=
  if !s.Collision then
    { s with
      Collision := true
      physics := { s.physics with OnCollision := s.physics.OnCollision ++ [OtherBrush] } }
  else s

/-- The value of `BrushComponent && (OtherBrush = BrushComponent->IsColliding())`: the brush
found, if the reference is valid and its brush collides. -/
def other (r : BrushRef) (t : Transform) : Option Ptr :=
  match r with
  | none => none
  | some f => f t

/-- Move x (PhysicsComponent.cpp 97-110). -/
def moveX (DeltaTime : ℚ) (s : PhysicsState) : PhysicsState :=
  let d := s.physics.Velocity.x * DeltaTime * s.physics.SpeedModifier
  let a1 : Transform := { s.actor with Position := ⟨s.actor.Position.x + d, s.actor.Position.y⟩ }
  match other s.physics.BrushComponent a1 with
  | some o =>
    let s1 := report { s with actor := a1 } o
    { s1 with
      actor := { s1.actor with Position := ⟨s1.actor.Position.x - d, s1.actor.Position.y⟩ }
      physics := { s1.physics with
        Velocity := ⟨s1.physics.Velocity.x * -|s1.physics.Bounciness|, s1.physics.Velocity.y⟩ } }
  | none => { s with actor := a1 }

/-- Move y (PhysicsComponent.cpp 112-125). -/
def moveY (DeltaTime : ℚ) (s : PhysicsState) : PhysicsState :=
  let d := s.physics.Velocity.y * DeltaTime * s.physics.SpeedModifier
  let a1 : Transform := { s.actor with Position := ⟨s.actor.Position.x, s.actor.Position.y + d⟩ }
  match other s.physics.BrushComponent a1 with
  | some o =>
    let s1 := report { s with actor := a1 } o
    { s1 with
      actor := { s1.actor with Position := ⟨s1.actor.Position.x, s1.actor.Position.y - d⟩ }
      physics := { s1.physics with
        Velocity := ⟨s1.physics.Velocity.x, s1.physics.Velocity.y * -|s1.physics.Bounciness|⟩ } }
  | none => { s with actor := a1 }

/-- Move rotation (PhysicsComponent.cpp 127-140). -/
def moveRotation (DeltaTime : ℚ) (s : PhysicsState) : PhysicsState :=
  let d := s.physics.AngularVelocity * DeltaTime * s.physics.SpeedModifier
  let a1 : Transform := { s.actor with Rotation := s.actor.Rotation + d }
  match other s.physics.BrushComponent a1 with
  | some o =>
    let s1 := report { s with actor := a1 } o
    { s1 with
      actor := { s1.actor with Rotation := s1.actor.Rotation - d }
      physics := { s1.physics with
        AngularVelocity := s1.physics.AngularVelocity * -|s1.physics.Bounciness| } }
  | none => { s with actor := a1 }

/-- Apply gravity (PhysicsComponent.cpp 142-146). -/
def gravity (DeltaTime : ℚ) (s : PhysicsState) : PhysicsState :=
  if s.physics.UseGravity then
    { s with physics := { s.physics with
        Velocity := ⟨s.physics.Velocity.x + s.physics.Gravity.x * DeltaTime * s.physics.SpeedModifier,
          s.physics.Velocity.y +
            s.physics.Gravity.y * DeltaTime * s.physics.SpeedModifier⟩ } }
  else s

/-- The body of the physics tick (PhysicsComponent.cpp 44-146, and 157-259 in LateTick). -/
def step (DeltaTime : ℚ) (p : PhysicsComponent) (a : Transform) : PhysicsState :=
  let s1 := friction DeltaTime { physics := p, actor := a }
  let s2 : PhysicsState := { s1 with Collision := resting DeltaTime s1.physics }
  gravity DeltaTime (moveRotation DeltaTime (moveY DeltaTime (moveX DeltaTime s2)))

/-- PhysicsComponent::Tick (PhysicsComponent.cpp 38-148). -/
def Tick (DeltaTime : ℚ) (p : PhysicsComponent) (a : Transform) : PhysicsComponent × Transform :=
  if !p.TickLate then ((step DeltaTime p a).physics, (step DeltaTime p a).actor) else (p, a)

/-- PhysicsComponent::LateTick (PhysicsComponent.cpp 151-261). -/
def LateTick (DeltaTime : ℚ) (p : PhysicsComponent) (a : Transform) :
    PhysicsComponent × Transform :=
  if p.TickLate then ((step DeltaTime p a).physics, (step DeltaTime p a).actor) else (p, a)

/-- The loop of SweepPositionTo (PhysicsComponent.cpp 337-359) with `n` iterations left: the
value returned and the state left. -/
def sweepLoop (f : Transform → Option Ptr) (DeltaX DeltaY : ℚ) :
    Nat → PhysicsComponent → Transform → Vec2 × PhysicsComponent × Transform
  | 0, p, a => (a.Position, p, a)
  | n + 1, p, a =>
    let a1 : Transform := { a with Position := ⟨a.Position.x + DeltaX, a.Position.y⟩ }
    match f a1 with
    | some o =>
      let a2 : Transform := { a1 with Position := ⟨a1.Position.x - DeltaX, a1.Position.y⟩ }
      (a2.Position, { p with OnCollision := p.OnCollision ++ [o] }, a2)
    | none =>
      let a3 : Transform := { a1 with Position := ⟨a1.Position.x, a1.Position.y + DeltaY⟩ }
      match f a3 with
      | some o =>
        let a4 : Transform := { a3 with Position := ⟨a3.Position.x, a3.Position.y - DeltaY⟩ }
        (a4.Position, { p with OnCollision := p.OnCollision ++ [o] }, a4)
      | none => sweepLoop f DeltaX DeltaY n p a3

/-- PhysicsComponent::SweepPositionTo(const glm::vec2 &, const int &) (PhysicsComponent.cpp
317-362): the value returned, the component and the transform of the actor after the call. -/
def SweepPositionTo (Position : Vec2) (Steps : Int) (p : PhysicsComponent) (a : Transform) :
    Vec2 × PhysicsComponent × Transform :=
  if Steps ≤ 0 then (a.Position, p, a)
  else
    match p.BrushComponent with
    | none => (Position, p, { a with Position := Position })
    | some f =>
      match f a with
      | some o => (a.Position, { p with OnCollision := p.OnCollision ++ [o] }, a)
      | none =>
        sweepLoop f ((Position.x - a.Position.x) / Steps) ((Position.y - a.Position.y) / Steps)
          Steps.toNat p a

end PhysicsComponent

/-- The transform of the actor after `i` whole sub-steps of a sweep from `a` and, when `half`
is true, the X increment of the next one. -/
def PhysicsComponent.sweepAt (a : Transform) (DeltaX DeltaY : ℚ) (i : Nat) (half : Bool) :
    Transform :=
  { a with Position :=
      ⟨a.Position.x + ((i : ℚ) + (if half then 1 else 0)) * DeltaX,
        a.Position.y + (i : ℚ) * DeltaY⟩ }

/-- The view of a 10x10 brush (address 1) of the moved actor, in a world that also holds a
10x10 brush at (20,0) (address 2). -/
def Scenario.wall : Transform → Option Ptr :=
  BrushComponent.seenFrom Trig.unrotated
    [Scenario.box 1 ⟨0, 0⟩ ⟨10, 10⟩, Scenario.box 2 ⟨20, 0⟩ ⟨10, 10⟩]
    (Scenario.box 1 ⟨0, 0⟩ ⟨10, 10⟩)

end FureyEngine

namespace FureyEngine

/-- The macro SDL_clamp of SDL_stdinc.h: `x < a ? a : (x > b ? b : x)`. -/
def SDL_clamp (x a b : ℚ) : ℚ :=
  if x < a then a else if x > b then b else x

/-- The macro DEADZONE (Input.h 17). -/
def DEADZONE : ℚ := 1 / 10

/-- The axis values of a Controller (Controller.h 38-55). -/
structure Controller where
  LeftTriggerAxis : ℚ := 0
  RightTriggerAxis : ℚ := 0
  LeftStick : Vec2 := ⟨0, 0⟩
  RightStick : Vec2 := ⟨0, 0⟩
deriving DecidableEq

/-- Controller::NormalizeAxes (Controller.cpp 296-315). Line 298 assigns RightTriggerAxis the
clamped value of LeftTriggerAxis. -/
def Controller.NormalizeAxes (c : Controller) : Controller :=
  let c1 := { c with LeftTriggerAxis := SDL_clamp c.LeftTriggerAxis 0 1 }
  let c2 := { c1 with RightTriggerAxis := SDL_clamp c1.LeftTriggerAxis 0 1 }
  let c3 := { c2 with LeftStick := ⟨SDL_clamp c2.LeftStick.x (-1) 1, c2.LeftStick.y⟩ }
  let c4 := { c3 with LeftStick := ⟨c3.LeftStick.x, SDL_clamp c3.LeftStick.y (-1) 1⟩ }
  let c5 := { c4 with RightStick := ⟨SDL_clamp c4.RightStick.x (-1) 1, c4.RightStick.y⟩ }
  let c6 := { c5 with RightStick := ⟨c5.RightStick.x, SDL_clamp c5.RightStick.y (-1) 1⟩ }
  let c7 := if |c6.LeftStick.x| ≤ DEADZONE then
    { c6 with LeftStick := ⟨0, c6.LeftStick.y⟩ } else c6
  let c8 := if |c7.LeftStick.y| ≤ DEADZONE then
    { c7 with LeftStick := ⟨c7.LeftStick.x, 0⟩ } else c7
  let c9 := if |c8.RightStick.x| ≤ DEADZONE then
    { c8 with RightStick := ⟨0, c8.RightStick.y⟩ } else c8
  if |c9.RightStick.y| ≤ DEADZONE then
    { c9 with RightStick := ⟨c9.RightStick.x, 0⟩ } else c9

end FureyEngine

namespace FureyEngine

/-- A physics tick state whose brush collides with the brush at address 2 wherever the actor
is: velocity (3, -1/2), angular velocity 0, friction 50. -/
def Scenario.sliding : PhysicsState :=
  { physics := { BrushComponent := some (fun _ => some 2), Velocity := ⟨3, -1 / 2⟩ },
    actor := {} }

end FureyEngine

namespace FureyEngine

/-- Address of an actor and the addresses of its components, in the order of its list. -/
def Actor.parts (a : Actor) : Ptr × List Ptr := (a.ptr, a.Components.map Component.ptr)

/-- The closures one call of World::DestroyActor binds for the actor at address `p` whose
components have the addresses `cs` (World.h 232-247): one RemoveComponent closure for each
component, in the order of the list, and then the closure that destroys the actor. -/
def World.destroyQueue (p : Ptr) (cs : List Ptr) : List CleanupCall :=
  cs.map (CleanupCall.RemoveComponent p) ++ [CleanupCall.DestroyActor p]

/-- The calls Remove and OnRemove on each of the components, in the order of the list. -/
def World.removeCalls (cs : List Ptr) : List Call :=
  cs.flatMap fun c => [⟨.component c, .Remove⟩, ⟨.component c, .OnRemove⟩]

/-- A world that has begun ticking, holding a begun actor of class 1 (address 1) with two begun
plain components (addresses 2 and 3), and a begun actor of the base class (address 4) with one
(address 5). -/
def Scenario.doomedWorld : World :=
  { BeginTick := true
    Actors := [
      { ptr := 1, cls := 1, BeginTick := true,
        Components := [Component.Plain 2 0 true true, Component.Plain 3 0 true true] },
      { ptr := 4, cls := 0, BeginTick := true, Components := [Component.Plain 5 0 true true] }]
    Heap := 6 }

end FureyEngine

namespace FureyEngine

/-- The closed segments A1A2 and B1B2 have at least one point in common: a point of the
first, A1 + s (A2 - A1) with 0 <= s <= 1, is a point of the second, B1 + t (B2 - B1) with
0 <= t <= 1. -/
def Math.SegmentsMeet (A1 A2 B1 B2 : Vec2) : Prop :=
  ∃ s t : ℚ, 0 ≤ s ∧ s ≤ 1 ∧ 0 ≤ t ∧ t ≤ 1 ∧
    A1.x + s * (A2.x - A1.x) = B1.x + t * (B2.x - B1.x) ∧
    A1.y + s * (A2.y - A1.y) = B1.y + t * (B2.y - B1.y)

end FureyEngine

namespace FureyEngine

/-- The macro NULL_STATE (StateMachineComponent.h 8). -/
def NULL_STATE : String := "NULL"

/-- An invocation of one of the two delegates of a state machine component, with its string
argument (the first argument is always the component itself). -/
inductive StateCall where
  | OnStateExit (NewState : String)
  | OnStateEnter (PreviousState : String)
deriving DecidableEq

/-- StateMachineComponent (StateMachineComponent.h 16-48): the current state, the table of
states (a std::map, as the list of its entries) and, for the delegates OnStateEnter and
OnStateExit, the list of their invocations, oldest first. The functions bound to the delegates
are taken not to change the component. -/
structure StateMachineComponent where
  CurrentState : String := NULL_STATE
  States : List (String × StdFunction) := []
  Invoked : List StateCall := []

namespace StateMachineComponent

/-- StateMachineComponent::IsStateNull (StateMachineComponent.cpp 92-94). -/
def IsStateNull (m : StateMachineComponent) : Bool :=
  m.CurrentState == NULL_STATE

/-- StateMachineComponent::HasState (StateMachineComponent.cpp 107-109). -/
def HasState (m : StateMachineComponent) (State : String) : Bool :=
  State != NULL_STATE && m.States.any (fun e => e.1 == State)

/-- StateMachineComponent::SwitchState (StateMachineComponent.cpp 113-127): the value returned
and the component after the call. -/
def SwitchState (m : StateMachineComponent) (NewState : String) :
    Bool × StateMachineComponent :=
  let PreviousState := m.CurrentState
  let m1 :=
    if !m.IsStateNull then { m with Invoked := m.Invoked ++ [StateCall.OnStateExit NewState] }
    else m
  let m2 := { m1 with CurrentState := if m1.HasState NewState then NewState else NULL_STATE }
  let m3 :=
    if !m2.IsStateNull then
      { m2 with Invoked := m2.Invoked ++ [StateCall.OnStateEnter PreviousState] }
    else m2
  (m3.CurrentState != NULL_STATE, m3)

end StateMachineComponent

end FureyEngine

namespace FureyEngine

/-- Math::DistanceSquared (Math.h 66-69). -/
def Math.DistanceSquared (A B : Vec2) : ℚ :=
  (B.x - A.x) * (B.x - A.x) + (B.y - A.y) * (B.y - A.y)

/-- Math::Distance (Math.h 72-75); `sqrt` stands for SDL_sqrt. -/
def Math.Distance (sqrt : ℚ → ℚ) (A B : Vec2) : ℚ :=
  sqrt (Math.DistanceSquared A B)

/-- The conversion `static_cast<int>` of a floating-point value: the fractional part is
discarded (rounding toward zero). Values outside the range of int are left out. -/
def Math.toInt (q : ℚ) : Int :=
  Int.tdiv q.num q.den

namespace PhysicsComponent

/-- PhysicsComponent::SweepPositionTo(const glm::vec2 &, const float &) (PhysicsComponent.cpp
366-373), the overload that takes a step distance: the value returned, the component and the
transform of the actor after the call. -/
def SweepPositionToDistance (sqrt : ℚ → ℚ) (Position : Vec2) (StepDistance : ℚ)
    (p : PhysicsComponent) (a : Transform) : Vec2 × PhysicsComponent × Transform :=
  if StepDistance ≤ 0 then (a.Position, p, a)
  else
    SweepPositionTo Position (Math.toInt (Math.Distance sqrt a.Position Position / StepDistance))
      p a

/-- The loop of SweepScaleTo (PhysicsComponent.cpp 445-467) with `n` iterations left: the
value returned and the state left. -/
def scaleLoop (f : Transform → Option Ptr) (DeltaX DeltaY : ℚ) :
    Nat → PhysicsComponent → Transform → Vec2 × PhysicsComponent × Transform
  | 0, p, a => (a.Scale, p, a)
  | n + 1, p, a =>
    let a1 : Transform := { a with Scale := ⟨a.Scale.x + DeltaX, a.Scale.y⟩ }
    match f a1 with
    | some o =>
      let a2 : Transform := { a1 with Scale := ⟨a1.Scale.x - DeltaX, a1.Scale.y⟩ }
      (a2.Scale, { p with OnCollision := p.OnCollision ++ [o] }, a2)
    | none =>
      let a3 : Transform := { a1 with Scale := ⟨a1.Scale.x, a1.Scale.y + DeltaY⟩ }
      match f a3 with
      | some o =>
        let a4 : Transform := { a3 with Scale := ⟨a3.Scale.x, a3.Scale.y - DeltaY⟩ }
        (a4.Scale, { p with OnCollision := p.OnCollision ++ [o] }, a4)
      | none => scaleLoop f DeltaX DeltaY n p a3

/-- PhysicsComponent::SweepScaleTo(const glm::vec2 &, const int &) (PhysicsComponent.cpp
425-470): the value returned, the component and the transform of the actor after the call. -/
def SweepScaleTo (Scale : Vec2) (Steps : Int) (p : PhysicsComponent) (a : Transform) :
    Vec2 × PhysicsComponent × Transform :=
  if Steps ≤ 0 then (a.Scale, p, a)
  else
    match p.BrushComponent with
    | none => (Scale, p, { a with Scale := Scale })
    | some f =>
      match f a with
      | some o => (a.Scale, { p with OnCollision := p.OnCollision ++ [o] }, a)
      | none =>
        scaleLoop f ((Scale.x - a.Scale.x) / Steps) ((Scale.y - a.Scale.y) / Steps)
          Steps.toNat p a

/-- PhysicsComponent::SweepScaleTo(const glm::vec2 &, const float &) (PhysicsComponent.cpp
474-481), the overload that takes a step distance. Line 478 calls SweepPositionTo, with the
distance from the position of the actor to `Scale`. -/
def SweepScaleToDistance (sqrt : ℚ → ℚ) (Scale : Vec2) (StepDistance : ℚ)
    (p : PhysicsComponent) (a : Transform) : Vec2 × PhysicsComponent × Transform :=
  if StepDistance ≤ 0 then (a.Scale, p, a)
  else
    SweepPositionTo Scale (Math.toInt (Math.Distance sqrt a.Position Scale / StepDistance)) p a

end PhysicsComponent

/-- The largest natural number whose square is at most `n`. -/
def Scenario.isqrt (n : Nat) : Nat :=
  ((List.range (n + 1)).filter (fun k => k * k ≤ n)).length - 1

/-- A square root for the scenarios: exact on the squares of rational numbers, which are the
only arguments the scenarios pass to SDL_sqrt. -/
def Scenario.sqrt (q : ℚ) : ℚ :=
  (Scenario.isqrt q.num.toNat : ℚ) / (Scenario.isqrt q.den : ℚ)

/-- A physics component bound to a brush that collides with nothing, wherever the actor is. -/
def Scenario.free : PhysicsComponent :=
  { BrushComponent := some (fun _ => none) }

end FureyEngine

namespace FureyEngine

/-- Trigonometry of a rotation by the angle of the 3-4-5 triangle, in either direction:
cos d = 3/5 for every d, sin d = 4/5 for d >= 0 and -4/5 for d < 0. -/
def Trig.pythagorean : Trig := ⟨fun _ => 3 / 5, fun d => if d < 0 then -4 / 5 else 4 / 5⟩

end FureyEngine

namespace FureyEngine

/-! ## Facts about the state map -/

theorem StateMap.count_eq_isSome (m : StateMap) (k : Ptr) :
    m.count k = (m.find k).isSome := by
  induction m with
  | nil => rfl
  | cons e m ih =>
    simp only [StateMap.count, StateMap.find, List.any_cons, List.find?_cons] at ih ⊢
    by_cases h : (e.1 == k) = true
    · simp [h]
    · simp only [Bool.not_eq_true] at h
      simp [h, ih]

theorem StateMap.find_assign_self (m : StateMap) (k : Ptr) (v : CollisionState) :
    (m.assign k v).find k = some v := by
  induction m with
  | nil => simp [StateMap.assign, StateMap.find]
  | cons e m ih =>
    obtain ⟨k', v'⟩ := e
    simp only [StateMap.assign]
    split_ifs with h1 h2
    · simp [StateMap.find]
    · simp [StateMap.find]
    · have hne : (k' == k) = false := by simpa using fun h => h1 h.symm
      simpa [StateMap.find, List.find?_cons, hne] using ih

theorem StateMap.find_assign_ne (m : StateMap) (k k0 : Ptr) (v : CollisionState) (h : k ≠ k0) :
    (m.assign k v).find k0 = m.find k0 := by
  have hk : (k == k0) = false := by simpa using h
  induction m with
  | nil => simp [StateMap.assign, StateMap.find, hk]
  | cons e m ih =>
    obtain ⟨k', v'⟩ := e
    simp only [StateMap.assign]
    split_ifs with h1 h2
    · subst h1
      simp [StateMap.find, List.find?_cons, hk]
    · simp [StateMap.find, List.find?_cons, hk]
    · simp only [StateMap.find, List.find?_cons] at ih ⊢
      cases hc : (k' == k0) <;> simp [ih]

theorem StateMap.find_erase_self (m : StateMap) (k : Ptr) : (m.erase k).find k = none := by
  simp only [StateMap.erase, StateMap.find, List.find?_filter]
  have : (fun a : Ptr × CollisionState => decide ((!(a.1 == k)) = true ∧ (a.1 == k) = true)) =
      fun _ => false := by
    funext a; cases (a.1 == k) <;> rfl
  rw [this]
  simp

theorem StateMap.find_erase_ne (m : StateMap) (k k0 : Ptr) (h : k ≠ k0) :
    (m.erase k).find k0 = m.find k0 := by
  simp only [StateMap.erase, StateMap.find, List.find?_filter]
  have : (fun a : Ptr × CollisionState => decide ((!(a.1 == k)) = true ∧ (a.1 == k0) = true)) =
      fun a => a.1 == k0 := by
    funext a
    by_cases h0 : a.1 = k0
    · have : ¬ a.1 = k := fun hk => h (hk.symm.trans h0)
      simp [h0]
      intro hk; exact h hk.symm
    · simp [h0]
  rw [this]

namespace BrushComponent

theorem CollisionStateWith_eq (b o : BrushComponent) :
    b.CollisionStateWith o = (b.CollisionStates.find o.ptr).getD CollisionState.NONE := by
  unfold CollisionStateWith
  rw [StateMap.count_eq_isSome]
  cases h : b.CollisionStates.find o.ptr <;> simp

end BrushComponent
end FureyEngine
namespace FureyEngine
namespace BrushComponent

theorem scanTest_congr (T : Trig) (b E : BrushComponent) (m : StateMap) (l : List (Ptr × Ptr)) :
    scanTest T { b with CollisionStates := m, OnCollision := l } E = scanTest T b E := rfl

theorem scanElement_fixed (T : Trig) (b E : BrushComponent) :
    ∃ m l, scanElement T b E = { b with CollisionStates := m, OnCollision := l } := by
  unfold scanElement
  split_ifs <;> exact ⟨_, _, rfl⟩

theorem scanElement_find_ne (T : Trig) (b E : BrushComponent) (k : Ptr) (h : E.ptr ≠ k) :
    (scanElement T b E).CollisionStates.find k = b.CollisionStates.find k := by
  unfold scanElement
  split_ifs <;>
    simp only [StateMap.find_assign_ne _ _ _ _ h, StateMap.find_erase_ne _ _ _ h]

theorem scanElement_count_ne (T : Trig) (b E : BrushComponent) (k : Ptr) (h : E.ptr ≠ k) :
    (scanElement T b E).OnCollision.count (b.ptr, k) = b.OnCollision.count (b.ptr, k) := by
  have hne : ¬ ((b.ptr, E.ptr) = (b.ptr, k)) := by
    intro hc; exact h (Prod.mk.inj hc).2
  unfold scanElement
  split_ifs <;> simp [List.count_append, List.count_cons, hne]

theorem scanElement_find_self (T : Trig) (b E : BrushComponent) (h : E.ptr ≠ b.ptr) :
    (scanElement T b E).CollisionStates.find E.ptr =
      pairNext (b.scanTest T E) (b.CollisionStates.find E.ptr) := by
  unfold scanElement
  rw [if_neg h, StateMap.count_eq_isSome]
  cases hs : b.CollisionStates.find E.ptr with
  | none =>
    cases ht : b.scanTest T E <;>
      simp [pairNext, StateMap.find_assign_self, hs]
  | some s =>
    cases ht : b.scanTest T E <;> cases s <;>
      simp [pairNext, StateMap.find_assign_self, StateMap.find_erase_self, hs, FIRE_WHILE_COLLIDING]

theorem scanElement_count_self (T : Trig) (b E : BrushComponent) (h : E.ptr ≠ b.ptr) :
    (scanElement T b E).OnCollision.count (b.ptr, E.ptr) =
      b.OnCollision.count (b.ptr, E.ptr) +
        (if pairFires (b.scanTest T E) (b.CollisionStates.find E.ptr) then 1 else 0) := by
  unfold scanElement
  rw [if_neg h, StateMap.count_eq_isSome]
  cases hs : b.CollisionStates.find E.ptr with
  | none =>
    cases ht : b.scanTest T E <;>
      simp [pairFires, List.count_append, hs]
  | some s =>
    cases ht : b.scanTest T E <;> cases s <;>
      simp [pairFires, List.count_append, hs, FIRE_WHILE_COLLIDING]

end BrushComponent
end FureyEngine
namespace FureyEngine
namespace BrushComponent

theorem foldl_scan_fixed (T : Trig) (reg : List BrushComponent) (b : BrushComponent) :
    ∃ m l, reg.foldl (scanElement T) b = { b with CollisionStates := m, OnCollision := l } := by
  induction reg generalizing b with
  | nil => exact ⟨_, _, rfl⟩
  | cons E reg ih =>
    obtain ⟨m, l, h⟩ := scanElement_fixed T b E
    obtain ⟨m', l', h'⟩ := ih (scanElement T b E)
    refine ⟨m', l', ?_⟩
    rw [List.foldl_cons, h', h]

theorem foldl_scan_others (T : Trig) (reg : List BrushComponent) (k : Ptr)
    (h : ∀ x ∈ reg, x.ptr ≠ k) (b : BrushComponent) :
    (reg.foldl (scanElement T) b).CollisionStates.find k = b.CollisionStates.find k ∧
    (reg.foldl (scanElement T) b).OnCollision.count (b.ptr, k) = b.OnCollision.count (b.ptr, k) := by
  induction reg generalizing b with
  | nil => exact ⟨rfl, rfl⟩
  | cons E reg ih =>
    have hE : E.ptr ≠ k := h E (List.mem_cons_self _ _)
    have hrest : ∀ x ∈ reg, x.ptr ≠ k := fun x hx => h x (List.mem_cons_of_mem _ hx)
    obtain ⟨m, l, hfix⟩ := scanElement_fixed T b E
    have hp : (scanElement T b E).ptr = b.ptr := by rw [hfix]
    obtain ⟨h1, h2⟩ := ih hrest (scanElement T b E)
    rw [List.foldl_cons]
    refine ⟨?_, ?_⟩
    · rw [h1, scanElement_find_ne T b E k hE]
    · rw [hp] at h2
      rw [h2, scanElement_count_ne T b E k hE]

theorem foldl_scan_pair (T : Trig) (reg : List BrushComponent) (b E : BrushComponent)
    (hnodup : (reg.map (fun x => x.ptr)).Nodup) (hE : E ∈ reg) (hne : E.ptr ≠ b.ptr) :
    (reg.foldl (scanElement T) b).CollisionStates.find E.ptr =
      pairNext (b.scanTest T E) (b.CollisionStates.find E.ptr) ∧
    (reg.foldl (scanElement T) b).OnCollision.count (b.ptr, E.ptr) =
      b.OnCollision.count (b.ptr, E.ptr) +
        (if pairFires (b.scanTest T E) (b.CollisionStates.find E.ptr) then 1 else 0) := by
  obtain ⟨l1, l2, rfl⟩ := List.append_of_mem hE
  rw [List.map_append, List.map_cons, List.nodup_append] at hnodup
  obtain ⟨_, hcons, hdisj⟩ := hnodup
  have h1 : ∀ x ∈ l1, x.ptr ≠ E.ptr := by
    intro x hx hxe
    exact hdisj (List.mem_map_of_mem _ hx) (by rw [hxe]; exact List.mem_cons_self _ _)
  have h2 : ∀ x ∈ l2, x.ptr ≠ E.ptr := by
    intro x hx hxe
    rw [List.nodup_cons] at hcons
    exact hcons.1 (by rw [← hxe]; exact List.mem_map_of_mem _ hx)
  rw [List.foldl_append, List.foldl_cons]
  obtain ⟨m, l, hfix⟩ := foldl_scan_fixed T l1 b
  obtain ⟨ha1, ha2⟩ := foldl_scan_others T l1 E.ptr h1 b
  generalize l1.foldl (scanElement T) b = b1 at hfix ha1 ha2
  have hp1 : b1.ptr = b.ptr := by rw [hfix]
  have ht1 : b1.scanTest T E = b.scanTest T E := by rw [hfix]; rfl
  obtain ⟨m2, l2', hfix2⟩ := scanElement_fixed T b1 E
  have hp2 : (scanElement T b1 E).ptr = b.ptr := by rw [hfix2]; exact hp1
  obtain ⟨hb1, hb2⟩ := foldl_scan_others T l2 E.ptr h2 (scanElement T b1 E)
  rw [hp2] at hb2
  refine ⟨?_, ?_⟩
  · rw [hb1, scanElement_find_self T b1 E (by rw [hp1]; exact hne), ht1, ha1]
  · rw [hb2]
    have := scanElement_count_self T b1 E (by rw [hp1]; exact hne)
    rw [hp1, ht1, ha1, ha2] at this
    exact this

end BrushComponent
end FureyEngine

namespace FureyEngine

/-! ## Facts about lists -/

theorem List.decomp_of_getElem? {α : Type} {l : List α} {i : Nat} {x : α} (h : l[i]? = some x) :
    ∃ l1 l2, l = l1 ++ x :: l2 ∧ l1.length = i := by
  induction l generalizing i with
  | nil => simp at h
  | cons a l ih =>
    cases i with
    | zero =>
      simp at h
      exact ⟨[], l, by simp [h], rfl⟩
    | succ i =>
      simp at h
      obtain ⟨l1, l2, h1, h2⟩ := ih h
      exact ⟨a :: l1, l2, by simp [h1], by simp [h2]⟩

theorem List.modify_decomp {α : Type} (f : α → α) (l1 l2 : List α) (x : α) :
    (l1 ++ x :: l2).modify f l1.length = l1 ++ f x :: l2 := by
  induction l1 with
  | nil => simp
  | cons a l1 ih => simp [ih]

theorem List.set_decomp {α : Type} (l1 l2 : List α) (x y : α) :
    (l1 ++ x :: l2).set l1.length y = l1 ++ y :: l2 := by
  induction l1 with
  | nil => simp
  | cons a l1 ih => simp [ih]

theorem List.map_modify_of_eq {α β : Type} (g : α → β) (f : α → α) (h : ∀ a, g (f a) = g a)
    (l : List α) (i : Nat) : (l.modify f i).map g = l.map g := by
  induction l generalizing i with
  | nil => simp
  | cons a l ih =>
    cases i with
    | zero => simp [h]
    | succ i => simp [ih]

end FureyEngine

namespace FureyEngine

/-! ## Facts about replacing a component -/

namespace World

variable {v : World} {i j : Nat} {x : Actor} {c : Component}

theorem putComponent_self (hx : v.Actors[i]? = some x) (hc : x.Components[j]? = some c) :
    v.putComponent i j c v.AllBrushes [] = v := by
  obtain ⟨l1, l2, h1, rfl⟩ := List.decomp_of_getElem? hx
  obtain ⟨c1, c2, h2, rfl⟩ := List.decomp_of_getElem? hc
  cases v
  simp only at h1
  subst h1
  simp only [putComponent, List.modify_decomp, h2, List.set_decomp, List.append_nil]
  congr
  cases x
  simp only at h2
  rw [h2]

theorem putComponent_getElem?_ne (c' : Component) (ab : List Ptr) (tr : List Call) {i' : Nat}
    (h : i ≠ i') : (v.putComponent i j c' ab tr).Actors[i']? = v.Actors[i']? := by
  simp [putComponent, List.getElem?_modify_ne _ _ h]

theorem putComponent_getElem?_eq (c' : Component) (ab : List Ptr) (tr : List Call)
    (hx : v.Actors[i]? = some x) :
    (v.putComponent i j c' ab tr).Actors[i]? =
      some { x with Components := x.Components.set j c' } := by
  simp [putComponent, hx]

theorem putComponent_map {β : Type} (g : Actor → β)
    (hg : ∀ (a : Actor) (cs : List Component), g { a with Components := cs } = g a)
    (c' : Component) (ab : List Ptr) (tr : List Call) :
    (v.putComponent i j c' ab tr).Actors.map g = v.Actors.map g := by
  simp only [putComponent]
  exact List.map_modify_of_eq g _ (fun a => hg a _) _ _

theorem putComponent_brushPtrs (c' : Component) (ab : List Ptr) (tr : List Call)
    (hx : v.Actors[i]? = some x) (hc : x.Components[j]? = some c)
    (hk : c'.brushPtr = c.brushPtr) :
    (v.putComponent i j c' ab tr).brushPtrs = v.brushPtrs := by
  obtain ⟨l1, l2, h1, rfl⟩ := List.decomp_of_getElem? hx
  obtain ⟨c1, c2, h2, rfl⟩ := List.decomp_of_getElem? hc
  simp only [putComponent, brushPtrs, h1, List.modify_decomp, h2, List.set_decomp,
    List.flatMap_append, List.flatMap_cons, List.filterMap_append, List.filterMap_cons, hk]

end World
end FureyEngine

namespace FureyEngine

/-! ## Facts about looking brushes up -/

namespace World

theorem findBrush_ptr {v : World} {p : Ptr} {E : BrushComponent} (h : v.findBrush p = some E) :
    E.ptr = p := by
  unfold findBrush at h
  obtain ⟨a, _, ha⟩ := List.exists_of_findSome?_eq_some h
  obtain ⟨c, _, hc⟩ := List.exists_of_findSome?_eq_some ha
  cases c with
  | Plain _ _ _ _ => simp [Actor.brushView] at hc
  | Brush b =>
    simp only [Actor.brushView] at hc
    split_ifs at hc with hp
    simp only [Option.some.injEq] at hc
    rw [← hc]; exact hp

theorem inner_none (a : Actor) (p : Ptr) (h : p ∉ a.Components.filterMap Component.brushPtr) :
    a.Components.findSome? (a.brushView p) = none := by
  rw [List.findSome?_eq_none_iff]
  intro c hc
  cases c with
  | Plain _ _ _ _ => rfl
  | Brush b =>
    simp only [Actor.brushView]
    rw [if_neg]
    intro hp
    apply h
    rw [List.mem_filterMap]
    exact ⟨_, hc, by simp [Component.brushPtr, hp]⟩

theorem findBrush_of_pos {v : World} {i j : Nat} {x : Actor} {b : BrushComponent}
    (hnodup : v.brushPtrs.Nodup) (hx : v.Actors[i]? = some x)
    (hc : x.Components[j]? = some (.Brush b)) :
    v.findBrush b.ptr = some { b with ActorTransform := x.Transform } := by
  obtain ⟨l1, l2, h1, _⟩ := List.decomp_of_getElem? hx
  obtain ⟨c1, c2, h2, _⟩ := List.decomp_of_getElem? hc
  simp only [brushPtrs, h1, List.flatMap_append, List.flatMap_cons, h2, List.filterMap_append,
    List.filterMap_cons, Component.brushPtr] at hnodup
  rw [List.nodup_append] at hnodup
  obtain ⟨_, hn2, hdisj⟩ := hnodup
  rw [List.nodup_append] at hn2
  obtain ⟨hn3, _, _⟩ := hn2
  rw [List.nodup_append] at hn3
  obtain ⟨_, _, hdisj3⟩ := hn3
  have hl1 : ∀ a ∈ l1, b.ptr ∉ a.Components.filterMap Component.brushPtr := by
    intro a ha hmem
    refine hdisj (List.mem_flatMap.mpr ⟨a, ha, hmem⟩) ?_
    simp
  have hc1 : b.ptr ∉ c1.filterMap Component.brushPtr := by
    intro hmem
    exact hdisj3 hmem (List.mem_cons_self _ _)
  unfold findBrush
  rw [h1, List.findSome?_append]
  have : (l1.findSome? fun a => a.Components.findSome? (a.brushView b.ptr)) = none := by
    rw [List.findSome?_eq_none_iff]
    intro a ha
    exact inner_none a b.ptr (hl1 a ha)
  rw [this]
  simp only [Option.none_or, List.findSome?_cons]
  rw [h2, List.findSome?_append]
  have hc1' := inner_none { x with Components := c1 } b.ptr hc1
  have hc1'' : c1.findSome? (x.brushView b.ptr) = none := hc1'
  rw [hc1'']
  simp [Actor.brushView]

theorem registry_nodup {v : World} (h : v.AllBrushes.Nodup) :
    (v.registry.map fun b => b.ptr).Nodup := by
  unfold registry
  generalize v.AllBrushes = l at h
  induction l with
  | nil => simp
  | cons p l ih =>
    rw [List.nodup_cons] at h
    rw [List.filterMap_cons]
    cases hf : v.findBrush p with
    | none => exact ih h.2
    | some E =>
      simp only [List.map_cons, List.nodup_cons]
      refine ⟨?_, ih h.2⟩
      intro hmem
      rw [List.mem_map] at hmem
      obtain ⟨E', hE', hp⟩ := hmem
      rw [List.mem_filterMap] at hE'
      obtain ⟨q, hq, hfq⟩ := hE'
      have := findBrush_ptr hfq
      have h2 := findBrush_ptr hf
      rw [hp, h2] at this
      rw [← this] at hq
      exact h.1 hq

theorem registry_mem {v : World} {p : Ptr} {E : BrushComponent} (hp : p ∈ v.AllBrushes)
    (h : v.findBrush p = some E) : E ∈ v.registry := by
  unfold registry
  rw [List.mem_filterMap]
  exact ⟨p, hp, h⟩

end World
end FureyEngine

namespace FureyEngine

/-! ## The shape of a component callback when the component classes are base classes -/

namespace BrushComponent

theorem Tick_fixed (T : Trig) (reg : List BrushComponent) (b : BrushComponent) :
    ∃ m l, b.Tick T reg = { b with CollisionStates := m, OnCollision := l } := by
  unfold Tick
  split_ifs
  · exact foldl_scan_fixed T reg b
  · exact ⟨_, _, rfl⟩

theorem LateTick_fixed (T : Trig) (reg : List BrushComponent) (b : BrushComponent) :
    ∃ m l, b.LateTick T reg = { b with CollisionStates := m, OnCollision := l } := by
  unfold LateTick
  split_ifs
  · exact foldl_scan_fixed T reg b
  · exact ⟨_, _, rfl⟩

theorem Start_fixed (T : Trig) (reg : List BrushComponent) (b : BrushComponent) :
    ∃ m l, b.Start T reg = { b with CollisionStates := m, OnCollision := l } := by
  unfold Start
  induction reg generalizing b with
  | nil => exact ⟨_, _, rfl⟩
  | cons E reg ih =>
    have h1 : ∃ m l, startElement T b E = { b with CollisionStates := m, OnCollision := l } := by
      unfold startElement
      split_ifs <;> exact ⟨_, _, rfl⟩
    obtain ⟨m, l, h⟩ := h1
    obtain ⟨m', l', h'⟩ := ih (startElement T b E)
    refine ⟨m', l', ?_⟩
    rw [List.foldl_cons, h', h]

end BrushComponent

namespace World

variable {P : Program} {T : Trig} {v : World} {i j : Nat} {x : Actor} {c : Component}

theorem run_nil (w : World) (self : Ptr) : w.run self [] = w := rfl

theorem call_call_eq (w : World) (o1 o2 : Object) (m1 m2 : Method) :
    (w.call o1 m1).call o2 m2 = { w with Trace := w.Trace ++ [⟨o1, m1⟩, ⟨o2, m2⟩] } := by
  simp [call]

theorem tickComponent_brush {b : BrushComponent} (hx : v.Actors[i]? = some x)
    (hc : x.Components[j]? = some (.Brush b)) (hact : b.Active = true)
    (hbegun : b.BeginTick = true) :
    tickComponent P T i j v =
      v.putComponent i j
        (.Brush (BrushComponent.Tick T v.registry { b with ActorTransform := x.Transform }))
        v.AllBrushes [⟨.component b.ptr, .Tick⟩, ⟨.component b.ptr, .OnTick⟩] := by
  simp [tickComponent, hx, hc, Component.IsActive, hact, hbegun, call, setComponent,
    putComponent]

theorem lateComponent_brush {b : BrushComponent} (hx : v.Actors[i]? = some x)
    (hc : x.Components[j]? = some (.Brush b)) (hact : b.Active = true)
    (hbegun : b.BeginTick = true) :
    lateComponent P T i j v =
      v.putComponent i j
        (.Brush (BrushComponent.LateTick T v.registry { b with ActorTransform := x.Transform }))
        v.AllBrushes [⟨.component b.ptr, .LateTick⟩, ⟨.component b.ptr, .OnLateTick⟩] := by
  simp [lateComponent, hx, hc, Component.IsActive, hact, hbegun, call, setComponent,
    putComponent]

theorem modify_self (hx : v.Actors[i]? = some x) (hc : x.Components[j]? = some c) :
    v.Actors.modify (fun a => { a with Components := a.Components.set j c }) i = v.Actors := by
  have h0 := congrArg World.Actors (putComponent_self hx hc)
  simpa [putComponent] using h0

theorem tickComponent_none (h : v.Actors[i]? = none) : tickComponent P T i j v = v := by
  simp [tickComponent, h]

theorem tickComponent_form (hcomp : ∀ k, P.component k = {}) (hx : v.Actors[i]? = some x)
    (hc : x.Components[j]? = some c) :
    ∃ c' ab tr, tickComponent P T i j v = v.putComponent i j c' ab tr ∧
      c'.brushPtr = c.brushPtr ∧
      (∀ b, c = .Brush b → b.BeginTick = true → ∃ m l t,
        c' = .Brush { b with CollisionStates := m, OnCollision := l, ActorTransform := t }) ∧
      (ab = v.AllBrushes ∨ ab = setInsert v.AllBrushes c.ptr) ∧
      (∀ e ∈ tr, e.object = .component c.ptr) := by
  by_cases hact : c.IsActive = true
  swap
  · refine ⟨c, v.AllBrushes, [], ?_, rfl, ?_, Or.inl rfl, by simp⟩
    · rw [putComponent_self hx hc]
      simp [tickComponent, hx, hc, hact]
    · intro b hb _
      exact ⟨b.CollisionStates, b.OnCollision, b.ActorTransform, by rw [hb]⟩
  cases c with
  | Plain p cls a t =>
    have hact' : a = true := hact
    subst hact'
    cases t with
    | true =>
      refine ⟨.Plain p cls true true, v.AllBrushes,
        [⟨.component p, .Tick⟩, ⟨.component p, .OnTick⟩], ?_, rfl, ?_, Or.inl rfl, ?_⟩
      · simp only [putComponent, modify_self hx hc]
        simp [tickComponent, hx, hc, Component.IsActive, hcomp, run_nil, call_call_eq]
      · intro b hb; cases hb
      · intro e he
        simp at he
        rcases he with rfl | rfl <;> rfl
    | false =>
      refine ⟨.Plain p cls true false, v.AllBrushes,
        [⟨.component p, .Attach⟩, ⟨.component p, .OnAttach⟩], ?_, rfl, ?_, Or.inl rfl, ?_⟩
      · simp only [putComponent, modify_self hx hc]
        simp [tickComponent, hx, hc, Component.IsActive, hcomp, run_nil, call_call_eq]
      · intro b hb; cases hb
      · intro e he
        simp at he
        rcases he with rfl | rfl <;> rfl
  | Brush b =>
    have hact' : b.Active = true := hact
    cases hbt : b.BeginTick with
    | true =>
      obtain ⟨m, l, hfix⟩ := BrushComponent.Tick_fixed T v.registry
        { b with ActorTransform := x.Transform }
      refine ⟨_, _, _, tickComponent_brush hx hc hact' hbt, ?_, ?_, Or.inl rfl, ?_⟩
      · rw [hfix]; rfl
      · intro b' hb' _
        cases hb'
        exact ⟨m, l, x.Transform, by rw [hfix]⟩
      · intro e he
        simp at he
        rcases he with rfl | rfl <;> rfl
    | false =>
      by_cases hs : b.Bounds.Scale = ⟨FLT_MAX, FLT_MAX⟩
      · refine ⟨.Brush { b with Bounds := { b.Bounds with Scale := ⟨0, 0⟩ } },
          setInsert v.AllBrushes b.ptr,
          [⟨.component b.ptr, .Attach⟩, ⟨.component b.ptr, .OnAttach⟩], ?_, rfl, ?_,
          Or.inr rfl, ?_⟩
        · simp [tickComponent, hx, hc, Component.IsActive, hact', hbt, call, attachBrush, hs,
            setComponent, putComponent]
        · intro b' hb' hbt'
          cases hb'
          rw [hbt] at hbt'
          cases hbt'
        · intro e he
          simp at he
          rcases he with rfl | rfl <;> rfl
      · refine ⟨.Brush b, setInsert v.AllBrushes b.ptr,
          [⟨.component b.ptr, .Attach⟩, ⟨.component b.ptr, .OnAttach⟩], ?_, rfl, ?_,
          Or.inr rfl, ?_⟩
        · simp only [putComponent, modify_self hx hc]
          simp [tickComponent, hx, hc, Component.IsActive, hact', hbt, call, attachBrush, hs]
        · intro b' hb' hbt'
          cases hb'
          rw [hbt] at hbt'
          cases hbt'
        · intro e he
          simp at he
          rcases he with rfl | rfl <;> rfl

end World
end FureyEngine

namespace FureyEngine
namespace World

variable {P : Program} {T : Trig} {v : World} {i j : Nat} {x : Actor} {c : Component}

theorem lateComponent_form (hcomp : ∀ k, P.component k = {}) (hx : v.Actors[i]? = some x)
    (hc : x.Components[j]? = some c) :
    ∃ c' ab tr, lateComponent P T i j v = v.putComponent i j c' ab tr ∧
      c'.brushPtr = c.brushPtr ∧
      (∀ b, c = .Brush b → b.BeginTick = true → ∃ m l t,
        c' = .Brush { b with CollisionStates := m, OnCollision := l, ActorTransform := t }) ∧
      (ab = v.AllBrushes ∨ ab = setInsert v.AllBrushes c.ptr) ∧
      (∀ e ∈ tr, e.object = .component c.ptr) := by
  by_cases hact : c.IsActive = true
  swap
  · refine ⟨c, v.AllBrushes, [], ?_, rfl, ?_, Or.inl rfl, by simp⟩
    · rw [putComponent_self hx hc]
      simp [lateComponent, hx, hc, hact]
    · intro b hb _
      exact ⟨b.CollisionStates, b.OnCollision, b.ActorTransform, by rw [hb]⟩
  cases c with
  | Plain p cls a t =>
    have hact' : a = true := hact
    subst hact'
    cases t with
    | true =>
      refine ⟨.Plain p cls true true, v.AllBrushes,
        [⟨.component p, .LateTick⟩, ⟨.component p, .OnLateTick⟩], ?_, rfl, ?_, Or.inl rfl, ?_⟩
      · simp only [putComponent, modify_self hx hc]
        simp [lateComponent, hx, hc, Component.IsActive, hcomp, run_nil, call_call_eq]
      · intro b hb; cases hb
      · intro e he
        simp at he
        rcases he with rfl | rfl <;> rfl
    | false =>
      refine ⟨.Plain p cls true true, v.AllBrushes,
        [⟨.component p, .Start⟩, ⟨.component p, .OnStart⟩], ?_, rfl, ?_, Or.inl rfl, ?_⟩
      · simp [lateComponent, hx, hc, Component.IsActive, hcomp, run_nil, call_call_eq,
          setComponent, putComponent]
      · intro b hb; cases hb
      · intro e he
        simp at he
        rcases he with rfl | rfl <;> rfl
  | Brush b =>
    have hact' : b.Active = true := hact
    cases hbt : b.BeginTick with
    | true =>
      obtain ⟨m, l, hfix⟩ := BrushComponent.LateTick_fixed T v.registry
        { b with ActorTransform := x.Transform }
      refine ⟨_, _, _, lateComponent_brush hx hc hact' hbt, ?_, ?_, Or.inl rfl, ?_⟩
      · rw [hfix]; rfl
      · intro b' hb' _
        cases hb'
        exact ⟨m, l, x.Transform, by rw [hfix]⟩
      · intro e he
        simp at he
        rcases he with rfl | rfl <;> rfl
    | false =>
      obtain ⟨m, l, hfix⟩ := BrushComponent.Start_fixed T v.registry
        { b with ActorTransform := x.Transform }
      refine ⟨.Brush { BrushComponent.Start T v.registry
          { b with ActorTransform := x.Transform } with BeginTick := true }, v.AllBrushes,
          [⟨.component b.ptr, .Start⟩, ⟨.component b.ptr, .OnStart⟩], ?_, ?_, ?_,
          Or.inl rfl, ?_⟩
      · simp [lateComponent, hx, hc, Component.IsActive, hact', hbt, call, setComponent,
          putComponent]
      · rw [hfix]; rfl
      · intro b' hb' hbt'
        cases hb'
        rw [hbt] at hbt'
        cases hbt'
      · intro e he
        simp at he
        rcases he with rfl | rfl <;> rfl

/-! ### What a replacement keeps -/

theorem setInsert_mem (s : List Ptr) (p q : Ptr) : q ∈ setInsert s p ↔ q = p ∨ q ∈ s := by
  induction s with
  | nil => simp [setInsert]
  | cons a s ih =>
    simp only [setInsert]
    split_ifs with h1 h2
    · subst h1; simp
    · simp
    · simp only [List.mem_cons, ih]
      tauto

theorem setInsert_sorted (s : List Ptr) (p : Ptr) (h : s.Pairwise (· < ·)) :
    (setInsert s p).Pairwise (· < ·) := by
  induction s with
  | nil => simp [setInsert]
  | cons a s ih =>
    rw [List.pairwise_cons] at h
    simp only [setInsert]
    split_ifs with h1 h2
    · exact List.pairwise_cons.mpr h
    · refine List.pairwise_cons.mpr ⟨?_, List.pairwise_cons.mpr h⟩
      intro q hq
      rcases List.mem_cons.mp hq with rfl | hq
      · exact h2
      · exact lt_trans h2 (h.1 q hq)
    · refine List.pairwise_cons.mpr ⟨?_, ih h.2⟩
      intro q hq
      rcases (setInsert_mem s p q).mp hq with rfl | hq
      · exact lt_of_le_of_ne (Nat.le_of_not_lt h2) (fun h => h1 h.symm)
      · exact h.1 q hq

theorem sorted_nodup {s : List Ptr} (h : s.Pairwise (· < ·)) : s.Nodup :=
  h.imp (fun hab => Nat.ne_of_lt hab)

end World
end FureyEngine

namespace FureyEngine
namespace World

variable {P : Program} {T : Trig} {v : World} {i j : Nat} {x : Actor} {c : Component}

theorem Sound_put (hs : v.Sound) (hx : v.Actors[i]? = some x) (hc : x.Components[j]? = some c)
    {c' : Component} {ab : List Ptr} (tr : List Call) (hk : c'.brushPtr = c.brushPtr)
    (hab : ab = v.AllBrushes ∨ ab = setInsert v.AllBrushes c.ptr) :
    (v.putComponent i j c' ab tr).Sound := by
  obtain ⟨h1, h2, h3⟩ := hs
  refine ⟨h1, ?_, ?_⟩
  · rw [putComponent_brushPtrs c' ab tr hx hc hk]; exact h2
  · rcases hab with rfl | rfl
    · exact h3
    · exact setInsert_sorted _ _ h3

theorem mem_put {ab : List Ptr} {q : Ptr} (hq : q ∈ v.AllBrushes)
    (hab : ab = v.AllBrushes ∨ ab = setInsert v.AllBrushes c.ptr) (c' : Component)
    (tr : List Call) : q ∈ (v.putComponent i j c' ab tr).AllBrushes := by
  rcases hab with rfl | rfl
  · exact hq
  · exact (setInsert_mem _ _ _).mpr (Or.inr hq)

theorem Tracks_put_other {i0 j0 : Nat} {b0 : BrushComponent} {q : Ptr}
    {m : Option CollisionState} {n : Nat} (h : v.Tracks i0 j0 b0 q m n)
    (hne : ¬ (i = i0 ∧ j = j0)) (c' : Component) (ab : List Ptr) (tr : List Call) :
    (v.putComponent i j c' ab tr).Tracks i0 j0 b0 q m n := by
  obtain ⟨x0, c0, hx0, hact, hc0, hfix, hm, hn⟩ := h
  by_cases hi : i = i0
  · subst hi
    have hj : j ≠ j0 := fun hj => hne ⟨rfl, hj⟩
    refine ⟨{ x0 with Components := x0.Components.set j c' }, c0,
      putComponent_getElem?_eq c' ab tr hx0, hact, ?_, hfix, hm, hn⟩
    simp only [List.getElem?_set_ne hj]
    exact hc0
  · refine ⟨x0, c0, ?_, hact, hc0, hfix, hm, hn⟩
    rw [putComponent_getElem?_ne c' ab tr hi]
    exact hx0

theorem Tracks_put_self {b0 b : BrushComponent} (b' : BrushComponent) {q : Ptr}
    (hx : v.Actors[i]? = some x) (hact : x.Active = true)
    (hc : x.Components[j]? = some (.Brush b))
    (hb : { b with ActorTransform := x.Transform, CollisionStates := [], OnCollision := [] } =
      { b0 with CollisionStates := [], OnCollision := [] })
    (hb' : { b' with ActorTransform := x.Transform, CollisionStates := [], OnCollision := [] } =
      { b with ActorTransform := x.Transform, CollisionStates := [], OnCollision := [] })
    (ab : List Ptr) (tr : List Call) :
    (v.putComponent i j (.Brush b') ab tr).Tracks i j b0 q (b'.CollisionStates.find q)
      (b'.OnCollision.count (b0.ptr, q)) := by
  refine ⟨{ x with Components := x.Components.set j (.Brush b') }, b',
    putComponent_getElem?_eq _ ab tr hx, hact, ?_, ?_, rfl, rfl⟩
  · have hj : j < x.Components.length := by
      rcases List.getElem?_eq_some.mp hc with ⟨h, _⟩
      exact h
    simp [List.getElem?_set_self, hj]
  · exact hb'.trans hb

end World
end FureyEngine

namespace FureyEngine

namespace BrushComponent

theorem scanTest_fixed (T : Trig) {b b0 E E0 : BrushComponent}
    (hb : { b with CollisionStates := [], OnCollision := [] } =
      { b0 with CollisionStates := [], OnCollision := [] })
    (hE : { E with CollisionStates := [], OnCollision := [] } =
      { E0 with CollisionStates := [], OnCollision := [] }) :
    scanTest T b E = scanTest T b0 E0 := by
  have h1 : scanTest T b E = scanTest T { b with CollisionStates := [], OnCollision := [] }
      { E with CollisionStates := [], OnCollision := [] } := rfl
  have h2 : scanTest T b0 E0 = scanTest T { b0 with CollisionStates := [], OnCollision := [] }
      { E0 with CollisionStates := [], OnCollision := [] } := rfl
  rw [h1, h2, hb, hE]

theorem Tick_tracked (T : Trig) (reg : List BrushComponent) (b E : BrushComponent)
    (hnodup : (reg.map (fun x => x.ptr)).Nodup) (hE : E ∈ reg) (hne : E.ptr ≠ b.ptr) :
    ((b.Tick T reg).CollisionStates.find E.ptr, (b.Tick T reg).OnCollision.count (b.ptr, E.ptr)) =
      b.afterTick T E (b.CollisionStates.find E.ptr, b.OnCollision.count (b.ptr, E.ptr)) := by
  unfold Tick afterTick
  cases h : b.TickLate with
  | true => simp
  | false =>
    obtain ⟨h1, h2⟩ := foldl_scan_pair T reg b E hnodup hE hne
    simp [scanned, h1, h2]

theorem LateTick_tracked (T : Trig) (reg : List BrushComponent) (b E : BrushComponent)
    (hnodup : (reg.map (fun x => x.ptr)).Nodup) (hE : E ∈ reg) (hne : E.ptr ≠ b.ptr) :
    ((b.LateTick T reg).CollisionStates.find E.ptr,
        (b.LateTick T reg).OnCollision.count (b.ptr, E.ptr)) =
      b.afterLateTick T E (b.CollisionStates.find E.ptr, b.OnCollision.count (b.ptr, E.ptr)) := by
  unfold LateTick afterLateTick
  cases h : b.TickLate with
  | false => simp
  | true =>
    obtain ⟨h1, h2⟩ := foldl_scan_pair T reg b E hnodup hE hne
    simp [scanned, h1, h2]

end BrushComponent

namespace World

variable {P : Program} {T : Trig} {v : World} {i j : Nat} {x : Actor} {c : Component}

theorem tickComponent_missing (hx : v.Actors[i]? = some x) (hc : x.Components[j]? = none) :
    tickComponent P T i j v = v := by
  simp [tickComponent, hx, hc]

theorem lateComponent_none (h : v.Actors[i]? = none) : lateComponent P T i j v = v := by
  simp [lateComponent, h]

theorem lateComponent_missing (hx : v.Actors[i]? = some x) (hc : x.Components[j]? = none) :
    lateComponent P T i j v = v := by
  simp [lateComponent, hx, hc]

/-- The view of a tracked brush is in the registry when its address is. -/
theorem Tracks_registry {i0 j0 : Nat} {b0 : BrushComponent} {q : Ptr}
    {m : Option CollisionState} {n : Nat} (hs : v.Sound) (h : v.Tracks i0 j0 b0 q m n)
    (hreg : b0.ptr ∈ v.AllBrushes) :
    ∃ E, E ∈ v.registry ∧ E.ptr = b0.ptr ∧
      { E with CollisionStates := [], OnCollision := [] } =
        { b0 with CollisionStates := [], OnCollision := [] } := by
  obtain ⟨x0, c0, hx0, _, hc0, hfix, _, _⟩ := h
  have hp : c0.ptr = b0.ptr := by
    have := congrArg BrushComponent.ptr hfix
    exact this
  have hf := findBrush_of_pos hs.2.1 hx0 hc0
  rw [← hp] at hreg
  exact ⟨_, registry_mem hreg hf, hp, hfix⟩

end World
end FureyEngine

namespace FureyEngine
namespace World

variable {T : Trig} {v : World} {i j iA jA iB jB : Nat}

/-- One component callback, described by its shape, keeps a tracked pair and advances the
tracked values of the brush it is called on. -/
theorem Pair_step (step : World → World)
    (fn : List BrushComponent → BrushComponent → BrushComponent)
    (after : BrushComponent → BrushComponent → Option CollisionState × Nat →
      Option CollisionState × Nat)
    (hnone : ∀ v : World, v.Actors[i]? = none → step v = v)
    (hmissing : ∀ (v : World) (x : Actor), v.Actors[i]? = some x → x.Components[j]? = none →
      step v = v)
    (hform : ∀ (v : World) (x : Actor) (c : Component), v.Actors[i]? = some x →
      x.Components[j]? = some c → ∃ c' ab tr, step v = v.putComponent i j c' ab tr ∧
        c'.brushPtr = c.brushPtr ∧ (ab = v.AllBrushes ∨ ab = setInsert v.AllBrushes c.ptr))
    (hexact : ∀ (v : World) (x : Actor) (b : BrushComponent), v.Actors[i]? = some x →
      x.Components[j]? = some (.Brush b) → b.Active = true → b.BeginTick = true →
      ∃ tr, step v = v.putComponent i j
        (.Brush (fn v.registry { b with ActorTransform := x.Transform })) v.AllBrushes tr)
    (hfixed : ∀ reg b, ∃ m l, fn reg b = { b with CollisionStates := m, OnCollision := l })
    (htracked : ∀ (reg : List BrushComponent) (b E : BrushComponent),
      (reg.map (fun x => x.ptr)).Nodup → E ∈ reg → E.ptr ≠ b.ptr →
      ((fn reg b).CollisionStates.find E.ptr, (fn reg b).OnCollision.count (b.ptr, E.ptr)) =
        after b E (b.CollisionStates.find E.ptr, b.OnCollision.count (b.ptr, E.ptr)))
    (hcongr : ∀ (b b0 E E0 : BrushComponent) s,
      { b with CollisionStates := [], OnCollision := [] } =
        { b0 with CollisionStates := [], OnCollision := [] } →
      { E with CollisionStates := [], OnCollision := [] } =
        { E0 with CollisionStates := [], OnCollision := [] } → after b E s = after b0 E0 s)
    {A0 B0 : BrushComponent} {sA sB : Option CollisionState × Nat}
    (hne : A0.ptr ≠ B0.ptr) (hAa : A0.Active = true) (hAb : A0.BeginTick = true)
    (hBa : B0.Active = true) (hBb : B0.BeginTick = true)
    (h : v.Pair iA jA iB jB A0 B0 sA sB) :
    (step v).Pair iA jA iB jB A0 B0
      (if i = iA ∧ j = jA then after A0 B0 sA else sA)
      (if i = iB ∧ j = jB then after B0 A0 sB else sB) := by
  obtain ⟨hs, hAreg, hBreg, hA, hB⟩ := h
  -- a step on one tracked brush, with the other one as partner
  have key : ∀ (i0 j0 : Nat) (b0 o0 : BrushComponent) (s : Option CollisionState × Nat),
      i = i0 → j = j0 → b0.ptr ≠ o0.ptr → b0.Active = true → b0.BeginTick = true →
      v.Tracks i0 j0 b0 o0.ptr s.1 s.2 →
      (∃ E, E ∈ v.registry ∧ E.ptr = o0.ptr ∧
        { E with CollisionStates := [], OnCollision := [] } =
          { o0 with CollisionStates := [], OnCollision := [] }) →
      ∃ c' tr, step v = v.putComponent i j c' v.AllBrushes tr ∧
        (v.putComponent i j c' v.AllBrushes tr).Sound ∧
        (v.putComponent i j c' v.AllBrushes tr).Tracks i0 j0 b0 o0.ptr (after b0 o0 s).1
          (after b0 o0 s).2 := by
    intro i0 j0 b0 o0 s hi hj hne' ha hb htr hE
    subst hi; subst hj
    obtain ⟨x0, c0, hx0, hxact, hc0, hfix, hm, hn⟩ := htr
    obtain ⟨E, hEreg, hEp, hEfix⟩ := hE
    have hp : c0.ptr = b0.ptr := by
      have := congrArg BrushComponent.ptr hfix
      exact this
    have hca : c0.Active = true := by
      have := congrArg BrushComponent.Active hfix
      exact this.trans ha
    have hcb : c0.BeginTick = true := by
      have := congrArg BrushComponent.BeginTick hfix
      exact this.trans hb
    obtain ⟨tr, hstep⟩ := hexact v x0 c0 hx0 hc0 hca hcb
    -- the brush as the scan sees it
    obtain ⟨bv, hbv⟩ : ∃ bv : BrushComponent, bv = { c0 with ActorTransform := x0.Transform } :=
      ⟨_, rfl⟩
    have hbvp : bv.ptr = b0.ptr := by rw [hbv]; exact hp
    have hbvm : bv.CollisionStates.find o0.ptr = s.1 := by rw [hbv]; exact hm
    have hbvn : bv.OnCollision.count (b0.ptr, o0.ptr) = s.2 := by rw [hbv]; exact hn
    have hbvfix : { bv with CollisionStates := [], OnCollision := [] } =
        { b0 with CollisionStates := [], OnCollision := [] } := by rw [hbv]; exact hfix
    rw [← hbv] at hstep
    obtain ⟨m, l, hfx⟩ := hfixed v.registry bv
    refine ⟨_, tr, hstep, ?_, ?_⟩
    · refine Sound_put hs hx0 hc0 tr ?_ (Or.inl rfl)
      rw [hfx, hbv]; rfl
    · have ht := htracked v.registry bv E (registry_nodup (sorted_nodup hs.2.2)) hEreg
        (by rw [hEp, hbvp]; exact Ne.symm hne')
      rw [hcongr bv b0 E o0 _ hbvfix hEfix, hEp, hbvp, hbvm, hbvn] at ht
      have hT := Tracks_put_self (fn v.registry bv) (q := o0.ptr) hx0 hxact hc0 hfix
        (by rw [hfx, hbv]) v.AllBrushes tr
      have h1 : (fn v.registry bv).CollisionStates.find o0.ptr = (after b0 o0 s).1 :=
        congrArg Prod.fst ht
      have h2 : (fn v.registry bv).OnCollision.count (b0.ptr, o0.ptr) = (after b0 o0 s).2 :=
        congrArg Prod.snd ht
      rw [h1, h2] at hT
      exact hT
  -- positions of the two brushes differ
  have hpos : ¬ (iA = iB ∧ jA = jB) := by
    rintro ⟨h1, h2⟩
    obtain ⟨xa, ca, hxa, _, hca, hfa, _, _⟩ := hA
    obtain ⟨xb, cb, hxb, _, hcb, hfb, _, _⟩ := hB
    subst h1; subst h2
    rw [hxa] at hxb
    cases hxb
    rw [hca] at hcb
    cases hcb
    have e1 := congrArg BrushComponent.ptr hfa
    have e2 := congrArg BrushComponent.ptr hfb
    exact hne (e1.symm.trans e2)
  by_cases hat : i = iA ∧ j = jA
  · have hnb : ¬ (i = iB ∧ j = jB) := fun hb => hpos ⟨hat.1.symm.trans hb.1, hat.2.symm.trans hb.2⟩
    rw [if_pos hat, if_neg hnb]
    obtain ⟨c', tr, hstep, hsound, htrk⟩ := key iA jA A0 B0 sA hat.1 hat.2 hne hAa hAb hA
      (Tracks_registry hs hB hBreg)
    rw [hstep]
    exact ⟨hsound, hAreg, hBreg, htrk, Tracks_put_other hB hnb _ _ _⟩
  · rw [if_neg hat]
    by_cases hbt : i = iB ∧ j = jB
    · rw [if_pos hbt]
      obtain ⟨c', tr, hstep, hsound, htrk⟩ := key iB jB B0 A0 sB hbt.1 hbt.2 (Ne.symm hne) hBa hBb hB
        (Tracks_registry hs hA hAreg)
      rw [hstep]
      exact ⟨hsound, hAreg, hBreg, Tracks_put_other hA hat _ _ _, htrk⟩
    · rw [if_neg hbt]
      cases hx : v.Actors[i]? with
      | none => rw [hnone v hx]; exact ⟨hs, hAreg, hBreg, hA, hB⟩
      | some x =>
        cases hc : x.Components[j]? with
        | none => rw [hmissing v x hx hc]; exact ⟨hs, hAreg, hBreg, hA, hB⟩
        | some c =>
          obtain ⟨c', ab, tr, hstep, hk, hab⟩ := hform v x c hx hc
          rw [hstep]
          exact ⟨Sound_put hs hx hc tr hk hab, mem_put hAreg hab c' tr, mem_put hBreg hab c' tr,
            Tracks_put_other hA hat _ _ _, Tracks_put_other hB hbt _ _ _⟩

end World
end FureyEngine

namespace FureyEngine

namespace BrushComponent

theorem afterTick_congr (T : Trig) (b b0 E E0 : BrushComponent) (s : Option CollisionState × Nat)
    (hb : { b with CollisionStates := [], OnCollision := [] } =
      { b0 with CollisionStates := [], OnCollision := [] })
    (hE : { E with CollisionStates := [], OnCollision := [] } =
      { E0 with CollisionStates := [], OnCollision := [] }) :
    b.afterTick T E s = b0.afterTick T E0 s := by
  have ht : b.TickLate = b0.TickLate := by
    have := congrArg BrushComponent.TickLate hb
    exact this
  simp only [afterTick, scanned, ht, scanTest_fixed T hb hE]

theorem afterLateTick_congr (T : Trig) (b b0 E E0 : BrushComponent)
    (s : Option CollisionState × Nat)
    (hb : { b with CollisionStates := [], OnCollision := [] } =
      { b0 with CollisionStates := [], OnCollision := [] })
    (hE : { E with CollisionStates := [], OnCollision := [] } =
      { E0 with CollisionStates := [], OnCollision := [] }) :
    b.afterLateTick T E s = b0.afterLateTick T E0 s := by
  have ht : b.TickLate = b0.TickLate := by
    have := congrArg BrushComponent.TickLate hb
    exact this
  simp only [afterLateTick, scanned, ht, scanTest_fixed T hb hE]

theorem afterLateTick_afterTick (T : Trig) (b E : BrushComponent)
    (s : Option CollisionState × Nat) :
    b.afterLateTick T E (b.afterTick T E s) = b.scanned T E s := by
  cases h : b.TickLate <;> simp [afterLateTick, afterTick, h]

end BrushComponent

namespace World

variable {P : Program} {T : Trig} {v : World} {i j iA jA iB jB : Nat}
  {A0 B0 : BrushComponent} {sA sB : Option CollisionState × Nat}

theorem Pair_tickComponent (hcomp : ∀ k, P.component k = {})
    (hne : A0.ptr ≠ B0.ptr) (hAa : A0.Active = true) (hAb : A0.BeginTick = true)
    (hBa : B0.Active = true) (hBb : B0.BeginTick = true)
    (h : v.Pair iA jA iB jB A0 B0 sA sB) :
    (tickComponent P T i j v).Pair iA jA iB jB A0 B0
      (if i = iA ∧ j = jA then A0.afterTick T B0 sA else sA)
      (if i = iB ∧ j = jB then B0.afterTick T A0 sB else sB) := by
  refine Pair_step (tickComponent P T i j) (BrushComponent.Tick T)
    (fun b E s => b.afterTick T E s) (fun v h => tickComponent_none h)
    (fun v x hx hc => tickComponent_missing hx hc) ?_ ?_ (BrushComponent.Tick_fixed T)
    (BrushComponent.Tick_tracked T) (BrushComponent.afterTick_congr T) hne hAa hAb hBa hBb h
  · intro v x c hx hc
    obtain ⟨c', ab, tr, h1, h2, _, h4, _⟩ := tickComponent_form (T := T) hcomp hx hc
    exact ⟨c', ab, tr, h1, h2, h4⟩
  · intro v x b hx hc ha hb
    exact ⟨_, tickComponent_brush hx hc ha hb⟩

theorem Pair_lateComponent (hcomp : ∀ k, P.component k = {})
    (hne : A0.ptr ≠ B0.ptr) (hAa : A0.Active = true) (hAb : A0.BeginTick = true)
    (hBa : B0.Active = true) (hBb : B0.BeginTick = true)
    (h : v.Pair iA jA iB jB A0 B0 sA sB) :
    (lateComponent P T i j v).Pair iA jA iB jB A0 B0
      (if i = iA ∧ j = jA then A0.afterLateTick T B0 sA else sA)
      (if i = iB ∧ j = jB then B0.afterLateTick T A0 sB else sB) := by
  refine Pair_step (lateComponent P T i j) (BrushComponent.LateTick T)
    (fun b E s => b.afterLateTick T E s) (fun v h => lateComponent_none h)
    (fun v x hx hc => lateComponent_missing hx hc) ?_ ?_ (BrushComponent.LateTick_fixed T)
    (BrushComponent.LateTick_tracked T) (BrushComponent.afterLateTick_congr T) hne hAa hAb hBa
    hBb h
  · intro v x c hx hc
    obtain ⟨c', ab, tr, h1, h2, _, h4, _⟩ := lateComponent_form (T := T) hcomp hx hc
    exact ⟨c', ab, tr, h1, h2, h4⟩
  · intro v x b hx hc ha hb
    exact ⟨_, lateComponent_brush hx hc ha hb⟩

/-- A loop over the positions `0 .. n-1` keeps an invariant that each step carries from `j` to
`j + 1`. -/
theorem foldl_range_inv (f : World → Nat → World) (Q : Nat → World → Prop) (n : Nat)
    (h : ∀ j v, j < n → Q j v → Q (j + 1) (f v j)) (v : World) (h0 : Q 0 v) :
    Q n ((List.range n).foldl f v) := by
  induction n with
  | zero => simpa using h0
  | succ n ih =>
    rw [List.range_succ, List.foldl_append]
    simp only [List.foldl_cons, List.foldl_nil]
    exact h n _ (Nat.lt_succ_self n) (ih (fun j v hj => h j v (Nat.lt_succ_of_lt hj)))

/-- The progress of a tracked value through a phase. -/
theorem progress_step (after : Option CollisionState × Nat → Option CollisionState × Nat)
    (s : Option CollisionState × Nat) (i0 j0 i j : Nat) :
    (if i = i0 ∧ j = j0 then after (if visited i0 j0 i j then after s else s)
      else (if visited i0 j0 i j then after s else s)) =
      if visited i0 j0 i (j + 1) then after s else s := by
  by_cases h : i = i0 ∧ j = j0
  · obtain ⟨rfl, rfl⟩ := h
    have h1 : ¬ visited i j i j := by simp [visited]
    have h2 : visited i j i (j + 1) := by simp [visited]
    simp [h1, h2]
  · rw [if_neg h]
    have : visited i0 j0 i j ↔ visited i0 j0 i (j + 1) := by
      simp only [visited]
      constructor
      · rintro (h1 | ⟨h1, h2⟩)
        · exact Or.inl h1
        · exact Or.inr ⟨h1, Nat.lt_succ_of_lt h2⟩
      · rintro (h1 | ⟨h1, h2⟩)
        · exact Or.inl h1
        · refine Or.inr ⟨h1, ?_⟩
          rcases Nat.lt_succ_iff_lt_or_eq.mp h2 with h3 | h3
          · exact h3
          · exact absurd ⟨h1.symm, h3.symm⟩ h
    by_cases hv : visited i0 j0 i j
    · rw [if_pos hv, if_pos (this.mp hv)]
    · rw [if_neg hv, if_neg (fun h' => hv (this.mpr h'))]

end World
end FureyEngine

namespace FureyEngine
namespace World

variable {P : Program} {T : Trig} {v : World} {i j iA jA iB jB : Nat}
  {A0 B0 : BrushComponent} {sA sB : Option CollisionState × Nat}

theorem tickPhase_inv (Q : Nat → World → Prop) (n : Nat)
    (hlen : ∀ i v, Q i v → v.Actors.length = n)
    (hstep : ∀ i v, i < n → Q i v → Q (i + 1) (tickActor P T i v)) :
    ∀ (fuel i : Nat) (v : World), i ≤ n → n - i < fuel → Q i v →
      ∃ v', tickPhase P T fuel i v = some v' ∧ Q n v' := by
  intro fuel
  induction fuel with
  | zero => intro i v _ hf; exact absurd hf (Nat.not_lt_zero _)
  | succ fuel ih =>
    intro i v hi hf hq
    unfold tickPhase
    rw [hlen i v hq]
    by_cases hlt : i < n
    · rw [if_pos hlt]
      exact ih (i + 1) _ hlt (by omega) (hstep i v hlt hq)
    · rw [if_neg hlt]
      have : i = n := by omega
      subst this
      exact ⟨v, rfl, hq⟩

theorem latePhase_inv (Q : Nat → World → Prop) (n : Nat)
    (hlen : ∀ i v, Q i v → v.Actors.length = n)
    (hstep : ∀ i v, i < n → Q i v → Q (i + 1) (lateActor P T i v)) :
    ∀ (fuel i : Nat) (v : World), i ≤ n → n - i < fuel → Q i v →
      ∃ v', latePhase P T fuel i v = some v' ∧ Q n v' := by
  intro fuel
  induction fuel with
  | zero => intro i v _ hf; exact absurd hf (Nat.not_lt_zero _)
  | succ fuel ih =>
    intro i v hi hf hq
    unfold latePhase
    rw [hlen i v hq]
    by_cases hlt : i < n
    · rw [if_pos hlt]
      exact ih (i + 1) _ hlt (by omega) (hstep i v hlt hq)
    · rw [if_neg hlt]
      have : i = n := by omega
      subst this
      exact ⟨v, rfl, hq⟩

theorem roster_length {v w : World} (h : v.roster = w.roster) :
    v.Actors.length = w.Actors.length := by
  have := congrArg (fun r : Bool × List Ptr => r.2.length) h
  simpa [roster] using this

theorem putComponent_roster (c' : Component) (ab : List Ptr) (tr : List Call) :
    (v.putComponent i j c' ab tr).roster = v.roster := by
  have h := putComponent_map (v := v) (i := i) (j := j) Actor.ptr (fun a cs => rfl) c' ab tr
  simp only [roster, h]
  rfl

theorem tickComponent_roster (hcomp : ∀ k, P.component k = {}) :
    (tickComponent P T i j v).roster = v.roster := by
  cases hx : v.Actors[i]? with
  | none => rw [tickComponent_none hx]
  | some x =>
    cases hc : x.Components[j]? with
    | none => rw [tickComponent_missing hx hc]
    | some c =>
      obtain ⟨c', ab, tr, h1, _⟩ := tickComponent_form (T := T) hcomp hx hc
      rw [h1, putComponent_roster]

theorem lateComponent_roster (hcomp : ∀ k, P.component k = {}) :
    (lateComponent P T i j v).roster = v.roster := by
  cases hx : v.Actors[i]? with
  | none => rw [lateComponent_none hx]
  | some x =>
    cases hc : x.Components[j]? with
    | none => rw [lateComponent_missing hx hc]
    | some c =>
      obtain ⟨c', ab, tr, h1, _⟩ := lateComponent_form (T := T) hcomp hx hc
      rw [h1, putComponent_roster]

/-- A tracked pair only depends on the actors, the cleanup queue and the registry. -/
theorem Pair_of_eq {v' : World} (h1 : v'.Actors = v.Actors) (h2 : v'.Cleanup = v.Cleanup)
    (h3 : v'.AllBrushes = v.AllBrushes) (h : v.Pair iA jA iB jB A0 B0 sA sB) :
    v'.Pair iA jA iB jB A0 B0 sA sB := by
  unfold Pair Sound Tracks brushPtrs at *
  rw [h1, h2, h3]
  exact h

theorem Pair_beginTick (h : v.Pair iA jA iB jB A0 B0 sA sB) :
    ({ v with Actors := v.Actors.modify (fun a => { a with BeginTick := true }) i } : World).Pair
      iA jA iB jB A0 B0 sA sB := by
  have hk : ∀ (i0 j0 : Nat) (b0 : BrushComponent) (q : Ptr) (m : Option CollisionState)
      (n : Nat), v.Tracks i0 j0 b0 q m n →
      ({ v with Actors := v.Actors.modify (fun a => { a with BeginTick := true }) i } :
        World).Tracks i0 j0 b0 q m n := by
    intro i0 j0 b0 q m n ⟨x, c, hx, ha, hc, hrest⟩
    by_cases hi : i = i0
    · subst hi
      exact ⟨{ x with BeginTick := true }, c, by simp [hx], ha, hc, hrest⟩
    · exact ⟨x, c, by simp [List.getElem?_modify_ne _ _ hi, hx], ha, hc, hrest⟩
  obtain ⟨⟨hs1, hs2, hs3⟩, hAreg, hBreg, hA, hB⟩ := h
  refine ⟨⟨hs1, ?_, hs3⟩, hAreg, hBreg, hk _ _ _ _ _ _ hA, hk _ _ _ _ _ _ hB⟩
  have : (v.Actors.modify (fun a => { a with BeginTick := true }) i).map
      (fun a => a.Components.filterMap Component.brushPtr) =
      v.Actors.map (fun a => a.Components.filterMap Component.brushPtr) :=
    List.map_modify_of_eq (fun a : Actor => a.Components.filterMap Component.brushPtr)
      (fun a => { a with BeginTick := true }) (fun a => rfl) _ _
  simp only [brushPtrs, List.flatMap, this] at hs2 ⊢
  exact hs2

end World
end FureyEngine

namespace FureyEngine
namespace World

variable {P : Program} {T : Trig} {v : World} {i j iA jA iB jB : Nat}
  {A0 B0 : BrushComponent} {sA sB : Option CollisionState × Nat}

theorem visited_next {i0 j0 i n : Nat} (h : i0 = i → j0 < n) :
    visited i0 j0 i n ↔ visited i0 j0 (i + 1) 0 := by
  simp only [visited]
  constructor
  · rintro (h1 | ⟨h1, _⟩)
    · exact Or.inl (Nat.lt_succ_of_lt h1)
    · exact Or.inl (by omega)
  · rintro (h1 | ⟨_, h2⟩)
    · rcases Nat.lt_succ_iff_lt_or_eq.mp h1 with h3 | h3
      · exact Or.inl h3
      · exact Or.inr ⟨h3, h h3⟩
    · exact absurd h2 (Nat.not_lt_zero _)

theorem visited_skip {i0 j0 i : Nat} (h : i0 ≠ i) :
    visited i0 j0 i 0 ↔ visited i0 j0 (i + 1) 0 := by
  simp only [visited]
  constructor
  · rintro (h1 | ⟨h1, _⟩)
    · exact Or.inl (Nat.lt_succ_of_lt h1)
    · exact absurd h1 h
  · rintro (h1 | ⟨_, h2⟩)
    · rcases Nat.lt_succ_iff_lt_or_eq.mp h1 with h3 | h3
      · exact Or.inl h3
      · exact absurd h3 h
    · exact absurd h2 (Nat.not_lt_zero _)

/-- The component loop of one actor carries a tracked pair from the start of the actor to the
start of the next one. -/
theorem Pair_components (stepc : Nat → World → World)
    (after : BrushComponent → BrushComponent → Option CollisionState × Nat →
      Option CollisionState × Nat)
    (hstepc : ∀ (j : Nat) (v : World) (sA sB : Option CollisionState × Nat),
      v.Pair iA jA iB jB A0 B0 sA sB →
      (stepc j v).Pair iA jA iB jB A0 B0
        (if i = iA ∧ j = jA then after A0 B0 sA else sA)
        (if i = iB ∧ j = jB then after B0 A0 sB else sB))
    (hlenc : ∀ (j : Nat) (v : World), (stepc j v).roster = v.roster)
    (n : Nat) (hA : iA = i → jA < n) (hB : iB = i → jB < n)
    (h : v.Pair iA jA iB jB A0 B0
      (if visited iA jA i 0 then after A0 B0 sA else sA)
      (if visited iB jB i 0 then after B0 A0 sB else sB)) :
    ((List.range n).foldl (fun w j => stepc j w) v).Pair iA jA iB jB A0 B0
        (if visited iA jA (i + 1) 0 then after A0 B0 sA else sA)
        (if visited iB jB (i + 1) 0 then after B0 A0 sB else sB) ∧
      ((List.range n).foldl (fun w j => stepc j w) v).roster = v.roster := by
  have key := foldl_range_inv (fun w j => stepc j w)
    (fun j w => w.Pair iA jA iB jB A0 B0
      (if visited iA jA i j then after A0 B0 sA else sA)
      (if visited iB jB i j then after B0 A0 sB else sB) ∧ w.roster = v.roster) n
    (by
      intro j w _ ⟨hp, hl⟩
      refine ⟨?_, (hlenc j w).trans hl⟩
      have := hstepc j w _ _ hp
      rw [progress_step (after A0 B0) sA iA jA i j,
        progress_step (after B0 A0) sB iB jB i j] at this
      exact this) v ⟨h, rfl⟩
  obtain ⟨hp, hl⟩ := key
  refine ⟨?_, hl⟩
  have eA : (if visited iA jA i n then after A0 B0 sA else sA) =
      (if visited iA jA (i + 1) 0 then after A0 B0 sA else sA) := by
    by_cases hv : visited iA jA i n
    · rw [if_pos hv, if_pos ((visited_next hA).mp hv)]
    · rw [if_neg hv, if_neg (fun h' => hv ((visited_next hA).mpr h'))]
  have eB : (if visited iB jB i n then after B0 A0 sB else sB) =
      (if visited iB jB (i + 1) 0 then after B0 A0 sB else sB) := by
    by_cases hv : visited iB jB i n
    · rw [if_pos hv, if_pos ((visited_next hB).mp hv)]
    · rw [if_neg hv, if_neg (fun h' => hv ((visited_next hB).mpr h'))]
  rw [eA, eB] at hp
  exact hp

/-- A tracked brush sits in an active actor and at a valid component position. -/
theorem Tracks_pos {i0 j0 : Nat} {b0 : BrushComponent} {q : Ptr} {m : Option CollisionState}
    {n : Nat} {x : Actor} (h : v.Tracks i0 j0 b0 q m n) (hx : v.Actors[i0]? = some x) :
    x.Active = true ∧ j0 < x.Components.length := by
  obtain ⟨x0, c0, hx0, ha, hc0, _⟩ := h
  rw [hx] at hx0
  cases hx0
  exact ⟨ha, (List.getElem?_eq_some.mp hc0).1⟩

/-- An actor step that skips the actor keeps the progress of the tracked values. -/
theorem Pair_skip (after : BrushComponent → BrushComponent → Option CollisionState × Nat →
      Option CollisionState × Nat) (hA : iA ≠ i) (hB : iB ≠ i)
    (h : v.Pair iA jA iB jB A0 B0
      (if visited iA jA i 0 then after A0 B0 sA else sA)
      (if visited iB jB i 0 then after B0 A0 sB else sB)) :
    v.Pair iA jA iB jB A0 B0
      (if visited iA jA (i + 1) 0 then after A0 B0 sA else sA)
      (if visited iB jB (i + 1) 0 then after B0 A0 sB else sB) := by
  have eA : (if visited iA jA i 0 then after A0 B0 sA else sA) =
      (if visited iA jA (i + 1) 0 then after A0 B0 sA else sA) := by
    by_cases hv : visited iA jA i 0
    · rw [if_pos hv, if_pos ((visited_skip hA).mp hv)]
    · rw [if_neg hv, if_neg (fun h' => hv ((visited_skip hA).mpr h'))]
  have eB : (if visited iB jB i 0 then after B0 A0 sB else sB) =
      (if visited iB jB (i + 1) 0 then after B0 A0 sB else sB) := by
    by_cases hv : visited iB jB i 0
    · rw [if_pos hv, if_pos ((visited_skip hB).mp hv)]
    · rw [if_neg hv, if_neg (fun h' => hv ((visited_skip hB).mpr h'))]
  rw [eA, eB] at h
  exact h

theorem tickActor_none (h : v.Actors[i]? = none) : tickActor P T i v = v := by
  simp [tickActor, h]

theorem tickActor_inactive {x : Actor} (hx : v.Actors[i]? = some x) (h : x.Active = false) :
    tickActor P T i v = v := by
  simp [tickActor, hx, Actor.IsActive, h]

theorem tickActor_base {x : Actor} (hx : v.Actors[i]? = some x) (h : x.Active = true)
    (hcls : P.actor x.cls = {}) :
    ∃ tr, tickActor P T i v =
      (List.range x.Components.length).foldl (fun w j => w.tickComponent P T i j)
        { v with Trace := v.Trace ++ tr } ∧ ∀ e ∈ tr, e.object = .actor x.ptr := by
  cases hb : x.BeginTick with
  | true =>
    refine ⟨[⟨.actor x.ptr, .Tick⟩, ⟨.actor x.ptr, .OnTick⟩], ?_, ?_⟩
    · simp [tickActor, hx, Actor.IsActive, h, hb, hcls, run_nil, call_call_eq]
    · intro e he
      simp at he
      rcases he with rfl | rfl <;> rfl
  | false =>
    refine ⟨[⟨.actor x.ptr, .Spawn⟩, ⟨.actor x.ptr, .OnSpawn⟩], ?_, ?_⟩
    · simp [tickActor, hx, Actor.IsActive, h, hb, hcls, run_nil, call_call_eq]
    · intro e he
      simp at he
      rcases he with rfl | rfl <;> rfl

theorem Pair_tickActor (hactor : ∀ k, P.actor k = {}) (hcomp : ∀ k, P.component k = {})
    (hne : A0.ptr ≠ B0.ptr) (hAa : A0.Active = true) (hAb : A0.BeginTick = true)
    (hBa : B0.Active = true) (hBb : B0.BeginTick = true)
    (h : v.Pair iA jA iB jB A0 B0
      (if visited iA jA i 0 then A0.afterTick T B0 sA else sA)
      (if visited iB jB i 0 then B0.afterTick T A0 sB else sB)) :
    (tickActor P T i v).Pair iA jA iB jB A0 B0
      (if visited iA jA (i + 1) 0 then A0.afterTick T B0 sA else sA)
      (if visited iB jB (i + 1) 0 then B0.afterTick T A0 sB else sB) ∧
    (tickActor P T i v).roster = v.roster := by
  have hTA := h.2.2.2.1
  have hTB := h.2.2.2.2
  cases hx : v.Actors[i]? with
  | none =>
    rw [tickActor_none hx]
    refine ⟨Pair_skip (fun b E s => b.afterTick T E s) ?_ ?_ h, rfl⟩
    · rintro rfl
      obtain ⟨x0, _, hx0, _⟩ := hTA
      rw [hx] at hx0; cases hx0
    · rintro rfl
      obtain ⟨x0, _, hx0, _⟩ := hTB
      rw [hx] at hx0; cases hx0
  | some x =>
    cases hact : x.Active with
    | false =>
      rw [tickActor_inactive hx hact]
      refine ⟨Pair_skip (fun b E s => b.afterTick T E s) ?_ ?_ h, rfl⟩
      · rintro rfl
        have := (Tracks_pos hTA hx).1
        rw [hact] at this
        cases this
      · rintro rfl
        have := (Tracks_pos hTB hx).1
        rw [hact] at this
        cases this
    | true =>
      obtain ⟨tr, heq, _⟩ := tickActor_base (P := P) (T := T) hx hact (hactor _)
      rw [heq]
      exact Pair_components (i := i) (fun j w => w.tickComponent P T i j)
        (fun b E s => b.afterTick T E s)
        (fun j w sA sB hp => Pair_tickComponent hcomp hne hAa hAb hBa hBb hp)
        (fun j w => tickComponent_roster hcomp) x.Components.length
        (fun hi => by subst hi; exact (Tracks_pos hTA hx).2)
        (fun hi => by subst hi; exact (Tracks_pos hTB hx).2)
        (Pair_of_eq (v := v) rfl rfl rfl h)

theorem lateActor_none (h : v.Actors[i]? = none) : lateActor P T i v = v := by
  simp [lateActor, h]

theorem lateActor_inactive {x : Actor} (hx : v.Actors[i]? = some x) (h : x.Active = false) :
    lateActor P T i v = v := by
  simp [lateActor, hx, Actor.IsActive, h]

theorem lateActor_base {x : Actor} (hx : v.Actors[i]? = some x) (h : x.Active = true)
    (hcls : P.actor x.cls = {}) :
    ∃ tr, (lateActor P T i v =
        (List.range x.Components.length).foldl (fun w j => w.lateComponent P T i j)
          { v with Trace := v.Trace ++ tr } ∨
      lateActor P T i v =
        (List.range x.Components.length).foldl (fun w j => w.lateComponent P T i j)
          { v with
            Trace := v.Trace ++ tr
            Actors := v.Actors.modify (fun a => { a with BeginTick := true }) i }) ∧
      ∀ e ∈ tr, e.object = .actor x.ptr := by
  cases hb : x.BeginTick with
  | true =>
    refine ⟨[⟨.actor x.ptr, .LateTick⟩, ⟨.actor x.ptr, .OnLateTick⟩], Or.inl ?_, ?_⟩
    · simp [lateActor, hx, Actor.IsActive, h, hb, hcls, run_nil, call_call_eq]
    · intro e he
      simp at he
      rcases he with rfl | rfl <;> rfl
  | false =>
    refine ⟨[⟨.actor x.ptr, .Start⟩, ⟨.actor x.ptr, .OnStart⟩], Or.inr ?_, ?_⟩
    · simp [lateActor, hx, Actor.IsActive, h, hb, hcls, run_nil, call_call_eq]
    · intro e he
      simp at he
      rcases he with rfl | rfl <;> rfl

theorem Pair_lateActor (hactor : ∀ k, P.actor k = {}) (hcomp : ∀ k, P.component k = {})
    (hne : A0.ptr ≠ B0.ptr) (hAa : A0.Active = true) (hAb : A0.BeginTick = true)
    (hBa : B0.Active = true) (hBb : B0.BeginTick = true)
    (h : v.Pair iA jA iB jB A0 B0
      (if visited iA jA i 0 then A0.afterLateTick T B0 sA else sA)
      (if visited iB jB i 0 then B0.afterLateTick T A0 sB else sB)) :
    (lateActor P T i v).Pair iA jA iB jB A0 B0
      (if visited iA jA (i + 1) 0 then A0.afterLateTick T B0 sA else sA)
      (if visited iB jB (i + 1) 0 then B0.afterLateTick T A0 sB else sB) ∧
    (lateActor P T i v).roster = v.roster := by
  have hTA := h.2.2.2.1
  have hTB := h.2.2.2.2
  cases hx : v.Actors[i]? with
  | none =>
    rw [lateActor_none hx]
    refine ⟨Pair_skip (fun b E s => b.afterLateTick T E s) ?_ ?_ h, rfl⟩
    · rintro rfl
      obtain ⟨x0, _, hx0, _⟩ := hTA
      rw [hx] at hx0; cases hx0
    · rintro rfl
      obtain ⟨x0, _, hx0, _⟩ := hTB
      rw [hx] at hx0; cases hx0
  | some x =>
    cases hact : x.Active with
    | false =>
      rw [lateActor_inactive hx hact]
      refine ⟨Pair_skip (fun b E s => b.afterLateTick T E s) ?_ ?_ h, rfl⟩
      · rintro rfl
        have := (Tracks_pos hTA hx).1
        rw [hact] at this
        cases this
      · rintro rfl
        have := (Tracks_pos hTB hx).1
        rw [hact] at this
        cases this
    | true =>
      obtain ⟨tr, heq, _⟩ := lateActor_base (P := P) (T := T) hx hact (hactor _)
      have hgen : ∀ w1 : World, w1.roster = v.roster →
          w1.Pair iA jA iB jB A0 B0
            (if visited iA jA i 0 then A0.afterLateTick T B0 sA else sA)
            (if visited iB jB i 0 then B0.afterLateTick T A0 sB else sB) →
          ((List.range x.Components.length).foldl (fun w j => w.lateComponent P T i j)
            w1).Pair iA jA iB jB A0 B0
            (if visited iA jA (i + 1) 0 then A0.afterLateTick T B0 sA else sA)
            (if visited iB jB (i + 1) 0 then B0.afterLateTick T A0 sB else sB) ∧
          ((List.range x.Components.length).foldl (fun w j => w.lateComponent P T i j)
            w1).roster = v.roster := by
        intro w1 hl hp
        have := Pair_components (i := i) (fun j w => w.lateComponent P T i j)
          (fun b E s => b.afterLateTick T E s)
          (fun j w sA sB hp => Pair_lateComponent hcomp hne hAa hAb hBa hBb hp)
          (fun j w => lateComponent_roster hcomp) x.Components.length
          (fun hi => by subst hi; exact (Tracks_pos hTA hx).2)
          (fun hi => by subst hi; exact (Tracks_pos hTB hx).2) hp
        rw [hl] at this
        exact this
      rcases heq with heq | heq
      · rw [heq]
        exact hgen _ rfl (Pair_of_eq (v := v) rfl rfl rfl h)
      · rw [heq]
        refine hgen _ ?_ ?_
        · simp only [roster]
          rw [List.map_modify_of_eq Actor.ptr (fun a => { a with BeginTick := true })
            (fun a => rfl)]
        · exact Pair_of_eq (v := { v with
            Actors := v.Actors.modify (fun a => { a with BeginTick := true }) i }) rfl rfl rfl
            (Pair_beginTick h)

end World
end FureyEngine

namespace FureyEngine
namespace World

variable {P : Program} {T : Trig} {v w : World} {i j iA jA iB jB : Nat}
  {A0 B0 : BrushComponent} {sA sB : Option CollisionState × Nat}

theorem Tracks_lt {i0 j0 : Nat} {b0 : BrushComponent} {q : Ptr} {m : Option CollisionState}
    {n : Nat} (h : v.Tracks i0 j0 b0 q m n) : i0 < v.Actors.length := by
  obtain ⟨x0, _, hx0, _⟩ := h
  exact (List.getElem?_eq_some.mp hx0).1

theorem Pair_tickPhase (hactor : ∀ k, P.actor k = {}) (hcomp : ∀ k, P.component k = {})
    (hne : A0.ptr ≠ B0.ptr) (hAa : A0.Active = true) (hAb : A0.BeginTick = true)
    (hBa : B0.Active = true) (hBb : B0.BeginTick = true)
    (h : v.Pair iA jA iB jB A0 B0 sA sB) (fuel : Nat) (hfuel : v.Actors.length < fuel) :
    ∃ v', tickPhase P T fuel 0 v = some v' ∧
      v'.Pair iA jA iB jB A0 B0 (A0.afterTick T B0 sA) (B0.afterTick T A0 sB) ∧
      v'.roster = v.roster := by
  have hiA := Tracks_lt h.2.2.2.1
  have hiB := Tracks_lt h.2.2.2.2
  obtain ⟨v', h1, h2, h3⟩ := tickPhase_inv (P := P) (T := T)
    (fun i u => u.Pair iA jA iB jB A0 B0
      (if visited iA jA i 0 then A0.afterTick T B0 sA else sA)
      (if visited iB jB i 0 then B0.afterTick T A0 sB else sB) ∧ u.roster = v.roster)
    v.Actors.length (fun i u hq => roster_length hq.2)
    (fun i u _ hq => by
      obtain ⟨hp, hr⟩ := Pair_tickActor hactor hcomp hne hAa hAb hBa hBb hq.1
      exact ⟨hp, hr.trans hq.2⟩)
    fuel 0 v (Nat.zero_le _) (by omega)
    ⟨by
      have e1 : ¬ visited iA jA 0 0 := by simp [visited]
      have e2 : ¬ visited iB jB 0 0 := by simp [visited]
      rw [if_neg e1, if_neg e2]; exact h, rfl⟩
  refine ⟨v', h1, ?_, h3⟩
  have e1 : visited iA jA v.Actors.length 0 := Or.inl hiA
  have e2 : visited iB jB v.Actors.length 0 := Or.inl hiB
  rw [if_pos e1, if_pos e2] at h2
  exact h2

theorem Pair_latePhase (hactor : ∀ k, P.actor k = {}) (hcomp : ∀ k, P.component k = {})
    (hne : A0.ptr ≠ B0.ptr) (hAa : A0.Active = true) (hAb : A0.BeginTick = true)
    (hBa : B0.Active = true) (hBb : B0.BeginTick = true)
    (h : v.Pair iA jA iB jB A0 B0 sA sB) (fuel : Nat) (hfuel : v.Actors.length < fuel) :
    ∃ v', latePhase P T fuel 0 v = some v' ∧
      v'.Pair iA jA iB jB A0 B0 (A0.afterLateTick T B0 sA) (B0.afterLateTick T A0 sB) ∧
      v'.roster = v.roster := by
  have hiA := Tracks_lt h.2.2.2.1
  have hiB := Tracks_lt h.2.2.2.2
  obtain ⟨v', h1, h2, h3⟩ := latePhase_inv (P := P) (T := T)
    (fun i u => u.Pair iA jA iB jB A0 B0
      (if visited iA jA i 0 then A0.afterLateTick T B0 sA else sA)
      (if visited iB jB i 0 then B0.afterLateTick T A0 sB else sB) ∧ u.roster = v.roster)
    v.Actors.length (fun i u hq => roster_length hq.2)
    (fun i u _ hq => by
      obtain ⟨hp, hr⟩ := Pair_lateActor hactor hcomp hne hAa hAb hBa hBb hq.1
      exact ⟨hp, hr.trans hq.2⟩)
    fuel 0 v (Nat.zero_le _) (by omega)
    ⟨by
      have e1 : ¬ visited iA jA 0 0 := by simp [visited]
      have e2 : ¬ visited iB jB 0 0 := by simp [visited]
      rw [if_neg e1, if_neg e2]; exact h, rfl⟩
  refine ⟨v', h1, ?_, h3⟩
  have e1 : visited iA jA v.Actors.length 0 := Or.inl hiA
  have e2 : visited iB jB v.Actors.length 0 := Or.inl hiB
  rw [if_pos e1, if_pos e2] at h2
  exact h2

theorem cleanup_of_empty (h : v.Cleanup = []) :
    v.cleanup = { v with Cleanup := [], TotalTicks := v.TotalTicks + 1 } := by
  simp [cleanup, h]

/-- One World::Update of a world whose classes are base classes scans each brush of a tracked
pair once. -/
theorem Pair_Update (A0 B0 : BrushComponent) (hactor : ∀ k, P.actor k = {})
    (hcomp : ∀ k, P.component k = {})
    (hne : A0.ptr ≠ B0.ptr) (hAa : A0.Active = true) (hAb : A0.BeginTick = true)
    (hBa : B0.Active = true) (hBb : B0.BeginTick = true) (hw : w.Active = true)
    (h : w.Pair iA jA iB jB A0 B0 sA sB) (fuel : Nat) (hfuel : w.Actors.length < fuel) :
    ∃ w', Update P T fuel w = some w' ∧
      w'.Pair iA jA iB jB A0 B0 (A0.scanned T B0 sA) (B0.scanned T A0 sB) ∧
      w'.roster = w.roster := by
  have main : ∀ (w1 : World), w1.Actors = w.Actors → w1.Cleanup = w.Cleanup →
      w1.AllBrushes = w.AllBrushes → w1.Active = w.Active → ∀ (o1 o2 : Object) (m1 m2 : Method),
      ∃ w2 w4, tickPhase P T fuel 0 w1 = some w2 ∧
        latePhase P T fuel 0 ((w2.call o1 m1).call o2 m2) = some w4 ∧
        w4.Pair iA jA iB jB A0 B0 (A0.scanned T B0 sA) (B0.scanned T A0 sB) ∧
        w4.roster = w.roster := by
    intro w1 e1 e2 e3 e4 o1 o2 m1 m2
    have hr1 : w1.roster = w.roster := by simp [roster, e1, e4]
    obtain ⟨w2, h21, h22, h23⟩ := Pair_tickPhase (T := T) hactor hcomp hne hAa hAb hBa hBb
      (Pair_of_eq e1 e2 e3 h) fuel (by rw [e1]; exact hfuel)
    have hp3 : ((w2.call o1 m1).call o2 m2).Pair iA jA iB jB A0 B0 (A0.afterTick T B0 sA)
        (B0.afterTick T A0 sB) := Pair_of_eq (v := w2) rfl rfl rfl h22
    have hl3 : ((w2.call o1 m1).call o2 m2).Actors.length < fuel := by
      have := roster_length (h23.trans hr1)
      simp only [call]
      omega
    obtain ⟨w4, h41, h42, h43⟩ := Pair_latePhase (T := T) hactor hcomp hne hAa hAb hBa hBb
      hp3 fuel hl3
    rw [BrushComponent.afterLateTick_afterTick, BrushComponent.afterLateTick_afterTick] at h42
    refine ⟨w2, w4, h21, h41, h42, ?_⟩
    rw [h43]
    have : ((w2.call o1 m1).call o2 m2).roster = w2.roster := rfl
    rw [this, h23, hr1]
  have fin : ∀ (w4 : World) (b : Bool),
      w4.Pair iA jA iB jB A0 B0 (A0.scanned T B0 sA) (B0.scanned T A0 sB) →
      w4.roster = w.roster →
      ({ w4 with BeginTick := b } : World).cleanup.Pair iA jA iB jB A0 B0 (A0.scanned T B0 sA)
        (B0.scanned T A0 sB) ∧ ({ w4 with BeginTick := b } : World).cleanup.roster = w.roster := by
    intro w4 b hp hr
    have hc : w4.Cleanup = [] := hp.1.1
    rw [cleanup_of_empty (v := { w4 with BeginTick := b }) hc]
    exact ⟨Pair_of_eq (v := w4) rfl hc.symm rfl hp, hr⟩
  unfold Update
  simp only [hw, Bool.not_true, Bool.false_eq_true, if_false]
  cases hb : w.BeginTick with
  | true =>
    simp only [if_true]
    obtain ⟨w2, w4, h2, h4, hp, hr⟩ := main ((w.call .world .Tick).call .world .OnTick)
      rfl rfl rfl rfl .world .world .LateTick .OnLateTick
    rw [h2]
    simp only
    rw [h4]
    simp only
    have := fin w4 w4.BeginTick hp hr
    exact ⟨_, rfl, this⟩
  | false =>
    simp only [Bool.false_eq_true, if_false]
    obtain ⟨w2, w4, h2, h4, hp, hr⟩ := main ((w.call .world .Load).call .world .OnLoad)
      rfl rfl rfl rfl .world .world .Start .OnStart
    rw [h2]
    simp only
    rw [h4]
    simp only
    have := fin w4 true hp hr
    exact ⟨_, rfl, this⟩

end World
end FureyEngine

namespace FureyEngine
namespace World

variable {P : Program} {T : Trig} {v w : World} {i j iA jA iB jB : Nat}
  {A0 B0 : BrushComponent} {sA sB : Option CollisionState × Nat}

theorem Tracks_find {i0 j0 : Nat} {b0 : BrushComponent} {q : Ptr} {m : Option CollisionState}
    {n : Nat} (hs : v.Sound) (h : v.Tracks i0 j0 b0 q m n) :
    ∃ E, v.findBrush b0.ptr = some E ∧ E.ptr = b0.ptr ∧ E.CollisionStates.find q = m ∧
      E.OnCollision.count (b0.ptr, q) = n := by
  obtain ⟨x0, c0, hx0, _, hc0, hfix, hm, hn⟩ := h
  have hp : c0.ptr = b0.ptr := by
    have := congrArg BrushComponent.ptr hfix
    exact this
  have hf := findBrush_of_pos hs.2.1 hx0 hc0
  rw [← hp]
  exact ⟨_, hf, rfl, hm, by rw [hp]; exact hn⟩

/-- What the world reports about a tracked pair. -/
theorem Pair_read (h : v.Pair iA jA iB jB A0 B0 sA sB) :
    v.CollisionStateWith A0.ptr B0.ptr = sA.1.getD CollisionState.NONE ∧
    v.collisionCalls A0.ptr B0.ptr = sA.2 ∧
    v.CollisionStateWith B0.ptr A0.ptr = sB.1.getD CollisionState.NONE ∧
    v.collisionCalls B0.ptr A0.ptr = sB.2 := by
  obtain ⟨hs, _, _, hA, hB⟩ := h
  obtain ⟨EA, hfA, hpA, hmA, hnA⟩ := Tracks_find hs hA
  obtain ⟨EB, hfB, hpB, hmB, hnB⟩ := Tracks_find hs hB
  simp only [CollisionStateWith, collisionCalls, hfA, hfB, BrushComponent.CollisionStateWith_eq,
    hpA, hpB, hmA, hmB, hnA, hnB, and_self]

theorem moveActors_getElem? (g : Ptr → Transform) (i : Nat) :
    (v.moveActors g).Actors[i]? = (v.Actors[i]?).map (fun a => { a with Transform := g a.ptr }) := by
  simp [moveActors]

theorem Tracks_move {i0 j0 : Nat} {b0 : BrushComponent} {q : Ptr} {m : Option CollisionState}
    {n : Nat} {p : Ptr} (g : Ptr → Transform) (h : v.Tracks i0 j0 b0 q m n)
    (hp : v.roster.2[i0]? = some p) :
    (v.moveActors g).Tracks i0 j0 (b0.movedTo (g p)) q m n := by
  obtain ⟨x0, c0, hx0, ha, hc0, hfix, hm, hn⟩ := h
  have hp' : x0.ptr = p := by
    simp only [roster, List.getElem?_map, hx0, Option.map_some', Option.some.injEq] at hp
    exact hp
  refine ⟨{ x0 with Transform := g x0.ptr }, c0, ?_, ha, hc0, ?_, hm, hn⟩
  · rw [moveActors_getElem?, hx0]; rfl
  · simp only [BrushComponent.movedTo, hp']
    have e1 := congrArg BrushComponent.ptr hfix
    have e2 := congrArg BrushComponent.Active hfix
    have e3 := congrArg BrushComponent.BeginTick hfix
    have e4 := congrArg BrushComponent.Bounds hfix
    have e5 := congrArg BrushComponent.Trigger hfix
    have e6 := congrArg BrushComponent.Layer hfix
    have e7 := congrArg BrushComponent.TickLate hfix
    simp only at e1 e2 e3 e4 e5 e6 e7
    rw [e1, e2, e3, e4, e5, e6, e7]

theorem Pair_move {pA pB : Ptr} (g : Ptr → Transform) (h : v.Pair iA jA iB jB A0 B0 sA sB)
    (hpA : v.roster.2[iA]? = some pA) (hpB : v.roster.2[iB]? = some pB) :
    (v.moveActors g).Pair iA jA iB jB (A0.movedTo (g pA)) (B0.movedTo (g pB)) sA sB := by
  obtain ⟨⟨hs1, hs2, hs3⟩, hAreg, hBreg, hA, hB⟩ := h
  refine ⟨⟨hs1, ?_, hs3⟩, hAreg, hBreg, Tracks_move g hA hpA, Tracks_move g hB hpB⟩
  simp only [brushPtrs, moveActors, List.flatMap_map] at hs2 ⊢
  exact hs2

theorem moveActors_roster (g : Ptr → Transform) : (v.moveActors g).roster = v.roster := by
  simp [roster, moveActors, Function.comp_def]

/-- One frame: the host moves the actors, then the world is updated. -/
theorem Pair_frame (A0 B0 : BrushComponent) (hactor : ∀ k, P.actor k = {})
    (hcomp : ∀ k, P.component k = {})
    (hne : A0.ptr ≠ B0.ptr) (hAa : A0.Active = true) (hAb : A0.BeginTick = true)
    (hBa : B0.Active = true) (hBb : B0.BeginTick = true) (hw : v.roster.1 = true)
    {pA pB : Ptr} (hpA : v.roster.2[iA]? = some pA) (hpB : v.roster.2[iB]? = some pB)
    (g : Ptr → Transform) (h : v.Pair iA jA iB jB A0 B0 sA sB) (fuel : Nat)
    (hfuel : v.roster.2.length < fuel) :
    ∃ v', (v.moveActors g).Update P T fuel = some v' ∧
      v'.Pair iA jA iB jB (A0.movedTo (g pA)) (B0.movedTo (g pB))
        ((A0.movedTo (g pA)).scanned T (B0.movedTo (g pB)) sA)
        ((B0.movedTo (g pB)).scanned T (A0.movedTo (g pA)) sB) ∧
      v'.roster = v.roster := by
  have hm := Pair_move g h hpA hpB
  have hr := moveActors_roster (v := v) g
  obtain ⟨v', h1, h2, h3⟩ := Pair_Update (T := T) (w := v.moveActors g)
    (A0.movedTo (g pA)) (B0.movedTo (g pB)) hactor hcomp hne hAa hAb hBa hBb
    (by have := congrArg Prod.fst hr; exact this.trans hw) hm fuel
    (by
      have := roster_length hr
      simp only [roster, List.length_map] at hfuel
      omega)
  exact ⟨v', h1, h2, h3.trans hr⟩

end World
end FureyEngine

namespace FureyEngine
namespace World

variable {P : Program} {T : Trig} {v w : World} {i j : Nat}

/-! ### Callbacks never take an actor out of the list -/

theorem RemoveComponent_actors (actor : Ptr) (c : Option Ptr) :
    (v.RemoveComponent actor c).2.Actors = v.Actors ∧
    (v.RemoveComponent actor c).2.Trace = v.Trace := by
  unfold RemoveComponent
  cases c with
  | none => exact ⟨rfl, rfl⟩
  | some c =>
    simp only
    cases v.Actors.find? (fun a => a.ptr == actor) with
    | none => exact ⟨rfl, rfl⟩
    | some a =>
      simp only
      split_ifs <;> exact ⟨rfl, rfl⟩

theorem RemoveComponent_fold_actors (actor : Ptr) (cs : List Component) (v : World) :
    (cs.foldl (fun w c => (w.RemoveComponent actor (some c.ptr)).2) v).Actors = v.Actors ∧
    (cs.foldl (fun w c => (w.RemoveComponent actor (some c.ptr)).2) v).Trace = v.Trace := by
  induction cs generalizing v with
  | nil => exact ⟨rfl, rfl⟩
  | cons c cs ih =>
    rw [List.foldl_cons]
    obtain ⟨h1, h2⟩ := ih (v.RemoveComponent actor (some c.ptr)).2
    obtain ⟨h3, h4⟩ := RemoveComponent_actors (v := v) actor (some c.ptr)
    exact ⟨h1.trans h3, h2.trans h4⟩

theorem DestroyActor_actors (p : Option Ptr) :
    (v.DestroyActor p).2.Actors = v.Actors ∧ (v.DestroyActor p).2.Trace = v.Trace := by
  unfold DestroyActor
  cases p with
  | none => exact ⟨rfl, rfl⟩
  | some p =>
    simp only
    cases v.Actors.find? (fun a => a.ptr == p) with
    | none => exact ⟨rfl, rfl⟩
    | some a =>
      simp only
      exact RemoveComponent_fold_actors a.ptr a.Components v

theorem act_keeps (self : Ptr) (a : Action) :
    v.Actors.map Actor.ptr <+: (act self v a).Actors.map Actor.ptr ∧
    (act self v a).Trace = v.Trace := by
  cases a with
  | SpawnActor cls t =>
    simp only [act, SpawnActor, List.map_append]
    exact ⟨List.prefix_append _ _, trivial⟩
  | DestroyActor p =>
    simp only [act]
    obtain ⟨h1, h2⟩ := DestroyActor_actors (v := v) p
    rw [h1, h2]
    exact ⟨List.prefix_refl _, rfl⟩
  | DestroyThis =>
    simp only [act]
    obtain ⟨h1, h2⟩ := DestroyActor_actors (v := v) (some self)
    rw [h1, h2]
    exact ⟨List.prefix_refl _, rfl⟩

theorem run_keeps (self : Ptr) (s : Script) (v : World) :
    v.Actors.map Actor.ptr <+: (v.run self s).Actors.map Actor.ptr ∧
    (v.run self s).Trace = v.Trace := by
  unfold run
  induction s generalizing v with
  | nil => exact ⟨List.prefix_refl _, rfl⟩
  | cons a s ih =>
    rw [List.foldl_cons]
    obtain ⟨h1, h2⟩ := ih (act self v a)
    obtain ⟨h3, h4⟩ := act_keeps (v := v) self a
    exact ⟨h3.trans h1, h2.trans h4⟩

end World
end FureyEngine

namespace FureyEngine
namespace World

variable {P : Program} {T : Trig} {v u w : World} {i j : Nat}

theorem Defers.refl (v : World) : v.Defers v :=
  ⟨List.prefix_refl _, [], by simp, by simp⟩

theorem Defers.trans (h1 : v.Defers u) (h2 : u.Defers w) : v.Defers w := by
  obtain ⟨p1, t1, e1, m1⟩ := h1
  obtain ⟨p2, t2, e2, m2⟩ := h2
  refine ⟨p1.trans p2, t1 ++ t2, by rw [e2, e1, List.append_assoc], ?_⟩
  intro e he
  rcases List.mem_append.mp he with h | h
  · exact m1 e h
  · exact m2 e h

theorem Defers.call (h : v.Defers u) (o : Object) {m : Method} (h1 : m ≠ Method.Destroy)
    (h2 : m ≠ Method.OnDestroy) : v.Defers (u.call o m) :=
  h.trans ⟨List.prefix_refl _, [⟨o, m⟩], rfl, by simp [h1, h2]⟩

theorem Defers.run (h : v.Defers u) (self : Ptr) (s : Script) : v.Defers (u.run self s) := by
  obtain ⟨h1, h2⟩ := run_keeps self s u
  exact h.trans ⟨h1, [], by simp [h2], by simp⟩

theorem Defers.of_eq (h : v.Defers u) (h1 : w.Actors.map Actor.ptr = u.Actors.map Actor.ptr)
    (h2 : w.Trace = u.Trace) : v.Defers w :=
  h.trans ⟨by rw [h1], [], by simp [h2], by simp⟩

theorem setComponent_ptrs (u : World) (i j : Nat) (c : Component) :
    (u.setComponent i j c).Actors.map Actor.ptr = u.Actors.map Actor.ptr := by
  simp only [setComponent]
  exact List.map_modify_of_eq Actor.ptr
    (fun a : Actor => { a with Components := a.Components.set j c }) (fun a => rfl) _ _

theorem Defers.setComponent (h : v.Defers u) (i j : Nat) (c : Component) :
    v.Defers (u.setComponent i j c) :=
  h.of_eq (setComponent_ptrs u i j c) rfl

theorem Defers.attachBrush (h : v.Defers u) (i j : Nat) (b : BrushComponent) :
    v.Defers (u.attachBrush i j b) := by
  unfold World.attachBrush
  simp only
  split_ifs
  · exact (h.of_eq (w := { u with AllBrushes := setInsert u.AllBrushes b.ptr }) rfl
      rfl).setComponent i j _
  · exact h.of_eq rfl rfl

theorem tickComponent_defers (v : World) : v.Defers (tickComponent P T i j v) := by
  unfold tickComponent
  cases v.Actors[i]? with
  | none => exact Defers.refl v
  | some a =>
    simp only
    cases a.Components[j]? with
    | none => exact Defers.refl v
    | some c =>
      simp only
      split_ifs
      · exact Defers.refl v
      · cases c with
        | Plain p cls act bt =>
          simp only
          split_ifs
          · exact (((Defers.refl v).call _ (by decide) (by decide)).run _ _).call _
              (by decide) (by decide)
          · exact (((Defers.refl v).call _ (by decide) (by decide)).run _ _).call _
              (by decide) (by decide)
        | Brush b =>
          simp only
          split_ifs
          · exact (((Defers.refl v).call _ (by decide) (by decide)).setComponent _ _ _).call _
              (by decide) (by decide)
          · exact (((Defers.refl v).call _ (by decide) (by decide)).attachBrush _ _ _).call _
              (by decide) (by decide)

theorem lateComponent_defers (v : World) : v.Defers (lateComponent P T i j v) := by
  unfold lateComponent
  cases v.Actors[i]? with
  | none => exact Defers.refl v
  | some a =>
    simp only
    cases a.Components[j]? with
    | none => exact Defers.refl v
    | some c =>
      simp only
      split_ifs
      · exact Defers.refl v
      · cases c with
        | Plain p cls act bt =>
          simp only
          split_ifs
          · exact (((Defers.refl v).call _ (by decide) (by decide)).run _ _).call _
              (by decide) (by decide)
          · exact ((((Defers.refl v).call _ (by decide) (by decide)).run _ _).call _
              (by decide) (by decide)).setComponent _ _ _
        | Brush b =>
          simp only
          split_ifs
          · exact (((Defers.refl v).call _ (by decide) (by decide)).setComponent _ _ _).call _
              (by decide) (by decide)
          · exact (((Defers.refl v).call _ (by decide) (by decide)).call _
              (by decide) (by decide)).setComponent _ _ _

theorem foldl_defers (f : World → Nat → World) (hf : ∀ (u : World) (j : Nat), u.Defers (f u j)) (l : List Nat)
    (h : v.Defers u) : v.Defers (l.foldl f u) := by
  induction l generalizing u with
  | nil => exact h
  | cons j l ih => exact ih (h.trans (hf u j))

theorem tickActor_defers (v : World) : v.Defers (tickActor P T i v) := by
  unfold tickActor
  cases v.Actors[i]? with
  | none => exact Defers.refl v
  | some a =>
    simp only
    split_ifs
    · exact Defers.refl v
    · exact foldl_defers _ (fun u j => tickComponent_defers u) _
        ((((Defers.refl v).call _ (by decide) (by decide)).run _ _).call _
          (by decide) (by decide))
    · exact foldl_defers _ (fun u j => tickComponent_defers u) _
        ((((Defers.refl v).call _ (by decide) (by decide)).run _ _).call _
          (by decide) (by decide))

theorem lateActor_defers (v : World) : v.Defers (lateActor P T i v) := by
  unfold lateActor
  cases v.Actors[i]? with
  | none => exact Defers.refl v
  | some a =>
    simp only
    split_ifs
    · exact Defers.refl v
    · exact foldl_defers _ (fun u j => lateComponent_defers u) _
        ((((Defers.refl v).call _ (by decide) (by decide)).run _ _).call _
          (by decide) (by decide))
    · refine foldl_defers _ (fun u j => lateComponent_defers u) _ ?_
      refine ((((Defers.refl v).call _ (by decide) (by decide)).run _ _).call _
          (by decide) (by decide)).of_eq ?_ rfl
      exact List.map_modify_of_eq Actor.ptr (fun a : Actor => { a with BeginTick := true })
        (fun a => rfl) _ _

end World
end FureyEngine

namespace FureyEngine
namespace World

variable {P : Program} {T : Trig} {v u w : World} {i j : Nat}

theorem Steady.same (v : World) : v.Steady v := ⟨rfl, rfl, fun _ h => h⟩

theorem Steady.chain (h1 : v.Steady u) (h2 : u.Steady w) : v.Steady w :=
  ⟨h2.1.trans h1.1, h2.2.1.trans h1.2.1, fun k h => h2.2.2 k (h1.2.2 k h)⟩

theorem Steady.of_maps (h : v.Steady u) (h1 : w.Actors.map Actor.header = u.Actors.map Actor.header)
    (h2 : w.Actors.map Actor.BeginTick = u.Actors.map Actor.BeginTick)
    (h3 : w.Cleanup = u.Cleanup) : v.Steady w :=
  h.chain ⟨h1, h3, fun k hk => by rw [h2]; exact hk⟩

theorem Steady.after_call (h : v.Steady u) (o : Object) (m : Method) : v.Steady (u.call o m) :=
  h.of_maps rfl rfl rfl

theorem Steady.after_run (h : v.Steady u) (self : Ptr) : v.Steady (u.run self []) := h

theorem Steady.after_set (h : v.Steady u) (i j : Nat) (c : Component) :
    v.Steady (u.setComponent i j c) :=
  h.of_maps
    (List.map_modify_of_eq Actor.header
      (fun a : Actor => { a with Components := a.Components.set j c }) (fun _ => rfl) _ _)
    (List.map_modify_of_eq Actor.BeginTick
      (fun a : Actor => { a with Components := a.Components.set j c }) (fun _ => rfl) _ _)
    rfl

theorem Steady.after_attach (h : v.Steady u) (i j : Nat) (b : BrushComponent) :
    v.Steady (u.attachBrush i j b) := by
  unfold World.attachBrush
  simp only
  split_ifs
  · exact (h.of_maps (w := { u with AllBrushes := setInsert u.AllBrushes b.ptr }) rfl rfl
      rfl).after_set i j _
  · exact h.of_maps rfl rfl rfl

theorem Steady.begin (h : v.Steady u) (i : Nat) :
    v.Steady { u with Actors := u.Actors.modify (fun a => { a with BeginTick := true }) i } := by
  refine h.chain ⟨?_, rfl, ?_⟩
  · exact List.map_modify_of_eq Actor.header (fun a : Actor => { a with BeginTick := true })
      (fun a => rfl) _ _
  · intro k hk
    simp only [List.getElem?_map, List.getElem?_modify] at hk ⊢
    by_cases hik : i = k
    · subst hik
      cases hu : u.Actors[i]? with
      | none => simp [hu] at hk
      | some x => simp
    · simpa [hik] using hk

theorem tickComponent_steady (hcomp : ∀ k, P.component k = {}) (v : World) :
    v.Steady (tickComponent P T i j v) := by
  unfold tickComponent
  cases v.Actors[i]? with
  | none => exact Steady.same v
  | some a =>
    simp only
    cases a.Components[j]? with
    | none => exact Steady.same v
    | some c =>
      simp only
      split_ifs
      · exact Steady.same v
      · cases c with
        | Plain p cls act bt =>
          simp only [hcomp]
          split_ifs
          · exact (((Steady.same v).after_call _ _).after_run _).after_call _ _
          · exact (((Steady.same v).after_call _ _).after_run _).after_call _ _
        | Brush b =>
          simp only
          split_ifs
          · exact (((Steady.same v).after_call _ _).after_set _ _ _).after_call _ _
          · exact (((Steady.same v).after_call _ _).after_attach _ _ _).after_call _ _

theorem lateComponent_steady (hcomp : ∀ k, P.component k = {}) (v : World) :
    v.Steady (lateComponent P T i j v) := by
  unfold lateComponent
  cases v.Actors[i]? with
  | none => exact Steady.same v
  | some a =>
    simp only
    cases a.Components[j]? with
    | none => exact Steady.same v
    | some c =>
      simp only
      split_ifs
      · exact Steady.same v
      · cases c with
        | Plain p cls act bt =>
          simp only [hcomp]
          split_ifs
          · exact (((Steady.same v).after_call _ _).after_run _).after_call _ _
          · exact ((((Steady.same v).after_call _ _).after_run _).after_call _ _).after_set _ _ _
        | Brush b =>
          simp only
          split_ifs
          · exact (((Steady.same v).after_call _ _).after_set _ _ _).after_call _ _
          · exact (((Steady.same v).after_call _ _).after_call _ _).after_set _ _ _

theorem foldl_steady (f : World → Nat → World) (hf : ∀ (u : World) (j : Nat), u.Steady (f u j))
    (l : List Nat) (h : v.Steady u) : v.Steady (l.foldl f u) := by
  induction l generalizing u with
  | nil => exact h
  | cons j l ih => exact ih (h.chain (hf u j))

/-- An actor whose class overrides neither Tick nor Spawn leaves the actors and the cleanup
queue as they are in the tick phase. -/
theorem tickActor_steady (hcomp : ∀ k, P.component k = {})
    (hcls : ∀ x, v.Actors[i]? = some x → (P.actor x.cls).Tick = [] ∧ (P.actor x.cls).Spawn = []) :
    v.Steady (tickActor P T i v) := by
  unfold tickActor
  cases hx : v.Actors[i]? with
  | none => exact Steady.same v
  | some a =>
    obtain ⟨h1, h2⟩ := hcls a hx
    simp only [h1, h2]
    split_ifs
    · exact Steady.same v
    · exact foldl_steady _ (fun u j => tickComponent_steady hcomp u) _
        ((((Steady.same v).after_call _ _).after_run _).after_call _ _)
    · exact foldl_steady _ (fun u j => tickComponent_steady hcomp u) _
        ((((Steady.same v).after_call _ _).after_run _).after_call _ _)

/-- An actor whose class overrides neither LateTick nor Start leaves the actors and the cleanup
queue as they are in the late-tick phase. -/
theorem lateActor_steady (hcomp : ∀ k, P.component k = {})
    (hcls : ∀ x, v.Actors[i]? = some x →
      (P.actor x.cls).LateTick = [] ∧ (P.actor x.cls).Start = []) :
    v.Steady (lateActor P T i v) := by
  unfold lateActor
  cases hx : v.Actors[i]? with
  | none => exact Steady.same v
  | some a =>
    obtain ⟨h1, h2⟩ := hcls a hx
    simp only [h1, h2]
    split_ifs
    · exact Steady.same v
    · exact foldl_steady _ (fun u j => lateComponent_steady hcomp u) _
        ((((Steady.same v).after_call _ _).after_run _).after_call _ _)
    · exact foldl_steady _ (fun u j => lateComponent_steady hcomp u) _
        (((((Steady.same v).after_call _ _).after_run _).after_call _ _).begin i)

end World
end FureyEngine

namespace FureyEngine
namespace World

variable {P : Program} {T : Trig} {v u w : World} {i j : Nat}

theorem RemoveComponent_form (v : World) (actor : Ptr) (c : Option Ptr) :
    ∃ L, (v.RemoveComponent actor c).2 = { v with Cleanup := v.Cleanup ++ L } ∧
      ∀ x ∈ L, ∃ q r, x = CleanupCall.RemoveComponent q r := by
  unfold RemoveComponent
  cases c with
  | none => exact ⟨[], by simp, by simp⟩
  | some c =>
    simp only
    cases v.Actors.find? (fun a => a.ptr == actor) with
    | none => exact ⟨[], by simp, by simp⟩
    | some a =>
      simp only
      split_ifs
      · exact ⟨[CleanupCall.RemoveComponent actor c], rfl, by simp⟩
      · exact ⟨[], by simp, by simp⟩

theorem RemoveComponent_fold_form (actor : Ptr) (cs : List Component) (v : World) :
    ∃ L, cs.foldl (fun w c => (w.RemoveComponent actor (some c.ptr)).2) v =
        { v with Cleanup := v.Cleanup ++ L } ∧
      ∀ x ∈ L, ∃ q r, x = CleanupCall.RemoveComponent q r := by
  induction cs generalizing v with
  | nil => exact ⟨[], by simp, by simp⟩
  | cons c cs ih =>
    obtain ⟨L1, h1, m1⟩ := RemoveComponent_form v actor (some c.ptr)
    obtain ⟨L2, h2, m2⟩ := ih (v.RemoveComponent actor (some c.ptr)).2
    refine ⟨L1 ++ L2, ?_, ?_⟩
    · rw [List.foldl_cons, h2, h1]
      simp
    · intro x hx
      rcases List.mem_append.mp hx with h | h
      · exact m1 x h
      · exact m2 x h

theorem DestroyActor_some {p : Ptr} (h : p ∈ v.Actors.map Actor.ptr) :
    ∃ L, v.DestroyActor (some p) =
        (true, { v with Cleanup := v.Cleanup ++ L ++ [CleanupCall.DestroyActor p] }) ∧
      ∀ x ∈ L, ∃ q r, x = CleanupCall.RemoveComponent q r := by
  unfold DestroyActor
  simp only
  cases hf : v.Actors.find? (fun a => a.ptr == p) with
  | none =>
    exfalso
    obtain ⟨a, ha, hp⟩ := List.mem_map.mp h
    have := List.find?_eq_none.mp hf a ha
    simp [hp] at this
  | some a =>
    simp only
    obtain ⟨L, hL, mL⟩ := RemoveComponent_fold_form a.ptr a.Components v
    exact ⟨L, by rw [hL], mL⟩

theorem DestroyActor_absent {p : Ptr} (h : p ∉ v.Actors.map Actor.ptr) :
    v.DestroyActor (some p) = (false, v) := by
  unfold DestroyActor
  simp only
  cases hf : v.Actors.find? (fun a => a.ptr == p) with
  | none => rfl
  | some a =>
    exfalso
    apply h
    have h1 := List.find?_some hf
    have h2 := List.mem_of_find?_eq_some hf
    exact List.mem_map.mpr ⟨a, h2, by simpa using h1⟩

theorem destroyPending_of_steady {p : Ptr} (h : v.Steady u) (hp : v.destroyPending p) :
    u.destroyPending p := by
  obtain ⟨L, hL, mL⟩ := hp
  exact ⟨L, by rw [h.2.1, hL], mL⟩

/-- The tick of an actor whose Tick calls DestroyActor on itself: the closures are bound and the
actors stay as they are. -/
theorem tickActor_destroy (hcomp : ∀ k, P.component k = {}) {a : Actor}
    (hx : v.Actors[i]? = some a) (hact : a.Active = true) (hbt : a.BeginTick = true)
    (hcls : (P.actor a.cls).Tick = [Action.DestroyThis]) (hclean : v.Cleanup = []) :
    ∃ u : World, u.Actors = v.Actors ∧ u.destroyPending a.ptr ∧ u.Steady (tickActor P T i v) := by
  have hmem : a.ptr ∈ v.Actors.map Actor.ptr :=
    List.mem_map.mpr ⟨a, List.getElem?_mem hx, rfl⟩
  have hmem1 : a.ptr ∈ (v.call (.actor a.ptr) .Tick).Actors.map Actor.ptr := hmem
  obtain ⟨L, hL, mL⟩ := DestroyActor_some hmem1
  refine ⟨((v.call (.actor a.ptr) .Tick).run a.ptr [Action.DestroyThis]).call
    (.actor a.ptr) .OnTick, ?_, ?_, ?_⟩
  · simp only [run, List.foldl_cons, List.foldl_nil, act, hL]
    rfl
  · refine ⟨L, ?_, mL⟩
    simp only [run, List.foldl_cons, List.foldl_nil, act, hL]
    simp [call, hclean]
  · unfold tickActor
    simp only [hx, Actor.IsActive, hact, hbt, hcls]
    exact foldl_steady _ (fun u j => tickComponent_steady hcomp u) _ (Steady.same _)

theorem Defers.callCount (h : v.Defers u) (o : Object) :
    u.callCount o .Destroy = v.callCount o .Destroy ∧
      u.callCount o .OnDestroy = v.callCount o .OnDestroy := by
  obtain ⟨_, tr, ht, hm⟩ := h
  unfold World.callCount
  rw [ht, List.count_append, List.count_append]
  constructor
  · rw [List.count_eq_zero_of_not_mem (fun hmem => (hm _ hmem).1 rfl)]
    rfl
  · rw [List.count_eq_zero_of_not_mem (fun hmem => (hm _ hmem).2 rfl)]
    rfl

theorem Defers.mem (h : v.Defers u) {p : Ptr} (hp : p ∈ v.Actors.map Actor.ptr) :
    p ∈ u.Actors.map Actor.ptr := h.1.subset hp

end World
end FureyEngine

namespace FureyEngine
namespace World

variable {P : Program} {T : Trig} {v u w : World} {i j : Nat}

theorem header_getElem? {k : Nat} {a : Actor}
    (h : v.Actors.map Actor.header = w.Actors.map Actor.header) (ha : w.Actors[k]? = some a) :
    ∃ x, v.Actors[k]? = some x ∧ x.ptr = a.ptr ∧ x.cls = a.cls ∧ x.Active = a.Active := by
  have h1 := congrArg (fun l => l[k]?) h
  simp only [List.getElem?_map, ha, Option.map_some'] at h1
  cases hx : v.Actors[k]? with
  | none => simp [hx] at h1
  | some x =>
    simp only [hx, Option.map_some', Option.some.injEq, Actor.header, Prod.mk.injEq] at h1
    exact ⟨x, rfl, h1.1, h1.2.1, h1.2.2⟩

theorem header_length (h : v.Actors.map Actor.header = w.Actors.map Actor.header) :
    v.Actors.length = w.Actors.length := by
  simpa using congrArg List.length h

theorem begun_getElem? {k : Nat} {x : Actor} (hx : v.Actors[k]? = some x)
    (h : (v.Actors.map Actor.BeginTick)[k]? = some true) : x.BeginTick = true := by
  simpa [hx] using h

/-- The tick phase of a world in which only the actor at position `k` overrides anything, and
its Tick destroys it. -/
theorem tickPhase_destroy (hcomp : ∀ c, P.component c = {}) {k : Nat} {a : Actor}
    (hcls : P.actor a.cls = { Tick := [Action.DestroyThis] })
    (hother : ∀ i x, w.Actors[i]? = some x → i ≠ k → P.actor x.cls = {})
    (ha : w.Actors[k]? = some a) (hact : a.Active = true) (hbt : a.BeginTick = true)
    (hclean : w.Cleanup = []) (fuel : Nat) (hfuel : w.Actors.length < fuel) :
    ∃ w2, tickPhase P T fuel 0 w = some w2 ∧
      w2.Actors.map Actor.header = w.Actors.map Actor.header ∧
      (w2.Actors.map Actor.BeginTick)[k]? = some true ∧
      w.Defers w2 ∧ w2.destroyPending a.ptr := by
  have hk : k < w.Actors.length := (List.getElem?_eq_some_iff.mp ha).1
  obtain ⟨w2, h2, q1, q2, q3, q4⟩ := tickPhase_inv (P := P) (T := T)
    (fun i v => v.Actors.map Actor.header = w.Actors.map Actor.header ∧
      (v.Actors.map Actor.BeginTick)[k]? = some true ∧ w.Defers v ∧
      (if k < i then v.destroyPending a.ptr else v.Cleanup = []))
    w.Actors.length (fun i v hq => header_length hq.1)
    (by
      intro i v hi ⟨q1, q2, q3, q4⟩
      by_cases hik : i = k
      · subst hik
        obtain ⟨x, hx, xp, xc, xa⟩ := header_getElem? q1 ha
        have hxb := begun_getElem? hx q2
        rw [if_neg (Nat.lt_irrefl _)] at q4
        obtain ⟨u, u1, u2, u3⟩ := tickActor_destroy (P := P) (T := T) hcomp hx
          (xa.trans hact) hxb (by rw [xc, hcls]) q4
        refine ⟨?_, u3.2.2 i (by rw [u1]; exact q2), q3.trans (tickActor_defers v), ?_⟩
        · rw [u3.1, u1]
          exact q1
        · rw [if_pos (Nat.lt_succ_self i)]
          exact destroyPending_of_steady u3 (xp ▸ u2)
      · obtain ⟨x0, hx0⟩ : ∃ x0, w.Actors[i]? = some x0 :=
          ⟨_, List.getElem?_eq_getElem hi⟩
        have hst : v.Steady (tickActor P T i v) := by
          apply tickActor_steady hcomp
          intro x hx
          obtain ⟨x', hx', -, xc, -⟩ := header_getElem? q1 hx0
          rw [hx] at hx'
          cases hx'
          rw [xc, hother i x0 hx0 hik]
          exact ⟨rfl, rfl⟩
        refine ⟨hst.1.trans q1, hst.2.2 k q2, q3.trans (tickActor_defers v), ?_⟩
        by_cases hki : k < i
        · rw [if_pos hki] at q4
          rw [if_pos (Nat.lt_succ_of_lt hki)]
          exact destroyPending_of_steady hst q4
        · rw [if_neg hki] at q4
          rw [if_neg (by omega)]
          rw [hst.2.1]
          exact q4)
    fuel 0 w (Nat.zero_le _) (by omega)
    ⟨rfl, by simp [ha, hbt], Defers.refl w, by simpa using hclean⟩
  rw [if_pos hk] at q4
  exact ⟨w2, h2, q1, q2, q3, q4⟩

/-- The late-tick phase of a world in which no actor overrides LateTick or Start. -/
theorem latePhase_destroy (hcomp : ∀ c, P.component c = {}) {k : Nat} {p : Ptr}
    (hall : ∀ (i : Nat) (x : Actor), w.Actors[i]? = some x →
      (P.actor x.cls).LateTick = [] ∧ (P.actor x.cls).Start = [])
    (hb : (w.Actors.map Actor.BeginTick)[k]? = some true)
    (hpend : w.destroyPending p) (fuel : Nat) (hfuel : w.Actors.length < fuel) :
    ∃ w4, latePhase P T fuel 0 w = some w4 ∧
      w4.Actors.map Actor.header = w.Actors.map Actor.header ∧
      (w4.Actors.map Actor.BeginTick)[k]? = some true ∧
      w.Defers w4 ∧ w4.destroyPending p := by
  obtain ⟨w4, h4, q⟩ := latePhase_inv (P := P) (T := T)
    (fun _ v => v.Actors.map Actor.header = w.Actors.map Actor.header ∧
      (v.Actors.map Actor.BeginTick)[k]? = some true ∧ w.Defers v ∧ v.destroyPending p)
    w.Actors.length (fun i v hq => header_length hq.1)
    (by
      intro i v hi ⟨q1, q2, q3, q4⟩
      obtain ⟨x0, hx0⟩ : ∃ x0, w.Actors[i]? = some x0 := ⟨_, List.getElem?_eq_getElem hi⟩
      have hst : v.Steady (lateActor P T i v) := by
        apply lateActor_steady hcomp
        intro x hx
        obtain ⟨x', hx', -, xc, -⟩ := header_getElem? q1 hx0
        rw [hx] at hx'
        cases hx'
        rw [xc]
        exact hall i x0 hx0
      exact ⟨hst.1.trans q1, hst.2.2 k q2, q3.trans (lateActor_defers v),
        destroyPending_of_steady hst q4⟩)
    fuel 0 w (Nat.zero_le _) (by omega) ⟨rfl, hb, Defers.refl w, hpend⟩
  exact ⟨w4, h4, q⟩

theorem cleanupCall_remove (v : World) (q r : Ptr) :
    (v.cleanupCall (.RemoveComponent q r)).Actors.map Actor.ptr = v.Actors.map Actor.ptr ∧
      v.Defers (v.cleanupCall (.RemoveComponent q r)) := by
  simp only [cleanupCall]
  cases v.Actors.find? (fun a => a.ptr == q) with
  | none => exact ⟨rfl, Defers.refl v⟩
  | some a =>
    simp only
    split_ifs
    · have h1 : (List.map (fun x : Actor =>
          if x.ptr = q then
            { x with Components := x.Components.filter (fun y => !(y.ptr == r)) }
          else x) v.Actors).map Actor.ptr = v.Actors.map Actor.ptr := by
        rw [List.map_map]
        apply List.map_congr_left
        intro x _
        simp only [Function.comp]
        split_ifs <;> rfl
      exact ⟨h1, (((Defers.refl v).call _ (by decide) (by decide)).call _ (by decide)
        (by decide)).of_eq h1 rfl⟩
    · exact ⟨rfl, Defers.refl v⟩

theorem cleanup_removes (L : List CleanupCall)
    (hL : ∀ x ∈ L, ∃ q r, x = CleanupCall.RemoveComponent q r) (v : World) :
    (L.foldl cleanupCall v).Actors.map Actor.ptr = v.Actors.map Actor.ptr ∧
      v.Defers (L.foldl cleanupCall v) := by
  induction L generalizing v with
  | nil => exact ⟨rfl, Defers.refl v⟩
  | cons c L ih =>
    obtain ⟨q, r, rfl⟩ := hL _ (List.mem_cons_self _ _)
    obtain ⟨h1, h2⟩ := cleanupCall_remove v q r
    obtain ⟨h3, h4⟩ := ih (fun x hx => hL x (List.mem_cons_of_mem _ hx))
      (v.cleanupCall (.RemoveComponent q r))
    exact ⟨h3.trans h1, h2.trans h4⟩

theorem cleanupCall_destroy {p : Ptr} (h : p ∈ v.Actors.map Actor.ptr) :
    (v.cleanupCall (.DestroyActor p)).Actors.map Actor.ptr =
        (v.Actors.map Actor.ptr).filter (fun q => !(q == p)) ∧
      (v.cleanupCall (.DestroyActor p)).Trace =
        v.Trace ++ [⟨.actor p, .Destroy⟩, ⟨.actor p, .OnDestroy⟩] := by
  obtain ⟨a, ha, hp⟩ := List.mem_map.mp h
  have hany : v.Actors.any (fun a => a.ptr == p) = true :=
    List.any_eq_true.mpr ⟨a, ha, by simp [hp]⟩
  simp only [cleanupCall, hany, if_true]
  constructor
  · simp only [call, List.filter_map]
    rfl
  · simp [call]

/-- The cleanup of a world whose queue ends with the closure that destroys the actor at `p`. -/
theorem cleanup_destroy {p : Ptr} (hpend : v.destroyPending p)
    (h : p ∈ v.Actors.map Actor.ptr) :
    v.cleanup.Actors.map Actor.ptr = (v.Actors.map Actor.ptr).filter (fun q => !(q == p)) ∧
      v.cleanup.callCount (.actor p) .Destroy = v.callCount (.actor p) .Destroy + 1 ∧
      v.cleanup.callCount (.actor p) .OnDestroy = v.callCount (.actor p) .OnDestroy + 1 := by
  obtain ⟨L, hL, mL⟩ := hpend
  obtain ⟨h1, h2⟩ := cleanup_removes L mL v
  have hmem : p ∈ (L.foldl cleanupCall v).Actors.map Actor.ptr := by rw [h1]; exact h
  obtain ⟨h3, h4⟩ := cleanupCall_destroy hmem
  obtain ⟨c1, c2⟩ := h2.callCount (.actor p)
  have hfold : v.Cleanup.foldl cleanupCall v =
      (L.foldl cleanupCall v).cleanupCall (.DestroyActor p) := by
    rw [hL, List.foldl_append]
    rfl
  unfold cleanup
  simp only [hfold]
  refine ⟨by rw [h3, h1], ?_, ?_⟩
  · unfold callCount at c1 ⊢
    simp only [h4, List.count_append, c1]
    simp [List.count_cons]
  · unfold callCount at c2 ⊢
    simp only [h4, List.count_append, c2]
    simp [List.count_cons]

end World
end FureyEngine

namespace FureyEngine

/-! ## Facts about std::function -/

theorem StdFunction.target_signature (f : StdFunction) : f.target TypeId.signature = none := by
  cases f with
  | none => rfl
  | some t => simp [StdFunction.target]

theorem findIdx?_true_cons {α : Type} (p : α → Bool) (x : α) (xs : List α) (h : p x = true) :
    (x :: xs).findIdx? p = some 0 := by
  simp [List.findIdx?_cons, h]

end FureyEngine

namespace FureyEngine
namespace World

/-! ## Relations that the scheduler respects, for every program -/

variable {P : Program} {T : Trig} {v u w : World} {i j : Nat}

/-- A reflexive and transitive relation that every step of the tick phase respects holds
between the start and the result of the phase. -/
theorem tickPhase_rel (R : World → World → Prop) (hrefl : ∀ v, R v v)
    (htrans : ∀ a b c, R a b → R b c → R a c)
    (hstep : ∀ (v : World) (i : Nat), R v (tickActor P T i v)) :
    ∀ (fuel i : Nat) (v v' : World), tickPhase P T fuel i v = some v' → R v v' := by
  intro fuel
  induction fuel with
  | zero => intro i v v' h; simp [tickPhase] at h
  | succ fuel ih =>
    intro i v v' h
    unfold tickPhase at h
    split_ifs at h
    · exact htrans _ _ _ (hstep v i) (ih _ _ _ h)
    · cases h
      exact hrefl v

theorem latePhase_rel (R : World → World → Prop) (hrefl : ∀ v, R v v)
    (htrans : ∀ a b c, R a b → R b c → R a c)
    (hstep : ∀ (v : World) (i : Nat), R v (lateActor P T i v)) :
    ∀ (fuel i : Nat) (v v' : World), latePhase P T fuel i v = some v' → R v v' := by
  intro fuel
  induction fuel with
  | zero => intro i v v' h; simp [latePhase] at h
  | succ fuel ih =>
    intro i v v' h
    unfold latePhase at h
    split_ifs at h
    · exact htrans _ _ _ (hstep v i) (ih _ _ _ h)
    · cases h
      exact hrefl v

/-- The shape of a World::Update that returns. -/
theorem Update_cases {fuel : Nat} {w' : World} (h : Update P T fuel w = some w') :
    (w.Active = false ∧ w' = w) ∨
    (w.Active = true ∧ w.BeginTick = true ∧ ∃ w2 w4,
      tickPhase P T fuel 0 ((w.call .world .Tick).call .world .OnTick) = some w2 ∧
      latePhase P T fuel 0 ((w2.call .world .LateTick).call .world .OnLateTick) = some w4 ∧
      w' = w4.cleanup) ∨
    (w.Active = true ∧ w.BeginTick = false ∧ ∃ w2 w4,
      tickPhase P T fuel 0 ((w.call .world .Load).call .world .OnLoad) = some w2 ∧
      latePhase P T fuel 0 ((w2.call .world .Start).call .world .OnStart) = some w4 ∧
      w' = ({ w4 with BeginTick := true } : World).cleanup) := by
  unfold Update at h
  cases ha : w.Active with
  | false =>
    simp [ha] at h
    exact Or.inl ⟨rfl, h.symm⟩
  | true =>
    simp only [ha, Bool.not_true, Bool.false_eq_true, if_false] at h
    cases hb : w.BeginTick with
    | true =>
      simp only [hb, if_true] at h
      cases h2 : tickPhase P T fuel 0 ((w.call .world .Tick).call .world .OnTick) with
      | none => simp [h2] at h
      | some w2 =>
        simp only [h2] at h
        cases h4 : latePhase P T fuel 0 ((w2.call .world .LateTick).call .world .OnLateTick) with
        | none => simp [h4] at h
        | some w4 =>
          simp only [h4, Option.some.injEq] at h
          exact Or.inr (Or.inl ⟨rfl, rfl, w2, w4, rfl, h4, h.symm⟩)
    | false =>
      simp only [hb, Bool.false_eq_true, if_false] at h
      cases h2 : tickPhase P T fuel 0 ((w.call .world .Load).call .world .OnLoad) with
      | none => simp [h2] at h
      | some w2 =>
        simp only [h2] at h
        cases h4 : latePhase P T fuel 0 ((w2.call .world .Start).call .world .OnStart) with
        | none => simp [h4] at h
        | some w4 =>
          simp only [h4, Option.some.injEq] at h
          exact Or.inr (Or.inr ⟨rfl, rfl, w2, w4, rfl, h4, h.symm⟩)

/-- A reflexive and transitive relation that the elementary steps of the scheduler respect is
respected by the bodies of the actor loops. `Allowed` is a property of the overrides of the
program under which running one respects the relation. -/
theorem steps_closed (R : World → World → Prop) (Allowed : Script → Prop)
    (hA : ∀ k, Allowed (P.actor k).Spawn ∧ Allowed (P.actor k).Start ∧
      Allowed (P.actor k).Tick ∧ Allowed (P.actor k).LateTick)
    (hC : ∀ k, Allowed (P.component k).Attach ∧ Allowed (P.component k).Start ∧
      Allowed (P.component k).Tick ∧ Allowed (P.component k).LateTick)
    (hrefl : ∀ v, R v v) (htrans : ∀ a b c, R a b → R b c → R a c)
    (hcall : ∀ (v : World) (o : Object) (m : Method), R v (v.call o m))
    (hrun : ∀ (v : World) (self : Ptr) (s : Script), Allowed s → R v (v.run self s))
    (hset : ∀ (v : World) (i j : Nat) (c : Component), R v (v.setComponent i j c))
    (hreg : ∀ (v : World) (ab : List Ptr), R v { v with AllBrushes := ab })
    (hbegin : ∀ (v : World) (i : Nat),
      R v { v with Actors := v.Actors.modify (fun a => { a with BeginTick := true }) i }) :
    ∀ (v : World) (i : Nat), R v (tickActor P T i v) ∧ R v (lateActor P T i v) := by
  have ccall : ∀ {v u : World} (o : Object) (m : Method), R v u → R v (u.call o m) :=
    fun o m h => htrans _ _ _ h (hcall _ o m)
  have crun : ∀ {v u : World} (self : Ptr) {s : Script}, Allowed s → R v u →
      R v (u.run self s) := fun self _ hs h => htrans _ _ _ h (hrun _ self _ hs)
  have cset : ∀ {v u : World} (i j : Nat) (c : Component), R v u →
      R v (u.setComponent i j c) := fun i j c h => htrans _ _ _ h (hset _ i j c)
  have cattach : ∀ {v u : World} (i j : Nat) (b : BrushComponent), R v u →
      R v (u.attachBrush i j b) := by
    intro v u i j b h
    unfold World.attachBrush
    simp only
    split_ifs
    · exact cset i j _ (htrans _ _ _ h (hreg u _))
    · exact htrans _ _ _ h (hreg u _)
  have hfold : ∀ (f : World → Nat → World), (∀ (u : World) (j : Nat), R u (f u j)) →
      ∀ (l : List Nat) (v u : World), R v u → R v (l.foldl f u) := by
    intro f hf l
    induction l with
    | nil => intro v u h; exact h
    | cons j l ih => intro v u h; exact ih v _ (htrans _ _ _ h (hf u j))
  have htc : ∀ (i j : Nat) (v : World), R v (tickComponent P T i j v) := by
    intro i j v
    unfold tickComponent
    cases v.Actors[i]? with
    | none => exact hrefl v
    | some a =>
      simp only
      cases a.Components[j]? with
      | none => exact hrefl v
      | some c =>
        simp only
        split_ifs
        · exact hrefl v
        · cases c with
          | Plain p cls act bt =>
            simp only
            split_ifs
            · exact ccall _ _ (crun _ (hC cls).2.2.1 (ccall _ _ (hrefl v)))
            · exact ccall _ _ (crun _ (hC cls).1 (ccall _ _ (hrefl v)))
          | Brush b =>
            simp only
            split_ifs
            · exact ccall _ _ (cset _ _ _ (ccall _ _ (hrefl v)))
            · exact ccall _ _ (cattach _ _ _ (ccall _ _ (hrefl v)))
  have hlc : ∀ (i j : Nat) (v : World), R v (lateComponent P T i j v) := by
    intro i j v
    unfold lateComponent
    cases v.Actors[i]? with
    | none => exact hrefl v
    | some a =>
      simp only
      cases a.Components[j]? with
      | none => exact hrefl v
      | some c =>
        simp only
        split_ifs
        · exact hrefl v
        · cases c with
          | Plain p cls act bt =>
            simp only
            split_ifs
            · exact ccall _ _ (crun _ (hC cls).2.2.2 (ccall _ _ (hrefl v)))
            · exact cset _ _ _ (ccall _ _ (crun _ (hC cls).2.1 (ccall _ _ (hrefl v))))
          | Brush b =>
            simp only
            split_ifs
            · exact ccall _ _ (cset _ _ _ (ccall _ _ (hrefl v)))
            · exact cset _ _ _ (ccall _ _ (ccall _ _ (hrefl v)))
  intro v i
  constructor
  · unfold tickActor
    cases v.Actors[i]? with
    | none => exact hrefl v
    | some a =>
      simp only
      split_ifs
      · exact hrefl v
      · exact hfold _ (fun u j => htc i j u) _ _ _
          (ccall _ _ (crun _ (hA a.cls).2.2.1 (ccall _ _ (hrefl v))))
      · exact hfold _ (fun u j => htc i j u) _ _ _
          (ccall _ _ (crun _ (hA a.cls).1 (ccall _ _ (hrefl v))))
  · unfold lateActor
    cases v.Actors[i]? with
    | none => exact hrefl v
    | some a =>
      simp only
      split_ifs
      · exact hrefl v
      · exact hfold _ (fun u j => hlc i j u) _ _ _
          (ccall _ _ (crun _ (hA a.cls).2.2.2 (ccall _ _ (hrefl v))))
      · exact hfold _ (fun u j => hlc i j u) _ _ _
          (htrans _ _ _ (ccall _ _ (crun _ (hA a.cls).2.1 (ccall _ _ (hrefl v))))
            (hbegin _ i))

end World
end FureyEngine

namespace FureyEngine
namespace World

variable {P : Program} {T : Trig} {v u w : World} {i j : Nat}

theorem DestroyActor_form (v : World) (p : Option Ptr) :
    ∃ L, (v.DestroyActor p).2 = { v with Cleanup := v.Cleanup ++ L } := by
  cases p with
  | none => exact ⟨[], by simp [DestroyActor]⟩
  | some p =>
    by_cases h : p ∈ v.Actors.map Actor.ptr
    · obtain ⟨L, hL, -⟩ := DestroyActor_some h
      exact ⟨L ++ [CleanupCall.DestroyActor p], by rw [hL, List.append_assoc]⟩
    · rw [DestroyActor_absent h]
      exact ⟨[], by simp⟩

theorem Keeps.rfl_keeps (v : World) : v.Keeps v := ⟨rfl, rfl, rfl, List.prefix_refl _⟩

theorem Keeps.then_keeps (h1 : v.Keeps u) (h2 : u.Keeps w) : v.Keeps w :=
  ⟨h2.1.trans h1.1, h2.2.1.trans h1.2.1, h2.2.2.1.trans h1.2.2.1, h1.2.2.2.trans h2.2.2.2⟩

theorem act_keeps_flags (self : Ptr) (a : Action) (v : World) : v.Keeps (act self v a) := by
  cases a with
  | SpawnActor cls t => exact ⟨rfl, rfl, rfl, List.prefix_refl _⟩
  | DestroyActor p =>
    obtain ⟨L, hL⟩ := DestroyActor_form v p
    simp only [act, hL]
    exact ⟨rfl, rfl, rfl, List.prefix_append _ _⟩
  | DestroyThis =>
    obtain ⟨L, hL⟩ := DestroyActor_form v (some self)
    simp only [act, hL]
    exact ⟨rfl, rfl, rfl, List.prefix_append _ _⟩

theorem run_keeps_flags (self : Ptr) (s : Script) (v : World) : v.Keeps (v.run self s) := by
  unfold run
  induction s generalizing v with
  | nil => exact Keeps.rfl_keeps v
  | cons a s ih => exact (act_keeps_flags self a v).then_keeps (ih _)

/-- The bodies of the actor loops keep the flags of the world and only add to the cleanup
queue, for every program. -/
theorem actor_keeps (P : Program) (T : Trig) (v : World) (i : Nat) :
    v.Keeps (tickActor P T i v) ∧ v.Keeps (lateActor P T i v) :=
  steps_closed Keeps (fun _ => True) (fun _ => ⟨trivial, trivial, trivial, trivial⟩)
    (fun _ => ⟨trivial, trivial, trivial, trivial⟩) Keeps.rfl_keeps
    (fun _ _ _ h1 h2 => h1.then_keeps h2)
    (fun _ _ _ => ⟨rfl, rfl, rfl, List.prefix_refl _⟩)
    (fun v self s _ => run_keeps_flags self s v)
    (fun _ _ _ _ => ⟨rfl, rfl, rfl, List.prefix_refl _⟩)
    (fun _ _ => ⟨rfl, rfl, rfl, List.prefix_refl _⟩)
    (fun _ _ => ⟨rfl, rfl, rfl, List.prefix_refl _⟩) v i

theorem tickPhase_keeps {fuel : Nat} {v' : World} (h : tickPhase P T fuel i v = some v') :
    v.Keeps v' :=
  tickPhase_rel Keeps Keeps.rfl_keeps (fun _ _ _ h1 h2 => h1.then_keeps h2)
    (fun v i => (actor_keeps P T v i).1) fuel i v v' h

theorem latePhase_keeps {fuel : Nat} {v' : World} (h : latePhase P T fuel i v = some v') :
    v.Keeps v' :=
  latePhase_rel Keeps Keeps.rfl_keeps (fun _ _ _ h1 h2 => h1.then_keeps h2)
    (fun v i => (actor_keeps P T v i).2) fuel i v v' h

theorem cleanupCall_flags (v : World) (c : CleanupCall) :
    (v.cleanupCall c).Active = v.Active ∧ (v.cleanupCall c).BeginTick = v.BeginTick ∧
      (v.cleanupCall c).TotalTicks = v.TotalTicks ∧ (v.cleanupCall c).Cleanup = v.Cleanup ∧
      (v.cleanupCall c).Actors.length ≤ v.Actors.length := by
  cases c with
  | RemoveComponent q r =>
    simp only [cleanupCall]
    cases v.Actors.find? (fun a => a.ptr == q) with
    | none => exact ⟨rfl, rfl, rfl, rfl, le_refl _⟩
    | some a =>
      simp only
      split_ifs
      · exact ⟨rfl, rfl, rfl, rfl, by simp [call]⟩
      · exact ⟨rfl, rfl, rfl, rfl, le_refl _⟩
  | DestroyActor q =>
    simp only [cleanupCall]
    split_ifs
    · exact ⟨rfl, rfl, rfl, rfl, by simpa [call] using List.length_filter_le _ _⟩
    · exact ⟨rfl, rfl, rfl, rfl, le_refl _⟩

theorem cleanup_fold_flags (L : List CleanupCall) (v : World) :
    (L.foldl cleanupCall v).Active = v.Active ∧
      (L.foldl cleanupCall v).BeginTick = v.BeginTick ∧
      (L.foldl cleanupCall v).TotalTicks = v.TotalTicks ∧
      (L.foldl cleanupCall v).Cleanup = v.Cleanup ∧
      (L.foldl cleanupCall v).Actors.length ≤ v.Actors.length := by
  induction L generalizing v with
  | nil => exact ⟨rfl, rfl, rfl, rfl, le_refl _⟩
  | cons c L ih =>
    obtain ⟨a1, a2, a3, a4, a5⟩ := cleanupCall_flags v c
    obtain ⟨b1, b2, b3, b4, b5⟩ := ih (v.cleanupCall c)
    exact ⟨b1.trans a1, b2.trans a2, b3.trans a3, b4.trans a4, le_trans b5 a5⟩

theorem cleanup_flags (v : World) :
    v.cleanup.Active = v.Active ∧ v.cleanup.BeginTick = v.BeginTick ∧
      v.cleanup.TotalTicks = v.TotalTicks + 1 ∧ v.cleanup.Cleanup = [] ∧
      v.cleanup.Actors.length ≤ v.Actors.length := by
  obtain ⟨a1, a2, a3, -, a5⟩ := cleanup_fold_flags v.Cleanup v
  unfold cleanup
  exact ⟨a1, a2, by simp only [a3], rfl, a5⟩

/-- What World::Update does to the flags, the tick count and the cleanup queue. -/
theorem Update_flags {fuel : Nat} {w' : World} (h : Update P T fuel w = some w') :
    w'.Active = w.Active ∧
      (w.Active = true → w'.BeginTick = true ∧ w'.TotalTicks = w.TotalTicks + 1 ∧
        w'.Cleanup = []) := by
  rcases Update_cases h with ⟨ha, rfl⟩ | ⟨ha, hb, w2, w4, h2, h4, rfl⟩ |
    ⟨ha, hb, w2, w4, h2, h4, rfl⟩
  · exact ⟨rfl, fun h => by rw [ha] at h; cases h⟩
  · have k2 := tickPhase_keeps h2
    have k4 := latePhase_keeps h4
    obtain ⟨c1, c2, c3, c4, -⟩ := cleanup_flags w4
    have e1 : w4.Active = w.Active := k4.1.trans k2.1
    have e2 : w4.BeginTick = w.BeginTick := k4.2.1.trans k2.2.1
    have e3 : w4.TotalTicks = w.TotalTicks := k4.2.2.1.trans k2.2.2.1
    exact ⟨c1.trans e1, fun _ => ⟨by rw [c2, e2, hb], by rw [c3, e3], c4⟩⟩
  · have k2 := tickPhase_keeps h2
    have k4 := latePhase_keeps h4
    obtain ⟨c1, c2, c3, c4, -⟩ := cleanup_flags ({ w4 with BeginTick := true } : World)
    have e1 : w4.Active = w.Active := k4.1.trans k2.1
    have e3 : w4.TotalTicks = w.TotalTicks := k4.2.2.1.trans k2.2.2.1
    exact ⟨c1.trans e1, fun _ => ⟨c2, by rw [c3]; simp only [e3], c4⟩⟩

end World
end FureyEngine

namespace FureyEngine
namespace World

variable {P : Program} {T : Trig} {v u w : World} {i j : Nat}

theorem act_length (self : Ptr) (a : Action) (h : a.spawns = false) (v : World) :
    (act self v a).Actors.length = v.Actors.length := by
  cases a with
  | SpawnActor cls t => simp [Action.spawns] at h
  | DestroyActor p => simp only [act, (DestroyActor_actors (v := v) p).1]
  | DestroyThis => simp only [act, (DestroyActor_actors (v := v) (some self)).1]

theorem run_length (self : Ptr) (s : Script) (h : s.any Action.spawns = false) (v : World) :
    (v.run self s).Actors.length = v.Actors.length := by
  unfold run
  induction s generalizing v with
  | nil => rfl
  | cons a s ih =>
    simp only [List.any_cons, Bool.or_eq_false_iff] at h
    rw [List.foldl_cons, ih h.2, act_length self a h.1]

/-- Under a program that spawns no actor the bodies of the actor loops keep the number of
actors. -/
theorem actor_length (hP : P.noSpawn) (v : World) (i : Nat) :
    (tickActor P T i v).Actors.length = v.Actors.length ∧
      (lateActor P T i v).Actors.length = v.Actors.length := by
  have hA : ∀ k, (P.actor k).Spawn.any Action.spawns = false ∧
      (P.actor k).Start.any Action.spawns = false ∧
      (P.actor k).Tick.any Action.spawns = false ∧
      (P.actor k).LateTick.any Action.spawns = false := by
    intro k
    have := hP.1 k
    simpa [ActorClass.spawns, and_assoc] using this
  have hC : ∀ k, (P.component k).Attach.any Action.spawns = false ∧
      (P.component k).Start.any Action.spawns = false ∧
      (P.component k).Tick.any Action.spawns = false ∧
      (P.component k).LateTick.any Action.spawns = false := by
    intro k
    have := hP.2 k
    simpa [ComponentClass.spawns, and_assoc] using this
  have := steps_closed (P := P) (T := T)
    (fun v u : World => u.Actors.length = v.Actors.length)
    (fun s => s.any Action.spawns = false) hA hC (fun _ => rfl)
    (fun _ _ _ h1 h2 => h2.trans h1) (fun _ _ _ => rfl)
    (fun v self s hs => run_length self s hs v)
    (fun v i j c => by simp [setComponent])
    (fun _ _ => rfl) (fun v i => by simp) v i
  exact this

/-- Under a program that spawns no actor, World::Update returns when the fuel exceeds the
number of actors, and it adds no actor. -/
theorem Update_returns (hP : P.noSpawn) {fuel : Nat} (hfuel : w.Actors.length < fuel) :
    ∃ w', Update P T fuel w = some w' ∧ w'.Actors.length ≤ w.Actors.length := by
  have tick : ∀ v : World, v.Actors.length = w.Actors.length →
      ∃ v', tickPhase P T fuel 0 v = some v' ∧ v'.Actors.length = w.Actors.length := by
    intro v hv
    exact tickPhase_inv (P := P) (T := T) (fun _ u => u.Actors.length = w.Actors.length)
      w.Actors.length (fun _ _ h => h)
      (fun i u _ h => ((actor_length hP u i).1).trans h) fuel 0 v (Nat.zero_le _)
      (by omega) hv
  have late : ∀ v : World, v.Actors.length = w.Actors.length →
      ∃ v', latePhase P T fuel 0 v = some v' ∧ v'.Actors.length = w.Actors.length := by
    intro v hv
    exact latePhase_inv (P := P) (T := T) (fun _ u => u.Actors.length = w.Actors.length)
      w.Actors.length (fun _ _ h => h)
      (fun i u _ h => ((actor_length hP u i).2).trans h) fuel 0 v (Nat.zero_le _)
      (by omega) hv
  unfold Update
  cases ha : w.Active with
  | false => exact ⟨w, by simp, le_refl _⟩
  | true =>
    simp only [Bool.not_true, Bool.false_eq_true, if_false]
    cases hb : w.BeginTick with
    | true =>
      simp only [if_true]
      obtain ⟨w2, h2, l2⟩ := tick ((w.call .world .Tick).call .world .OnTick) rfl
      obtain ⟨w4, h4, l4⟩ := late ((w2.call .world .LateTick).call .world .OnLateTick) l2
      simp only [h2, h4]
      exact ⟨_, rfl, l4 ▸ (cleanup_flags w4).2.2.2.2⟩
    | false =>
      simp only [Bool.false_eq_true, if_false]
      obtain ⟨w2, h2, l2⟩ := tick ((w.call .world .Load).call .world .OnLoad) rfl
      obtain ⟨w4, h4, l4⟩ := late ((w2.call .world .Start).call .world .OnStart) l2
      simp only [h2, h4]
      refine ⟨_, rfl, ?_⟩
      have := (cleanup_flags ({ w4 with BeginTick := true } : World)).2.2.2.2
      exact l4 ▸ this

theorem noSpawn_base : Program.base.noSpawn := ⟨fun _ => rfl, fun _ => rfl⟩

end World
end FureyEngine

namespace FureyEngine

theorem Scenario.selfDestroyProgram_noSpawn : Scenario.selfDestroyProgram.noSpawn := by
  refine ⟨fun k => ?_, fun _ => rfl⟩
  unfold Scenario.selfDestroyProgram
  simp only
  split_ifs <;> rfl

end FureyEngine

namespace FureyEngine

/-! ## Facts about rounding to double -/

namespace Double

theorem pow2_eq (k : Int) : pow2 k = (2 : ℚ) ^ k := by
  unfold pow2
  split_ifs with h
  · obtain ⟨n, rfl⟩ := Int.eq_ofNat_of_zero_le h
    simp
  · have hk : k < 0 := not_le.mp h
    obtain ⟨n, hn⟩ := Int.eq_ofNat_of_zero_le (Int.neg_nonneg_of_nonpos hk.le)
    have hk' : k = -(n : Int) := by omega
    subst hk'
    simp

theorem pow2_pos (k : Int) : 0 < pow2 k := by
  rw [pow2_eq]
  positivity

theorem halvings_spec (fuel n : Nat) (hf : n ≤ fuel) (hn : 0 < n) :
    2 ^ halvings fuel n ≤ n ∧ n < 2 ^ (halvings fuel n + 1) := by
  induction fuel generalizing n with
  | zero => omega
  | succ fuel ih =>
    unfold halvings
    split_ifs with h2
    · obtain ⟨i1, i2⟩ := ih (n / 2) (by omega) (by omega)
      constructor
      · rw [pow_succ]
        have := Nat.div_mul_le_self n 2
        omega
      · rw [pow_succ]
        have := Nat.lt_mul_of_div_lt i2 (by norm_num : 0 < 2)
        omega
    · have : n = 1 := by omega
      subst this
      simp

theorem log2_spec (n : Nat) (hn : 0 < n) : 2 ^ log2 n ≤ n ∧ n < 2 ^ (log2 n + 1) :=
  halvings_spec n n (le_refl _) hn

theorem split_pos (a : ℚ) (ha : 0 ≤ a) :
    ∃ n d : Nat, 0 < d ∧ a.num.toNat = n ∧ a.den = d ∧ a = (n : ℚ) / (d : ℚ) := by
  have hnum : 0 ≤ a.num := Rat.num_nonneg.mpr ha
  obtain ⟨n, hn⟩ := Int.eq_ofNat_of_zero_le hnum
  refine ⟨n, a.den, a.den_pos, by rw [hn]; rfl, rfl, ?_⟩
  have := Rat.num_div_den a
  rw [hn, Int.cast_natCast] at this
  exact this.symm

/-- The exponent of a positive rational brackets it between two powers of two. -/
theorem exponent_spec (a : ℚ) (ha : 0 < a) :
    (2 : ℚ) ^ exponent a ≤ a ∧ a < (2 : ℚ) ^ (exponent a + 1) := by
  obtain ⟨n, d, hd, htn, hdn, ha'⟩ := split_pos a ha.le
  unfold exponent
  rw [htn, hdn, pow2_eq]
  have hdq : (0 : ℚ) < (d : ℚ) := by exact_mod_cast hd
  have hn0 : 0 < n := by
    rcases Nat.eq_zero_or_pos n with h0 | h0
    · rw [h0] at ha'
      simp at ha'
      exact absurd ha' ha.ne'
    · exact h0
  obtain ⟨i1, i2⟩ := log2_spec n hn0
  obtain ⟨j1, j2⟩ := log2_spec d hd
  have i1q : (2 : ℚ) ^ (log2 n) ≤ (n : ℚ) := by exact_mod_cast i1
  have i2q : (n : ℚ) < (2 : ℚ) ^ (log2 n) * 2 := by
    rw [← pow_succ]
    exact_mod_cast i2
  have j1q : (2 : ℚ) ^ (log2 d) ≤ (d : ℚ) := by exact_mod_cast j1
  have j2q : (d : ℚ) < (2 : ℚ) ^ (log2 d) * 2 := by
    rw [← pow_succ]
    exact_mod_cast j2
  have hI : (0 : ℚ) < (2 : ℚ) ^ (log2 n) := by positivity
  have hJ : (0 : ℚ) < (2 : ℚ) ^ (log2 d) := by positivity
  have hk : (2 : ℚ) ^ ((log2 n : Int) - (log2 d : Int)) =
      (2 : ℚ) ^ (log2 n) / (2 : ℚ) ^ (log2 d) := by
    rw [zpow_sub₀ (by norm_num : (2 : ℚ) ≠ 0)]
    simp
  have hlow : (2 : ℚ) ^ ((log2 n : Int) - (log2 d : Int) - 1) ≤ a := by
    rw [zpow_sub₀ (by norm_num : (2 : ℚ) ≠ 0), hk, ha', zpow_one, div_div,
      div_le_div_iff₀ (by positivity) hdq]
    nlinarith
  have hhigh : a < (2 : ℚ) ^ ((log2 n : Int) - (log2 d : Int) + 1) := by
    rw [zpow_add₀ (by norm_num : (2 : ℚ) ≠ 0), hk, ha', zpow_one, div_mul_eq_mul_div,
      div_lt_div_iff₀ hdq hJ]
    nlinarith
  split_ifs with h
  · exact ⟨h, hhigh⟩
  · refine ⟨hlow, ?_⟩
    rw [sub_add_cancel]
    exact not_le.mp h

theorem floor_spec (m : ℚ) (hm : 0 ≤ m) :
    ((m.num.toNat / m.den : Nat) : ℚ) ≤ m ∧ m < ((m.num.toNat / m.den : Nat) : ℚ) + 1 := by
  obtain ⟨n, d, hd, htn, hdn, hm'⟩ := split_pos m hm
  rw [htn, hdn]
  have hdq : (0 : ℚ) < (d : ℚ) := by exact_mod_cast hd
  constructor
  · rw [hm', le_div_iff₀ hdq]
    exact_mod_cast Nat.div_mul_le_self n d
  · rw [hm', div_lt_iff₀ hdq]
    have h1 := Nat.lt_div_mul_add (a := n) hd
    have h2 : n < (n / d + 1) * d := by
      rw [Nat.add_mul, Nat.one_mul]
      exact h1
    exact_mod_cast h2

theorem nearestEven_le (m : ℚ) (hm : 0 ≤ m) : (nearestEven m : ℚ) ≤ m + 1 / 2 := by
  obtain ⟨f1, f2⟩ := floor_spec m hm
  unfold nearestEven
  split_ifs with h1 h2 h3
  · linarith
  · push_cast
    linarith
  · linarith
  · push_cast
    have : m - ((m.num.toNat / m.den : Nat) : ℚ) = 1 / 2 :=
      le_antisymm (not_lt.mp h2) (not_lt.mp h1)
    linarith

/-- A result that is not positive rounds to a double that passes the test `x <= 0`. -/
theorem ofRat_nonpos (q : ℚ) (h : q ≤ 0) : (ofRat q).le0 = true := by
  unfold ofRat
  split_ifs with h0 h1 h2
  · simp [le0]
  · simp only [le0, decide_eq_true_eq]
    exact lt_of_le_of_ne h h0
  · simp only [le0, decide_eq_true_eq, Left.neg_nonpos_iff]
    exact mul_nonneg (Nat.cast_nonneg _) (pow2_pos _).le
  · exact absurd (lt_of_le_of_ne h h0) h2

/-- Rounding a positive result of moderate size gives a finite double that exceeds it by at
most half a spacing: a 2^53-th of the result, or 2^-1075 in the subnormal range. -/
theorem ofRat_pos_bound (x : ℚ) (hx : 0 < x) (hx2 : x ≤ (2 : ℚ) ^ (1023 : Int)) :
    ∃ y, ofRat x = finite y ∧ 0 ≤ y ∧ y ≤ x + max (x / 2 ^ (53 : Int)) (1 / 2 ^ (1075 : Int)) := by
  obtain ⟨e1, e2⟩ := exponent_spec x hx
  have habs : |x| = x := abs_of_pos hx
  have hq : 0 < quantum x := pow2_pos _
  have hn := nearestEven_le (x / quantum x) (div_nonneg hx.le hq.le)
  have hv : (nearestEven (x / quantum x) : ℚ) * quantum x ≤ x + quantum x / 2 := by
    have := mul_le_mul_of_nonneg_right hn hq.le
    rw [add_mul, div_mul_cancel₀ _ hq.ne'] at this
    linarith
  have hhalf : quantum x / 2 ≤ max (x / 2 ^ (53 : Int)) (1 / 2 ^ (1075 : Int)) := by
    unfold quantum
    rw [pow2_eq]
    rcases le_total (exponent x - 52) (-1074) with hle | hle
    · rw [max_eq_right hle]
      apply le_max_of_le_right
      rw [show (-1074 : Int) = 1 - 1075 by norm_num, zpow_sub₀ (by norm_num : (2 : ℚ) ≠ 0)]
      simp
      rw [div_div, mul_comm, ← div_div]
      norm_num
    · rw [max_eq_left hle]
      apply le_max_of_le_left
      rw [zpow_sub₀ (by norm_num : (2 : ℚ) ≠ 0), div_div]
      rw [show (2 : ℚ) ^ (52 : Int) * 2 = 2 ^ (53 : Int) by norm_num]
      exact div_le_div_of_nonneg_right e1 (by positivity)
  have h53 : x / 2 ^ (53 : Int) < (2 : ℚ) ^ (1023 : Int) :=
    lt_of_lt_of_le (div_lt_self hx (by norm_num)) hx2
  have h1075 : (1 : ℚ) / 2 ^ (1075 : Int) < (2 : ℚ) ^ (1023 : Int) := by
    have p1 : (1 : ℚ) / 2 ^ (1075 : Int) ≤ 1 := by
      rw [div_le_one (by positivity)]
      exact one_le_zpow₀ (by norm_num) (by norm_num)
    have p2 : (1 : ℚ) < (2 : ℚ) ^ (1023 : Int) := one_lt_zpow₀ (by norm_num) (by norm_num)
    linarith
  have hmax : max (x / 2 ^ (53 : Int)) (1 / 2 ^ (1075 : Int)) < (2 : ℚ) ^ (1023 : Int) :=
    max_lt h53 h1075
  have h1024 : (2 : ℚ) ^ (1024 : Int) = 2 ^ (1023 : Int) + 2 ^ (1023 : Int) := by
    rw [show (1024 : Int) = 1023 + 1 by norm_num, zpow_add₀ (by norm_num : (2 : ℚ) ≠ 0)]
    rw [zpow_one]
    ring
  refine ⟨(nearestEven (x / quantum x) : ℚ) * quantum x, ?_, ?_, by linarith⟩
  · unfold ofRat
    rw [habs, if_neg hx.ne', if_neg, if_neg (not_lt.mpr hx.le)]
    rw [pow2_eq, h1024]
    linarith
  · exact mul_nonneg (Nat.cast_nonneg _) hq.le

/-- Rounding a positive result of moderate size gives a finite double that exceeds it by at
most `e`, for every `e` of at least a 2^53-th of the result and at least 2^-1075. -/
theorem ofRat_pos_le (x : ℚ) (hx : 0 < x) (hx2 : x ≤ (2 : ℚ) ^ 1023) (e : ℚ)
    (h1 : x / 2 ^ 53 ≤ e) (h2 : 1 / 2 ^ 1075 ≤ e) :
    ∃ y, ofRat x = finite y ∧ 0 ≤ y ∧ y ≤ x + e := by
  have hx2' : x ≤ (2 : ℚ) ^ (1023 : Int) := by
    rw [show ((1023 : Int)) = ((1023 : Nat) : Int) from rfl, zpow_natCast]
    exact hx2
  obtain ⟨y, hy, h0, hle⟩ := ofRat_pos_bound x hx hx2'
  refine ⟨y, hy, h0, le_trans hle ?_⟩
  have e53 : (2 : ℚ) ^ (53 : Int) = (2 : ℚ) ^ 53 := by
    rw [show ((53 : Int)) = ((53 : Nat) : Int) from rfl, zpow_natCast]
  have e1075 : (2 : ℚ) ^ (1075 : Int) = (2 : ℚ) ^ 1075 := by
    rw [show ((1075 : Int)) = ((1075 : Nat) : Int) from rfl, zpow_natCast]
  rw [e53, e1075]
  have := max_le h1 h2
  linarith

theorem ofRat_ne_nan (q : ℚ) : ofRat q ≠ nan := by
  unfold ofRat
  split_ifs <;> simp

/-- The product of two finite doubles is a double or an infinity, never a NaN. -/
theorem mul_finite_ne_nan (a b : ℚ) : (finite a).mul (finite b) ≠ nan := ofRat_ne_nan (a * b)

end Double

end FureyEngine

namespace FureyEngine

/-! ## Facts about time and scheduled events -/

namespace TimedWorld

variable {P : Program} {T : Trig} {s s' : TimedWorld}

theorem le0_micro : (Double.ofRat (1 / 1000000)).le0 = false := by decide!

theorem pos_tenth_micro : (Double.ofRat (1 / 10000000)).pos = true := by decide!

theorem le0_tenth : (Double.ofRat (1 / 10)).le0 = false := by decide!

theorem reschedule_form (s : TimedWorld) (e : TimedEvent) :
    ∃ app, reschedule s e =
        { s with ScheduledEvents := s.ScheduledEvents ++ app, Heap := s.Heap + app.length } ∧
      ∀ x ∈ app, s.Heap ≤ x.node ∧ x.Delay.le0 = false := by
  unfold reschedule
  cases e.Repeat with
  | none => exact ⟨[], by simp, by simp⟩
  | some v =>
    obtain ⟨D, L⟩ := v
    simp only [RepeatAfterSeconds]
    split_ifs with h0 hD
    · exact ⟨[], by simp, by simp⟩
    · refine ⟨[_], rfl, ?_⟩
      intro x hx
      rw [List.mem_singleton] at hx
      subst hx
      exact ⟨le_refl _, le0_micro⟩
    · refine ⟨[_], rfl, ?_⟩
      intro x hx
      rw [List.mem_singleton] at hx
      subst hx
      exact ⟨le_refl _, Bool.eq_false_iff.mpr hD⟩

theorem reschedule_fold_form (L : List TimedEvent) (s : TimedWorld) :
    ∃ app, L.foldl reschedule s =
        { s with ScheduledEvents := s.ScheduledEvents ++ app, Heap := s.Heap + app.length } ∧
      ∀ x ∈ app, s.Heap ≤ x.node ∧ x.Delay.le0 = false := by
  induction L generalizing s with
  | nil => exact ⟨[], by simp, by simp⟩
  | cons e L ih =>
    obtain ⟨a1, h1, m1⟩ := reschedule_form s e
    obtain ⟨a2, h2, m2⟩ := ih (reschedule s e)
    refine ⟨a1 ++ a2, ?_, ?_⟩
    · rw [List.foldl_cons, h2, h1]
      simp [Nat.add_assoc]
    · intro x hx
      rcases List.mem_append.mp hx with hx | hx
      · exact m1 x hx
      · obtain ⟨q1, q2⟩ := m2 x hx
        rw [h1] at q1
        exact ⟨le_trans (Nat.le_add_right _ _) q1, q2⟩

/-- The two loops over the scheduled events leave the marked events followed by the events the
closures have appended, which have fresh addresses and delays that fail the test
`Delay <= 0`. -/
theorem fire_form (dt : Double) (s : TimedWorld) :
    ∃ app, fire dt s =
        { s with
          CurrentDeltaTime := dt
          ScheduledEvents := invoke (elapse dt s.ScheduledEvents) ++ app
          Fired := s.Fired ++ ((elapse dt s.ScheduledEvents).filter due).map fun e =>
            (e.node, e.Event)
          Heap := s.Heap + app.length } ∧
      ∀ x ∈ app, s.Heap ≤ x.node ∧ x.Delay.le0 = false := by
  obtain ⟨app, h, m⟩ := reschedule_fold_form ((elapse dt s.ScheduledEvents).filter due)
    { s with
      CurrentDeltaTime := dt
      ScheduledEvents := invoke (elapse dt s.ScheduledEvents)
      Fired := s.Fired ++ ((elapse dt s.ScheduledEvents).filter due).map fun e =>
        (e.node, e.Event) }
  exact ⟨app, h, m⟩

/-- The shape of a World::Update, with time, that returns. -/
theorem timed_Update_cases {fuel : Nat} {Elapsed : Double} (h : s.Update P T fuel Elapsed = some s') :
    (s.world.Active = false ∧ s' = s) ∨
    (s.world.Active = true ∧ s.world.BeginTick = true ∧ ∃ w, s.world.Update P T fuel = some w ∧
      s' = { fire (delta Elapsed s.TimeScale) s with
        world := w
        ScheduledEvents :=
          (fire (delta Elapsed s.TimeScale) s).ScheduledEvents.filter fun e => !due e }) ∨
    (s.world.Active = true ∧ s.world.BeginTick = false ∧ ∃ w,
      s.world.Update P T fuel = some w ∧ s' = { s with world := w }) := by
  unfold Update at h
  cases ha : s.world.Active with
  | false =>
    simp [ha] at h
    exact Or.inl ⟨rfl, h.symm⟩
  | true =>
    simp only [ha, Bool.not_true, Bool.false_eq_true, if_false] at h
    cases hb : s.world.BeginTick with
    | true =>
      simp only [hb, if_true] at h
      cases hw : s.world.Update P T fuel with
      | none => simp [hw] at h
      | some w =>
        simp only [hw, Option.some.injEq] at h
        exact Or.inr (Or.inl ⟨rfl, rfl, w, rfl, h.symm⟩)
    | false =>
      simp only [hb, Bool.false_eq_true, if_false] at h
      cases hw : s.world.Update P T fuel with
      | none => simp [hw] at h
      | some w =>
        simp only [hw, Option.some.injEq] at h
        exact Or.inr (Or.inr ⟨rfl, rfl, w, rfl, h.symm⟩)

theorem Update_isSome (fuel : Nat) (Elapsed : Double) (s : TimedWorld) :
    (s.Update P T fuel Elapsed).isSome = (s.world.Update P T fuel).isSome := by
  unfold Update
  cases ha : s.world.Active with
  | false => simp [World.Update, ha]
  | true =>
    simp only [Bool.not_true, Bool.false_eq_true, if_false]
    cases hb : s.world.BeginTick with
    | true =>
      simp only [if_true]
      cases s.world.Update P T fuel <;> rfl
    | false =>
      simp only [Bool.false_eq_true, if_false]
      cases s.world.Update P T fuel <;> rfl

/-- The delta time of an Update is positive unless the product of the time that has passed
and the time scale is a NaN, which it then is as well. -/
theorem delta_pos (Elapsed TimeScale : Double) :
    (delta Elapsed TimeScale).pos = true ∨
      (Elapsed.mul TimeScale = Double.nan ∧ delta Elapsed TimeScale = Double.nan) := by
  unfold delta
  cases hm : Elapsed.mul TimeScale with
  | finite a =>
    left
    by_cases ha : a ≤ 0
    · simp only [Double.le0, ha, decide_True, if_true]
      exact pos_tenth_micro
    · simp only [Double.le0, ha, decide_False, Bool.false_eq_true, if_false, Double.pos,
        decide_eq_true_eq]
      exact lt_of_not_le ha
  | inf n =>
    left
    cases n with
    | true =>
      simp only [Double.le0, if_true]
      exact pos_tenth_micro
    | false => simp [Double.le0, Double.pos]
  | nan =>
    right
    simp [Double.le0]

theorem Update_positive {fuel : Nat} {Elapsed : Double} (hs : s.DeltaTime.pos = true)
    (hn : Elapsed.mul s.TimeScale ≠ Double.nan)
    (h : s.Update P T fuel Elapsed = some s') : s'.DeltaTime.pos = true := by
  rcases timed_Update_cases h with ⟨-, rfl⟩ | ⟨-, -, w, -, rfl⟩ | ⟨-, -, w, -, rfl⟩
  · exact hs
  · obtain ⟨app, hf, -⟩ := fire_form (delta Elapsed s.TimeScale) s
    show (fire (delta Elapsed s.TimeScale) s).CurrentDeltaTime.pos = true
    rw [hf]
    show (delta Elapsed s.TimeScale).pos = true
    rcases delta_pos Elapsed s.TimeScale with hp | ⟨hp, -⟩
    · exact hp
    · exact absurd hp hn
  · exact hs

theorem Frames_positive {fuel : Nat} (frames : List (Double × Double)) (s : TimedWorld)
    (hn : ∀ f ∈ frames, f.2.mul f.1 ≠ Double.nan)
    (hs : s.DeltaTime.pos = true) (h : Frames P T fuel frames s = some s') :
    s'.DeltaTime.pos = true := by
  induction frames generalizing s with
  | nil =>
    simp only [Frames, Option.some.injEq] at h
    exact h ▸ hs
  | cons f fs ih =>
    simp only [Frames] at h
    cases h1 : ({ s with TimeScale := f.1 } : TimedWorld).Update P T fuel f.2 with
    | none => simp [h1] at h
    | some s1 =>
      simp only [h1] at h
      exact ih s1 (fun g hg => hn g (List.mem_cons_of_mem _ hg))
        (Update_positive (s := { s with TimeScale := f.1 }) hs
          (hn f (List.mem_cons_self _ _)) h1) h

theorem filter_node_elapse (n : Ptr) (dt : Double) (L : List TimedEvent) :
    (elapse dt L).filter (fun e => e.node == n) = elapse dt (L.filter (fun e => e.node == n)) := by
  unfold elapse
  rw [List.filter_map]
  rfl

theorem filter_node_invoke (n : Ptr) (L : List TimedEvent) :
    (invoke L).filter (fun e => e.node == n) = invoke (L.filter (fun e => e.node == n)) := by
  unfold invoke
  rw [List.filter_map]
  congr 1
  apply List.filter_congr
  intro e _
  simp only [Function.comp]
  split_ifs <;> rfl

theorem filter_node_rest (n : Ptr) (L : List TimedEvent) :
    ((invoke L).filter (fun e => !due e)).filter (fun e => e.node == n) =
      (invoke (L.filter (fun e => e.node == n))).filter (fun e => !due e) := by
  rw [List.filter_filter, ← filter_node_invoke, List.filter_filter]
  apply List.filter_congr
  intro e _
  exact Bool.and_comm _ _

theorem countP_fired (n : Ptr) (L : List TimedEvent) :
    ((L.filter due).map fun e => (e.node, e.Event)).countP (fun p => p.1 == n) =
      ((L.filter (fun e => e.node == n)).filter due).length := by
  rw [List.countP_map, List.countP_eq_length_filter, List.filter_filter, List.filter_filter]
  congr 1
  apply List.filter_congr
  intro e _
  simp [Function.comp, Bool.and_comm]

theorem elapse_singleton (dt : Double) (e : TimedEvent) :
    elapse dt [e] = [{ e with Delay := e.Delay.sub dt }] := rfl

theorem rest_of_not_due (e : TimedEvent) (h : due e = false) :
    (invoke [e]).filter (fun e => !due e) = [e] ∧ [e].filter due = [] := by
  simp [invoke, h]

theorem rest_of_due (e : TimedEvent) (h : due e = true) :
    (invoke [e]).filter (fun e => !due e) = [] ∧ [e].filter due = [e] := by
  have h2 : due { e with Invoked := true } = true := h
  simp [invoke, h, h2]

/-- The rounded delay of a timer of 1.0 seconds first passes the test `Delay <= 0` after
eleven subtractions of 0.1. -/
theorem due_countdown (k : Nat) (hk : k < 11) : (tenths (k + 1)).le0 = decide (10 ≤ k) := by
  interval_cases k <;> decide!

/-- One frame of 0.1 seconds takes the countdown of a timer one step further. -/
theorem Countdown_step {fuel : Nat} {n : Ptr} {fn : Target} {c k : Nat} {ts el : Double}
    (hd : delta el ts = Double.ofRat (1 / 10)) (hs : s.Countdown n fn c k)
    (h : ({ s with TimeScale := ts } : TimedWorld).Update P T fuel el = some s') :
    s'.Countdown n fn c (k + 1) := by
  obtain ⟨hA, hB, hn, hL, hc⟩ := hs
  rcases timed_Update_cases h with ⟨ha, -⟩ | ⟨-, -, w, hw, rfl⟩ | ⟨-, hb, -⟩
  · rw [show ({ s with TimeScale := ts } : TimedWorld).world = s.world from rfl, hA] at ha
    cases ha
  · have hw' : s.world.Update P T fuel = some w := hw
    have hf := World.Update_flags hw'
    obtain ⟨app, hfire, happ⟩ := fire_form (delta el ts) ({ s with TimeScale := ts } : TimedWorld)
    have happ' : ∀ x ∈ app, s.Heap ≤ x.node := fun x hx => (happ x hx).1
    have hnil : (app.filter (fun e => !due e)).filter (fun e => e.node == n) = [] := by
      rw [List.filter_eq_nil_iff]
      intro x hx
      have h1 := happ' x (List.mem_filter.mp hx).1
      have h2 : x.node ≠ n := fun h => absurd (h ▸ h1) (Nat.not_le.mpr hn)
      simpa using h2
    have e1 : ((fire (delta el ts) ({ s with TimeScale := ts } : TimedWorld)).ScheduledEvents.filter
        (fun e => !due e)).filter (fun e => e.node == n) =
        (invoke (elapse (Double.ofRat (1 / 10))
          (s.ScheduledEvents.filter (fun e => e.node == n)))).filter (fun e => !due e) := by
      rw [hfire]
      show ((invoke (elapse (delta el ts) s.ScheduledEvents) ++ app).filter
        (fun e => !due e)).filter (fun e => e.node == n) = _
      rw [List.filter_append, List.filter_append, hnil, List.append_nil, filter_node_rest,
        filter_node_elapse, hd]
    have e2 : (fire (delta el ts) ({ s with TimeScale := ts } : TimedWorld)).Fired.countP
        (fun p => p.1 == n) =
        s.Fired.countP (fun p => p.1 == n) +
          ((elapse (Double.ofRat (1 / 10))
            (s.ScheduledEvents.filter (fun e => e.node == n))).filter due).length := by
      rw [hfire]
      show (s.Fired ++ ((elapse (delta el ts) s.ScheduledEvents).filter due).map
        fun e => (e.node, e.Event)).countP (fun p => p.1 == n) = _
      rw [List.countP_append, countP_fired, filter_node_elapse, hd]
    have e3 : n < (fire (delta el ts) ({ s with TimeScale := ts } : TimedWorld)).Heap := by
      rw [hfire]
      exact Nat.lt_of_lt_of_le hn (Nat.le_add_right _ _)
    have hc' : s.Fired.countP (fun p => p.1 == n) = c + (if k < 11 then 0 else 1) := hc
    refine ⟨hf.1.trans hA, (hf.2 hA).1, e3, e1.trans ?_, e2.trans ?_⟩
    · rw [hL]
      by_cases h11 : k < 11
      · rw [if_pos h11, elapse_singleton]
        have hdue : due ⟨n, (tenths k).sub (Double.ofRat (1 / 10)), fn, false, none⟩ =
            decide (10 ≤ k) := due_countdown k h11
        by_cases h10 : 10 ≤ k
        · rw [decide_eq_true h10] at hdue
          rw [(rest_of_due _ hdue).1, if_neg (by omega)]
        · rw [decide_eq_false h10] at hdue
          rw [(rest_of_not_due _ hdue).1, if_pos (by omega)]
          rfl
      · rw [if_neg h11, if_neg (by omega)]
        rfl
    · rw [hL, hc']
      by_cases h11 : k < 11
      · rw [if_pos h11, if_pos h11, elapse_singleton]
        have hdue : due ⟨n, (tenths k).sub (Double.ofRat (1 / 10)), fn, false, none⟩ =
            decide (10 ≤ k) := due_countdown k h11
        by_cases h10 : 10 ≤ k
        · rw [decide_eq_true h10] at hdue
          rw [(rest_of_due _ hdue).2, if_neg (by omega)]
          rfl
        · rw [decide_eq_false h10] at hdue
          rw [(rest_of_not_due _ hdue).2, if_pos (by omega)]
          rfl
      · rw [if_neg h11, if_neg h11, if_neg (by omega)]
        rfl
  · rw [show ({ s with TimeScale := ts } : TimedWorld).world = s.world from rfl, hB] at hb
    cases hb

/-- The countdown of a timer over a host loop of frames of 0.1 seconds. -/
theorem Countdown_frames {fuel : Nat} {n : Ptr} {fn : Target} {c : Nat}
    (frames : List (Double × Double))
    (hdt : ∀ f ∈ frames, delta f.2 f.1 = Double.ofRat (1 / 10)) (k : Nat) (s : TimedWorld)
    (hs : s.Countdown n fn c k) (h : Frames P T fuel frames s = some s') :
    s'.Countdown n fn c (k + frames.length) := by
  induction frames generalizing s k with
  | nil =>
    simp only [Frames, Option.some.injEq] at h
    exact h ▸ hs
  | cons f fs ih =>
    simp only [Frames] at h
    cases h1 : ({ s with TimeScale := f.1 } : TimedWorld).Update P T fuel f.2 with
    | none => simp [h1] at h
    | some s1 =>
      simp only [h1] at h
      have := ih (fun g hg => hdt g (List.mem_cons_of_mem _ hg)) (k + 1) s1
        (Countdown_step (hdt f (List.mem_cons_self _ _)) hs h1) h
      rw [List.length_cons]
      rw [show k + (fs.length + 1) = k + 1 + fs.length by omega]
      exact this

/-- Under a program that spawns no actor a host loop returns when the fuel exceeds the number
of actors. -/
theorem Frames_returns (hP : P.noSpawn) {fuel : Nat} (frames : List (Double × Double)) (s : TimedWorld)
    (hfuel : s.world.Actors.length < fuel) : ∃ s', Frames P T fuel frames s = some s' := by
  induction frames generalizing s with
  | nil => exact ⟨s, rfl⟩
  | cons f fs ih =>
    obtain ⟨w, hw, hl⟩ := World.Update_returns (P := P) (T := T) hP hfuel
    have hsome : (({ s with TimeScale := f.1 } : TimedWorld).Update P T fuel f.2).isSome = true := by
      rw [Update_isSome]
      show (s.world.Update P T fuel).isSome = true
      rw [hw]
      rfl
    obtain ⟨s1, h1⟩ := Option.isSome_iff_exists.mp hsome
    have hworld : s1.world.Actors.length ≤ s.world.Actors.length := by
      rcases timed_Update_cases h1 with ⟨-, rfl⟩ | ⟨-, -, w1, hw1, rfl⟩ | ⟨-, -, w1, hw1, rfl⟩
      · exact le_refl _
      · have : s.world.Update P T fuel = some w1 := hw1
        rw [hw] at this
        cases this
        exact hl
      · have : s.world.Update P T fuel = some w1 := hw1
        rw [hw] at this
        cases this
        exact hl
    obtain ⟨s2, h2⟩ := ih s1 (lt_of_le_of_lt hworld hfuel)
    exact ⟨s2, by simp only [Frames, h1, h2]⟩

end TimedWorld

end FureyEngine

namespace FureyEngine

/-! ## Facts about MovementComponent and PhysicsComponent -/

theorem BrushRef.collides_eq (r : BrushRef) (t : Transform) :
    r.collides t = (PhysicsComponent.other r t).isSome := by
  cases r <;> rfl

namespace PhysicsComponent

theorem other_of_collides {r : BrushRef} {t : Transform} (h : r.collides t = true) :
    ∃ o, other r t = some o := by
  cases r with
  | none => simp [BrushRef.collides] at h
  | some f => exact Option.isSome_iff_exists.mp h

theorem other_of_not_collides {r : BrushRef} {t : Transform} (h : r.collides t = false) :
    other r t = none := by
  cases r with
  | none => rfl
  | some f =>
    simp only [BrushRef.collides] at h
    simpa [other] using h

theorem report_fields (s : PhysicsState) (o : Ptr) :
    (report s o).actor = s.actor ∧ (report s o).physics.Velocity = s.physics.Velocity ∧
      (report s o).physics.AngularVelocity = s.physics.AngularVelocity ∧
      (report s o).physics.Bounciness = s.physics.Bounciness ∧
      (report s o).physics.Gravity = s.physics.Gravity ∧
      (report s o).physics.UseGravity = s.physics.UseGravity ∧
      (report s o).physics.SpeedModifier = s.physics.SpeedModifier ∧
      (report s o).physics.BrushComponent = s.physics.BrushComponent := by
  unfold report
  split_ifs <;> exact ⟨rfl, rfl, rfl, rfl, rfl, rfl, rfl, rfl⟩

theorem friction_actor (DeltaTime : ℚ) (s : PhysicsState) :
    (friction DeltaTime s).actor = s.actor := by
  cases s with
  | mk p a c =>
    cases a with
    | mk pos rot sc =>
      cases sc with
      | mk x y => simp [friction]

theorem moveX_hit (DeltaTime : ℚ) (s : PhysicsState)
    (h : s.physics.BrushComponent.collides { s.actor with Position :=
        ⟨s.actor.Position.x + s.physics.Velocity.x * DeltaTime * s.physics.SpeedModifier,
          s.actor.Position.y⟩ } = true) :
    (moveX DeltaTime s).actor = s.actor ∧
      (moveX DeltaTime s).physics.Velocity =
        ⟨-|s.physics.Bounciness| * s.physics.Velocity.x, s.physics.Velocity.y⟩ ∧
      (moveX DeltaTime s).physics.AngularVelocity = s.physics.AngularVelocity := by
  obtain ⟨o, ho⟩ := other_of_collides h
  obtain ⟨r1, r2, r3, r4, -⟩ := report_fields { s with actor := { s.actor with Position :=
    ⟨s.actor.Position.x + s.physics.Velocity.x * DeltaTime * s.physics.SpeedModifier,
      s.actor.Position.y⟩ } } o
  simp only [moveX, ho, r1, r2, r3, r4]
  refine ⟨?_, ?_, trivial⟩
  · obtain ⟨p0, ⟨⟨px, py⟩, rot, sc⟩, c0⟩ := s
    simp
  · simp [mul_comm]

theorem moveX_miss (DeltaTime : ℚ) (s : PhysicsState)
    (h : s.physics.BrushComponent.collides { s.actor with Position :=
        ⟨s.actor.Position.x + s.physics.Velocity.x * DeltaTime * s.physics.SpeedModifier,
          s.actor.Position.y⟩ } = false) :
    (moveX DeltaTime s).actor = { s.actor with Position :=
        ⟨s.actor.Position.x + s.physics.Velocity.x * DeltaTime * s.physics.SpeedModifier,
          s.actor.Position.y⟩ } ∧
      (moveX DeltaTime s).physics = s.physics := by
  have ho := other_of_not_collides h
  simp [moveX, ho]

theorem moveY_hit (DeltaTime : ℚ) (s : PhysicsState)
    (h : s.physics.BrushComponent.collides { s.actor with Position :=
        ⟨s.actor.Position.x,
          s.actor.Position.y + s.physics.Velocity.y * DeltaTime * s.physics.SpeedModifier⟩ } =
        true) :
    (moveY DeltaTime s).actor = s.actor ∧
      (moveY DeltaTime s).physics.Velocity =
        ⟨s.physics.Velocity.x, -|s.physics.Bounciness| * s.physics.Velocity.y⟩ ∧
      (moveY DeltaTime s).physics.AngularVelocity = s.physics.AngularVelocity := by
  obtain ⟨o, ho⟩ := other_of_collides h
  obtain ⟨r1, r2, r3, r4, -⟩ := report_fields { s with actor := { s.actor with Position :=
    ⟨s.actor.Position.x,
      s.actor.Position.y + s.physics.Velocity.y * DeltaTime * s.physics.SpeedModifier⟩ } } o
  simp only [moveY, ho, r1, r2, r3, r4]
  refine ⟨?_, ?_, trivial⟩
  · obtain ⟨p0, ⟨⟨px, py⟩, rot, sc⟩, c0⟩ := s
    simp
  · simp [mul_comm]

theorem moveY_miss (DeltaTime : ℚ) (s : PhysicsState)
    (h : s.physics.BrushComponent.collides { s.actor with Position :=
        ⟨s.actor.Position.x,
          s.actor.Position.y + s.physics.Velocity.y * DeltaTime * s.physics.SpeedModifier⟩ } =
        false) :
    (moveY DeltaTime s).actor = { s.actor with Position :=
        ⟨s.actor.Position.x,
          s.actor.Position.y + s.physics.Velocity.y * DeltaTime * s.physics.SpeedModifier⟩ } ∧
      (moveY DeltaTime s).physics = s.physics := by
  have ho := other_of_not_collides h
  simp [moveY, ho]

theorem moveRotation_hit (DeltaTime : ℚ) (s : PhysicsState)
    (h : s.physics.BrushComponent.collides { s.actor with Rotation :=
        s.actor.Rotation + s.physics.AngularVelocity * DeltaTime * s.physics.SpeedModifier } =
        true) :
    (moveRotation DeltaTime s).actor = s.actor ∧
      (moveRotation DeltaTime s).physics.AngularVelocity =
        -|s.physics.Bounciness| * s.physics.AngularVelocity ∧
      (moveRotation DeltaTime s).physics.Velocity = s.physics.Velocity := by
  obtain ⟨o, ho⟩ := other_of_collides h
  obtain ⟨r1, r2, r3, r4, -⟩ := report_fields { s with actor := { s.actor with Rotation :=
    s.actor.Rotation + s.physics.AngularVelocity * DeltaTime * s.physics.SpeedModifier } } o
  simp only [moveRotation, ho, r1, r2, r3, r4]
  refine ⟨?_, ?_, trivial⟩
  · obtain ⟨p0, ⟨⟨px, py⟩, rot, sc⟩, c0⟩ := s
    simp
  · simp [mul_comm]

theorem moveRotation_miss (DeltaTime : ℚ) (s : PhysicsState)
    (h : s.physics.BrushComponent.collides { s.actor with Rotation :=
        s.actor.Rotation + s.physics.AngularVelocity * DeltaTime * s.physics.SpeedModifier } =
        false) :
    (moveRotation DeltaTime s).actor = { s.actor with Rotation :=
        s.actor.Rotation + s.physics.AngularVelocity * DeltaTime * s.physics.SpeedModifier } ∧
      (moveRotation DeltaTime s).physics = s.physics := by
  have ho := other_of_not_collides h
  simp [moveRotation, ho]

theorem sweepAt_zero (a : Transform) (dx dy : ℚ) : sweepAt a dx dy 0 false = a := by
  obtain ⟨⟨x, y⟩, rot, sc⟩ := a
  simp [sweepAt]

theorem sweepAt_shift (a : Transform) (dx dy : ℚ) (i : Nat) (half : Bool) :
    sweepAt (sweepAt a dx dy 1 false) dx dy i half = sweepAt a dx dy (i + 1) half := by
  obtain ⟨⟨x, y⟩, rot, sc⟩ := a
  simp only [sweepAt, Transform.mk.injEq, Vec2.mk.injEq, and_true]
  constructor
  · push_cast
    split_ifs <;> ring
  · push_cast
    ring

/-- One iteration of the loop of the sweep, by what the brush reports. -/
theorem sweepLoop_succ (f : Transform → Option Ptr) (dx dy : ℚ) (n : Nat)
    (p : PhysicsComponent) (a : Transform) :
    sweepLoop f dx dy (n + 1) p a =
      match f (sweepAt a dx dy 0 true) with
      | some o => (a.Position, { p with OnCollision := p.OnCollision ++ [o] }, a)
      | none =>
        match f (sweepAt a dx dy 1 false) with
        | some o => ((sweepAt a dx dy 0 true).Position,
            { p with OnCollision := p.OnCollision ++ [o] }, sweepAt a dx dy 0 true)
        | none => sweepLoop f dx dy n p (sweepAt a dx dy 1 false) := by
  obtain ⟨⟨x, y⟩, rot, sc⟩ := a
  have e1 : sweepAt ⟨⟨x, y⟩, rot, sc⟩ dx dy 0 true = ⟨⟨x + dx, y⟩, rot, sc⟩ := by
    simp [sweepAt]
  have e2 : sweepAt ⟨⟨x, y⟩, rot, sc⟩ dx dy 1 false = ⟨⟨x + dx, y + dy⟩, rot, sc⟩ := by
    simp [sweepAt]
  rw [e1, e2, sweepLoop]
  cases f ⟨⟨x + dx, y⟩, rot, sc⟩ with
  | some o => simp
  | none =>
    simp only
    cases f ⟨⟨x + dx, y + dy⟩, rot, sc⟩ <;> simp

/-- The loop of the sweep when no increment collides. -/
theorem sweepLoop_free (f : Transform → Option Ptr) (dx dy : ℚ) (p : PhysicsComponent) :
    ∀ (n : Nat) (a : Transform),
      (∀ i, i < n → f (sweepAt a dx dy i true) = none ∧
        f (sweepAt a dx dy (i + 1) false) = none) →
      sweepLoop f dx dy n p a = ((sweepAt a dx dy n false).Position, p, sweepAt a dx dy n false) := by
  intro n
  induction n with
  | zero =>
    intro a _
    rw [sweepAt_zero]
    rfl
  | succ n ih =>
    intro a h
    rw [sweepLoop_succ, (h 0 (Nat.succ_pos n)).1, (h 0 (Nat.succ_pos n)).2]
    simp only
    rw [ih (sweepAt a dx dy 1 false), sweepAt_shift]
    intro i hi
    rw [sweepAt_shift, sweepAt_shift]
    exact h (i + 1) (Nat.succ_lt_succ hi)

/-- The loop of the sweep when the X increment of sub-step `i` is the first that collides. -/
theorem sweepLoop_hit_x (f : Transform → Option Ptr) (dx dy : ℚ) (p : PhysicsComponent)
    (o : Ptr) : ∀ (i n : Nat) (a : Transform), i < n →
      (∀ j, j < i → f (sweepAt a dx dy j true) = none ∧
        f (sweepAt a dx dy (j + 1) false) = none) →
      f (sweepAt a dx dy i true) = some o →
      sweepLoop f dx dy n p a = ((sweepAt a dx dy i false).Position,
        { p with OnCollision := p.OnCollision ++ [o] }, sweepAt a dx dy i false) := by
  intro i
  induction i with
  | zero =>
    intro n a hn _ ho
    obtain ⟨m, rfl⟩ : ∃ m, n = m + 1 := ⟨n - 1, by omega⟩
    rw [sweepLoop_succ, ho, sweepAt_zero]
  | succ i ih =>
    intro n a hn h ho
    obtain ⟨m, rfl⟩ : ∃ m, n = m + 1 := ⟨n - 1, by omega⟩
    rw [sweepLoop_succ, (h 0 (Nat.succ_pos i)).1, (h 0 (Nat.succ_pos i)).2]
    simp only
    rw [ih m (sweepAt a dx dy 1 false) (by omega), sweepAt_shift]
    · intro j hj
      rw [sweepAt_shift, sweepAt_shift]
      exact h (j + 1) (Nat.succ_lt_succ hj)
    · rw [sweepAt_shift]
      exact ho

/-- The loop of the sweep when the Y increment of sub-step `i` is the first that collides. -/
theorem sweepLoop_hit_y (f : Transform → Option Ptr) (dx dy : ℚ) (p : PhysicsComponent)
    (o : Ptr) : ∀ (i n : Nat) (a : Transform), i < n →
      (∀ j, j < i → f (sweepAt a dx dy j true) = none ∧
        f (sweepAt a dx dy (j + 1) false) = none) →
      f (sweepAt a dx dy i true) = none → f (sweepAt a dx dy (i + 1) false) = some o →
      sweepLoop f dx dy n p a = ((sweepAt a dx dy i true).Position,
        { p with OnCollision := p.OnCollision ++ [o] }, sweepAt a dx dy i true) := by
  intro i
  induction i with
  | zero =>
    intro n a hn _ hx ho
    obtain ⟨m, rfl⟩ : ∃ m, n = m + 1 := ⟨n - 1, by omega⟩
    rw [sweepLoop_succ, hx, ho]
  | succ i ih =>
    intro n a hn h hx ho
    obtain ⟨m, rfl⟩ : ∃ m, n = m + 1 := ⟨n - 1, by omega⟩
    rw [sweepLoop_succ, (h 0 (Nat.succ_pos i)).1, (h 0 (Nat.succ_pos i)).2]
    simp only
    rw [ih m (sweepAt a dx dy 1 false) (by omega), sweepAt_shift]
    · intro j hj
      rw [sweepAt_shift, sweepAt_shift]
      exact h (j + 1) (Nat.succ_lt_succ hj)
    · rw [sweepAt_shift]
      exact hx
    · rw [sweepAt_shift]
      exact ho

/-- The value returned by the loop is the position it leaves. -/
theorem sweepLoop_returns (f : Transform → Option Ptr) (dx dy : ℚ) (p : PhysicsComponent) :
    ∀ (n : Nat) (a : Transform),
      (sweepLoop f dx dy n p a).1 = (sweepLoop f dx dy n p a).2.2.Position := by
  intro n
  induction n with
  | zero => intro a; rfl
  | succ n ih =>
    intro a
    rw [sweepLoop_succ]
    cases f (sweepAt a dx dy 0 true) with
    | some o => rfl
    | none =>
      simp only
      cases f (sweepAt a dx dy 1 false) with
      | some o => rfl
      | none => exact ih _

/-- After all the sub-steps the actor is at the target. -/
theorem sweepAt_target (a : Transform) (Position : Vec2) (Steps : Int) (h : 0 < Steps) :
    sweepAt a ((Position.x - a.Position.x) / Steps) ((Position.y - a.Position.y) / Steps)
      Steps.toNat false = { a with Position := Position } := by
  obtain ⟨⟨x, y⟩, rot, sc⟩ := a
  obtain ⟨px, py⟩ := Position
  have hn : ((Steps.toNat : ℕ) : ℚ) = (Steps : ℚ) := by
    have : ((Steps.toNat : ℕ) : ℤ) = Steps := Int.toNat_of_nonneg (le_of_lt h)
    exact_mod_cast this
  have h0 : (Steps : ℚ) ≠ 0 := by
    have : (0 : ℚ) < (Steps : ℚ) := by exact_mod_cast h
    exact ne_of_gt this
  simp only [sweepAt, hn, Transform.mk.injEq, Vec2.mk.injEq, and_true]
  constructor
  · simp only [Bool.false_eq_true, if_false, add_zero]
    field_simp
  · field_simp

end PhysicsComponent

end FureyEngine

namespace FureyEngine
namespace World

/-! ## An inactive actor and the scheduler -/

variable {P : Program} {T : Trig} {v u w : World} {i j k : Nat} {a : Actor}

theorem Quiet.quiet_refl (a : Actor) (v : World) : Quiet a v v := ⟨[], by simp, by simp⟩

theorem Quiet.quiet_trans (h1 : Quiet a v u) (h2 : Quiet a u w) : Quiet a v w := by
  obtain ⟨t1, e1, m1⟩ := h1
  obtain ⟨t2, e2, m2⟩ := h2
  refine ⟨t1 ++ t2, by rw [e2, e1, List.append_assoc], ?_⟩
  intro e he
  rcases List.mem_append.mp he with h | h
  · exact m1 e h
  · exact m2 e h

theorem Skips.skips_refl (h : v.Apart k a) : Skips k a v v := ⟨h, Quiet.quiet_refl a v⟩

theorem Skips.skips_trans (h1 : Skips k a v u) (h2 : Skips k a u w) : Skips k a v w :=
  ⟨h2.1, h1.2.quiet_trans h2.2⟩

/-- A world with the actors and the next free address of an apart world is apart. -/
theorem Apart.apart_of_eq (h : v.Apart k a) (h1 : u.Actors = v.Actors) (h2 : u.Heap = v.Heap) :
    u.Apart k a := by
  unfold Apart
  rw [h1, h2]
  exact h

theorem Skips.skip_call (h : Skips k a v u) {o : Object} (ho : o.avoids a) (m : Method) :
    Skips k a v (u.call o m) :=
  ⟨h.1.apart_of_eq rfl rfl, h.2.quiet_trans ⟨[⟨o, m⟩], rfl, by simpa using ho⟩⟩

theorem Skips.of_quiet (h : Skips k a v u) (h1 : w.Apart k a) (h2 : w.Trace = u.Trace) :
    Skips k a v w :=
  ⟨h1, h.2.quiet_trans ⟨[], by simp [h2], by simp⟩⟩

theorem Apart.spawn (h : v.Apart k a) (cls : Nat) (t : Transform) :
    (v.SpawnActor cls t).2.Apart k a := by
  obtain ⟨h1, h2, h3⟩ := h
  have hk : k < v.Actors.length := (List.getElem?_eq_some_iff.mp h1).1
  refine ⟨?_, ?_, Nat.lt_succ_of_lt h3⟩
  · show (v.Actors ++ [_])[k]? = some a
    rw [List.getElem?_append_left hk]
    exact h1
  · intro i x hx hik
    have hx' : (v.Actors ++ [({ ptr := v.Heap, cls := cls, Transform := t } : Actor)])[i]? =
        some x := hx
    by_cases hi : i < v.Actors.length
    · rw [List.getElem?_append_left hi] at hx'
      exact h2 i x hx' hik
    · rw [List.getElem?_append_right (Nat.le_of_not_lt hi)] at hx'
      have : x = { ptr := v.Heap, cls := cls, Transform := t } := by
        cases hd : i - v.Actors.length with
        | zero => rw [hd] at hx'; simpa using hx'.symm
        | succ n => rw [hd] at hx'; simp at hx'
      subst this
      refine ⟨fun he => ?_, fun c hc => by simp at hc⟩
      have he' : v.Heap = a.ptr := he
      rw [he'] at h3
      exact Nat.lt_irrefl _ h3

theorem Apart.apart_act (h : v.Apart k a) (self : Ptr) (x : Action) : (World.act self v x).Apart k a := by
  cases x with
  | SpawnActor cls t => exact h.spawn cls t
  | DestroyActor p =>
    obtain ⟨L, hL⟩ := DestroyActor_form v p
    simp only [World.act, hL]
    exact h.apart_of_eq rfl rfl
  | DestroyThis =>
    obtain ⟨L, hL⟩ := DestroyActor_form v (some self)
    simp only [World.act, hL]
    exact h.apart_of_eq rfl rfl

theorem Apart.apart_run (self : Ptr) (s : Script) (v : World) (h : v.Apart k a) :
    (v.run self s).Apart k a := by
  unfold World.run
  induction s generalizing v with
  | nil => exact h
  | cons x s ih => exact ih _ (h.apart_act self x)

theorem Skips.skip_run (h : Skips k a v u) (self : Ptr) (s : Script) :
    Skips k a v (u.run self s) :=
  h.of_quiet (h.1.apart_run self s u) (run_keeps self s u).2

/-- Changing an actor other than the one at position `k`, in a way that keeps its address and
gives it no component with an address of a component of `a`, keeps the world apart. -/
theorem Apart.modify (h : v.Apart k a) (hik : i ≠ k) (f : Actor → Actor)
    (hf : ∀ x : Actor, v.Actors[i]? = some x →
      (f x).ptr = x.ptr ∧ ∀ c ∈ (f x).Components, c.ptr ∉ a.Components.map Component.ptr)
    (h1 : u.Actors = v.Actors.modify f i) (h2 : u.Heap = v.Heap) : u.Apart k a := by
  obtain ⟨a1, a2, a3⟩ := h
  unfold Apart
  rw [h1, h2]
  refine ⟨?_, ?_, a3⟩
  · simp [List.getElem?_modify, hik, a1]
  · intro i' x hx hi'
    rw [List.getElem?_modify] at hx
    by_cases hii : i = i'
    · subst hii
      cases hy : v.Actors[i]? with
      | none => simp [hy] at hx
      | some y =>
        simp only [hy, if_true, Option.map_eq_map, Option.map_some', Option.some.injEq] at hx
        subst hx
        obtain ⟨f1, f2⟩ := hf y hy
        exact ⟨by rw [f1]; exact (a2 i y hy hi').1, f2⟩
    · simp only [hii, if_false, Option.map_eq_map, Option.map_id'] at hx
      exact a2 i' x (by simpa using hx) hi'

theorem Skips.skip_set (h : Skips k a v u) (hik : i ≠ k) (j : Nat) {c : Component}
    (hc : c.ptr ∉ a.Components.map Component.ptr) : Skips k a v (u.setComponent i j c) := by
  refine h.of_quiet ?_ rfl
  refine h.1.modify hik (fun x => { x with Components := x.Components.set j c }) ?_ rfl rfl
  intro x hx
  refine ⟨rfl, fun c' hc' => ?_⟩
  rcases List.mem_or_eq_of_mem_set hc' with h1 | h1
  · exact (h.1.2.1 i x hx hik).2 c' h1
  · rw [h1]
    exact hc

theorem Skips.skip_begin (h : Skips k a v u) (hik : i ≠ k) :
    Skips k a v { u with Actors := u.Actors.modify (fun x => { x with BeginTick := true }) i } := by
  refine h.of_quiet ?_ rfl
  refine h.1.modify hik (fun x => { x with BeginTick := true }) ?_ rfl rfl
  intro x hx
  exact ⟨rfl, fun c' hc' => (h.1.2.1 i x hx hik).2 c' hc'⟩

theorem Skips.skip_attach (h : Skips k a v u) (hik : i ≠ k) (j : Nat) {b : BrushComponent}
    (hc : b.ptr ∉ a.Components.map Component.ptr) : Skips k a v (u.attachBrush i j b) := by
  unfold World.attachBrush
  simp only
  split_ifs
  · exact (h.of_quiet (w := { u with AllBrushes := setInsert u.AllBrushes b.ptr })
      (h.1.apart_of_eq rfl rfl) rfl).skip_set hik j hc
  · exact h.of_quiet (h.1.apart_of_eq rfl rfl) rfl

theorem avoids_component {p : Ptr} (hp : p ∉ a.Components.map Component.ptr) :
    (Object.component p).avoids a := by
  refine ⟨by simp, fun c hc he => hp ?_⟩
  have : p = c.ptr := by simpa using he
  rw [this]
  exact List.mem_map_of_mem _ hc

theorem avoids_actor {p : Ptr} (hp : p ≠ a.ptr) : (Object.actor p).avoids a :=
  ⟨by simpa using hp, fun c _ => by simp⟩

theorem avoids_world (a : Actor) : Object.world.avoids a := ⟨by simp, fun c _ => by simp⟩

theorem Tick_ptr (T : Trig) (reg : List BrushComponent) (b : BrushComponent) :
    (b.Tick T reg).ptr = b.ptr := by
  obtain ⟨m, l, h⟩ := BrushComponent.Tick_fixed T reg b
  rw [h]

theorem LateTick_ptr (T : Trig) (reg : List BrushComponent) (b : BrushComponent) :
    (b.LateTick T reg).ptr = b.ptr := by
  obtain ⟨m, l, h⟩ := BrushComponent.LateTick_fixed T reg b
  rw [h]

theorem Start_ptr (T : Trig) (reg : List BrushComponent) (b : BrushComponent) :
    (b.Start T reg).ptr = b.ptr := by
  obtain ⟨m, l, h⟩ := BrushComponent.Start_fixed T reg b
  rw [h]

end World
end FureyEngine

namespace FureyEngine
namespace World

variable {P : Program} {T : Trig} {v u w : World} {i j k : Nat} {a : Actor}

theorem tickComponent_skips (hik : i ≠ k) (hv : v.Apart k a) :
    Skips k a v (tickComponent P T i j v) := by
  unfold tickComponent
  cases hx : v.Actors[i]? with
  | none => exact Skips.skips_refl hv
  | some x =>
    simp only
    cases hc : x.Components[j]? with
    | none => exact Skips.skips_refl hv
    | some c =>
      have hp : c.ptr ∉ a.Components.map Component.ptr :=
        (hv.2.1 i x hx hik).2 c (List.getElem?_mem hc)
      simp only
      split_ifs
      · exact Skips.skips_refl hv
      · cases c with
        | Plain p cls act bt =>
          have ho := avoids_component (a := a) hp
          simp only
          split_ifs
          · exact (((Skips.skips_refl hv).skip_call ho _).skip_run _ _).skip_call ho _
          · exact (((Skips.skips_refl hv).skip_call ho _).skip_run _ _).skip_call ho _
        | Brush b =>
          have ho := avoids_component (a := a) hp
          have hb : b.ptr ∉ a.Components.map Component.ptr := hp
          simp only
          split_ifs
          · refine (((Skips.skips_refl hv).skip_call ho _).skip_set hik j ?_).skip_call ho _
            show (BrushComponent.Tick T _ _).ptr ∉ _
            rw [Tick_ptr]
            exact hb
          · exact (((Skips.skips_refl hv).skip_call ho _).skip_attach hik j hb).skip_call ho _

theorem lateComponent_skips (hik : i ≠ k) (hv : v.Apart k a) :
    Skips k a v (lateComponent P T i j v) := by
  unfold lateComponent
  cases hx : v.Actors[i]? with
  | none => exact Skips.skips_refl hv
  | some x =>
    simp only
    cases hc : x.Components[j]? with
    | none => exact Skips.skips_refl hv
    | some c =>
      have hp : c.ptr ∉ a.Components.map Component.ptr :=
        (hv.2.1 i x hx hik).2 c (List.getElem?_mem hc)
      simp only
      split_ifs
      · exact Skips.skips_refl hv
      · cases c with
        | Plain p cls act bt =>
          have ho := avoids_component (a := a) hp
          simp only
          split_ifs
          · exact (((Skips.skips_refl hv).skip_call ho _).skip_run _ _).skip_call ho _
          · exact ((((Skips.skips_refl hv).skip_call ho _).skip_run _ _).skip_call ho _).skip_set
              hik j hp
        | Brush b =>
          have ho := avoids_component (a := a) hp
          have hb : b.ptr ∉ a.Components.map Component.ptr := hp
          simp only
          split_ifs
          · refine (((Skips.skips_refl hv).skip_call ho _).skip_set hik j ?_).skip_call ho _
            show (BrushComponent.LateTick T _ _).ptr ∉ _
            rw [LateTick_ptr]
            exact hb
          · refine (((Skips.skips_refl hv).skip_call ho _).skip_call ho _).skip_set hik j ?_
            show (BrushComponent.Start T _ _).ptr ∉ _
            rw [Start_ptr]
            exact hb

theorem foldl_skips (f : World → Nat → World)
    (hf : ∀ (u : World) (j : Nat), u.Apart k a → Skips k a u (f u j)) (l : List Nat)
    (h : Skips k a v u) : Skips k a v (l.foldl f u) := by
  induction l generalizing u with
  | nil => exact h
  | cons j l ih => exact ih (h.skips_trans (hf u j h.1))

/-- The body of the tick loop skips an inactive actor: it and its components stay as they are
and get no call, whichever actor the body runs for. -/
theorem tickActor_skips (hidle : a.Active = false) (hv : v.Apart k a) :
    Skips k a v (tickActor P T i v) := by
  unfold tickActor
  cases hx : v.Actors[i]? with
  | none => exact Skips.skips_refl hv
  | some x =>
    simp only
    by_cases hik : i = k
    · subst hik
      rw [hv.1] at hx
      cases hx
      simp only [Actor.IsActive, hidle, Bool.not_false, if_true]
      exact Skips.skips_refl hv
    · have ho := avoids_actor (a := a) (hv.2.1 i x hx hik).1
      split_ifs
      · exact Skips.skips_refl hv
      · exact foldl_skips _ (fun u j hu => tickComponent_skips hik hu) _
          ((((Skips.skips_refl hv).skip_call ho _).skip_run _ _).skip_call ho _)
      · exact foldl_skips _ (fun u j hu => tickComponent_skips hik hu) _
          ((((Skips.skips_refl hv).skip_call ho _).skip_run _ _).skip_call ho _)

theorem lateActor_skips (hidle : a.Active = false) (hv : v.Apart k a) :
    Skips k a v (lateActor P T i v) := by
  unfold lateActor
  cases hx : v.Actors[i]? with
  | none => exact Skips.skips_refl hv
  | some x =>
    simp only
    by_cases hik : i = k
    · subst hik
      rw [hv.1] at hx
      cases hx
      simp only [Actor.IsActive, hidle, Bool.not_false, if_true]
      exact Skips.skips_refl hv
    · have ho := avoids_actor (a := a) (hv.2.1 i x hx hik).1
      split_ifs
      · exact Skips.skips_refl hv
      · exact foldl_skips _ (fun u j hu => lateComponent_skips hik hu) _
          ((((Skips.skips_refl hv).skip_call ho _).skip_run _ _).skip_call ho _)
      · exact foldl_skips _ (fun u j hu => lateComponent_skips hik hu) _
          (((((Skips.skips_refl hv).skip_call ho _).skip_run _ _).skip_call ho _).skip_begin hik)

theorem tickPhase_skips (hidle : a.Active = false) {fuel : Nat} {v' : World}
    (h : tickPhase P T fuel i v = some v') (hv : v.Apart k a) : Skips k a v v' :=
  tickPhase_rel (fun v u => v.Apart k a → Skips k a v u) (fun _ h => Skips.skips_refl h)
    (fun _ _ _ h1 h2 h => (h1 h).skips_trans (h2 (h1 h).1))
    (fun _ _ h => tickActor_skips hidle h) fuel i v v' h hv

theorem latePhase_skips (hidle : a.Active = false) {fuel : Nat} {v' : World}
    (h : latePhase P T fuel i v = some v') (hv : v.Apart k a) : Skips k a v v' :=
  latePhase_rel (fun v u => v.Apart k a → Skips k a v u) (fun _ h => Skips.skips_refl h)
    (fun _ _ _ h1 h2 h => (h1 h).skips_trans (h2 (h1 h).1))
    (fun _ _ h => lateActor_skips hidle h) fuel i v v' h hv

end World
end FureyEngine

namespace FureyEngine
namespace World

variable {P : Program} {T : Trig} {v u w : World} {i j k : Nat} {a : Actor}

theorem Holds_of_apart (h : v.Apart k a) : Holds a v := by
  intro x hx hp
  obtain ⟨i, hi⟩ := List.getElem?_of_mem hx
  by_cases hik : i = k
  · subst hik
    rw [h.1] at hi
    cases hi
    exact ⟨rfl, List.Sublist.refl _⟩
  · exact absurd hp (h.2.1 i x hi hik).1

theorem cleanupCall_holds (h : Holds a v) (c : CleanupCall) : Holds a (v.cleanupCall c) := by
  cases c with
  | RemoveComponent q r =>
    simp only [cleanupCall]
    cases v.Actors.find? (fun x => x.ptr == q) with
    | none => exact h
    | some y =>
      simp only
      split_ifs
      · intro x hx hp
        have hx' : x ∈ v.Actors.map (fun x =>
            if x.ptr = q then
              { x with Components := x.Components.filter (fun y => !(y.ptr == r)) }
            else x) := hx
        obtain ⟨x0, hx0, rfl⟩ := List.mem_map.mp hx'
        by_cases hq : x0.ptr = q
        · simp only [hq, if_true] at hp ⊢
          obtain ⟨b1, b2⟩ := h x0 hx0 (hq.trans hp)
          exact ⟨b1, (List.filter_sublist _).trans b2⟩
        · simp only [hq, if_false] at hp ⊢
          exact h x0 hx0 hp
      · exact h
  | DestroyActor q =>
    simp only [cleanupCall]
    split_ifs
    · intro x hx hp
      have hx' : x ∈ v.Actors.filter (fun x => !(x.ptr == q)) := hx
      exact h x (List.mem_filter.mp hx').1 hp
    · exact h

theorem cleanupCall_trace (v : World) (c : CleanupCall) :
    ∃ tr, (v.cleanupCall c).Trace = v.Trace ++ tr ∧ ∀ e ∈ tr, e.cleans = true := by
  cases c with
  | RemoveComponent q r =>
    simp only [cleanupCall]
    cases v.Actors.find? (fun x => x.ptr == q) with
    | none => exact ⟨[], by simp, by simp⟩
    | some y =>
      simp only
      split_ifs
      · refine ⟨[⟨.component r, .Remove⟩, ⟨.component r, .OnRemove⟩], by simp [call], ?_⟩
        intro e he
        simp only [List.mem_cons, List.mem_singleton, List.not_mem_nil, or_false] at he
        rcases he with rfl | rfl <;> rfl
      · exact ⟨[], by simp, by simp⟩
  | DestroyActor q =>
    simp only [cleanupCall]
    split_ifs
    · refine ⟨[⟨.actor q, .Destroy⟩, ⟨.actor q, .OnDestroy⟩], by simp [call], ?_⟩
      intro e he
      simp only [List.mem_cons, List.mem_singleton, List.not_mem_nil, or_false] at he
      rcases he with rfl | rfl <;> rfl
    · exact ⟨[], by simp, by simp⟩

theorem cleanup_fold_holds (L : List CleanupCall) (v : World) (h : Holds a v) :
    Holds a (L.foldl cleanupCall v) ∧
      ∃ tr, (L.foldl cleanupCall v).Trace = v.Trace ++ tr ∧ ∀ e ∈ tr, e.cleans = true := by
  induction L generalizing v with
  | nil => exact ⟨h, [], by simp, by simp⟩
  | cons c L ih =>
    obtain ⟨t1, e1, m1⟩ := cleanupCall_trace v c
    obtain ⟨h2, t2, e2, m2⟩ := ih (v.cleanupCall c) (cleanupCall_holds h c)
    refine ⟨h2, t1 ++ t2, ?_, ?_⟩
    · rw [List.foldl_cons, e2, e1, List.append_assoc]
    · intro e he
      rcases List.mem_append.mp he with h' | h'
      · exact m1 e h'
      · exact m2 e h'

theorem cleanup_holds (v : World) (h : Holds a v) :
    Holds a v.cleanup ∧
      ∃ tr, v.cleanup.Trace = v.Trace ++ tr ∧ ∀ e ∈ tr, e.cleans = true :=
  cleanup_fold_holds v.Cleanup v h

/-- A World::Update that returns has made no call on an inactive actor or on its components
but those of the cleanup closures, and has left the actor as it was. -/
theorem Update_skips (hidle : a.Active = false) (hw : w.Apart k a) {fuel : Nat} {w' : World}
    (h : Update P T fuel w = some w') :
    Holds a w' ∧ ∃ tr, w'.Trace = w.Trace ++ tr ∧
      ∀ e ∈ tr, e.object.avoids a ∨ e.cleans = true := by
  have main : ∀ (m1 m2 m3 m4 : Method) (w2 w4 w4' : World),
      tickPhase P T fuel 0 ((w.call .world m1).call .world m2) = some w2 →
      latePhase P T fuel 0 ((w2.call .world m3).call .world m4) = some w4 →
      w4'.Actors = w4.Actors → w4'.Heap = w4.Heap → w4'.Trace = w4.Trace →
      Holds a w4' ∧ ∃ tr, w4'.Trace = w.Trace ++ tr ∧ ∀ e ∈ tr, e.object.avoids a := by
    intro m1 m2 m3 m4 w2 w4 w4' h2 h4 e1 e2 e3
    have s0 : Skips k a w ((w.call .world m1).call .world m2) :=
      ((Skips.skips_refl hw).skip_call (avoids_world a) _).skip_call (avoids_world a) _
    have s2 := s0.skips_trans (tickPhase_skips hidle h2 s0.1)
    have s3 : Skips k a w ((w2.call .world m3).call .world m4) :=
      (s2.skip_call (avoids_world a) _).skip_call (avoids_world a) _
    have s4 := s3.skips_trans (latePhase_skips hidle h4 s3.1)
    obtain ⟨tr, ht, hm⟩ := s4.2
    exact ⟨Holds_of_apart (s4.1.apart_of_eq e1 e2), tr, by rw [e3, ht], hm⟩
  have fin : ∀ w4' : World,
      (Holds a w4' ∧ ∃ tr, w4'.Trace = w.Trace ++ tr ∧ ∀ e ∈ tr, e.object.avoids a) →
      Holds a w4'.cleanup ∧ ∃ tr, w4'.cleanup.Trace = w.Trace ++ tr ∧
        ∀ e ∈ tr, e.object.avoids a ∨ e.cleans = true := by
    intro w4' ⟨hh, t1, e1, m1⟩
    obtain ⟨hc, t2, e2, m2⟩ := cleanup_holds w4' hh
    refine ⟨hc, t1 ++ t2, by rw [e2, e1, List.append_assoc], ?_⟩
    intro e he
    rcases List.mem_append.mp he with h' | h'
    · exact Or.inl (m1 e h')
    · exact Or.inr (m2 e h')
  rcases Update_cases h with ⟨-, rfl⟩ | ⟨-, -, w2, w4, h2, h4, rfl⟩ |
    ⟨-, -, w2, w4, h2, h4, rfl⟩
  · exact ⟨Holds_of_apart hw, [], by simp, by simp⟩
  · exact fin w4 (main _ _ _ _ w2 w4 w4 h2 h4 rfl rfl rfl)
  · exact fin _ (main _ _ _ _ w2 w4 { w4 with BeginTick := true } h2 h4 rfl rfl rfl)

end World

theorem Scenario.idleWorld_apart : World.Apart Scenario.idleWorld 1 Scenario.idleActor := by
  refine ⟨rfl, ?_, by decide⟩
  intro i x hx hik
  match i, hx, hik with
  | 0, hx, _ =>
    simp only [Scenario.idleWorld, List.getElem?_cons_zero, Option.some.injEq] at hx
    subst hx
    exact ⟨by decide, fun c hc => by simp at hc⟩
  | 1, _, hik => exact absurd rfl hik
  | i + 2, hx, _ => simp [Scenario.idleWorld] at hx

end FureyEngine

namespace FureyEngine

namespace PhysicsComponent

theorem slow_sign (v f : ℚ) (hf : 0 ≤ f) :
    slow v f = (SignType.sign v : ℚ) * max (|v| - f) 0 ∧ |slow v f| ≤ |v| ∧ 0 ≤ v * slow v f := by
  unfold slow
  rcases lt_trichotomy v 0 with hv | hv | hv
  · have h1 : ¬ v ≥ 0 := not_le.mpr hv
    rw [if_neg h1]
    by_cases h2 : v + f > 0
    · rw [if_pos h2]
      refine ⟨?_, ?_, ?_⟩
      · rw [abs_of_neg hv, max_eq_right (by linarith), mul_zero]
      · rw [abs_zero]
        exact abs_nonneg v
      · rw [mul_zero]
    · rw [if_neg h2]
      have h3 : v + f ≤ 0 := not_lt.mp h2
      refine ⟨?_, ?_, by nlinarith⟩
      · rw [abs_of_neg hv, max_eq_left (by linarith), sign_neg hv]
        simp only [SignType.coe_neg_one]
        ring
      · rw [abs_of_nonpos h3, abs_of_neg hv]
        linarith
  · subst hv
    rw [if_pos (le_refl (0 : ℚ))]
    have h0 : (if (0 : ℚ) - f < 0 then (0 : ℚ) else 0 - f) = 0 := by
      split_ifs <;> linarith
    rw [h0, sign_zero]
    simp
  · have h1 : v ≥ 0 := hv.le
    rw [if_pos h1]
    by_cases h2 : v - f < 0
    · rw [if_pos h2]
      refine ⟨?_, ?_, ?_⟩
      · rw [abs_of_pos hv, max_eq_right (by linarith), mul_zero]
      · rw [abs_zero]
        exact abs_nonneg v
      · rw [mul_zero]
    · rw [if_neg h2]
      have h3 : 0 ≤ v - f := not_lt.mp h2
      refine ⟨?_, ?_, by nlinarith⟩
      · rw [abs_of_pos hv, max_eq_left (by linarith), sign_pos hv]
        simp only [SignType.coe_one, one_mul]
      · rw [abs_of_nonneg h3, abs_of_pos hv]
        linarith

end PhysicsComponent

end FureyEngine

namespace FureyEngine
namespace World

variable {P : Program} {T : Trig} {v u w : World} {i j : Nat}

/-! ### The addresses of the actors and of their components through the phases -/

theorem parts_same {p : Ptr} {cs : List Ptr}
    (h : v.Actors.map Actor.parts = w.Actors.map Actor.parts)
    (hw : ∀ y ∈ w.Actors, y.ptr = p → y.Components.map Component.ptr = cs) :
    ∀ y ∈ v.Actors, y.ptr = p → y.Components.map Component.ptr = cs := by
  intro y hy hp
  have h1 : y.parts ∈ w.Actors.map Actor.parts := by
    rw [← h]
    exact List.mem_map.mpr ⟨y, hy, rfl⟩
  obtain ⟨z, hz, hzy⟩ := List.mem_map.mp h1
  simp only [Actor.parts, Prod.mk.injEq] at hzy
  rw [← hzy.2]
  exact hw z hz (hzy.1.trans hp)

theorem parts_ptr (h : v.Actors.map Actor.parts = w.Actors.map Actor.parts) :
    v.Actors.map Actor.ptr = w.Actors.map Actor.ptr := by
  have := congrArg (List.map Prod.fst) h
  simpa [List.map_map, Function.comp, Actor.parts] using this

theorem setComponent_parts {x : Actor} {c c0 : Component} (hx : u.Actors[i]? = some x)
    (hc : x.Components[j]? = some c0) (hp : c.ptr = c0.ptr) :
    (u.setComponent i j c).Actors.map Actor.parts = u.Actors.map Actor.parts := by
  obtain ⟨l1, l2, h1, rfl⟩ := List.decomp_of_getElem? hx
  obtain ⟨c1, c2, h2, rfl⟩ := List.decomp_of_getElem? hc
  simp only [setComponent, h1, List.modify_decomp, h2, List.set_decomp, List.map_append,
    List.map_cons, Actor.parts, hp]

theorem attachBrush_parts {x : Actor} {b : BrushComponent} (hx : u.Actors[i]? = some x)
    (hc : x.Components[j]? = some (.Brush b)) :
    (u.attachBrush i j b).Actors.map Actor.parts = u.Actors.map Actor.parts := by
  unfold attachBrush
  simp only
  split_ifs
  · exact setComponent_parts (u := { u with AllBrushes := setInsert u.AllBrushes b.ptr }) hx hc rfl
  · rfl

theorem tickComponent_parts (hcomp : ∀ k, P.component k = {}) (v : World) :
    (tickComponent P T i j v).Actors.map Actor.parts = v.Actors.map Actor.parts := by
  unfold tickComponent
  cases hx : v.Actors[i]? with
  | none => rfl
  | some a =>
    simp only
    cases hc : a.Components[j]? with
    | none => rfl
    | some c =>
      simp only
      split_ifs
      · rfl
      · cases c with
        | Plain p cls act bt =>
          simp only [hcomp]
          split_ifs <;> rfl
        | Brush b =>
          simp only
          split_ifs
          · exact setComponent_parts (u := v.call (.component b.ptr) .Tick) hx hc
              (Tick_ptr _ _ _)
          · exact attachBrush_parts (u := v.call (.component b.ptr) .Attach) hx hc

theorem lateComponent_parts (hcomp : ∀ k, P.component k = {}) (v : World) :
    (lateComponent P T i j v).Actors.map Actor.parts = v.Actors.map Actor.parts := by
  unfold lateComponent
  cases hx : v.Actors[i]? with
  | none => rfl
  | some a =>
    simp only
    cases hc : a.Components[j]? with
    | none => rfl
    | some c =>
      simp only
      split_ifs
      · rfl
      · cases c with
        | Plain p cls act bt =>
          simp only [hcomp]
          split_ifs
          · rfl
          · exact setComponent_parts
              (u := (((v.call (.component p) .Start).run a.ptr []).call (.component p) .OnStart))
              hx hc rfl
        | Brush b =>
          simp only
          split_ifs
          · exact setComponent_parts (u := v.call (.component b.ptr) .LateTick) hx hc
              (LateTick_ptr _ _ _)
          · exact setComponent_parts
              (u := (v.call (.component b.ptr) .Start).call (.component b.ptr) .OnStart) hx hc
              (Start_ptr _ _ _)

theorem foldl_parts (f : World → Nat → World)
    (hf : ∀ (u : World) (j : Nat), (f u j).Actors.map Actor.parts = u.Actors.map Actor.parts)
    (l : List Nat) (u : World) :
    (l.foldl f u).Actors.map Actor.parts = u.Actors.map Actor.parts := by
  induction l generalizing u with
  | nil => rfl
  | cons j l ih => exact (ih (f u j)).trans (hf u j)

theorem run_destroy_actors (self : Ptr) (s : Script) (hs : s = [] ∨ s = [Action.DestroyThis])
    (v : World) : (v.run self s).Actors = v.Actors := by
  rcases hs with rfl | rfl
  · rfl
  · exact (DestroyActor_actors (v := v) (some self)).1

/-- An actor whose Tick is empty or destroys the actor, and whose Spawn is empty, leaves the
addresses of the actors and of their components as they are in the tick phase. -/
theorem tickActor_parts (hcomp : ∀ k, P.component k = {})
    (hcls : ∀ x, v.Actors[i]? = some x →
      ((P.actor x.cls).Tick = [] ∨ (P.actor x.cls).Tick = [Action.DestroyThis]) ∧
        (P.actor x.cls).Spawn = []) :
    (tickActor P T i v).Actors.map Actor.parts = v.Actors.map Actor.parts := by
  unfold tickActor
  cases hx : v.Actors[i]? with
  | none => rfl
  | some a =>
    obtain ⟨h1, h2⟩ := hcls a hx
    simp only [h2]
    split_ifs
    · rfl
    · refine (foldl_parts _ (fun u j => tickComponent_parts hcomp u) _ _).trans ?_
      show ((v.call (.actor a.ptr) .Tick).run a.ptr (P.actor a.cls).Tick).Actors.map Actor.parts
        = v.Actors.map Actor.parts
      rw [run_destroy_actors a.ptr _ h1]
      rfl
    · exact foldl_parts _ (fun u j => tickComponent_parts hcomp u) _ _

/-- An actor whose class overrides neither LateTick nor Start leaves the addresses of the
actors and of their components as they are in the late-tick phase. -/
theorem lateActor_parts (hcomp : ∀ k, P.component k = {})
    (hcls : ∀ x, v.Actors[i]? = some x →
      (P.actor x.cls).LateTick = [] ∧ (P.actor x.cls).Start = []) :
    (lateActor P T i v).Actors.map Actor.parts = v.Actors.map Actor.parts := by
  unfold lateActor
  cases hx : v.Actors[i]? with
  | none => rfl
  | some a =>
    obtain ⟨h1, h2⟩ := hcls a hx
    simp only [h1, h2]
    split_ifs
    · rfl
    · exact foldl_parts _ (fun u j => lateComponent_parts hcomp u) _ _
    · refine (foldl_parts _ (fun u j => lateComponent_parts hcomp u) _ _).trans ?_
      exact List.map_modify_of_eq Actor.parts (fun a : Actor => { a with BeginTick := true })
        (fun a => rfl) _ _

end World
end FureyEngine
namespace FureyEngine
namespace World

variable {P : Program} {T : Trig} {v u w : World} {i j : Nat}

/-! ### The closures bound by DestroyActor, exactly -/

theorem RemoveComponent_fold_exact {p : Ptr} {y : Actor} (cs : List Component) (v : World)
    (hf : v.Actors.find? (fun a => a.ptr == p) = some y) (hcs : ∀ c ∈ cs, c ∈ y.Components) :
    cs.foldl (fun w c => (w.RemoveComponent p (some c.ptr)).2) v =
      { v with
        Cleanup := v.Cleanup ++ cs.map (fun c => CleanupCall.RemoveComponent p c.ptr) } := by
  induction cs generalizing v with
  | nil => simp
  | cons c cs ih =>
    have hany : y.Components.any (fun x => x.ptr == c.ptr) = true :=
      List.any_eq_true.mpr ⟨c, hcs c (List.mem_cons_self _ _), by simp⟩
    have h1 : (v.RemoveComponent p (some c.ptr)).2 =
        { v with Cleanup := v.Cleanup ++ [CleanupCall.RemoveComponent p c.ptr] } := by
      simp only [RemoveComponent, hf, hany, if_true]
    rw [List.foldl_cons, h1,
      ih { v with Cleanup := v.Cleanup ++ [CleanupCall.RemoveComponent p c.ptr] } hf
        (fun x hx => hcs x (List.mem_cons_of_mem _ hx))]
    simp

theorem DestroyActor_exact {p : Ptr} {cs : List Ptr} (hmem : ∃ y ∈ v.Actors, y.ptr = p)
    (hsame : ∀ y ∈ v.Actors, y.ptr = p → y.Components.map Component.ptr = cs) :
    v.DestroyActor (some p) =
      (true, { v with Cleanup := v.Cleanup ++ destroyQueue p cs }) := by
  obtain ⟨y0, hy0, hp0⟩ := hmem
  cases hf : v.Actors.find? (fun a => a.ptr == p) with
  | none =>
    have := List.find?_eq_none.mp hf y0 hy0
    simp [hp0] at this
  | some y =>
    have hyp : y.ptr = p := by simpa using List.find?_some hf
    have hy : y ∈ v.Actors := List.mem_of_find?_eq_some hf
    have hcs := hsame y hy hyp
    simp only [DestroyActor, hf, hyp]
    rw [RemoveComponent_fold_exact y.Components v hf (fun c hc => hc)]
    simp only [destroyQueue, ← hcs, List.map_map, List.append_assoc]
    rfl

/-- The tick of a begun, active actor whose Tick calls DestroyActor on itself binds exactly the
closures of one DestroyActor call. -/
theorem tickActor_queue (hcomp : ∀ k, P.component k = {}) {x : Actor} {cs : List Ptr}
    (hx : v.Actors[i]? = some x) (hact : x.Active = true) (hbt : x.BeginTick = true)
    (hcls : (P.actor x.cls).Tick = [Action.DestroyThis])
    (hsame : ∀ y ∈ v.Actors, y.ptr = x.ptr → y.Components.map Component.ptr = cs) :
    (tickActor P T i v).Cleanup = v.Cleanup ++ destroyQueue x.ptr cs := by
  have hd := DestroyActor_exact (v := v.call (.actor x.ptr) .Tick)
    ⟨x, List.getElem?_mem hx, rfl⟩ hsame
  have hst := foldl_steady (fun w j => w.tickComponent P T i j)
    (fun u j => tickComponent_steady hcomp u) (List.range x.Components.length)
    (Steady.same (((v.call (.actor x.ptr) .Tick).run x.ptr [Action.DestroyThis]).call
      (.actor x.ptr) .OnTick))
  have ht : tickActor P T i v =
      (List.range x.Components.length).foldl (fun w j => w.tickComponent P T i j)
        (((v.call (.actor x.ptr) .Tick).run x.ptr [Action.DestroyThis]).call
          (.actor x.ptr) .OnTick) := by
    simp [tickActor, hx, Actor.IsActive, hact, hbt, hcls]
  rw [ht, hst.2.1]
  simp only [run, List.foldl_cons, List.foldl_nil, act, hd]
  rfl

/-- The cleanup closures of the components of the actor at `p`, invoked in order: Remove and
OnRemove are called on each component in turn and the actor is left without components. -/
theorem cleanup_removeAll (p : Ptr) (cs : List Ptr) (v : World) (hcs : cs.Nodup)
    (hmem : ∃ y ∈ v.Actors, y.ptr = p)
    (hsame : ∀ y ∈ v.Actors, y.ptr = p → y.Components.map Component.ptr = cs) :
    ((cs.map (CleanupCall.RemoveComponent p)).foldl cleanupCall v).Trace =
        v.Trace ++ removeCalls cs ∧
      ((cs.map (CleanupCall.RemoveComponent p)).foldl cleanupCall v).Actors.map Actor.ptr =
        v.Actors.map Actor.ptr ∧
      ∀ y ∈ ((cs.map (CleanupCall.RemoveComponent p)).foldl cleanupCall v).Actors,
        y.ptr = p → y.Components = [] := by
  induction cs generalizing v with
  | nil =>
    refine ⟨by simp [removeCalls], rfl, ?_⟩
    intro y hy hp
    simpa using hsame y hy hp
  | cons c cs ih =>
    obtain ⟨y0, hy0, hp0⟩ := hmem
    have hc : c ∉ cs := (List.nodup_cons.mp hcs).1
    cases hf : v.Actors.find? (fun a => a.ptr == p) with
    | none =>
      have := List.find?_eq_none.mp hf y0 hy0
      simp [hp0] at this
    | some y =>
      have hyp : y.ptr = p := by simpa using List.find?_some hf
      have hy : y ∈ v.Actors := List.mem_of_find?_eq_some hf
      have hany : y.Components.any (fun x => x.ptr == c) = true := by
        have h1 : c ∈ y.Components.map Component.ptr := by
          rw [hsame y hy hyp]
          exact List.mem_cons_self _ _
        obtain ⟨z, hz, hzc⟩ := List.mem_map.mp h1
        exact List.any_eq_true.mpr ⟨z, hz, by simp [hzc]⟩
      have hstep : v.cleanupCall (.RemoveComponent p c) =
          { v with
            Trace := v.Trace ++ [⟨.component c, .Remove⟩, ⟨.component c, .OnRemove⟩]
            Actors := v.Actors.map fun x =>
              if x.ptr = p then
                { x with Components := x.Components.filter (fun y => !(y.ptr == c)) }
              else x
            AllBrushes := v.AllBrushes.filter (fun q => !(q == c)) } := by
        simp [cleanupCall, hf, hany, call]
      have hptr : (v.cleanupCall (.RemoveComponent p c)).Actors.map Actor.ptr =
          v.Actors.map Actor.ptr := (cleanupCall_remove v p c).1
      obtain ⟨h1, h2, h3⟩ := ih (v.cleanupCall (.RemoveComponent p c))
        (List.nodup_cons.mp hcs).2
        (by
          have h0 : p ∈ (v.cleanupCall (.RemoveComponent p c)).Actors.map Actor.ptr := by
            rw [hptr]
            exact List.mem_map.mpr ⟨y0, hy0, hp0⟩
          obtain ⟨z, hz, hzp⟩ := List.mem_map.mp h0
          exact ⟨z, hz, hzp⟩)
        (by
          intro z hz hzp
          rw [hstep] at hz
          obtain ⟨z0, hz0, rfl⟩ := List.mem_map.mp hz
          by_cases hz0p : z0.ptr = p
          · simp only [hz0p, if_true]
            have h5 := hsame z0 hz0 hz0p
            have h6 : (z0.Components.filter (fun y => !(y.ptr == c))).map Component.ptr =
                (z0.Components.map Component.ptr).filter (fun q => !(q == c)) := by
              rw [List.filter_map]
              rfl
            rw [h6, h5, List.filter_cons]
            simp only [beq_self_eq_true, Bool.not_true, Bool.false_eq_true, if_false]
            apply List.filter_eq_self.mpr
            intro q hq
            have : q ≠ c := fun h => hc (h ▸ hq)
            simpa using this
          · rw [if_neg hz0p] at hzp
            exact absurd hzp hz0p)
      rw [List.map_cons, List.foldl_cons]
      refine ⟨?_, h2.trans hptr, h3⟩
      rw [h1, hstep]
      simp [removeCalls, List.flatMap_cons]

end World
end FureyEngine
namespace FureyEngine
namespace World

variable {P : Program} {T : Trig} {v u w : World} {i j : Nat}

/-- The tick phase of a world in which only the actor at position `k` overrides anything, and
its Tick destroys it: the queue holds exactly the closures of that one DestroyActor call. -/
theorem tickPhase_queue (hcomp : ∀ c, P.component c = {}) {k : Nat} {a : Actor}
    (hcls : P.actor a.cls = { Tick := [Action.DestroyThis] })
    (hother : ∀ i x, w.Actors[i]? = some x → i ≠ k → P.actor x.cls = {})
    (ha : w.Actors[k]? = some a) (hact : a.Active = true) (hbt : a.BeginTick = true)
    (hclean : w.Cleanup = [])
    (hone : ∀ y ∈ w.Actors, y.ptr = a.ptr →
      y.Components.map Component.ptr = a.Components.map Component.ptr)
    (fuel : Nat) (hfuel : w.Actors.length < fuel) :
    ∃ w2, tickPhase P T fuel 0 w = some w2 ∧
      w2.Actors.map Actor.header = w.Actors.map Actor.header ∧
      (w2.Actors.map Actor.BeginTick)[k]? = some true ∧
      w2.Actors.map Actor.parts = w.Actors.map Actor.parts ∧
      w2.Cleanup = destroyQueue a.ptr (a.Components.map Component.ptr) := by
  have hk : k < w.Actors.length := (List.getElem?_eq_some_iff.mp ha).1
  obtain ⟨w2, h2, q1, q2, q3, q4⟩ := tickPhase_inv (P := P) (T := T)
    (fun i v => v.Actors.map Actor.header = w.Actors.map Actor.header ∧
      (v.Actors.map Actor.BeginTick)[k]? = some true ∧
      v.Actors.map Actor.parts = w.Actors.map Actor.parts ∧
      (if k < i then v.Cleanup = destroyQueue a.ptr (a.Components.map Component.ptr)
        else v.Cleanup = []))
    w.Actors.length (fun i v hq => header_length hq.1)
    (by
      intro i v hi ⟨q1, q2, q3, q4⟩
      by_cases hik : i = k
      · subst hik
        obtain ⟨x, hx, xp, xc, xa⟩ := header_getElem? q1 ha
        have hxb := begun_getElem? hx q2
        rw [if_neg (Nat.lt_irrefl _)] at q4
        have hxcls : (P.actor x.cls).Tick = [Action.DestroyThis] := by rw [xc, hcls]
        obtain ⟨u, u1, -, u3⟩ := tickActor_destroy (P := P) (T := T) hcomp hx
          (xa.trans hact) hxb hxcls q4
        have hq : (tickActor P T i v).Cleanup =
            v.Cleanup ++ destroyQueue x.ptr (a.Components.map Component.ptr) :=
          tickActor_queue hcomp hx (xa.trans hact) hxb hxcls
            (by
              intro y hy hp
              exact parts_same q3 hone y hy (hp.trans xp))
        refine ⟨?_, u3.2.2 i (by rw [u1]; exact q2), ?_, ?_⟩
        · rw [u3.1, u1]
          exact q1
        · refine (tickActor_parts hcomp ?_).trans q3
          intro x' hx'
          rw [hx] at hx'
          cases hx'
          rw [xc, hcls]
          exact ⟨Or.inr rfl, rfl⟩
        · rw [if_pos (Nat.lt_succ_self i), hq, q4, xp]
          rfl
      · obtain ⟨x0, hx0⟩ : ∃ x0, w.Actors[i]? = some x0 :=
          ⟨_, List.getElem?_eq_getElem hi⟩
        have hbase : ∀ x, v.Actors[i]? = some x → P.actor x.cls = {} := by
          intro x hx
          obtain ⟨x', hx', -, xc, -⟩ := header_getElem? q1 hx0
          rw [hx] at hx'
          cases hx'
          rw [xc, hother i x0 hx0 hik]
        have hst : v.Steady (tickActor P T i v) := by
          apply tickActor_steady hcomp
          intro x hx
          rw [hbase x hx]
          exact ⟨rfl, rfl⟩
        refine ⟨hst.1.trans q1, hst.2.2 k q2, ?_, ?_⟩
        · refine (tickActor_parts hcomp ?_).trans q3
          intro x hx
          rw [hbase x hx]
          exact ⟨Or.inl rfl, rfl⟩
        · by_cases hki : k < i
          · rw [if_pos hki] at q4
            rw [if_pos (Nat.lt_succ_of_lt hki), hst.2.1]
            exact q4
          · rw [if_neg hki] at q4
            rw [if_neg (by omega), hst.2.1]
            exact q4)
    fuel 0 w (Nat.zero_le _) (by omega)
    ⟨rfl, by simp [ha, hbt], rfl, by simpa using hclean⟩
  rw [if_pos hk] at q4
  exact ⟨w2, h2, q1, q2, q3, q4⟩

/-- The late-tick phase of a world in which no actor overrides LateTick or Start leaves the
queue and the addresses of the actors and of their components as they are. -/
theorem latePhase_queue (hcomp : ∀ c, P.component c = {})
    (hall : ∀ (i : Nat) (x : Actor), w.Actors[i]? = some x →
      (P.actor x.cls).LateTick = [] ∧ (P.actor x.cls).Start = [])
    (fuel : Nat) (hfuel : w.Actors.length < fuel) :
    ∃ w4, latePhase P T fuel 0 w = some w4 ∧
      w4.Actors.map Actor.header = w.Actors.map Actor.header ∧
      w4.Actors.map Actor.parts = w.Actors.map Actor.parts ∧
      w4.Cleanup = w.Cleanup := by
  obtain ⟨w4, h4, q⟩ := latePhase_inv (P := P) (T := T)
    (fun _ v => v.Actors.map Actor.header = w.Actors.map Actor.header ∧
      v.Actors.map Actor.parts = w.Actors.map Actor.parts ∧ v.Cleanup = w.Cleanup)
    w.Actors.length (fun i v hq => header_length hq.1)
    (by
      intro i v hi ⟨q1, q2, q3⟩
      obtain ⟨x0, hx0⟩ : ∃ x0, w.Actors[i]? = some x0 := ⟨_, List.getElem?_eq_getElem hi⟩
      have hbase : ∀ x, v.Actors[i]? = some x →
          (P.actor x.cls).LateTick = [] ∧ (P.actor x.cls).Start = [] := by
        intro x hx
        obtain ⟨x', hx', -, xc, -⟩ := header_getElem? q1 hx0
        rw [hx] at hx'
        cases hx'
        rw [xc]
        exact hall i x0 hx0
      have hst : v.Steady (lateActor P T i v) := lateActor_steady hcomp hbase
      exact ⟨hst.1.trans q1, (lateActor_parts hcomp hbase).trans q2, hst.2.1.trans q3⟩)
    fuel 0 w (Nat.zero_le _) (by omega) ⟨rfl, rfl, rfl⟩
  exact ⟨w4, h4, q⟩

end World
end FureyEngine

namespace FureyEngine

/-! ## Facts about repeating timers -/

namespace TimedWorld

variable {P : Program} {T : Trig} {s s' : TimedWorld}

theorem pending_append (fn : Target) (l1 l2 : List TimedEvent) :
    pending fn (l1 ++ l2) = pending fn l1 ++ pending fn l2 := by
  simp [pending, List.filter_append]

theorem pending_elapse (fn : Target) (dt : Double) (evs : List TimedEvent) :
    pending fn (elapse dt evs) = (pending fn evs).map fun v => (v.1.sub dt, v.2) := by
  induction evs with
  | nil => rfl
  | cons e evs ih =>
    simp only [pending, elapse, List.map_cons, List.filter_cons] at ih ⊢
    split_ifs
    · simp only [List.map_cons, List.cons.injEq, true_and]
      exact ih
    · exact ih

theorem pending_invoke (fn : Target) (evs : List TimedEvent) :
    pending fn (invoke evs) = pending fn evs := by
  induction evs with
  | nil => rfl
  | cons e evs ih =>
    simp only [pending, invoke, List.map_cons, List.filter_cons] at ih ⊢
    by_cases hd : due e = true
    · simp only [hd, if_true]
      split_ifs
      · simp only [List.map_cons, List.cons.injEq, true_and]
        exact ih
      · exact ih
    · simp only [hd, Bool.false_eq_true, if_false]
      split_ifs
      · simp only [List.map_cons, List.cons.injEq, true_and]
        exact ih
      · exact ih

theorem pending_rest (fn : Target) (evs : List TimedEvent) :
    pending fn (evs.filter fun e => !due e) =
      (pending fn evs).filter fun v => !v.1.le0 := by
  unfold pending
  rw [List.filter_map, List.filter_filter, List.filter_filter]
  congr 1
  apply List.filter_congr
  intro e _
  simp only [Function.comp, due]
  exact Bool.and_comm _ _

theorem pending_due (fn : Target) (evs : List TimedEvent) :
    pending fn (evs.filter due) = (pending fn evs).filter fun v => v.1.le0 := by
  unfold pending
  rw [List.filter_map, List.filter_filter, List.filter_filter]
  congr 1
  apply List.filter_congr
  intro e _
  simp only [Function.comp, due]
  exact Bool.and_comm _ _

theorem countP_firedOf (fn : Target) (L : List TimedEvent) :
    (L.map fun e => (e.node, e.Event)).countP (fun p => p.2 == fn) = (pending fn L).length := by
  rw [List.countP_map, List.countP_eq_length_filter, pending, List.length_map]
  rfl

theorem reschedule_pending (fn : Target) (s : TimedWorld) (e : TimedEvent) :
    pending fn (reschedule s e).ScheduledEvents =
      pending fn s.ScheduledEvents ++ (pending fn [e]).filterMap successor := by
  unfold reschedule
  cases hR : e.Repeat with
  | none =>
    by_cases hf : (e.Event == fn) = true <;> simp [pending, hf, successor, hR]
  | some v =>
    obtain ⟨D, L⟩ := v
    simp only [RepeatAfterSeconds]
    by_cases h0 : Int32.wrap (L - 1) = 0
    · rw [if_pos h0]
      by_cases hf : (e.Event == fn) = true <;> simp [pending, hf, successor, hR, h0]
    · rw [if_neg h0]
      simp only [pending_append]
      congr 1
      by_cases hf : (e.Event == fn) = true <;> simp [pending, hf, successor, hR, h0]

theorem reschedule_fold_pending (fn : Target) (L : List TimedEvent) (s : TimedWorld) :
    pending fn (L.foldl reschedule s).ScheduledEvents =
      pending fn s.ScheduledEvents ++ (pending fn L).filterMap successor := by
  induction L generalizing s with
  | nil => simp [pending]
  | cons e L ih =>
    rw [List.foldl_cons, ih, reschedule_pending]
    have : pending fn (e :: L) = pending fn [e] ++ pending fn L := pending_append fn [e] L
    rw [this, List.filterMap_append, List.append_assoc]

/-- The pending events of `fn` after the two loops over the scheduled events. -/
theorem fire_pending (fn : Target) (dt : Double) (s : TimedWorld) :
    pending fn (fire dt s).ScheduledEvents =
      ((pending fn s.ScheduledEvents).map fun v => (v.1.sub dt, v.2)) ++
        ((((pending fn s.ScheduledEvents).map fun v => (v.1.sub dt, v.2)).filter
          fun v => v.1.le0).filterMap successor) := by
  unfold fire
  rw [reschedule_fold_pending, pending_due, pending_elapse]
  show pending fn (invoke (elapse dt s.ScheduledEvents)) ++ _ = _
  rw [pending_invoke, pending_elapse]

/-- The invocations of `fn` after the two loops over the scheduled events. -/
theorem fire_firedOf (fn : Target) (dt : Double) (s : TimedWorld) :
    (fire dt s).firedOf fn = s.firedOf fn +
      (((pending fn s.ScheduledEvents).map fun v => (v.1.sub dt, v.2)).filter
        fun v => v.1.le0).length := by
  obtain ⟨app, hf, -⟩ := fire_form dt s
  rw [hf]
  show (s.Fired ++ ((elapse dt s.ScheduledEvents).filter due).map fun e =>
    (e.node, e.Event)).countP (fun p => p.2 == fn) = _
  rw [List.countP_append, countP_firedOf, pending_due, pending_elapse]
  rfl

end TimedWorld

end FureyEngine
namespace FureyEngine

namespace TimedWorld

variable {P : Program} {T : Trig} {s s' : TimedWorld}

/-- The events of `fn` and its invocations after an Update of a ticking world. -/
theorem Update_pending (fn : Target) {fuel : Nat} {ts el : Double} (hA : s.world.Active = true)
    (hB : s.world.BeginTick = true)
    (h : ({ s with TimeScale := ts } : TimedWorld).Update P T fuel el = some s') :
    s'.world.Active = true ∧ s'.world.BeginTick = true ∧
    s'.firedOf fn = s.firedOf fn +
      (((pending fn s.ScheduledEvents).map fun v => (v.1.sub (delta el ts), v.2)).filter
        fun v => v.1.le0).length ∧
    pending fn s'.ScheduledEvents =
      (((pending fn s.ScheduledEvents).map fun v => (v.1.sub (delta el ts), v.2)) ++
        ((((pending fn s.ScheduledEvents).map fun v => (v.1.sub (delta el ts), v.2)).filter
          fun v => v.1.le0).filterMap successor)).filter
        fun v => !v.1.le0 := by
  rcases timed_Update_cases h with ⟨ha, -⟩ | ⟨-, -, w, hw, rfl⟩ | ⟨-, hb, -⟩
  · rw [show ({ s with TimeScale := ts } : TimedWorld).world = s.world from rfl, hA] at ha
    cases ha
  · have hw' : s.world.Update P T fuel = some w := hw
    have hf := World.Update_flags hw'
    refine ⟨hf.1.trans hA, (hf.2 hA).1, ?_, ?_⟩
    · exact fire_firedOf fn (delta el ts) ({ s with TimeScale := ts } : TimedWorld)
    · show pending fn ((fire (delta el ts)
        ({ s with TimeScale := ts } : TimedWorld)).ScheduledEvents.filter fun e => !due e) = _
      rw [pending_rest, fire_pending]
  · rw [show ({ s with TimeScale := ts } : TimedWorld).world = s.world from rfl, hB] at hb
    cases hb

/-- An Update of any world without a pending event of `fn` does not invoke `fn` and leaves no
event of `fn` pending. -/
theorem idle_step (fn : Target) {fuel : Nat} {ts el : Double}
    (hp : pending fn s.ScheduledEvents = [])
    (h : ({ s with TimeScale := ts } : TimedWorld).Update P T fuel el = some s') :
    s'.firedOf fn = s.firedOf fn ∧ pending fn s'.ScheduledEvents = [] := by
  rcases timed_Update_cases h with ⟨-, rfl⟩ | ⟨-, -, w, hw, rfl⟩ | ⟨-, -, w, -, rfl⟩
  · exact ⟨rfl, hp⟩
  · constructor
    · have := fire_firedOf fn (delta el ts) ({ s with TimeScale := ts } : TimedWorld)
      rw [show ({ s with TimeScale := ts } : TimedWorld).ScheduledEvents = s.ScheduledEvents
        from rfl, hp] at this
      simpa using this
    · show pending fn ((fire (delta el ts)
        ({ s with TimeScale := ts } : TimedWorld)).ScheduledEvents.filter fun e => !due e) = _
      rw [pending_rest, fire_pending]
      rw [show ({ s with TimeScale := ts } : TimedWorld).ScheduledEvents = s.ScheduledEvents
        from rfl, hp]
      rfl
  · exact ⟨rfl, hp⟩

/-- One Update of a ticking world with exactly one pending event of `fn`, scheduled by
RepeatAfterSeconds: when the event is due `fn` is invoked once and the successor is pending
with the full delay, unless the int Loops - 1 is 0; when it is not due only its delay
changes. -/
theorem repeat_step (fn : Target) {fuel : Nat} {ts el D r : Double} {L : Int}
    (hD : D.le0 = false) (hA : s.world.Active = true) (hB : s.world.BeginTick = true)
    (hp : pending fn s.ScheduledEvents = [(r, some (D, L))])
    (h : ({ s with TimeScale := ts } : TimedWorld).Update P T fuel el = some s') :
    s'.world.Active = true ∧ s'.world.BeginTick = true ∧
    ((r.sub (delta el ts)).le0 = true → s'.firedOf fn = s.firedOf fn + 1 ∧
      pending fn s'.ScheduledEvents =
        if Int32.wrap (L - 1) = 0 then [] else [(D, some (D, Int32.wrap (L - 1)))]) ∧
    ((r.sub (delta el ts)).le0 = false → s'.firedOf fn = s.firedOf fn ∧
      pending fn s'.ScheduledEvents = [(r.sub (delta el ts), some (D, L))]) := by
  obtain ⟨h1, h2, h3, h4⟩ := Update_pending fn hA hB h
  rw [hp] at h3 h4
  refine ⟨h1, h2, ?_, ?_⟩
  · intro hdue
    constructor
    · rw [h3]
      simp [hdue]
    · rw [h4]
      by_cases h0 : Int32.wrap (L - 1) = 0
      · simp [hdue, successor, h0]
      · simp [hdue, successor, h0, hD]
  · intro hdue
    constructor
    · rw [h3]
      simp [hdue]
    · rw [h4]
      simp [hdue]

theorem wrap_pred (L : Int) (k : Nat) :
    Int32.wrap (Int32.wrap (L - (k : Int)) - 1) = Int32.wrap (L - ((k + 1 : Nat) : Int)) := by
  unfold Int32.wrap
  push_cast
  omega

theorem wrap_zero_iff (L : Int) (k : Nat) (hk : k < rounds L) :
    Int32.wrap (L - ((k + 1 : Nat) : Int)) = 0 ↔ k + 1 = rounds L := by
  unfold Int32.wrap rounds at *
  omega

/-- One Update takes a repeating timer from `k` invocations to `k` or to `k + 1`. -/
theorem Repeating_step (fn : Target) {fuel : Nat} {ts el D : Double} {Loops : Int} {c k : Nat}
    (hD : D.le0 = false) (hs : s.Repeating fn D Loops c k)
    (h : ({ s with TimeScale := ts } : TimedWorld).Update P T fuel el = some s') :
    s'.Repeating fn D Loops c k ∨ s'.Repeating fn D Loops c (k + 1) := by
  obtain ⟨hA, hB, hc, hcase⟩ := hs
  rcases hcase with ⟨hk, hp⟩ | ⟨hk, r, hp⟩
  · obtain ⟨i1, i2⟩ := idle_step fn hp h
    obtain ⟨f1, f2, -, -⟩ := Update_pending fn hA hB h
    exact Or.inl ⟨f1, f2, i1.trans hc, Or.inl ⟨hk, i2⟩⟩
  · obtain ⟨f1, f2, f3, f4⟩ := repeat_step fn hD hA hB hp h
    cases hdue : (r.sub (delta el ts)).le0 with
    | true =>
      obtain ⟨g1, g2⟩ := f3 hdue
      rw [wrap_pred] at g2
      refine Or.inr ⟨f1, f2, by rw [g1, hc]; rfl, ?_⟩
      by_cases h0 : Int32.wrap (Loops - ((k + 1 : Nat) : Int)) = 0
      · rw [if_pos h0] at g2
        exact Or.inl ⟨(wrap_zero_iff Loops k hk).mp h0, g2⟩
      · rw [if_neg h0] at g2
        have hne : k + 1 ≠ rounds Loops := fun e => h0 ((wrap_zero_iff Loops k hk).mpr e)
        exact Or.inr ⟨by omega, D, g2⟩
    | false =>
      obtain ⟨g1, g2⟩ := f4 hdue
      exact Or.inl ⟨f1, f2, g1.trans hc, Or.inr ⟨hk, _, g2⟩⟩

/-- A host loop takes a repeating timer from `k` invocations to some `k'` with
`k <= k' <= k + frames`. -/
theorem Repeating_frames (fn : Target) {fuel : Nat} {D : Double} {Loops : Int} {c : Nat}
    (hD : D.le0 = false) (frames : List (Double × Double)) (k : Nat) (s : TimedWorld)
    (hs : s.Repeating fn D Loops c k) (h : Frames P T fuel frames s = some s') :
    ∃ k', k ≤ k' ∧ k' ≤ k + frames.length ∧ s'.Repeating fn D Loops c k' := by
  induction frames generalizing s k with
  | nil =>
    simp only [Frames, Option.some.injEq] at h
    exact ⟨k, le_refl _, le_refl _, h ▸ hs⟩
  | cons f fs ih =>
    simp only [Frames] at h
    cases h1 : ({ s with TimeScale := f.1 } : TimedWorld).Update P T fuel f.2 with
    | none => simp [h1] at h
    | some s1 =>
      simp only [h1] at h
      rcases Repeating_step fn hD hs h1 with h2 | h2
      · obtain ⟨k', q1, q2, q3⟩ := ih k s1 h2 h
        exact ⟨k', q1, by rw [List.length_cons]; omega, q3⟩
      · obtain ⟨k', q1, q2, q3⟩ := ih (k + 1) s1 h2 h
        exact ⟨k', by omega, by rw [List.length_cons]; omega, q3⟩

end TimedWorld

end FureyEngine
namespace FureyEngine

namespace TimedWorld

variable {P : Program} {T : Trig} {s s' : TimedWorld}

/-- One rounded subtraction of a delta time of at least `d` from a delay `x` of at most
`2^52 * d`, for `d` of at least 2^-1074: the result passes the test `Delay <= 0` or is a
delay of at most `x - d / 2`. -/
theorem sub_progress {x d : ℚ} {dt : Double} (hd : 1 / (2 : ℚ) ^ 1074 ≤ d)
    (hx : x ≤ (2 : ℚ) ^ 52 * d) (hx2 : x ≤ (2 : ℚ) ^ 1023) (hdt : dt.atLeast d = true) :
    ((Double.finite x).sub dt).le0 = true ∨
      ∃ y, (Double.finite x).sub dt = Double.finite y ∧ y ≤ x - d / 2 := by
  have hd0 : 0 < d := lt_of_lt_of_le (by positivity) hd
  cases dt with
  | nan => simp [Double.atLeast] at hdt
  | inf n =>
    cases n with
    | true => simp [Double.atLeast] at hdt
    | false =>
      left
      rfl
  | finite a =>
    have ha : d ≤ a := by simpa [Double.atLeast] using hdt
    show (Double.ofRat (x - a)).le0 = true ∨ ∃ y, Double.ofRat (x - a) = Double.finite y ∧ _
    by_cases hpos : 0 < x - a
    · right
      have h1 : (x - a) / 2 ^ 53 ≤ d / 2 := by
        rw [div_le_div_iff₀ (by positivity) (by norm_num)]
        have h53 : (2 : ℚ) ^ 53 = 2 ^ 52 * 2 := by norm_num
        rw [h53]
        nlinarith
      have h2 : (1 : ℚ) / 2 ^ 1075 ≤ d / 2 := by
        have e : (1 : ℚ) / 2 ^ 1075 = 1 / 2 ^ 1074 / 2 := by
          rw [show (1075 : ℕ) = 1074 + 1 by norm_num, pow_succ, div_div]
        rw [e]
        linarith
      obtain ⟨y, hy, -, hle⟩ := Double.ofRat_pos_le (x - a) hpos (by linarith) (d / 2) h1 h2
      exact ⟨y, hy, by linarith⟩
    · left
      exact Double.ofRat_nonpos _ (not_lt.mp hpos)

/-- Progress of a repeating timer. The stored delay is the double `D0`, every frame has a
delta time of at least `d`, which is at least 2^-1074, and `D0` is at most `M` times `d` with
`M` at most 2^52, so that every rounded subtraction reduces a delay by at least `d / 2`. A
timer that still has to reach `N` invocations and whose pending event is due within `m` frames
reaches them within `m + (N - 1 - k) * (2 * M)` frames. -/
theorem Repeating_progress (fn : Target) {fuel : Nat} {D0 d : ℚ} {M N : Nat} {Loops : Int}
    {c : Nat} (hD : 0 < D0) (hD2 : D0 ≤ (2 : ℚ) ^ 1023) (hM : D0 ≤ M * d) (hM2 : M ≤ 2 ^ 52)
    (hd : 1 / (2 : ℚ) ^ 1074 ≤ d) (hN : N ≤ rounds Loops)
    (frames : List (Double × Double))
    (hmin : ∀ f ∈ frames, (delta f.2 f.1).atLeast d = true)
    (B k : Nat) (s : TimedWorld) (hs : s.Repeating fn (Double.finite D0) Loops c k)
    (hwait : k < N → ∃ (m : Nat) (x : ℚ), 1 ≤ m ∧ x ≤ m * (d / 2) ∧ x ≤ D0 ∧
      pending fn s.ScheduledEvents =
        [(Double.finite x, some (Double.finite D0, Int32.wrap (Loops - k)))] ∧
      m + (N - 1 - k) * (2 * M) ≤ B)
    (hB : B ≤ frames.length) (h : Frames P T fuel frames s = some s') :
    ∃ k', N ≤ k' ∧ s'.Repeating fn (Double.finite D0) Loops c k' := by
  have hd0 : 0 < d := lt_of_lt_of_le (by positivity) hd
  have hM1 : 1 ≤ M := by
    rcases Nat.eq_zero_or_pos M with h0 | h0
    · subst h0
      simp at hM
      exact absurd hM (not_le.mpr hD)
    · exact h0
  have hM' : (M : ℚ) ≤ (2 : ℚ) ^ 52 := by exact_mod_cast hM2
  have hDd : D0 ≤ (2 : ℚ) ^ 52 * d := le_trans hM (mul_le_mul_of_nonneg_right hM' hd0.le)
  have hDle : (Double.finite D0).le0 = false := by
    simp [Double.le0, hD]
  induction frames generalizing s B k with
  | nil =>
    simp only [Frames, Option.some.injEq] at h
    subst h
    by_cases hk : k < N
    · obtain ⟨m, x, hm, -, -, -, hb⟩ := hwait hk
      simp only [List.length_nil] at hB
      omega
    · exact ⟨k, by omega, hs⟩
  | cons f fs ih =>
    simp only [Frames] at h
    cases h1 : ({ s with TimeScale := f.1 } : TimedWorld).Update P T fuel f.2 with
    | none => simp [h1] at h
    | some s1 =>
      simp only [h1] at h
      have hmin' : ∀ g ∈ fs, (delta g.2 g.1).atLeast d = true :=
        fun g hg => hmin g (List.mem_cons_of_mem _ hg)
      have hdt : (delta f.2 f.1).atLeast d = true := hmin f (List.mem_cons_self _ _)
      rw [List.length_cons] at hB
      by_cases hk : k < N
      · obtain ⟨m, x, hm, hx, hxD, hp, hb⟩ := hwait hk
        obtain ⟨f1, f2, f3, f4⟩ := repeat_step fn hDle hs.1 hs.2.1 hp h1
        have hkL : k < rounds Loops := by omega
        cases hdue : ((Double.finite x).sub (delta f.2 f.1)).le0 with
        | true =>
          obtain ⟨g1, g2⟩ := f3 hdue
          rw [wrap_pred] at g2
          have hs1 : s1.Repeating fn (Double.finite D0) Loops c (k + 1) := by
            rcases Repeating_step fn hDle hs h1 with h2 | h2
            · exfalso
              have e1 := h2.2.2.1
              have e2 := hs.2.2.1
              omega
            · exact h2
          refine ih hmin' (B - 1) (k + 1) s1 hs1 ?_ (by omega) h
          intro hk1
          have h0 : ¬ Int32.wrap (Loops - ((k + 1 : Nat) : Int)) = 0 := by
            intro h0
            have := (wrap_zero_iff Loops k hkL).mp h0
            omega
          rw [if_neg h0] at g2
          refine ⟨2 * M, D0, by omega, ?_, le_refl _, g2, ?_⟩
          · push_cast
            linarith
          · obtain ⟨q', hq'⟩ : ∃ q', N - 1 - k = q' + 1 := ⟨N - 1 - k - 1, by omega⟩
            have e1 : N - 1 - (k + 1) = q' := by omega
            rw [hq', Nat.succ_mul] at hb
            rw [e1]
            omega
        | false =>
          obtain ⟨g1, g2⟩ := f4 hdue
          rcases sub_progress hd (le_trans hxD hDd) (le_trans hxD hD2) hdt with hc | ⟨y, hy, hyx⟩
          · rw [hdue] at hc
            cases hc
          · rw [hy] at g2
            have hs1 : s1.Repeating fn (Double.finite D0) Loops c k :=
              ⟨f1, f2, g1.trans hs.2.2.1, Or.inr ⟨hkL, _, g2⟩⟩
            have hm2 : 2 ≤ m := by
              by_contra hlt
              have hm1 : m = 1 := by omega
              subst hm1
              have hxd : x ≤ d / 2 := by simpa using hx
              have hy0 : y ≤ 0 := by linarith
              rw [hy] at hdue
              simp [Double.le0, hy0] at hdue
            refine ih hmin' (B - 1) k s1 hs1 ?_ (by omega) h
            intro _
            refine ⟨m - 1, y, by omega, ?_, by linarith, g2, by omega⟩
            have hcast : ((m - 1 : Nat) : ℚ) = (m : ℚ) - 1 := by
              rw [Nat.cast_sub (by omega)]
              simp
            rw [hcast]
            linarith
      · rcases Repeating_step fn hDle hs h1 with h2 | h2
        · exact ih hmin' 0 k s1 h2 (fun hlt => absurd hlt hk) (Nat.zero_le _) h
        · exact ih hmin' 0 (k + 1) s1 h2 (fun hlt => absurd hlt (by omega)) (Nat.zero_le _) h

end TimedWorld

end FureyEngine
namespace FureyEngine

namespace TimedWorld

variable {P : Program} {T : Trig} {s s' : TimedWorld}

/-- A host loop over a world without a pending event of `fn` does not invoke `fn`. -/
theorem idle_frames (fn : Target) {fuel : Nat} (frames : List (Double × Double))
    (s : TimedWorld) (hp : pending fn s.ScheduledEvents = [])
    (h : Frames P T fuel frames s = some s') :
    s'.firedOf fn = s.firedOf fn ∧ pending fn s'.ScheduledEvents = [] := by
  induction frames generalizing s with
  | nil =>
    simp only [Frames, Option.some.injEq] at h
    subst h
    exact ⟨rfl, hp⟩
  | cons f fs ih =>
    simp only [Frames] at h
    cases h1 : ({ s with TimeScale := f.1 } : TimedWorld).Update P T fuel f.2 with
    | none => simp [h1] at h
    | some s1 =>
      simp only [h1] at h
      obtain ⟨i1, i2⟩ := idle_step fn hp h1
      obtain ⟨j1, j2⟩ := ih s1 i2 h
      exact ⟨j1.trans i1, j2⟩

/-- A pending event of `fn` whose delay the rounded subtraction of the delta time leaves as it
is, and which fails the test `Delay <= 0`, stays pending over every host loop of frames with
that delta time, and `fn` is not invoked. -/
theorem stuck_frames (fn : Target) {fuel : Nat} {D r dt : Double} {L : Int}
    (hD : D.le0 = false) (hr : r.le0 = false) (hfix : r.sub dt = r)
    (frames : List (Double × Double)) (hdt : ∀ f ∈ frames, delta f.2 f.1 = dt)
    (s : TimedWorld) (hA : s.world.Active = true) (hB : s.world.BeginTick = true)
    (hp : pending fn s.ScheduledEvents = [(r, some (D, L))])
    (h : Frames P T fuel frames s = some s') :
    s'.firedOf fn = s.firedOf fn ∧ pending fn s'.ScheduledEvents = [(r, some (D, L))] := by
  induction frames generalizing s with
  | nil =>
    simp only [Frames, Option.some.injEq] at h
    subst h
    exact ⟨rfl, hp⟩
  | cons f fs ih =>
    simp only [Frames] at h
    cases h1 : ({ s with TimeScale := f.1 } : TimedWorld).Update P T fuel f.2 with
    | none => simp [h1] at h
    | some s1 =>
      simp only [h1] at h
      obtain ⟨f1, f2, -, f4⟩ := repeat_step fn hD hA hB hp h1
      rw [hdt f (List.mem_cons_self _ _), hfix] at f4
      obtain ⟨g1, g2⟩ := f4 hr
      obtain ⟨j1, j2⟩ := ih (fun g hg => hdt g (List.mem_cons_of_mem _ hg)) s1 f1 f2 g2 h
      exact ⟨j1.trans g1, j2⟩

theorem pending_fresh (fn : Target) (evs : List TimedEvent) (h : ∀ e ∈ evs, e.Event ≠ fn) :
    pending fn evs = [] := by
  unfold pending
  rw [List.map_eq_nil_iff, List.filter_eq_nil_iff]
  intro e he
  simpa using h e he

theorem RepeatAfterSeconds_world (s : TimedWorld) (Delay : Double) (Loops : Int) (fn : Target) :
    (s.RepeatAfterSeconds Delay Loops fn).2.world = s.world := by
  unfold RepeatAfterSeconds
  split_ifs <;> rfl

/-- The delay RepeatAfterSeconds stores fails the test `Delay <= 0`. -/
theorem stored_delay_pos (Delay : Double) :
    (if Delay.le0 then Double.ofRat (1 / 1000000) else Delay).le0 = false := by
  split_ifs with h
  · exact le0_micro
  · exact Bool.eq_false_iff.mpr h

/-- The state right after RepeatAfterSeconds(Delay, Loops, fn) with an int Loops other than 0,
when no event of `fn` was pending: one event of `fn` is pending, with the stored delay. -/
theorem Repeating_start (fn : Target) (Delay : Double) {Loops : Int} (hL : Loops ≠ 0)
    (hlo : -2147483648 ≤ Loops) (hhi : Loops < 2147483648)
    (hA : s.world.Active = true) (hB : s.world.BeginTick = true)
    (hfresh : ∀ e ∈ s.ScheduledEvents, e.Event ≠ fn) :
    pending fn (s.RepeatAfterSeconds Delay Loops fn).2.ScheduledEvents =
        [(if Delay.le0 then Double.ofRat (1 / 1000000) else Delay,
          some (if Delay.le0 then Double.ofRat (1 / 1000000) else Delay, Loops))] ∧
      (s.RepeatAfterSeconds Delay Loops fn).2.Repeating fn
        (if Delay.le0 then Double.ofRat (1 / 1000000) else Delay) Loops (s.firedOf fn) 0 := by
  have hp : pending fn (s.RepeatAfterSeconds Delay Loops fn).2.ScheduledEvents =
      [(if Delay.le0 then Double.ofRat (1 / 1000000) else Delay,
        some (if Delay.le0 then Double.ofRat (1 / 1000000) else Delay, Loops))] := by
    simp only [RepeatAfterSeconds, hL, if_false]
    rw [pending_append, pending_fresh fn _ hfresh]
    simp [pending]
  have hw : Int32.wrap (Loops - ((0 : Nat) : Int)) = Loops := by
    unfold Int32.wrap
    push_cast
    omega
  have hr : 0 < rounds Loops := by
    unfold rounds
    omega
  refine ⟨hp, ?_, ?_, ?_, Or.inr ⟨hr,
    (if Delay.le0 then Double.ofRat (1 / 1000000) else Delay), ?_⟩⟩
  · rw [RepeatAfterSeconds_world]
    exact hA
  · rw [RepeatAfterSeconds_world]
    exact hB
  · simp only [RepeatAfterSeconds, hL, if_false]
    rfl
  · rw [hp, hw]

end TimedWorld

end FureyEngine

namespace FureyEngine
namespace BrushComponent

theorem IsColliding_not_trigger (T : Trig) (reg : List BrushComponent) (B R : BrushComponent)
    (h : B.IsColliding T reg = some R) : R.Trigger = false := by
  unfold IsColliding at h
  split_ifs at h
  have := List.find?_some h
  by_contra hc
  simp only [Bool.not_eq_false] at hc
  simp [hc] at this

theorem SetActive_fold (es : StateMap) (acc : BrushComponent) :
    (es.foldl (fun (acc : BrushComponent) e =>
      { acc with
        CollisionStates := acc.CollisionStates.assign e.1 CollisionState.COLLISION_EXIT
        OnCollision := acc.OnCollision ++ [(acc.ptr, e.1)] }) acc).OnCollision =
      acc.OnCollision ++ es.map (fun e => (acc.ptr, e.1)) := by
  induction es generalizing acc with
  | nil => simp
  | cons e es ih => simp [List.foldl_cons, ih]

end BrushComponent

open BrushComponent

/-- C3: IsColliding does not test whether the other brush is active. With the registry holding
an active 10x10 brush at the origin and a deactivated 10x10 brush at (5,0), IsColliding on the
first returns the deactivated one. -/
theorem C3_IsColliding_returns_inactive_brush :
    Scenario.solid.IsActive = true ∧ Scenario.solid.Bounds.Scale ≠ ⟨0, 0⟩ ∧
    Scenario.inactive.IsActive = false ∧
    Scenario.solid.IsColliding Trig.unrotated [Scenario.solid, Scenario.inactive] =
      some Scenario.inactive := by
  decide!

/-- C5: a brush with bounds scale (0,0) is reported as overlapping by IsOverlapping of a
10x10 brush around it (the corner tests do not look at the other brush's scale), although its
own IsOverlapping and the edge test both answer no. -/
theorem C5_solid_overlaps_degenerate :
    Scenario.degenerate.Bounds.Scale = ⟨0, 0⟩ ∧
    Scenario.solid.IsOverlapping Trig.unrotated Scenario.degenerate = true ∧
    Scenario.degenerate.IsOverlapping Trig.unrotated Scenario.solid = false ∧
    Scenario.solid.GetOverlappedEdges Trig.unrotated Scenario.degenerate =
      OverlappingEdges.NONE := by
  decide!

/-- C6: for a 2x2 brush strictly inside a 10x10 brush, IsOverlapping of the outer brush on the
inner one is true, and IsOverlapping of the inner brush on the outer one is false. -/
theorem C6_contained_does_not_overlap_container :
    Scenario.solid.IsOverlapping Trig.unrotated Scenario.inner = true ∧
    Scenario.inner.IsOverlapping Trig.unrotated Scenario.solid = false := by
  decide!

/-- C7: the scan of a brush on layer "X" records nothing for an overlapping brush on layer
"All" (no entry, no OnCollision call), while the scan of the "All" brush records
COLLISION_ENTER for the "X" brush and calls OnCollision. -/
theorem C7_named_layer_ignores_All :
    Scenario.named.IsOverlapping Trig.unrotated Scenario.onAll = true ∧
    (Scenario.named.LateTick Trig.unrotated [Scenario.named, Scenario.onAll]).CollisionStateWith
      Scenario.onAll = CollisionState.NONE ∧
    (Scenario.named.LateTick Trig.unrotated [Scenario.named, Scenario.onAll]).OnCollision = [] ∧
    (Scenario.onAll.LateTick Trig.unrotated [Scenario.named, Scenario.onAll]).CollisionStateWith
      Scenario.named = CollisionState.COLLISION_ENTER ∧
    (Scenario.onAll.LateTick Trig.unrotated [Scenario.named, Scenario.onAll]).OnCollision =
      [(2, 1)] := by
  decide!

/-- C8: SetActive(false) calls OnCollision once for each entry of the state map, in map order,
and empties the map; a second SetActive(false) right after calls OnCollision no more and the
map stays empty, so CollisionStateWith is NONE for every brush after either call. -/
theorem C8_SetActive_false_idempotent (b : BrushComponent) :
    (b.SetActive false).OnCollision =
      b.OnCollision ++ b.CollisionStates.map (fun e => (b.ptr, e.1)) ∧
    (b.SetActive false).OnCollision.length = b.OnCollision.length + b.CollisionStates.length ∧
    (b.SetActive false).CollisionStates = [] ∧
    ((b.SetActive false).SetActive false).OnCollision = (b.SetActive false).OnCollision ∧
    ((b.SetActive false).SetActive false).CollisionStates = [] ∧
    (∀ o : BrushComponent, (b.SetActive false).CollisionStateWith o = CollisionState.NONE ∧
      ((b.SetActive false).SetActive false).CollisionStateWith o = CollisionState.NONE) := by
  have h1 : (b.SetActive false).OnCollision =
      b.OnCollision ++ b.CollisionStates.map (fun e => (b.ptr, e.1)) := by
    simp [SetActive, SetActive_fold]
  have h2 : (b.SetActive false).CollisionStates = [] := by simp [SetActive]
  have h3 : ((b.SetActive false).SetActive false).OnCollision = (b.SetActive false).OnCollision := by
    have := SetActive_fold (b.SetActive false).CollisionStates
      { (b.SetActive false) with Active := false }
    simp only [SetActive, Bool.not_false, if_true] at this ⊢
    simp
  have h4 : ((b.SetActive false).SetActive false).CollisionStates = [] := by simp [SetActive]
  refine ⟨h1, ?_, h2, h3, h4, ?_⟩
  · rw [h1]; simp
  · intro o
    constructor
    · rw [CollisionStateWith_eq, h2]; rfl
    · rw [CollisionStateWith_eq, h4]; rfl

end FureyEngine

namespace FureyEngine
namespace BrushComponent

theorem Tick_LateTick_eq (T : Trig) (reg : List BrushComponent) (b : BrushComponent) :
    (b.Tick T reg).LateTick T reg = reg.foldl (scanElement T) b := by
  cases h : b.TickLate with
  | true => simp [Tick, LateTick, h]
  | false =>
    obtain ⟨m, l, hfix⟩ := foldl_scan_fixed T reg b
    have h' : (reg.foldl (scanElement T) b).TickLate = false := by rw [hfix]; exact h
    simp [Tick, LateTick, h, h']

end BrushComponent

open BrushComponent

/-- C4: (a) the brush returned by IsColliding is never a trigger; (b) when a trigger brush `Tr`
with no entry for an active, solid, layer-matching brush `S` overlaps `S`, the Tick/LateTick
pair of one frame sets the state of `Tr` for `S` to COLLISION_ENTER and calls
OnCollision(Tr, S) once, while the Tick/LateTick pair of `S` never leaves COLLISION_ENTER as
the state of `S` for `Tr`. -/
theorem C4_trigger_asymmetry (T : Trig) (reg : List BrushComponent) (B Tr S : BrushComponent)
    (hnodup : (reg.map (fun x => x.ptr)).Nodup) (hTr : Tr ∈ reg) (hS : S ∈ reg)
    (hTrig : Tr.Trigger = true) (hSact : S.IsActive = true) (hStrig : S.Trigger = false)
    (hlayer : Tr.Layer = "All" ∨ Tr.Layer = S.Layer)
    (hover : Tr.IsOverlapping T S = true)
    (hnone : Tr.CollisionStates.count S.ptr = false) :
    (∀ R, B.IsColliding T reg = some R → R.Trigger = false) ∧
    ((Tr.Tick T reg).LateTick T reg).CollisionStateWith S = CollisionState.COLLISION_ENTER ∧
    ((Tr.Tick T reg).LateTick T reg).OnCollision.count (Tr.ptr, S.ptr) =
      Tr.OnCollision.count (Tr.ptr, S.ptr) + 1 ∧
    ((S.Tick T reg).LateTick T reg).CollisionStateWith Tr ≠ CollisionState.COLLISION_ENTER := by
  have hne : S.ptr ≠ Tr.ptr := by
    intro hp
    have : S = Tr := List.inj_on_of_nodup_map hnodup hS hTr hp
    rw [this, hTrig] at hStrig
    exact Bool.noConfusion hStrig
  have htest : Tr.scanTest T S = true := by
    unfold scanTest
    rw [hSact, hStrig, hover]
    rcases hlayer with h | h <;> simp [h]
  have htest' : S.scanTest T Tr = false := by
    unfold scanTest
    rw [hTrig]
    simp
  have hfind : Tr.CollisionStates.find S.ptr = none := by
    rw [StateMap.count_eq_isSome] at hnone
    simpa using hnone
  refine ⟨fun R hR => IsColliding_not_trigger T reg B R hR, ?_, ?_, ?_⟩
  · rw [CollisionStateWith_eq, Tick_LateTick_eq,
      (foldl_scan_pair T reg Tr S hnodup hS hne).1, htest, hfind]
    rfl
  · rw [Tick_LateTick_eq, (foldl_scan_pair T reg Tr S hnodup hS hne).2, htest, hfind]
    rfl
  · rw [CollisionStateWith_eq, Tick_LateTick_eq,
      (foldl_scan_pair T reg S Tr hnodup hTr (Ne.symm hne)).1, htest']
    cases hs : S.CollisionStates.find Tr.ptr with
    | none => simp [pairNext]
    | some s => cases s <;> simp [pairNext]

/-- C4 at a concrete input: a 10x10 trigger at the origin and a 10x10 solid brush at (5,0). -/
theorem C4_trigger_asymmetry_witness :
    ((Scenario.trigger.Tick Trig.unrotated [Scenario.trigger, Scenario.onAll]).LateTick
        Trig.unrotated [Scenario.trigger, Scenario.onAll]).CollisionStateWith Scenario.onAll =
      CollisionState.COLLISION_ENTER ∧
    ((Scenario.onAll.Tick Trig.unrotated [Scenario.trigger, Scenario.onAll]).LateTick
        Trig.unrotated [Scenario.trigger, Scenario.onAll]).CollisionStateWith Scenario.trigger ≠
      CollisionState.COLLISION_ENTER :=
  have h := C4_trigger_asymmetry Trig.unrotated [Scenario.trigger, Scenario.onAll]
    Scenario.onAll Scenario.trigger Scenario.onAll (by decide!) (by decide!) (by decide!)
    (by decide!) (by decide!) (by decide!) (by decide!) (by decide!) (by decide!)
  ⟨h.2.1, h.2.2.2⟩

end FureyEngine

namespace FureyEngine

namespace BrushComponent

theorem movedTo_movedTo (b : BrushComponent) (t t' : Transform) :
    (b.movedTo t).movedTo t' = b.movedTo t' := rfl

theorem scanTest_movedTo (T : Trig) (A B : BrushComponent) (tA tB : Transform)
    (hB : B.Active = true) (hBs : B.Trigger = false) (hl : A.Layer = B.Layer) :
    (A.movedTo tA).scanTest T (B.movedTo tB) =
      (A.movedTo tA).IsOverlapping T (B.movedTo tB) := by
  simp [scanTest, movedTo, IsActive, hB, hBs, hl]

end BrushComponent

open BrushComponent World

/-- C1: two registered, active, solid brushes `A` and `B` on the same layer, in a world whose
actor and component classes are the base classes, both begun and with no entry for each
other. The host moves the actors before each of five Updates so that the brushes overlap (in
both directions) in the first three and do not overlap in the last two. Then every Update
returns, A.CollisionStateWith(B) is ENTER, STAY, STAY, EXIT after the first four, `A` calls
OnCollision(A, B) exactly once in each of them, and after the fifth CollisionStateWith is NONE
in both directions. No assumption on TickLate is needed. -/
theorem C1_enter_stay_stay_exit (P : Program) (T : Trig) (w0 : World) (fuel : Nat)
    (iA jA iB jB : Nat) (xA xB : Actor) (A B : BrushComponent)
    (g1 g2 g3 g4 g5 : Ptr → Transform)
    (hactor : ∀ k, P.actor k = {}) (hcomp : ∀ k, P.component k = {})
    (hfuel : w0.Actors.length < fuel) (hw : w0.Active = true) (hsound : w0.Sound)
    (hxA : w0.Actors[iA]? = some xA) (hcA : xA.Components[jA]? = some (.Brush A))
    (hxB : w0.Actors[iB]? = some xB) (hcB : xB.Components[jB]? = some (.Brush B))
    (hne : A.ptr ≠ B.ptr)
    (hregA : A.ptr ∈ w0.AllBrushes) (hregB : B.ptr ∈ w0.AllBrushes)
    (hxAact : xA.Active = true) (hxBact : xB.Active = true)
    (hAact : A.Active = true) (hBact : B.Active = true)
    (hAbegun : A.BeginTick = true) (hBbegun : B.BeginTick = true)
    (hAsolid : A.Trigger = false) (hBsolid : B.Trigger = false)
    (hlayer : A.Layer = B.Layer)
    (hsepA : A.CollisionStates.count B.ptr = false)
    (hsepB : B.CollisionStates.count A.ptr = false)
    (hAB1 : (A.movedTo (g1 xA.ptr)).IsOverlapping T (B.movedTo (g1 xB.ptr)) = true)
    (hBA1 : (B.movedTo (g1 xB.ptr)).IsOverlapping T (A.movedTo (g1 xA.ptr)) = true)
    (hAB2 : (A.movedTo (g2 xA.ptr)).IsOverlapping T (B.movedTo (g2 xB.ptr)) = true)
    (hBA2 : (B.movedTo (g2 xB.ptr)).IsOverlapping T (A.movedTo (g2 xA.ptr)) = true)
    (hAB3 : (A.movedTo (g3 xA.ptr)).IsOverlapping T (B.movedTo (g3 xB.ptr)) = true)
    (hBA3 : (B.movedTo (g3 xB.ptr)).IsOverlapping T (A.movedTo (g3 xA.ptr)) = true)
    (hAB4 : (A.movedTo (g4 xA.ptr)).IsOverlapping T (B.movedTo (g4 xB.ptr)) = false)
    (hBA4 : (B.movedTo (g4 xB.ptr)).IsOverlapping T (A.movedTo (g4 xA.ptr)) = false)
    (hAB5 : (A.movedTo (g5 xA.ptr)).IsOverlapping T (B.movedTo (g5 xB.ptr)) = false)
    (hBA5 : (B.movedTo (g5 xB.ptr)).IsOverlapping T (A.movedTo (g5 xA.ptr)) = false) :
    ∃ w1 w2 w3 w4 w5,
      (w0.moveActors g1).Update P T fuel = some w1 ∧
      (w1.moveActors g2).Update P T fuel = some w2 ∧
      (w2.moveActors g3).Update P T fuel = some w3 ∧
      (w3.moveActors g4).Update P T fuel = some w4 ∧
      (w4.moveActors g5).Update P T fuel = some w5 ∧
      w1.CollisionStateWith A.ptr B.ptr = CollisionState.COLLISION_ENTER ∧
      w2.CollisionStateWith A.ptr B.ptr = CollisionState.COLLISION_STAY ∧
      w3.CollisionStateWith A.ptr B.ptr = CollisionState.COLLISION_STAY ∧
      w4.CollisionStateWith A.ptr B.ptr = CollisionState.COLLISION_EXIT ∧
      w1.collisionCalls A.ptr B.ptr = w0.collisionCalls A.ptr B.ptr + 1 ∧
      w2.collisionCalls A.ptr B.ptr = w1.collisionCalls A.ptr B.ptr + 1 ∧
      w3.collisionCalls A.ptr B.ptr = w2.collisionCalls A.ptr B.ptr + 1 ∧
      w4.collisionCalls A.ptr B.ptr = w3.collisionCalls A.ptr B.ptr + 1 ∧
      w5.CollisionStateWith A.ptr B.ptr = CollisionState.NONE ∧
      w5.CollisionStateWith B.ptr A.ptr = CollisionState.NONE := by
  -- the pair at the start
  have hfA : A.CollisionStates.find B.ptr = none := by
    rw [StateMap.count_eq_isSome] at hsepA
    simpa using hsepA
  have hfB : B.CollisionStates.find A.ptr = none := by
    rw [StateMap.count_eq_isSome] at hsepB
    simpa using hsepB
  have P0 : w0.Pair iA jA iB jB (A.movedTo xA.Transform) (B.movedTo xB.Transform)
      (none, A.OnCollision.count (A.ptr, B.ptr)) (none, B.OnCollision.count (B.ptr, A.ptr)) :=
    ⟨hsound, hregA, hregB, ⟨xA, A, hxA, hxAact, hcA, rfl, hfA, rfl⟩,
      ⟨xB, B, hxB, hxBact, hcB, rfl, hfB, rfl⟩⟩
  have hpA : w0.roster.2[iA]? = some xA.ptr := by simp [roster, hxA]
  have hpB : w0.roster.2[iB]? = some xB.ptr := by simp [roster, hxB]
  have hw0 : w0.roster.1 = true := hw
  have hl0 : w0.roster.2.length < fuel := by simpa [roster] using hfuel
  -- the scans of the five frames
  have tA : ∀ g : Ptr → Transform, (A.movedTo (g xA.ptr)).scanTest T (B.movedTo (g xB.ptr)) =
      (A.movedTo (g xA.ptr)).IsOverlapping T (B.movedTo (g xB.ptr)) :=
    fun g => scanTest_movedTo T A B _ _ hBact hBsolid hlayer
  have tB : ∀ g : Ptr → Transform, (B.movedTo (g xB.ptr)).scanTest T (A.movedTo (g xA.ptr)) =
      (B.movedTo (g xB.ptr)).IsOverlapping T (A.movedTo (g xA.ptr)) :=
    fun g => scanTest_movedTo T B A _ _ hAact hAsolid hlayer.symm
  obtain ⟨w1, u1, p1, r1⟩ := Pair_frame (T := T) (A.movedTo xA.Transform)
    (B.movedTo xB.Transform) hactor hcomp hne hAact hAbegun hBact hBbegun
    hw0 hpA hpB g1 P0 fuel hl0
  simp only [movedTo_movedTo, scanned, tA, tB, hAB1, hBA1, pairNext, pairFires, if_true] at p1
  obtain ⟨w2, u2, p2, r2⟩ := Pair_frame (T := T) (A.movedTo (g1 xA.ptr))
    (B.movedTo (g1 xB.ptr)) hactor hcomp hne hAact hAbegun hBact hBbegun
    (r1 ▸ hw0) (r1 ▸ hpA) (r1 ▸ hpB) g2 p1 fuel (r1 ▸ hl0)
  simp only [movedTo_movedTo, scanned, tA, tB, hAB2, hBA2, pairNext, pairFires, if_true,
    FIRE_WHILE_COLLIDING] at p2
  have r2' := r2.trans r1
  obtain ⟨w3, u3, p3, r3⟩ := Pair_frame (T := T) (A.movedTo (g2 xA.ptr))
    (B.movedTo (g2 xB.ptr)) hactor hcomp hne hAact hAbegun hBact hBbegun
    (r2' ▸ hw0) (r2' ▸ hpA) (r2' ▸ hpB) g3 p2 fuel (r2' ▸ hl0)
  simp only [movedTo_movedTo, scanned, tA, tB, hAB3, hBA3, pairNext, pairFires, if_true,
    FIRE_WHILE_COLLIDING] at p3
  have r3' := r3.trans r2'
  obtain ⟨w4, u4, p4, r4⟩ := Pair_frame (T := T) (A.movedTo (g3 xA.ptr))
    (B.movedTo (g3 xB.ptr)) hactor hcomp hne hAact hAbegun hBact hBbegun
    (r3' ▸ hw0) (r3' ▸ hpA) (r3' ▸ hpB) g4 p3 fuel (r3' ▸ hl0)
  simp only [movedTo_movedTo, scanned, tA, tB, hAB4, hBA4, pairNext, pairFires, if_true] at p4
  have r4' := r4.trans r3'
  obtain ⟨w5, u5, p5, r5⟩ := Pair_frame (T := T) (A.movedTo (g4 xA.ptr))
    (B.movedTo (g4 xB.ptr)) hactor hcomp hne hAact hAbegun hBact hBbegun
    (r4' ▸ hw0) (r4' ▸ hpA) (r4' ▸ hpB) g5 p4 fuel (r4' ▸ hl0)
  simp only [movedTo_movedTo, scanned, tA, tB, hAB5, hBA5, pairNext, pairFires] at p5
  have q0 := Pair_read P0
  have q1 := Pair_read p1
  have q2 := Pair_read p2
  have q3 := Pair_read p3
  have q4 := Pair_read p4
  have q5 := Pair_read p5
  simp only [movedTo, Option.getD_some, Option.getD_none] at q0 q1 q2 q3 q4 q5
  refine ⟨w1, w2, w3, w4, w5, u1, u2, u3, u4, u5, q1.1, q2.1, q3.1, q4.1, ?_, ?_, ?_, ?_, q5.1,
    q5.2.2.1⟩
  · rw [q1.2.1, q0.2.1]
  · rw [q2.2.1, q1.2.1]
  · rw [q3.2.1, q2.2.1]
  · rw [q4.2.1, q3.2.1]

/-- Two begun 10x10 brushes of a begun world, put 5 apart for three Updates and 20 apart for
two more: the first brush reports ENTER, STAY, STAY, EXIT about the second, calling
OnCollision once in each of these Updates, and NONE in both directions after the fifth. -/
theorem C1_enter_stay_stay_exit_witness :
    ∃ w1 w2 w3 w4 w5,
      (Scenario.begun.moveActors Scenario.near).Update Program.base Trig.unrotated 3 = some w1 ∧
      (w1.moveActors Scenario.near).Update Program.base Trig.unrotated 3 = some w2 ∧
      (w2.moveActors Scenario.near).Update Program.base Trig.unrotated 3 = some w3 ∧
      (w3.moveActors Scenario.far).Update Program.base Trig.unrotated 3 = some w4 ∧
      (w4.moveActors Scenario.far).Update Program.base Trig.unrotated 3 = some w5 ∧
      w1.CollisionStateWith 2 4 = CollisionState.COLLISION_ENTER ∧
      w2.CollisionStateWith 2 4 = CollisionState.COLLISION_STAY ∧
      w3.CollisionStateWith 2 4 = CollisionState.COLLISION_STAY ∧
      w4.CollisionStateWith 2 4 = CollisionState.COLLISION_EXIT ∧
      w1.collisionCalls 2 4 = Scenario.begun.collisionCalls 2 4 + 1 ∧
      w2.collisionCalls 2 4 = w1.collisionCalls 2 4 + 1 ∧
      w3.collisionCalls 2 4 = w2.collisionCalls 2 4 + 1 ∧
      w4.collisionCalls 2 4 = w3.collisionCalls 2 4 + 1 ∧
      w5.CollisionStateWith 2 4 = CollisionState.NONE ∧
      w5.CollisionStateWith 4 2 = CollisionState.NONE :=
  C1_enter_stay_stay_exit Program.base Trig.unrotated Scenario.begun 3 0 0 1 0
    (Scenario.begunActor 1 2) (Scenario.begunActor 3 4)
    (Scenario.begunBrush 2) (Scenario.begunBrush 4)
    Scenario.near Scenario.near Scenario.near Scenario.far Scenario.far
    (fun _ => rfl) (fun _ => rfl) (by decide) rfl ⟨rfl, by decide, by decide⟩
    rfl rfl rfl rfl (by decide) (by decide) (by decide) rfl rfl rfl rfl rfl rfl rfl rfl rfl
    rfl rfl
    (by decide!) (by decide!) (by decide!) (by decide!) (by decide!) (by decide!)
    (by decide!) (by decide!) (by decide!) (by decide!)

end FureyEngine

namespace FureyEngine

/-- C10: deferred destruction. World::DestroyActor returns true for an actor of the world and
leaves Actors unchanged, and returns false and changes nothing for a null pointer or an actor
that is not in the world; no step of the tick or late-tick phase removes an actor or calls
Destroy or OnDestroy; and in an Update of a begun world in which the begun, active actor `a`
calls DestroyActor on itself in its Tick (no other actor or component overriding anything),
`a` is in Actors after the tick phase and after the late-tick phase, with no call of its
Destroy or OnDestroy so far, and once Update has returned `a` is the one actor missing from
Actors and Destroy and OnDestroy have each been called on it exactly once. -/
theorem C10_DestroyActor_deferred (P : Program) (T : Trig) (w : World) (k : Nat) (a : Actor)
    (fuel : Nat)
    (hcomp : ∀ c, P.component c = {})
    (hcls : P.actor a.cls = { Tick := [Action.DestroyThis] })
    (hother : ∀ (i : Nat) (x : Actor), w.Actors[i]? = some x → i ≠ k → P.actor x.cls = {})
    (hactive : w.Active = true) (hbegun : w.BeginTick = true) (hclean : w.Cleanup = [])
    (ha : w.Actors[k]? = some a) (hact : a.Active = true) (hbt : a.BeginTick = true)
    (hfuel : w.Actors.length < fuel) :
    (∀ (v : World) (x : Actor), x ∈ v.Actors →
      (v.DestroyActor (some x.ptr)).1 = true ∧
        (v.DestroyActor (some x.ptr)).2.Actors = v.Actors) ∧
    (∀ v : World, v.DestroyActor none = (false, v)) ∧
    (∀ (v : World) (p : Ptr), p ∉ v.Actors.map Actor.ptr →
      v.DestroyActor (some p) = (false, v)) ∧
    (∀ (v : World) (i : Nat), v.Defers (v.tickActor P T i) ∧ v.Defers (v.lateActor P T i)) ∧
    ∃ w2 w4 : World,
      World.tickPhase P T fuel 0 ((w.call .world .Tick).call .world .OnTick) = some w2 ∧
      World.latePhase P T fuel 0 ((w2.call .world .LateTick).call .world .OnLateTick) =
        some w4 ∧
      w.Update P T fuel = some w4.cleanup ∧
      a.ptr ∈ w2.Actors.map Actor.ptr ∧
      a.ptr ∈ w4.Actors.map Actor.ptr ∧
      w4.Actors.map Actor.ptr = w.Actors.map Actor.ptr ∧
      w4.callCount (.actor a.ptr) .Destroy = w.callCount (.actor a.ptr) .Destroy ∧
      w4.callCount (.actor a.ptr) .OnDestroy = w.callCount (.actor a.ptr) .OnDestroy ∧
      a.ptr ∉ w4.cleanup.Actors.map Actor.ptr ∧
      w4.cleanup.Actors.map Actor.ptr =
        (w.Actors.map Actor.ptr).filter (fun q => !(q == a.ptr)) ∧
      w4.cleanup.callCount (.actor a.ptr) .Destroy =
        w.callCount (.actor a.ptr) .Destroy + 1 ∧
      w4.cleanup.callCount (.actor a.ptr) .OnDestroy =
        w.callCount (.actor a.ptr) .OnDestroy + 1 := by
  refine ⟨?_, fun v => rfl, fun v p hp => World.DestroyActor_absent hp,
    fun v i => ⟨World.tickActor_defers v, World.lateActor_defers v⟩, ?_⟩
  · intro v x hx
    obtain ⟨L, hL, -⟩ := World.DestroyActor_some
      (List.mem_map.mpr ⟨x, hx, rfl⟩ : x.ptr ∈ v.Actors.map Actor.ptr)
    rw [hL]
    exact ⟨rfl, rfl⟩
  · have hmem : a.ptr ∈ w.Actors.map Actor.ptr :=
      List.mem_map.mpr ⟨a, List.getElem?_mem ha, rfl⟩
    have hd0 : w.Defers ((w.call .world .Tick).call .world .OnTick) :=
      ((World.Defers.refl w).call _ (by decide) (by decide)).call _ (by decide) (by decide)
    obtain ⟨w2, h2, q1, q2, q3, q4⟩ := World.tickPhase_destroy (P := P) (T := T)
      (w := (w.call .world .Tick).call .world .OnTick) hcomp hcls hother ha hact hbt hclean
      fuel hfuel
    have q1' : w2.Actors.map Actor.header = w.Actors.map Actor.header := q1
    have hd2 : w.Defers w2 := hd0.trans q3
    have hd3 : w.Defers ((w2.call .world .LateTick).call .world .OnLateTick) :=
      (hd2.call _ (by decide) (by decide)).call _ (by decide) (by decide)
    have hall : ∀ (i : Nat) (x : Actor),
        ((w2.call .world .LateTick).call .world .OnLateTick).Actors[i]? = some x →
        (P.actor x.cls).LateTick = [] ∧ (P.actor x.cls).Start = [] := by
      intro i x hx
      have hx2 : w2.Actors[i]? = some x := hx
      have hi : i < w.Actors.length := by
        rw [← World.header_length q1']
        exact (List.getElem?_eq_some_iff.mp hx2).1
      obtain ⟨x', hx', -, xc, -⟩ := World.header_getElem? q1' (List.getElem?_eq_getElem hi)
      rw [hx2] at hx'
      cases hx'
      rw [xc]
      by_cases hik : i = k
      · subst hik
        rw [List.getElem?_eq_getElem hi] at ha
        cases ha
        rw [hcls]
        exact ⟨rfl, rfl⟩
      · rw [hother i _ (List.getElem?_eq_getElem hi) hik]
        exact ⟨rfl, rfl⟩
    obtain ⟨w4, h4, r1, r2, r3, r4⟩ := World.latePhase_destroy (P := P) (T := T)
      (w := (w2.call .world .LateTick).call .world .OnLateTick) (k := k) hcomp hall q2 q4
      fuel (by
        have := World.header_length q1'
        show w2.Actors.length < fuel
        omega)
    have r1' : w4.Actors.map Actor.header = w.Actors.map Actor.header := r1.trans q1'
    have hd4 : w.Defers w4 := hd3.trans r3
    have hp4 : w4.Actors.map Actor.ptr = w.Actors.map Actor.ptr := by
      have := congrArg (List.map Prod.fst) r1'
      simpa [List.map_map, Function.comp, Actor.header] using this
    have hm4 : a.ptr ∈ w4.Actors.map Actor.ptr := hd4.mem hmem
    obtain ⟨c1, c2⟩ := hd4.callCount (.actor a.ptr)
    obtain ⟨e1, e2, e3⟩ := World.cleanup_destroy r4 hm4
    refine ⟨w2, w4, h2, h4, ?_, hd2.mem hmem, hm4, hp4, c1, c2, ?_, ?_, ?_, ?_⟩
    · simp [World.Update, hactive, hbegun, h2, h4]
    · rw [e1]
      simp
    · rw [e1, hp4]
    · rw [e2, c1]
    · rw [e3, c2]

/-- The world of the self-destroying actor: after one World::Update only the actor at address 3
is left, and Destroy and OnDestroy have each been called once on the actor at address 1. -/
theorem C10_DestroyActor_deferred_witness :
    ∃ w2 w4 : World,
      World.tickPhase Scenario.selfDestroyProgram Trig.unrotated 3 0
        ((Scenario.selfDestroyWorld.call .world .Tick).call .world .OnTick) = some w2 ∧
      World.latePhase Scenario.selfDestroyProgram Trig.unrotated 3 0
        ((w2.call .world .LateTick).call .world .OnLateTick) = some w4 ∧
      Scenario.selfDestroyWorld.Update Scenario.selfDestroyProgram Trig.unrotated 3 =
        some w4.cleanup ∧
      (1 : Ptr) ∈ w2.Actors.map Actor.ptr ∧
      (1 : Ptr) ∈ w4.Actors.map Actor.ptr ∧
      w4.Actors.map Actor.ptr = [1, 3] ∧
      w4.callCount (.actor 1) .Destroy = 0 ∧
      w4.callCount (.actor 1) .OnDestroy = 0 ∧
      (1 : Ptr) ∉ w4.cleanup.Actors.map Actor.ptr ∧
      w4.cleanup.Actors.map Actor.ptr = [3] ∧
      w4.cleanup.callCount (.actor 1) .Destroy = 1 ∧
      w4.cleanup.callCount (.actor 1) .OnDestroy = 1 :=
  (C10_DestroyActor_deferred Scenario.selfDestroyProgram Trig.unrotated
    Scenario.selfDestroyWorld 0
    { ptr := 1, cls := 1, BeginTick := true, Components := [Component.Plain 2 0 true true] } 3
    (fun _ => rfl) rfl
    (fun i x hx hi => by
      match i, hx, hi with
      | 0, _, hi => exact absurd rfl hi
      | 1, hx, _ =>
        simp only [Scenario.selfDestroyWorld] at hx
        cases hx
        rfl
      | i + 2, hx, _ => simp [Scenario.selfDestroyWorld] at hx)
    rfl rfl rfl rfl rfl rfl (by decide)).2.2.2.2

end FureyEngine

namespace FureyEngine

/-- C2: in the scenario of the claim (a fresh world, an actor at the origin and an actor at
(5,0), each with an unrotated, solid 10x10 brush on layer "All") the first World::Update
returns and leaves CollisionStateWith at COLLISION_EXIT in both directions, not at
COLLISION_ENTER: the overlap is found by BrushComponent::Start, which writes COLLISION_EXIT.
After the second actor is moved to (20,0) the next Update erases both entries, so the state is
NONE in both directions rather than COLLISION_EXIT, and it is NONE after the third Update. -/
theorem C2_first_Update_leaves_EXIT :
    Scenario.frame1.map (fun w => w.statesBetween 2 4) =
      some (CollisionState.COLLISION_EXIT, CollisionState.COLLISION_EXIT) ∧
    Scenario.frame2.map (fun w => w.statesBetween 2 4) =
      some (CollisionState.NONE, CollisionState.NONE) ∧
    Scenario.frame3.map (fun w => w.statesBetween 2 4) =
      some (CollisionState.NONE, CollisionState.NONE) := by
  decide!

end FureyEngine

namespace FureyEngine

/-- C9: an actor (address 2) spawned from the LateTick of another actor is reached by the
late-tick loop of the same World::Update: after that Update it has begun ticking and the calls
made on it are Start and OnStart, with no Spawn before them; the next Update calls its Tick and
LateTick, so Spawn is never called on it. -/
theorem C9_late_spawn_starts_without_Spawn :
    Scenario.spawned1.map
        (fun w => (w.Actors.map (fun a => (a.ptr, a.BeginTick)), w.callsOn 2)) =
      some ([(1, true), (2, true)], [Method.Start, Method.OnStart]) ∧
    Scenario.spawned2.map (fun w => w.callsOn 2) =
      some [Method.Start, Method.OnStart, Method.Tick, Method.OnTick, Method.LateTick,
        Method.OnLateTick] := by
  decide!

end FureyEngine

namespace FureyEngine

/-- C16: Unbind compares `target<void()>()` of the bound functions with that of the argument,
and both are null for every std::function, so the comparison always succeeds. With f1 and f2
bound, Unbind(g) for a callback g that was never bound does not throw and erases f1 (Count()
drops from 2 to 1), and Unbind(f2) erases f1 and keeps f2; the same holds for Delegate. For
every event with a bound function, Unbind of any callback erases the first one and does not
throw. -/
theorem C16_Unbind_erases_first_function :
    (Event.Unbind ⟨[Scenario.f1, Scenario.f2]⟩ Scenario.g).thrown = none ∧
    (Event.Unbind ⟨[Scenario.f1, Scenario.f2]⟩ Scenario.g).state.Functions = [Scenario.f2] ∧
    (Event.Unbind ⟨[Scenario.f1, Scenario.f2]⟩ Scenario.g).state.Count = 1 ∧
    (Event.Unbind ⟨[Scenario.f1, Scenario.f2]⟩ Scenario.f2).state.Functions = [Scenario.f2] ∧
    (Delegate.Unbind ⟨[Scenario.f1, Scenario.f2]⟩ Scenario.g).thrown = none ∧
    (Delegate.Unbind ⟨[Scenario.f1, Scenario.f2]⟩ Scenario.g).state.Functions =
      [Scenario.f2] ∧
    (Delegate.Unbind ⟨[Scenario.f1, Scenario.f2]⟩ Scenario.f2).state.Functions =
      [Scenario.f2] ∧
    (∀ (f : StdFunction) (fs : List StdFunction) (h : StdFunction),
      (Event.Unbind ⟨f :: fs⟩ h).thrown = none ∧
      (Event.Unbind ⟨f :: fs⟩ h).state.Functions = fs ∧
      (Delegate.Unbind ⟨f :: fs⟩ h).thrown = none ∧
      (Delegate.Unbind ⟨f :: fs⟩ h).state.Functions = fs) := by
  have key : ∀ (f : StdFunction) (fs : List StdFunction) (h : StdFunction),
      (f :: fs).findIdx? (fun g =>
        g.target TypeId.signature == h.target TypeId.signature) = some 0 := by
    intro f fs h
    apply findIdx?_true_cons
    simp [StdFunction.target_signature]
  have gen : ∀ (f : StdFunction) (fs : List StdFunction) (h : StdFunction),
      (Event.Unbind ⟨f :: fs⟩ h).thrown = none ∧
      (Event.Unbind ⟨f :: fs⟩ h).state.Functions = fs ∧
      (Delegate.Unbind ⟨f :: fs⟩ h).thrown = none ∧
      (Delegate.Unbind ⟨f :: fs⟩ h).state.Functions = fs := by
    intro f fs h
    simp [Event.Unbind, Delegate.Unbind, key]
  refine ⟨(gen _ _ _).1, (gen _ _ _).2.1, ?_, (gen _ _ _).2.1, (gen _ _ _).2.2.1,
    (gen _ _ _).2.2.2, (gen _ _ _).2.2.2, gen⟩
  simp [Event.Count, (gen Scenario.f1 [Scenario.f2] Scenario.g).2.1]

end FureyEngine

namespace FureyEngine

/-- C17: Actor::SetWorld on an actor whose MyWorld is not a valid reference stores the given
world and does not throw; on an actor whose MyWorld is valid it throws and leaves the actor as
it is, so GetWorld() still gives the original world. Component::SetActor does the same for
MyActor. After the binding of World::SpawnActor in a live world (of Actor::AttachComponent on
a live actor) the reference is that world (that actor), and every further SetWorld (SetActor)
throws while it is alive. -/
theorem C17_binding_is_irreversible (alive : Ptr → Bool) :
    (∀ (a : ActorBinding) (W : Option Ptr), Reference.valid alive a.MyWorld = false →
      (Actor.SetWorld alive a W).thrown = none ∧
      Actor.GetWorld (Actor.SetWorld alive a W).state = W) ∧
    (∀ (a : ActorBinding) (W : Option Ptr), Reference.valid alive a.MyWorld = true →
      (Actor.SetWorld alive a W).thrown ≠ none ∧ (Actor.SetWorld alive a W).state = a ∧
      Actor.GetWorld (Actor.SetWorld alive a W).state = Actor.GetWorld a) ∧
    (∀ (c : ComponentBinding) (A : Option Ptr), Reference.valid alive c.MyActor = false →
      (Component.SetActor alive c A).thrown = none ∧
      Component.GetActor (Component.SetActor alive c A).state = A) ∧
    (∀ (c : ComponentBinding) (A : Option Ptr), Reference.valid alive c.MyActor = true →
      (Component.SetActor alive c A).thrown ≠ none ∧ (Component.SetActor alive c A).state = c ∧
      Component.GetActor (Component.SetActor alive c A).state = Component.GetActor c) ∧
    (∀ (self : Ptr) (n : Int) (W : Option Ptr), alive self = true →
      (World.spawnBinding alive self n).thrown = none ∧
      Actor.GetWorld (World.spawnBinding alive self n).state = some self ∧
      (Actor.SetWorld alive (World.spawnBinding alive self n).state W).thrown ≠ none ∧
      Actor.GetWorld (Actor.SetWorld alive (World.spawnBinding alive self n).state W).state =
        some self) ∧
    (∀ (self : Ptr) (n : Int) (A : Option Ptr), alive self = true →
      (Actor.attachBinding alive self n).thrown = none ∧
      Component.GetActor (Actor.attachBinding alive self n).state = some self ∧
      (Component.SetActor alive (Actor.attachBinding alive self n).state A).thrown ≠ none ∧
      Component.GetActor
        (Component.SetActor alive (Actor.attachBinding alive self n).state A).state =
        some self) := by
  refine ⟨?_, ?_, ?_, ?_, ?_, ?_⟩
  · intro a W h
    simp [Actor.SetWorld, Actor.GetWorld, h]
  · intro a W h
    simp [Actor.SetWorld, Actor.GetWorld, h]
  · intro c A h
    simp [Component.SetActor, Component.GetActor, h]
  · intro c A h
    simp [Component.SetActor, Component.GetActor, h]
  · intro self n W h
    simp [World.spawnBinding, Actor.SetWorld, Actor.GetWorld, Reference.valid, h]
  · intro self n A h
    simp [Actor.attachBinding, Component.SetActor, Component.GetActor, Reference.valid, h]

end FureyEngine

namespace FureyEngine

/-- C12: World::CancelInvoke compares `target<void()>()` of each scheduled function with that
of the argument, and both are null for every std::function, so the first pending timer is
erased whatever the argument is. With a timer for `f` (1 s) and one for `g` (2 s) pending,
CancelInvoke(g) returns true and erases the timer of `f`; the timer of `g` stays and `g` is
invoked by a later Update. CancelInvoke(h) for a function `h` that was never scheduled also
returns true and erases the timer of `f`. -/
theorem C12_CancelInvoke_erases_first_timer :
    (Scenario.twoTimers.CancelInvoke (some ⟨2, 102⟩)).1 = true ∧
    (Scenario.twoTimers.CancelInvoke (some ⟨2, 102⟩)).2.ScheduledEvents =
      [{ node := 1, Delay := 2, Event := ⟨2, 102⟩ }] ∧
    ((Scenario.twoTimers.CancelInvoke (some ⟨2, 102⟩)).2.Update Program.base Trig.unrotated
        1 2).map (fun s => s.Fired) = some [(1, ⟨2, 102⟩)] ∧
    (Scenario.twoTimers.CancelInvoke (some ⟨3, 103⟩)).1 = true ∧
    (Scenario.twoTimers.CancelInvoke (some ⟨3, 103⟩)).2.ScheduledEvents =
      [{ node := 1, Delay := 2, Event := ⟨2, 102⟩ }] := by
  decide!

/-- C14: DeltaTime() is positive for a newly constructed world, and every World::Update that
starts with a positive delta time ends with one whenever the product of the wall-clock
difference and TimeScale is not a NaN: a product that passes the test `CurrentDeltaTime <= 0`
is replaced by 0.0000001. The product of two finite doubles is never a NaN, nor is that of a
finite double other than 0 and an infinite one; so DeltaTime() is positive after every Update
of every host loop whose time scales and wall-clock differences are finite, whatever their
sign. Update returns whenever the frame it runs returns. -/
theorem C14_DeltaTime_positive_unless_NaN :
    ({} : TimedWorld).DeltaTime.pos = true ∧
    (∀ (P : Program) (T : Trig) (fuel : Nat) (Elapsed : Double) (s s' : TimedWorld),
      s.DeltaTime.pos = true → Elapsed.mul s.TimeScale ≠ Double.nan →
      s.Update P T fuel Elapsed = some s' → s'.DeltaTime.pos = true) ∧
    (∀ (P : Program) (T : Trig) (fuel : Nat) (frames : List (Double × Double))
      (s s' : TimedWorld), s.DeltaTime.pos = true → (∀ f ∈ frames, f.2.mul f.1 ≠ Double.nan) →
      TimedWorld.Frames P T fuel frames s = some s' → s'.DeltaTime.pos = true) ∧
    (∀ a b : ℚ, (Double.finite a).mul (Double.finite b) ≠ Double.nan) ∧
    (∀ (a : ℚ) (n : Bool), a ≠ 0 → (Double.finite a).mul (Double.inf n) ≠ Double.nan) ∧
    (∀ (P : Program) (T : Trig) (fuel : Nat) (Elapsed : Double) (s : TimedWorld),
      (s.Update P T fuel Elapsed).isSome = (s.world.Update P T fuel).isSome) ∧
    (({ Scenario.twoTimers with TimeScale := 0 } : TimedWorld).Update Program.base
        Trig.unrotated 1 5).map TimedWorld.DeltaTime = some (Double.ofRat (1 / 10000000)) ∧
    (({ Scenario.twoTimers with TimeScale := Double.finite (-2) } : TimedWorld).Update Program.base
        Trig.unrotated 1 5).map TimedWorld.DeltaTime = some (Double.ofRat (1 / 10000000)) ∧
    (({ Scenario.twoTimers with TimeScale := 2 } : TimedWorld).Update Program.base
        Trig.unrotated 1 0).map TimedWorld.DeltaTime = some (Double.ofRat (1 / 10000000)) ∧
    (({ Scenario.twoTimers with TimeScale := 2 } : TimedWorld).Update Program.base
        Trig.unrotated 1 5).map TimedWorld.DeltaTime = some 10 := by
  refine ⟨by decide!, fun P T fuel Elapsed s s' hs hn h => TimedWorld.Update_positive hs hn h,
    fun P T fuel frames s s' hs hn h => TimedWorld.Frames_positive frames s hn hs h,
    fun a b => Double.mul_finite_ne_nan a b, ?_,
    fun P T fuel Elapsed s => TimedWorld.Update_isSome fuel Elapsed s,
    by decide!, by decide!, by decide!, by decide!⟩
  intro a n ha
  simp [Double.mul, ha]

/-- C14, the inputs for which it fails: with TimeScale a NaN the product of the wall-clock
difference (5 s) and TimeScale is a NaN, the test `CurrentDeltaTime <= 0` fails, and
DeltaTime() is a NaN after the Update, for which `DeltaTime() > 0` is false; the same happens
with an infinite TimeScale and a wall-clock difference of 0. -/
theorem C14_NaN_TimeScale_leaves_NaN_DeltaTime :
    (({ Scenario.twoTimers with TimeScale := Double.nan } : TimedWorld).Update Program.base
        Trig.unrotated 1 5).map TimedWorld.DeltaTime = some Double.nan ∧
    (({ Scenario.twoTimers with TimeScale := Double.inf false } : TimedWorld).Update
        Program.base Trig.unrotated 1 0).map TimedWorld.DeltaTime = some Double.nan ∧
    Double.nan.pos = false := by
  decide!

/-- C11: in a ticking world, after InvokeAfterSeconds(1.0, fn) every host loop of Updates that
each observe a delta time of 0.1 s, the double nearest to 0.1, has invoked the scheduled
event no time after fewer than 11 Updates and exactly once after 11 or more (so it is invoked
in the 11th and never again), and from the 11th Update on the event is no longer scheduled:
the ten rounded subtractions of 0.1 from 1.0 leave a delay of 5 * 2^-55, which fails the test
`Delay <= 0`. The loop returns for every program that spawns no actor, given fuel above the
number of actors. -/
theorem C11_timer_fires_on_eleventh_Update (P : Program) (T : Trig) (fuel : Nat)
    (s : TimedWorld) (fn : Target) (frames : List (Double × Double))
    (hactive : s.world.Active = true) (hbegun : s.world.BeginTick = true)
    (hfresh : ∀ e ∈ s.ScheduledEvents, e.node ≠ s.Heap)
    (hdelta : ∀ f ∈ frames, TimedWorld.delta f.2 f.1 = Double.ofRat (1 / 10)) :
    (s.InvokeAfterSeconds 1 fn).1 = s.Heap ∧
    (∀ s', TimedWorld.Frames P T fuel frames (s.InvokeAfterSeconds 1 fn).2 = some s' →
      s'.firedCount s.Heap = s.firedCount s.Heap + (if frames.length < 11 then 0 else 1) ∧
      (11 ≤ frames.length → ∀ e ∈ s'.ScheduledEvents, e.node ≠ s.Heap)) ∧
    (P.noSpawn → s.world.Actors.length < fuel →
      ∃ s', TimedWorld.Frames P T fuel frames (s.InvokeAfterSeconds 1 fn).2 = some s') := by
  have h0 : (s.InvokeAfterSeconds 1 fn).2.Countdown s.Heap fn (s.firedCount s.Heap) 0 := by
    refine ⟨hactive, hbegun, Nat.lt_succ_self _, ?_, ?_⟩
    · show (s.ScheduledEvents ++
          [({ node := s.Heap, Delay := 1, Event := fn } : TimedEvent)]).filter
        (fun e => e.node == s.Heap) = _
      have hnil : s.ScheduledEvents.filter (fun e => e.node == s.Heap) = [] := by
        rw [List.filter_eq_nil_iff]
        intro e he
        simpa using hfresh e he
      rw [List.filter_append, hnil]
      simp [TimedWorld.tenths]
    · show s.firedCount s.Heap = _
      simp
  refine ⟨rfl, ?_, ?_⟩
  · intro s' hs'
    have hc := TimedWorld.Countdown_frames frames hdelta 0 _ h0 hs'
    rw [Nat.zero_add] at hc
    refine ⟨hc.2.2.2.2, ?_⟩
    intro h11 e he hn
    have hmem : e ∈ s'.ScheduledEvents.filter (fun e => e.node == s.Heap) :=
      List.mem_filter.mpr ⟨he, by simpa using hn⟩
    rw [hc.2.2.2.1, if_neg (by omega)] at hmem
    cases hmem
  · intro hP hfuel
    exact TimedWorld.Frames_returns hP frames _ hfuel

/-- A world with two pending timers in which a third function is scheduled for 1 second: eleven
Updates of 0.1 s return, and the new event has then been invoked exactly once. -/
theorem C11_timer_fires_on_eleventh_Update_witness :
    ∃ s', TimedWorld.Frames Program.base Trig.unrotated 1
        (List.replicate 11 (1, Double.ofRat (1 / 10)))
        (Scenario.twoTimers.InvokeAfterSeconds 1 ⟨3, 103⟩).2 = some s' ∧
      s'.firedCount 2 = 1 := by
  have h := C11_timer_fires_on_eleventh_Update Program.base Trig.unrotated 1
    Scenario.twoTimers ⟨3, 103⟩ (List.replicate 11 (1, Double.ofRat (1 / 10))) rfl rfl
    (by decide)
    (by
      intro f hf
      rw [List.eq_of_mem_replicate hf]
      decide!)
  obtain ⟨s', hs'⟩ := h.2.2 World.noSpawn_base (by decide)
  exact ⟨s', hs', (h.2.1 s' hs').1⟩

/-- C11, the Update in which the timer fires: in the world of the two timers a third function
is scheduled for 1 second and every Update observes the delta time 0.1 (time scale 1 and 0.1 s
of wall-clock time). After 10 Updates the event has not been invoked, its delay being
5 * 2^-55; after 11 Updates it has been invoked once. -/
theorem C11_tenth_Update_does_not_fire :
    TimedWorld.delta (Double.ofRat (1 / 10)) 1 = Double.ofRat (1 / 10) ∧
    TimedWorld.tenths 10 = Double.finite (5 / 2 ^ 55) ∧
    (TimedWorld.Frames Program.base Trig.unrotated 1
        (List.replicate 10 (1, Double.ofRat (1 / 10)))
        (Scenario.twoTimers.InvokeAfterSeconds 1 ⟨3, 103⟩).2).map
      (fun s => (s.firedCount 2, s.ScheduledEvents.filter fun e => e.node == 2)) =
      some (0, [{ node := 2, Delay := Double.finite (5 / 2 ^ 55), Event := ⟨3, 103⟩ }]) ∧
    (TimedWorld.Frames Program.base Trig.unrotated 1
        (List.replicate 11 (1, Double.ofRat (1 / 10)))
        (Scenario.twoTimers.InvokeAfterSeconds 1 ⟨3, 103⟩).2).map
      (fun s => (s.firedCount 2, s.ScheduledEvents.filter fun e => e.node == 2)) =
      some (1, []) := by
  decide!

end FureyEngine

namespace FureyEngine

/-- C28: after Controller::NormalizeAxes, RightTriggerAxis is the clamped
value of LeftTriggerAxis, whatever it was before. With LeftTriggerAxis 1/5 and
RightTriggerAxis 4/5, both in range, the call leaves RightTriggerAxis at 1/5, so it is not the
identity on values in range. -/
theorem C28_NormalizeAxes_right_trigger_from_left :
    (∀ c : Controller,
      c.NormalizeAxes.RightTriggerAxis = SDL_clamp (SDL_clamp c.LeftTriggerAxis 0 1) 0 1 ∧
      c.NormalizeAxes.LeftTriggerAxis = SDL_clamp c.LeftTriggerAxis 0 1) ∧
    ({ LeftTriggerAxis := 1 / 5, RightTriggerAxis := 4 / 5 } : Controller).NormalizeAxes =
      { LeftTriggerAxis := 1 / 5, RightTriggerAxis := 1 / 5 } := by
  refine ⟨fun c => ?_, by decide!⟩
  unfold Controller.NormalizeAxes
  simp only []
  split_ifs <;> exact ⟨rfl, rfl⟩

end FureyEngine

namespace FureyEngine

/-- C30: destruction ordering in the cleanup phase. For every world and every actor address
`p` whose actor has components at the addresses `cs`, World::DestroyActor binds, after the
closures already in the queue, one RemoveComponent closure for each component in the order of
the component list and then the DestroyActor closure; and when these closures are invoked in
that order (the addresses in `cs` distinct) the calls made are exactly Remove and OnRemove on
each component in the order of the list, followed by Destroy and OnDestroy on the actor, after
which the actor is no longer in Actors. In an Update of a begun world with an empty cleanup
queue in which the begun, active actor `a` (the only actor with its address, its components at
distinct addresses) calls DestroyActor on itself in its Tick and nothing else is overridden,
the cleanup phase starts with exactly these closures in the queue, its calls are Remove and
OnRemove on each component of `a` in order, each once, then Destroy and OnDestroy on `a`; when
the DestroyActor closure is invoked `a` is still in Actors and its component list is empty,
and after the cleanup `a` is no longer in Actors. -/
theorem C30_destruction_order (P : Program) (T : Trig) (w : World) (k : Nat) (a : Actor)
    (fuel : Nat)
    (hcomp : ∀ c, P.component c = {})
    (hcls : P.actor a.cls = { Tick := [Action.DestroyThis] })
    (hother : ∀ (i : Nat) (x : Actor), w.Actors[i]? = some x → i ≠ k → P.actor x.cls = {})
    (hactive : w.Active = true) (hbegun : w.BeginTick = true) (hclean : w.Cleanup = [])
    (ha : w.Actors[k]? = some a) (hact : a.Active = true) (hbt : a.BeginTick = true)
    (hunique : ∀ (i : Nat) (y : Actor), w.Actors[i]? = some y → y.ptr = a.ptr → i = k)
    (hnodup : (a.Components.map Component.ptr).Nodup)
    (hfuel : w.Actors.length < fuel) :
    (∀ (v : World) (p : Ptr) (cs : List Ptr), (∃ y ∈ v.Actors, y.ptr = p) →
      (∀ y ∈ v.Actors, y.ptr = p → y.Components.map Component.ptr = cs) →
      v.DestroyActor (some p) =
        (true, { v with Cleanup := v.Cleanup ++ World.destroyQueue p cs })) ∧
    (∀ (v : World) (p : Ptr) (cs : List Ptr), cs.Nodup → (∃ y ∈ v.Actors, y.ptr = p) →
      (∀ y ∈ v.Actors, y.ptr = p → y.Components.map Component.ptr = cs) →
      ((World.destroyQueue p cs).foldl World.cleanupCall v).Trace =
          v.Trace ++ World.removeCalls cs ++
            [⟨.actor p, .Destroy⟩, ⟨.actor p, .OnDestroy⟩] ∧
        p ∉ ((World.destroyQueue p cs).foldl World.cleanupCall v).Actors.map Actor.ptr) ∧
    ∃ w4 : World,
      w.Update P T fuel = some w4.cleanup ∧
      w4.Cleanup = World.destroyQueue a.ptr (a.Components.map Component.ptr) ∧
      w4.cleanup.Trace =
        w4.Trace ++ World.removeCalls (a.Components.map Component.ptr) ++
          [⟨.actor a.ptr, .Destroy⟩, ⟨.actor a.ptr, .OnDestroy⟩] ∧
      (∀ c ∈ a.Components,
        (World.removeCalls (a.Components.map Component.ptr)).count
            ⟨.component c.ptr, .Remove⟩ = 1 ∧
          (World.removeCalls (a.Components.map Component.ptr)).count
            ⟨.component c.ptr, .OnRemove⟩ = 1) ∧
      a.ptr ∈ (((a.Components.map Component.ptr).map
        (CleanupCall.RemoveComponent a.ptr)).foldl World.cleanupCall w4).Actors.map Actor.ptr ∧
      (∀ y ∈ (((a.Components.map Component.ptr).map
          (CleanupCall.RemoveComponent a.ptr)).foldl World.cleanupCall w4).Actors,
        y.ptr = a.ptr → y.Components = []) ∧
      a.ptr ∉ w4.cleanup.Actors.map Actor.ptr := by
  refine ⟨fun v p cs hm hs => World.DestroyActor_exact hm hs, ?_, ?_⟩
  · intro v p cs hn hm hs
    obtain ⟨c1, c2, -⟩ := World.cleanup_removeAll p cs v hn hm hs
    have hin : p ∈ ((cs.map (CleanupCall.RemoveComponent p)).foldl World.cleanupCall
        v).Actors.map Actor.ptr := by
      rw [c2]
      obtain ⟨y, hy, hyp⟩ := hm
      exact List.mem_map.mpr ⟨y, hy, hyp⟩
    obtain ⟨d1, d2⟩ := World.cleanupCall_destroy hin
    have hfold : (World.destroyQueue p cs).foldl World.cleanupCall v =
        (((cs.map (CleanupCall.RemoveComponent p)).foldl World.cleanupCall v).cleanupCall
          (.DestroyActor p)) := by
      rw [World.destroyQueue, List.foldl_append]
      rfl
    rw [hfold, d1, d2, c1]
    exact ⟨rfl, by simp⟩
  have hone : ∀ y ∈ w.Actors, y.ptr = a.ptr →
      y.Components.map Component.ptr = a.Components.map Component.ptr := by
    intro y hy hp
    obtain ⟨i, hi⟩ := List.getElem?_of_mem hy
    have := hunique i y hi hp
    subst this
    rw [ha] at hi
    cases hi
    rfl
  obtain ⟨w2, h2, q1, -, q3, q4⟩ := World.tickPhase_queue (P := P) (T := T)
    (w := (w.call .world .Tick).call .world .OnTick) hcomp hcls hother ha hact hbt hclean hone
    fuel hfuel
  have q1' : w2.Actors.map Actor.header = w.Actors.map Actor.header := q1
  have q3' : w2.Actors.map Actor.parts = w.Actors.map Actor.parts := q3
  have hall : ∀ (i : Nat) (x : Actor),
      ((w2.call .world .LateTick).call .world .OnLateTick).Actors[i]? = some x →
      (P.actor x.cls).LateTick = [] ∧ (P.actor x.cls).Start = [] := by
    intro i x hx
    have hx2 : w2.Actors[i]? = some x := hx
    have hi : i < w.Actors.length := by
      rw [← World.header_length q1']
      exact (List.getElem?_eq_some_iff.mp hx2).1
    obtain ⟨x', hx', -, xc, -⟩ := World.header_getElem? q1' (List.getElem?_eq_getElem hi)
    rw [hx2] at hx'
    cases hx'
    rw [xc]
    by_cases hik : i = k
    · subst hik
      rw [List.getElem?_eq_getElem hi] at ha
      cases ha
      rw [hcls]
      exact ⟨rfl, rfl⟩
    · rw [hother i _ (List.getElem?_eq_getElem hi) hik]
      exact ⟨rfl, rfl⟩
  obtain ⟨w4, h4, -, r2, r3⟩ := World.latePhase_queue (P := P) (T := T)
    (w := (w2.call .world .LateTick).call .world .OnLateTick) hcomp hall fuel (by
      have := World.header_length q1'
      show w2.Actors.length < fuel
      omega)
  have hparts : w4.Actors.map Actor.parts = w.Actors.map Actor.parts := r2.trans q3'
  have hqueue : w4.Cleanup = World.destroyQueue a.ptr (a.Components.map Component.ptr) :=
    r3.trans q4
  have hmem : ∃ y ∈ w4.Actors, y.ptr = a.ptr := by
    have h0 : a.ptr ∈ w4.Actors.map Actor.ptr := by
      rw [World.parts_ptr hparts]
      exact List.mem_map.mpr ⟨a, List.getElem?_mem ha, rfl⟩
    obtain ⟨y, hy, hyp⟩ := List.mem_map.mp h0
    exact ⟨y, hy, hyp⟩
  obtain ⟨c1, c2, c3⟩ := World.cleanup_removeAll a.ptr (a.Components.map Component.ptr) w4
    hnodup hmem (World.parts_same hparts hone)
  have hin : a.ptr ∈ (((a.Components.map Component.ptr).map
      (CleanupCall.RemoveComponent a.ptr)).foldl World.cleanupCall w4).Actors.map Actor.ptr := by
    rw [c2]
    obtain ⟨y, hy, hyp⟩ := hmem
    exact List.mem_map.mpr ⟨y, hy, hyp⟩
  obtain ⟨d1, d2⟩ := World.cleanupCall_destroy hin
  have hfold : w4.Cleanup.foldl World.cleanupCall w4 =
      ((((a.Components.map Component.ptr).map (CleanupCall.RemoveComponent a.ptr)).foldl
        World.cleanupCall w4).cleanupCall (.DestroyActor a.ptr)) := by
    rw [hqueue, World.destroyQueue, List.foldl_append]
    rfl
  refine ⟨w4, ?_, hqueue, ?_, ?_, hin, c3, ?_⟩
  · simp [World.Update, hactive, hbegun, h2, h4]
  · show (w4.Cleanup.foldl World.cleanupCall w4).Trace = _
    rw [hfold, d2, c1]
  · intro c hc
    have hcm : c.ptr ∈ a.Components.map Component.ptr := List.mem_map.mpr ⟨c, hc, rfl⟩
    have hcount : ∀ (cs : List Ptr) (q : Ptr), cs.Nodup → q ∈ cs →
        (World.removeCalls cs).count ⟨.component q, .Remove⟩ = 1 ∧
          (World.removeCalls cs).count ⟨.component q, .OnRemove⟩ = 1 := by
      intro cs q hn hq
      have e1 : ∀ l : List Ptr, (World.removeCalls l).count ⟨.component q, .Remove⟩ =
          l.count q := by
        intro l
        induction l with
        | nil => rfl
        | cons r l ih =>
          simp only [World.removeCalls, List.flatMap_cons] at ih ⊢
          rw [List.count_append, ih, List.count_cons]
          by_cases hrq : r = q
          · subst hrq
            simp [List.count_cons]
            omega
          · have : ¬ q = r := fun h => hrq h.symm
            simp [List.count_cons, hrq, this]
      have e2 : ∀ l : List Ptr, (World.removeCalls l).count ⟨.component q, .OnRemove⟩ =
          l.count q := by
        intro l
        induction l with
        | nil => rfl
        | cons r l ih =>
          simp only [World.removeCalls, List.flatMap_cons] at ih ⊢
          rw [List.count_append, ih, List.count_cons]
          by_cases hrq : r = q
          · subst hrq
            simp [List.count_cons]
            omega
          · have : ¬ q = r := fun h => hrq h.symm
            simp [List.count_cons, hrq, this]
      rw [e1, e2, List.count_eq_one_of_mem hn hq]
      exact ⟨rfl, rfl⟩
    exact hcount _ _ hnodup hcm
  · show a.ptr ∉ (w4.Cleanup.foldl World.cleanupCall w4).Actors.map Actor.ptr
    rw [hfold, d1]
    simp

/-- C30 in the world of the actor at address 1 with the components at addresses 2 and 3: the
cleanup phase calls Remove and OnRemove on 2, then on 3, then Destroy and OnDestroy on 1. -/
theorem C30_destruction_order_witness :
    ∃ w4 : World,
      Scenario.doomedWorld.Update Scenario.selfDestroyProgram Trig.unrotated 3 =
        some w4.cleanup ∧
      w4.Cleanup = [CleanupCall.RemoveComponent 1 2, CleanupCall.RemoveComponent 1 3,
        CleanupCall.DestroyActor 1] ∧
      w4.cleanup.Trace =
        w4.Trace ++ [⟨.component 2, .Remove⟩, ⟨.component 2, .OnRemove⟩,
          ⟨.component 3, .Remove⟩, ⟨.component 3, .OnRemove⟩] ++
          [⟨.actor 1, .Destroy⟩, ⟨.actor 1, .OnDestroy⟩] ∧
      (1 : Ptr) ∉ w4.cleanup.Actors.map Actor.ptr := by
  obtain ⟨-, -, w4, h1, h2, h3, -, -, -, h7⟩ :=
    C30_destruction_order Scenario.selfDestroyProgram Trig.unrotated Scenario.doomedWorld 0
      { ptr := 1, cls := 1, BeginTick := true,
        Components := [Component.Plain 2 0 true true, Component.Plain 3 0 true true] } 3
      (fun _ => rfl) rfl
      (fun i x hx hi => by
        match i, hx, hi with
        | 0, _, hi => exact absurd rfl hi
        | 1, hx, _ =>
          simp only [Scenario.doomedWorld] at hx
          cases hx
          rfl
        | i + 2, hx, _ => simp [Scenario.doomedWorld] at hx)
      rfl rfl rfl rfl rfl rfl
      (fun i y hy hp => by
        match i, hy, hp with
        | 0, _, _ => rfl
        | 1, hy, hp =>
          simp only [Scenario.doomedWorld] at hy
          cases hy
          simp at hp
        | i + 2, hy, _ => simp [Scenario.doomedWorld] at hy)
      (by decide) (by decide)
  exact ⟨w4, h1, h2, h3, h7⟩

end FureyEngine

namespace FureyEngine

open PhysicsComponent

/-- C27: in the friction step of a physics tick with f = Friction * DeltaTime * SpeedModifier
>= 0, when the brush collides (tested with the scale of the actor multiplied by 1.001) each of
Velocity.x, Velocity.y and AngularVelocity becomes sign(v) * max(|v| - f, 0) of its value v
before the step, so its magnitude does not increase and its sign does not change; when the
brush is absent or does not collide the component is left as it was; and in every case the
transform of the actor, its scale included, is after the step what it was before. -/
theorem C27_friction_toward_zero (DeltaTime : ℚ) (s : PhysicsState)
    (hf : 0 ≤ s.physics.Friction * DeltaTime * s.physics.SpeedModifier) :
    (s.physics.BrushComponent.collides { s.actor with
        Scale := ⟨s.actor.Scale.x * (1001 / 1000), s.actor.Scale.y * (1001 / 1000)⟩ } = true →
      (friction DeltaTime s).physics.Velocity.x =
        (SignType.sign s.physics.Velocity.x : ℚ) *
          max (|s.physics.Velocity.x| - s.physics.Friction * DeltaTime * s.physics.SpeedModifier) 0 ∧
      (friction DeltaTime s).physics.Velocity.y =
        (SignType.sign s.physics.Velocity.y : ℚ) *
          max (|s.physics.Velocity.y| - s.physics.Friction * DeltaTime * s.physics.SpeedModifier) 0 ∧
      (friction DeltaTime s).physics.AngularVelocity =
        (SignType.sign s.physics.AngularVelocity : ℚ) *
          max (|s.physics.AngularVelocity| -
            s.physics.Friction * DeltaTime * s.physics.SpeedModifier) 0) ∧
    (s.physics.BrushComponent.collides { s.actor with
        Scale := ⟨s.actor.Scale.x * (1001 / 1000), s.actor.Scale.y * (1001 / 1000)⟩ } = false →
      (friction DeltaTime s).physics = s.physics) ∧
    (|(friction DeltaTime s).physics.Velocity.x| ≤ |s.physics.Velocity.x| ∧
      0 ≤ s.physics.Velocity.x * (friction DeltaTime s).physics.Velocity.x) ∧
    (|(friction DeltaTime s).physics.Velocity.y| ≤ |s.physics.Velocity.y| ∧
      0 ≤ s.physics.Velocity.y * (friction DeltaTime s).physics.Velocity.y) ∧
    (|(friction DeltaTime s).physics.AngularVelocity| ≤ |s.physics.AngularVelocity| ∧
      0 ≤ s.physics.AngularVelocity * (friction DeltaTime s).physics.AngularVelocity) ∧
    (friction DeltaTime s).actor = s.actor := by
  have hx := slow_sign s.physics.Velocity.x _ hf
  have hy := slow_sign s.physics.Velocity.y _ hf
  have hr := slow_sign s.physics.AngularVelocity _ hf
  refine ⟨?_, ?_, ?_, ?_, ?_, friction_actor DeltaTime s⟩
  · intro h
    simp only [friction, h, if_true]
    exact ⟨hx.1, hy.1, hr.1⟩
  · intro h
    simp [friction, h]
  all_goals
    cases h : s.physics.BrushComponent.collides { s.actor with
        Scale := ⟨s.actor.Scale.x * (1001 / 1000), s.actor.Scale.y * (1001 / 1000)⟩ }
  · simp only [friction, h, Bool.false_eq_true, if_false]
    exact ⟨le_refl _, mul_self_nonneg _⟩
  · simp only [friction, h, if_true]
    exact hx.2
  · simp only [friction, h, Bool.false_eq_true, if_false]
    exact ⟨le_refl _, mul_self_nonneg _⟩
  · simp only [friction, h, if_true]
    exact hy.2
  · simp only [friction, h, Bool.false_eq_true, if_false]
    exact ⟨le_refl _, mul_self_nonneg _⟩
  · simp only [friction, h, if_true]
    exact hr.2

/-- C27 at a colliding brush with velocity (3, -1/2), angular velocity 0, friction 50 and
delta time 1/50 (f = 1): the velocity becomes (2, 0) and the angular velocity stays 0. -/
theorem C27_friction_toward_zero_witness :
    (friction (1 / 50) Scenario.sliding).physics.Velocity.x = 2 ∧
    (friction (1 / 50) Scenario.sliding).physics.Velocity.y = 0 ∧
    (friction (1 / 50) Scenario.sliding).physics.AngularVelocity = 0 := by
  have h := (C27_friction_toward_zero (1 / 50) Scenario.sliding (by decide!)).1 (by decide!)
  refine ⟨h.1.trans ?_, h.2.1.trans ?_, h.2.2.trans ?_⟩
  · have h3 : Scenario.sliding.physics.Velocity.x = 3 := rfl
    rw [h3, sign_pos (by norm_num), abs_of_pos (by norm_num)]
    norm_num [Scenario.sliding]
  · have h3 : Scenario.sliding.physics.Velocity.y = -1 / 2 := rfl
    rw [h3, sign_neg (by norm_num), abs_of_neg (by norm_num)]
    norm_num [Scenario.sliding]
  · have h3 : Scenario.sliding.physics.AngularVelocity = 0 := rfl
    rw [h3, sign_zero]
    simp

end FureyEngine

namespace FureyEngine

/-- C18: in a movement tick, with `v` the velocity after the acceleration step and the position
advanced by `v * DeltaTime * SpeedModifier`: if the brush then reports a collision, the
transform of the actor after the tick is the one before it (position, rotation and scale) and
Velocity is (0,0); if it reports none, Velocity is `v`, the position is the old one plus
Velocity * DeltaTime * SpeedModifier, and rotation and scale are unchanged. Tick is this
movement when TickLate is false and LateTick when it is true; the other one does nothing. -/
theorem C18_movement_full_rollback (T : Trig) (sqrt : ℚ → ℚ) (Input : Vec2) (DeltaTime : ℚ)
    (m : MovementComponent) (a : Transform) :
    (m.BrushComponent.collides
        (MovementComponent.advance (MovementComponent.accelerate T sqrt Input DeltaTime m a)
          DeltaTime m a) = true →
      (MovementComponent.move T sqrt Input DeltaTime m a).2 = a ∧
      (MovementComponent.move T sqrt Input DeltaTime m a).1.Velocity = ⟨0, 0⟩) ∧
    (m.BrushComponent.collides
        (MovementComponent.advance (MovementComponent.accelerate T sqrt Input DeltaTime m a)
          DeltaTime m a) = false →
      (MovementComponent.move T sqrt Input DeltaTime m a).1.Velocity =
        MovementComponent.accelerate T sqrt Input DeltaTime m a ∧
      (MovementComponent.move T sqrt Input DeltaTime m a).2.Position =
        ⟨a.Position.x + (MovementComponent.move T sqrt Input DeltaTime m a).1.Velocity.x *
            (DeltaTime * m.SpeedModifier),
          a.Position.y + (MovementComponent.move T sqrt Input DeltaTime m a).1.Velocity.y *
            (DeltaTime * m.SpeedModifier)⟩ ∧
      (MovementComponent.move T sqrt Input DeltaTime m a).2.Rotation = a.Rotation ∧
      (MovementComponent.move T sqrt Input DeltaTime m a).2.Scale = a.Scale) ∧
    (m.TickLate = false →
      MovementComponent.Tick T sqrt Input DeltaTime m a =
        MovementComponent.move T sqrt Input DeltaTime m a ∧
      MovementComponent.LateTick T sqrt Input DeltaTime m a = (m, a)) ∧
    (m.TickLate = true →
      MovementComponent.LateTick T sqrt Input DeltaTime m a =
        MovementComponent.move T sqrt Input DeltaTime m a ∧
      MovementComponent.Tick T sqrt Input DeltaTime m a = (m, a)) := by
  refine ⟨?_, ?_, ?_, ?_⟩
  · intro h
    simp only [MovementComponent.move, h, if_true, and_true]
    cases a with
    | mk pos rot sc =>
      cases pos with
      | mk x y => simp [MovementComponent.advance]
  · intro h
    rw [show MovementComponent.move T sqrt Input DeltaTime m a =
      ({ m with Velocity := MovementComponent.accelerate T sqrt Input DeltaTime m a },
        MovementComponent.advance (MovementComponent.accelerate T sqrt Input DeltaTime m a)
          DeltaTime m a) by simp only [MovementComponent.move, h, Bool.false_eq_true, if_false]]
    exact ⟨rfl, rfl, rfl, rfl⟩
  · intro h
    simp [MovementComponent.Tick, MovementComponent.LateTick, h]
  · intro h
    simp [MovementComponent.Tick, MovementComponent.LateTick, h]

open PhysicsComponent in
/-- C19: the body of a physics tick is the friction step (which leaves the transform of the
actor as it was), then the X position, the Y position and the rotation in that order, then
gravity. For each axis, with the transform advanced by velocity * DeltaTime * SpeedModifier on
that axis: if the brush reports a collision there, the transform is restored to the one before
the advance and the velocity `v` of the axis becomes -|Bounciness| * v, the other velocities
staying as they are; if it reports none, the transform stays advanced and the component is
unchanged. Gravity * DeltaTime * SpeedModifier is added to Velocity by the last step only, and
only when UseGravity is true. Tick is this body when TickLate is false and LateTick when it is
true. -/
theorem C19_physics_axis_resolution (DeltaTime : ℚ) (s : PhysicsState) (p : PhysicsComponent)
    (a : Transform) :
    step DeltaTime p a =
      gravity DeltaTime (moveRotation DeltaTime (moveY DeltaTime (moveX DeltaTime
        { friction DeltaTime { physics := p, actor := a } with
          Collision := resting DeltaTime (friction DeltaTime { physics := p, actor := a }).physics }))) ∧
    (friction DeltaTime s).actor = s.actor ∧
    (s.physics.BrushComponent.collides { s.actor with Position :=
        ⟨s.actor.Position.x + s.physics.Velocity.x * DeltaTime * s.physics.SpeedModifier,
          s.actor.Position.y⟩ } = true →
      (moveX DeltaTime s).actor = s.actor ∧
      (moveX DeltaTime s).physics.Velocity =
        ⟨-|s.physics.Bounciness| * s.physics.Velocity.x, s.physics.Velocity.y⟩ ∧
      (moveX DeltaTime s).physics.AngularVelocity = s.physics.AngularVelocity) ∧
    (s.physics.BrushComponent.collides { s.actor with Position :=
        ⟨s.actor.Position.x + s.physics.Velocity.x * DeltaTime * s.physics.SpeedModifier,
          s.actor.Position.y⟩ } = false →
      (moveX DeltaTime s).actor = { s.actor with Position :=
        ⟨s.actor.Position.x + s.physics.Velocity.x * DeltaTime * s.physics.SpeedModifier,
          s.actor.Position.y⟩ } ∧
      (moveX DeltaTime s).physics = s.physics) ∧
    (s.physics.BrushComponent.collides { s.actor with Position :=
        ⟨s.actor.Position.x,
          s.actor.Position.y + s.physics.Velocity.y * DeltaTime * s.physics.SpeedModifier⟩ } =
        true →
      (moveY DeltaTime s).actor = s.actor ∧
      (moveY DeltaTime s).physics.Velocity =
        ⟨s.physics.Velocity.x, -|s.physics.Bounciness| * s.physics.Velocity.y⟩ ∧
      (moveY DeltaTime s).physics.AngularVelocity = s.physics.AngularVelocity) ∧
    (s.physics.BrushComponent.collides { s.actor with Position :=
        ⟨s.actor.Position.x,
          s.actor.Position.y + s.physics.Velocity.y * DeltaTime * s.physics.SpeedModifier⟩ } =
        false →
      (moveY DeltaTime s).actor = { s.actor with Position :=
        ⟨s.actor.Position.x,
          s.actor.Position.y + s.physics.Velocity.y * DeltaTime * s.physics.SpeedModifier⟩ } ∧
      (moveY DeltaTime s).physics = s.physics) ∧
    (s.physics.BrushComponent.collides { s.actor with Rotation :=
        s.actor.Rotation + s.physics.AngularVelocity * DeltaTime * s.physics.SpeedModifier } =
        true →
      (moveRotation DeltaTime s).actor = s.actor ∧
      (moveRotation DeltaTime s).physics.AngularVelocity =
        -|s.physics.Bounciness| * s.physics.AngularVelocity ∧
      (moveRotation DeltaTime s).physics.Velocity = s.physics.Velocity) ∧
    (s.physics.BrushComponent.collides { s.actor with Rotation :=
        s.actor.Rotation + s.physics.AngularVelocity * DeltaTime * s.physics.SpeedModifier } =
        false →
      (moveRotation DeltaTime s).actor = { s.actor with Rotation :=
        s.actor.Rotation + s.physics.AngularVelocity * DeltaTime * s.physics.SpeedModifier } ∧
      (moveRotation DeltaTime s).physics = s.physics) ∧
    (s.physics.UseGravity = true →
      (gravity DeltaTime s).physics.Velocity =
        ⟨s.physics.Velocity.x + s.physics.Gravity.x * DeltaTime * s.physics.SpeedModifier,
          s.physics.Velocity.y + s.physics.Gravity.y * DeltaTime * s.physics.SpeedModifier⟩ ∧
      (gravity DeltaTime s).physics.AngularVelocity = s.physics.AngularVelocity ∧
      (gravity DeltaTime s).actor = s.actor) ∧
    (s.physics.UseGravity = false → gravity DeltaTime s = s) ∧
    (p.TickLate = false →
      Tick DeltaTime p a = ((step DeltaTime p a).physics, (step DeltaTime p a).actor) ∧
      LateTick DeltaTime p a = (p, a)) ∧
    (p.TickLate = true →
      LateTick DeltaTime p a = ((step DeltaTime p a).physics, (step DeltaTime p a).actor) ∧
      Tick DeltaTime p a = (p, a)) := by
  refine ⟨rfl, friction_actor DeltaTime _, moveX_hit DeltaTime s, moveX_miss DeltaTime s,
    moveY_hit DeltaTime s, moveY_miss DeltaTime s, moveRotation_hit DeltaTime s,
    moveRotation_miss DeltaTime s, ?_, ?_, ?_, ?_⟩
  · intro h
    simp [gravity, h]
  · intro h
    simp [gravity, h]
  · intro h
    simp [Tick, LateTick, h]
  · intro h
    simp [Tick, LateTick, h]

open PhysicsComponent in
/-- C20: SweepPositionTo(Position, Steps) with Steps > 0 and a valid brush that does not
collide at the start advances the actor by Steps equal sub-steps, the X increment and then the
Y increment in each. If no increment collides, the actor ends at Position and Position is
returned. If the X increment of sub-step `i` is the first after which the brush collides, the
actor is left where it was before that increment, after `i` whole sub-steps, and that position
is returned; if it is the Y increment of sub-step `i`, the actor is left after that sub-step's
X increment. In every case of every call the value returned is the position of the actor after
the call; with Steps <= 0 nothing changes, and with an invalid reference (and Steps > 0) the
position is set to Position. -/
theorem C20_SweepPositionTo (Position : Vec2) (Steps : Int) (p : PhysicsComponent)
    (a : Transform) (f : Transform → Option Ptr)
    (hsteps : 0 < Steps) (hbrush : p.BrushComponent = some f) (hstart : f a = none) :
    ((∀ i, i < Steps.toNat →
        f (sweepAt a ((Position.x - a.Position.x) / Steps)
          ((Position.y - a.Position.y) / Steps) i true) = none ∧
        f (sweepAt a ((Position.x - a.Position.x) / Steps)
          ((Position.y - a.Position.y) / Steps) (i + 1) false) = none) →
      SweepPositionTo Position Steps p a = (Position, p, { a with Position := Position })) ∧
    (∀ (i : Nat) (o : Ptr), i < Steps.toNat →
      (∀ j, j < i →
        f (sweepAt a ((Position.x - a.Position.x) / Steps)
          ((Position.y - a.Position.y) / Steps) j true) = none ∧
        f (sweepAt a ((Position.x - a.Position.x) / Steps)
          ((Position.y - a.Position.y) / Steps) (j + 1) false) = none) →
      f (sweepAt a ((Position.x - a.Position.x) / Steps)
        ((Position.y - a.Position.y) / Steps) i true) = some o →
      SweepPositionTo Position Steps p a =
        ((sweepAt a ((Position.x - a.Position.x) / Steps)
            ((Position.y - a.Position.y) / Steps) i false).Position,
          { p with OnCollision := p.OnCollision ++ [o] },
          sweepAt a ((Position.x - a.Position.x) / Steps)
            ((Position.y - a.Position.y) / Steps) i false)) ∧
    (∀ (i : Nat) (o : Ptr), i < Steps.toNat →
      (∀ j, j < i →
        f (sweepAt a ((Position.x - a.Position.x) / Steps)
          ((Position.y - a.Position.y) / Steps) j true) = none ∧
        f (sweepAt a ((Position.x - a.Position.x) / Steps)
          ((Position.y - a.Position.y) / Steps) (j + 1) false) = none) →
      f (sweepAt a ((Position.x - a.Position.x) / Steps)
        ((Position.y - a.Position.y) / Steps) i true) = none →
      f (sweepAt a ((Position.x - a.Position.x) / Steps)
        ((Position.y - a.Position.y) / Steps) (i + 1) false) = some o →
      SweepPositionTo Position Steps p a =
        ((sweepAt a ((Position.x - a.Position.x) / Steps)
            ((Position.y - a.Position.y) / Steps) i true).Position,
          { p with OnCollision := p.OnCollision ++ [o] },
          sweepAt a ((Position.x - a.Position.x) / Steps)
            ((Position.y - a.Position.y) / Steps) i true)) ∧
    (∀ (Position : Vec2) (Steps : Int) (p : PhysicsComponent) (a : Transform),
      (SweepPositionTo Position Steps p a).1 = (SweepPositionTo Position Steps p a).2.2.Position) ∧
    (∀ (Position : Vec2) (Steps : Int) (p : PhysicsComponent) (a : Transform), Steps ≤ 0 →
      SweepPositionTo Position Steps p a = (a.Position, p, a)) ∧
    (∀ (Position : Vec2) (Steps : Int) (p : PhysicsComponent) (a : Transform), 0 < Steps →
      p.BrushComponent = none →
      SweepPositionTo Position Steps p a = (Position, p, { a with Position := Position })) := by
  have hdef : SweepPositionTo Position Steps p a =
      sweepLoop f ((Position.x - a.Position.x) / Steps) ((Position.y - a.Position.y) / Steps)
        Steps.toNat p a := by
    simp only [SweepPositionTo, not_le.mpr hsteps, if_false, hbrush, hstart]
  refine ⟨?_, ?_, ?_, ?_, ?_, ?_⟩
  · intro h
    rw [hdef, sweepLoop_free f _ _ p _ a h, sweepAt_target a Position Steps hsteps]
  · intro i o hi h ho
    rw [hdef, sweepLoop_hit_x f _ _ p o i _ a hi h ho]
  · intro i o hi h hx ho
    rw [hdef, sweepLoop_hit_y f _ _ p o i _ a hi h hx ho]
  · intro Position Steps p a
    unfold SweepPositionTo
    split_ifs
    · rfl
    · cases p.BrushComponent with
      | none => rfl
      | some g =>
        simp only
        cases g a with
        | some o => rfl
        | none => exact sweepLoop_returns g _ _ p _ a
  · intro Position Steps p a h
    simp [SweepPositionTo, h]
  · intro Position Steps p a h hb
    simp [SweepPositionTo, not_le.mpr h, hb]

open PhysicsComponent in
/-- An actor at the origin whose 10x10 brush faces a 10x10 brush at (20,0): a sweep to (6,0) in
3 steps meets nothing and ends at (6,0), which is the value returned. -/
theorem C20_SweepPositionTo_witness :
    SweepPositionTo ⟨6, 0⟩ 3 { BrushComponent := some Scenario.wall } {} =
      (⟨6, 0⟩, { BrushComponent := some Scenario.wall }, { Position := ⟨6, 0⟩ }) :=
  (C20_SweepPositionTo ⟨6, 0⟩ 3 { BrushComponent := some Scenario.wall } {} Scenario.wall
    (by decide) rfl (by decide!)).1
    (by
      intro i hi
      have h3 : i < 3 := hi
      interval_cases i <;> decide!)

end FureyEngine

namespace FureyEngine

/-- C23: in a ticking world in which no event of the function `fn` is pending, with `D` the
delay RepeatAfterSeconds stores (Delay, or 0.000001 when Delay <= 0), over every host loop of
Updates. With an int Loops = n > 0: `fn` is invoked at most n times, and every Update
invokes it at most once. When the stored delay is the double `D0` (at most 2^1023), every
frame has a delta time of at least `d` (at least 2^-1074), `D0 <= M * d` with `M <= 2^52`, so
that every rounded subtraction reduces a delay by at least `d / 2`, and the loop has at least
2 * n * M frames, `fn` has been invoked exactly n times and no event of `fn` is pending.
With Loops = 0 the call returns null and changes nothing, and `fn` is never invoked. With
Loops = -1, after k invocations with k < 2^31 exactly one event of `fn` is pending, its closure
holding Loops = -1 - k, and under the same conditions on the delay a loop of at least
2 * N * M frames has invoked `fn` at least N times, for every N < 2^31: the invocations
before the int Loops - 1 overflows. The loops return for every int Loops and every program
that spawns no actor, given fuel above the number of actors. -/
theorem C23_RepeatAfterSeconds_rounded (P : Program) (T : Trig) (fuel : Nat) (s : TimedWorld)
    (fn : Target) (Delay : Double) (n : Nat)
    (hactive : s.world.Active = true) (hbegun : s.world.BeginTick = true)
    (hfresh : ∀ e ∈ s.ScheduledEvents, e.Event ≠ fn) (hn : 0 < n) (hint : n < 2147483648) :
    (∀ (frames : List (Double × Double)) (s' : TimedWorld),
      TimedWorld.Frames P T fuel frames (s.RepeatAfterSeconds Delay n fn).2 = some s' →
      s'.firedOf fn ≤ s.firedOf fn + n ∧
      ∀ (f : Double × Double) (s2 : TimedWorld),
        ({ s' with TimeScale := f.1 } : TimedWorld).Update P T fuel f.2 = some s2 →
        s'.firedOf fn ≤ s2.firedOf fn ∧ s2.firedOf fn ≤ s'.firedOf fn + 1) ∧
    (∀ (D0 d : ℚ) (M : Nat) (frames : List (Double × Double)) (s' : TimedWorld),
      (if Delay.le0 then Double.ofRat (1 / 1000000) else Delay) = Double.finite D0 →
      D0 ≤ 2 ^ 1023 → 1 / 2 ^ 1074 ≤ d → D0 ≤ M * d → M ≤ 2 ^ 52 →
      (∀ f ∈ frames, (TimedWorld.delta f.2 f.1).atLeast d = true) →
      2 * (n * M) ≤ frames.length →
      TimedWorld.Frames P T fuel frames (s.RepeatAfterSeconds Delay n fn).2 = some s' →
      s'.firedOf fn = s.firedOf fn + n ∧ TimedWorld.pending fn s'.ScheduledEvents = []) ∧
    (s.RepeatAfterSeconds Delay 0 fn = (none, s) ∧
      ∀ (frames : List (Double × Double)) (s' : TimedWorld),
        TimedWorld.Frames P T fuel frames s = some s' → s'.firedOf fn = s.firedOf fn) ∧
    (∀ (frames : List (Double × Double)) (s' : TimedWorld),
      TimedWorld.Frames P T fuel frames (s.RepeatAfterSeconds Delay (-1) fn).2 = some s' →
      ∃ k : Nat, s'.firedOf fn = s.firedOf fn + k ∧
        (k < 2147483648 → ∃ r : Double, TimedWorld.pending fn s'.ScheduledEvents =
          [(r, some (if Delay.le0 then Double.ofRat (1 / 1000000) else Delay,
            -1 - (k : Int)))])) ∧
    (∀ (N : Nat) (D0 d : ℚ) (M : Nat) (frames : List (Double × Double)) (s' : TimedWorld),
      N < 2147483648 →
      (if Delay.le0 then Double.ofRat (1 / 1000000) else Delay) = Double.finite D0 →
      D0 ≤ 2 ^ 1023 → 1 / 2 ^ 1074 ≤ d → D0 ≤ M * d → M ≤ 2 ^ 52 →
      (∀ f ∈ frames, (TimedWorld.delta f.2 f.1).atLeast d = true) →
      2 * (N * M) ≤ frames.length →
      TimedWorld.Frames P T fuel frames (s.RepeatAfterSeconds Delay (-1) fn).2 = some s' →
      s.firedOf fn + N ≤ s'.firedOf fn) ∧
    (P.noSpawn → s.world.Actors.length < fuel →
      ∀ (Loops : Int) (frames : List (Double × Double)),
      -2147483648 ≤ Loops → Loops < 2147483648 →
      ∃ s', TimedWorld.Frames P T fuel frames (s.RepeatAfterSeconds Delay Loops fn).2 =
        some s') := by
  have hD := TimedWorld.stored_delay_pos Delay
  have hnz : (n : Int) ≠ 0 := by omega
  have hstart := TimedWorld.Repeating_start fn Delay hnz (by omega) (by omega) hactive hbegun
    hfresh
  have hm1 : (-1 : Int) ≠ 0 := by decide
  have hstart1 := TimedWorld.Repeating_start fn Delay hm1 (by decide) (by decide) hactive
    hbegun hfresh
  have hrn : TimedWorld.rounds (n : Int) = n := by
    unfold TimedWorld.rounds
    omega
  have hr1 : TimedWorld.rounds (-1) = 4294967295 := by decide
  have hbudget : ∀ (N M : Nat), 0 < N → 2 * M + (N - 1 - 0) * (2 * M) ≤ 2 * (N * M) := by
    intro N M hN
    obtain ⟨N', rfl⟩ : ∃ N', N = N' + 1 := ⟨N - 1, by omega⟩
    simp only [Nat.add_sub_cancel, Nat.sub_zero]
    exact le_of_eq (by ring)
  have hpos : ∀ (D0 : ℚ),
      (if Delay.le0 then Double.ofRat (1 / 1000000) else Delay) = Double.finite D0 →
      0 < D0 := by
    intro D0 hD0
    rw [hD0] at hD
    simpa [Double.le0] using hD
  have hM1 : ∀ (M : Nat) (D0 d : ℚ), 0 < D0 → D0 ≤ M * d → 1 ≤ M := by
    intro M D0 d h0 hM
    rcases Nat.eq_zero_or_pos M with hz | hz
    · subst hz
      simp only [Nat.cast_zero, zero_mul] at hM
      exact absurd hM (not_le.mpr h0)
    · exact hz
  have hw0 : ∀ L : Int, -2147483648 ≤ L → L < 2147483648 →
      Int32.wrap (L - ((0 : Nat) : Int)) = L := by
    intro L h1 h2
    unfold Int32.wrap
    push_cast
    omega
  have hfull : ∀ (M : Nat) (D0 d : ℚ), D0 ≤ M * d → D0 ≤ ((2 * M : Nat) : ℚ) * (d / 2) := by
    intro M D0 d hM
    push_cast
    linarith
  refine ⟨?_, ?_, ⟨?_, ?_⟩, ?_, ?_, ?_⟩
  · intro frames s' h
    obtain ⟨k', -, -, hk'⟩ := TimedWorld.Repeating_frames fn hD frames 0 _ hstart.2 h
    have hle : k' ≤ n := by
      rcases hk'.2.2.2 with ⟨e, -⟩ | ⟨hlt, -⟩
      · omega
      · omega
    refine ⟨by rw [hk'.2.2.1]; omega, ?_⟩
    intro f s2 h2
    rcases TimedWorld.Repeating_step fn hD hk' h2 with h3 | h3
    · rw [h3.2.2.1, hk'.2.2.1]
      exact ⟨le_refl _, Nat.le_succ _⟩
    · rw [h3.2.2.1, hk'.2.2.1]
      exact ⟨by omega, by omega⟩
  · intro D0 d M frames s' hD0 hD2 hd hM hM2 hmin hlen h
    have h0 := hpos D0 hD0
    have hs0 := hstart
    rw [hD0] at hs0
    obtain ⟨k', hk1, hk2⟩ := TimedWorld.Repeating_progress (N := n) fn h0 hD2 hM hM2 hd
      (le_of_eq hrn.symm) frames hmin (2 * (n * M)) 0 _ hs0.2
      (fun _ => ⟨2 * M, D0, by have := hM1 M D0 d h0 hM; omega, hfull M D0 d hM, le_refl _,
        by rw [hw0 n (by omega) (by omega)]; exact hs0.1, hbudget n M hn⟩) hlen h
    rcases hk2.2.2.2 with ⟨e, hp⟩ | ⟨hlt, -⟩
    · have : k' = n := by omega
      subst this
      exact ⟨hk2.2.2.1, hp⟩
    · omega
  · simp [TimedWorld.RepeatAfterSeconds]
  · intro frames s' h
    exact (TimedWorld.idle_frames fn frames s (TimedWorld.pending_fresh fn _ hfresh) h).1
  · intro frames s' h
    obtain ⟨k', -, -, hk'⟩ := TimedWorld.Repeating_frames fn hD frames 0 _ hstart1.2 h
    refine ⟨k', hk'.2.2.1, ?_⟩
    intro hk
    rcases hk'.2.2.2 with ⟨e, -⟩ | ⟨-, r, hp⟩
    · omega
    · refine ⟨r, ?_⟩
      have hw : Int32.wrap (-1 - (k' : Int)) = -1 - (k' : Int) := by
        unfold Int32.wrap
        omega
      rw [hp, hw]
  · intro N D0 d M frames s' hN hD0 hD2 hd hM hM2 hmin hlen h
    rcases Nat.eq_zero_or_pos N with hz | hz
    · subst hz
      obtain ⟨k', -, -, hk'⟩ := TimedWorld.Repeating_frames fn hD frames 0 _ hstart1.2 h
      rw [hk'.2.2.1]
      omega
    · have h0 := hpos D0 hD0
      have hs0 := hstart1
      rw [hD0] at hs0
      obtain ⟨k', hk1, hk2⟩ := TimedWorld.Repeating_progress (N := N) fn h0 hD2 hM hM2 hd
        (by omega) frames hmin (2 * (N * M)) 0 _ hs0.2
        (fun _ => ⟨2 * M, D0, by have := hM1 M D0 d h0 hM; omega, hfull M D0 d hM, le_refl _,
          by rw [hw0 (-1) (by decide) (by decide)]; exact hs0.1, hbudget N M hz⟩) hlen h
      rw [hk2.2.2.1]
      omega
  · intro hP hfuel Loops frames _ _
    exact TimedWorld.Frames_returns hP frames _
      (by rw [TimedWorld.RepeatAfterSeconds_world]; exact hfuel)

/-- C23 in the world of the two timers: the function at address 3 is scheduled to repeat twice
with a delay of 0.2 s; eight Updates of 0.1 s return and have invoked it exactly twice. -/
theorem C23_RepeatAfterSeconds_rounded_witness :
    ∃ s', TimedWorld.Frames Program.base Trig.unrotated 1
        (List.replicate 8 (1, Double.ofRat (1 / 10)))
        (Scenario.twoTimers.RepeatAfterSeconds (Double.ofRat (1 / 5)) 2 ⟨3, 103⟩).2 = some s' ∧
      s'.firedOf ⟨3, 103⟩ = 2 := by
  have h := C23_RepeatAfterSeconds_rounded Program.base Trig.unrotated 1 Scenario.twoTimers
    ⟨3, 103⟩ (Double.ofRat (1 / 5)) 2 rfl rfl (by decide) (by decide) (by decide)
  obtain ⟨s', hs'⟩ := h.2.2.2.2.2 World.noSpawn_base (by decide) 2
    (List.replicate 8 (1, Double.ofRat (1 / 10))) (by decide) (by decide)
  refine ⟨s', hs', ?_⟩
  have h2 := (h.2.1 (3602879701896397 / 18014398509481984)
    (3602879701896397 / 36028797018963968) 2 (List.replicate 8 (1, Double.ofRat (1 / 10))) s'
    (by decide!) (by norm_num) (by norm_num) (by norm_num) (by norm_num)
    (by
      intro f hf
      rw [List.eq_of_mem_replicate hf]
      decide!)
    (by decide) hs').1
  rw [h2]
  decide

/-- C23, delays for which the function is never invoked: a delay of 2^53 s is left as it is by
the rounded subtraction of a delta time of 0.1 s, and a delay that is a NaN stays a NaN and
fails the test `Delay <= 0`. In the world of the two timers, after
RepeatAfterSeconds(Delay, 1, fn) with either delay, every host loop of Updates of 0.1 s
returns and has not invoked `fn`, however long it is. -/
theorem C23_absorbed_delay_never_fires :
    (Double.finite (2 ^ 53)).sub (Double.ofRat (1 / 10)) = Double.finite (2 ^ 53) ∧
    (∀ k : Nat, ∃ s', TimedWorld.Frames Program.base Trig.unrotated 1
        (List.replicate k (1, Double.ofRat (1 / 10)))
        (Scenario.twoTimers.RepeatAfterSeconds (Double.finite (2 ^ 53)) 1 ⟨3, 103⟩).2 =
          some s' ∧
      s'.firedOf ⟨3, 103⟩ = 0) ∧
    (∀ k : Nat, ∃ s', TimedWorld.Frames Program.base Trig.unrotated 1
        (List.replicate k (1, Double.ofRat (1 / 10)))
        (Scenario.twoTimers.RepeatAfterSeconds Double.nan 1 ⟨3, 103⟩).2 = some s' ∧
      s'.firedOf ⟨3, 103⟩ = 0) := by
  have hdt : ∀ k : Nat, ∀ f ∈ List.replicate k ((1 : Double), Double.ofRat (1 / 10)),
      TimedWorld.delta f.2 f.1 = Double.ofRat (1 / 10) := by
    intro k f hf
    rw [List.eq_of_mem_replicate hf]
    decide!
  refine ⟨by decide!, ?_, ?_⟩
  · intro k
    have hret : ∃ s', TimedWorld.Frames Program.base Trig.unrotated 1
        (List.replicate k (1, Double.ofRat (1 / 10)))
        (Scenario.twoTimers.RepeatAfterSeconds (Double.finite (2 ^ 53)) 1 ⟨3, 103⟩).2 =
          some s' := TimedWorld.Frames_returns World.noSpawn_base _ _ (by decide)
    obtain ⟨s', hs'⟩ := hret
    refine ⟨s', hs', ?_⟩
    have h := TimedWorld.stuck_frames (D := Double.finite (2 ^ 53))
      (r := Double.finite (2 ^ 53)) (L := 1) ⟨3, 103⟩
      (by decide!) (by decide!) (by decide!) _ (hdt k) _ rfl rfl (by decide!) hs'
    rw [h.1]
    decide
  · intro k
    have hret : ∃ s', TimedWorld.Frames Program.base Trig.unrotated 1
        (List.replicate k (1, Double.ofRat (1 / 10)))
        (Scenario.twoTimers.RepeatAfterSeconds Double.nan 1 ⟨3, 103⟩).2 = some s' :=
      TimedWorld.Frames_returns World.noSpawn_base _ _ (by decide)
    obtain ⟨s', hs'⟩ := hret
    refine ⟨s', hs', ?_⟩
    have h := TimedWorld.stuck_frames (D := Double.nan) (r := Double.nan) (L := 1) ⟨3, 103⟩
      (by decide!) (by decide!) (by decide!) _ (hdt k) _ rfl rfl (by decide!) hs'
    rw [h.1]
    decide

end FureyEngine

namespace FureyEngine

/-- C26, as stated, fails: the collinear segments (0,0)(2,0) and (1,0)(3,0) share the
sub-segment from (1,0) to (2,0), and the short segments (0,0)(1/1000,0) and
(1/2000,-1/2000)(1/2000,1/2000) cross at (1/2000,0); Math::DoesLineOverlapLine returns false
for both pairs. -/
theorem C26_collinear_and_short_segments_rejected :
    (Math.DoesLineOverlapLine ⟨0, 0⟩ ⟨2, 0⟩ ⟨1, 0⟩ ⟨3, 0⟩ = false ∧
      Math.SegmentsMeet ⟨0, 0⟩ ⟨2, 0⟩ ⟨1, 0⟩ ⟨3, 0⟩) ∧
    (Math.DoesLineOverlapLine ⟨0, 0⟩ ⟨1 / 1000, 0⟩ ⟨1 / 2000, -1 / 2000⟩ ⟨1 / 2000, 1 / 2000⟩ =
        false ∧
      Math.SegmentsMeet ⟨0, 0⟩ ⟨1 / 1000, 0⟩ ⟨1 / 2000, -1 / 2000⟩ ⟨1 / 2000, 1 / 2000⟩) := by
  refine ⟨⟨by decide!, 1 / 2, 0, ?_⟩, ⟨by decide!, 1 / 2, 1 / 2, ?_⟩⟩ <;> norm_num

/-- C26, amended: for all points A1, A2, B1, B2 (exact arithmetic), with D the cross product
of the directions A2 - A1 and B2 - B1, Math::DoesLineOverlapLine returns true iff the segments
share an endpoint, or |D| >= 0.00001 and the closed segments A1A2 and B1B2 have a point in
common. -/
theorem C26_DoesLineOverlapLine (A1 A2 B1 B2 : Vec2) :
    Math.DoesLineOverlapLine A1 A2 B1 B2 = true ↔
      (A1 = B1 ∨ A1 = B2 ∨ A2 = B1 ∨ A2 = B2) ∨
      (1 / 100000 ≤ |(A2.x - A1.x) * (B2.y - B1.y) - (A2.y - A1.y) * (B2.x - B1.x)| ∧
        Math.SegmentsMeet A1 A2 B1 B2) := by
  unfold Math.DoesLineOverlapLine
  by_cases hend : A1 = B1 ∨ A1 = B2 ∨ A2 = B1 ∨ A2 = B2
  · simp [hend]
  · rw [if_neg hend]
    simp only [hend, false_or]
    by_cases hD : |(A2.x - A1.x) * (B2.y - B1.y) - (A2.y - A1.y) * (B2.x - B1.x)| < 1 / 100000
    · rw [if_pos hD]
      simp only [Bool.false_eq_true, false_iff, not_and]
      intro h
      exact absurd hD (not_lt.mpr h)
    · rw [if_neg hD]
      have hD1 : 1 / 100000 ≤
          |(A2.x - A1.x) * (B2.y - B1.y) - (A2.y - A1.y) * (B2.x - B1.x)| := not_lt.mp hD
      have hne : (A2.x - A1.x) * (B2.y - B1.y) - (A2.y - A1.y) * (B2.x - B1.x) ≠ 0 := by
        intro h0
        rw [h0, abs_zero] at hD1
        norm_num at hD1
      simp only [ite_eq_left_iff, Bool.false_eq_true, imp_false, not_not]
      constructor
      · rintro ⟨a0, a1, b0, b1⟩
        refine ⟨hD1, _, _, a0, a1, b0, b1, ?_, ?_⟩
        · field_simp
          ring
        · field_simp
          ring
      · rintro ⟨-, s, t, s0, s1, t0, t1, ex, ey⟩
        have hs : ((B1.x - A1.x) * (B2.y - B1.y) - (B1.y - A1.y) * (B2.x - B1.x)) /
            ((A2.x - A1.x) * (B2.y - B1.y) - (A2.y - A1.y) * (B2.x - B1.x)) = s := by
          rw [div_eq_iff hne]
          linear_combination (B2.y - B1.y) * (-ex) + (B2.x - B1.x) * ey
        have ht : ((B1.x - A1.x) * (A2.y - A1.y) - (B1.y - A1.y) * (A2.x - A1.x)) /
            ((A2.x - A1.x) * (B2.y - B1.y) - (A2.y - A1.y) * (B2.x - B1.x)) = t := by
          rw [div_eq_iff hne]
          linear_combination (A2.y - A1.y) * (-ex) + (A2.x - A1.x) * ey
        rw [hs, ht]
        exact ⟨s0, s1, t0, t1⟩

end FureyEngine

namespace FureyEngine

open StateMachineComponent

/-- C22: for every state machine component and every name, SwitchState(name) makes the current
state `name` when `name` is a key of States other than "NULL" and the null state otherwise;
it invokes OnStateExit with `name` exactly when the state before the call is not null and then
OnStateEnter with the name of the previous state exactly when the new state is not null, the
exit before the enter and nothing else; it returns true exactly when the new state is not
null; and it leaves the table of states as it was. -/
theorem C22_SwitchState (m : StateMachineComponent) (name : String) :
    (m.SwitchState name).2.CurrentState =
      (if name ∈ m.States.map Prod.fst ∧ name ≠ "NULL" then name else "NULL") ∧
    (m.SwitchState name).2.Invoked =
      m.Invoked ++
        (if m.CurrentState ≠ "NULL" then [StateCall.OnStateExit name] else []) ++
        (if (m.SwitchState name).2.CurrentState ≠ "NULL"
          then [StateCall.OnStateEnter m.CurrentState] else []) ∧
    ((m.SwitchState name).1 = true ↔ (m.SwitchState name).2.CurrentState ≠ "NULL") ∧
    (m.SwitchState name).2.States = m.States := by
  have hany : (m.States.any (fun e => e.1 == name)) = true ↔ name ∈ m.States.map Prod.fst := by
    simp
  by_cases h0 : m.CurrentState = "NULL" <;> by_cases h1 : name = "NULL" <;>
    by_cases h2 : name ∈ m.States.map Prod.fst <;>
    simp [SwitchState, IsStateNull, HasState, NULL_STATE, h0, h1, h2, hany]

end FureyEngine

namespace FureyEngine

open BrushComponent CollisionState

/-- C24: two arrows outside {absent} -> ENTER -> STAY* -> EXIT -> {absent}.
Start stores COLLISION_EXIT for a pair that had no state: a 10x10 brush at the origin that
starts while a 10x10 brush at (5,0) overlaps it goes from absent to COLLISION_EXIT. LateTick
stores COLLISION_STAY over COLLISION_EXIT: the same brush, ticked with the other brush at
(5,0), then at (50,0), then at (5,0) again, goes absent, ENTER, EXIT, STAY. -/
theorem C24_EXIT_from_absent_and_STAY_from_EXIT :
    Scenario.solid.CollisionStates.find 2 = none ∧
    (Start Trig.unrotated [Scenario.solid, Scenario.onAll] Scenario.solid).CollisionStates.find 2 =
      some COLLISION_EXIT ∧
    (LateTick Trig.unrotated [Scenario.solid, Scenario.onAll] Scenario.solid).CollisionStates.find 2 =
      some COLLISION_ENTER ∧
    (LateTick Trig.unrotated [Scenario.solid, Scenario.box 2 ⟨50, 0⟩ ⟨10, 10⟩]
      (LateTick Trig.unrotated [Scenario.solid, Scenario.onAll]
        Scenario.solid)).CollisionStates.find 2 = some COLLISION_EXIT ∧
    (LateTick Trig.unrotated [Scenario.solid, Scenario.onAll]
      (LateTick Trig.unrotated [Scenario.solid, Scenario.box 2 ⟨50, 0⟩ ⟨10, 10⟩]
        (LateTick Trig.unrotated [Scenario.solid, Scenario.onAll]
          Scenario.solid))).CollisionStates.find 2 = some COLLISION_STAY := by
  decide!

end FureyEngine

namespace FureyEngine

open PhysicsComponent

/-- C21: an actor at (0,0) whose brush collides with nothing is swept to
(5,0) with the default step distance 10. The distance 5 divided by 10 is converted to 0 steps,
and the overload with a step count returns at once for 0 steps: the actor stays at (0,0) and
(0,0) is returned, not (5,0). With one step the same sweep reaches (5,0). -/
theorem C21_short_sweep_stays :
    (SweepPositionToDistance Scenario.sqrt ⟨5, 0⟩ 10 Scenario.free {}).1 = ⟨0, 0⟩ ∧
    (SweepPositionToDistance Scenario.sqrt ⟨5, 0⟩ 10 Scenario.free {}).2.2 = {} ∧
    Math.toInt (Math.Distance Scenario.sqrt ⟨0, 0⟩ ⟨5, 0⟩ / 10) = 0 ∧
    (SweepPositionTo ⟨5, 0⟩ 1 Scenario.free {}).2.2 = { Position := ⟨5, 0⟩ } := by
  decide!

/-- C25: an actor at (0,0) with scale (1,1) whose brush collides with
nothing is swept to the scale (3,4) with step distance 1. The overload with a step distance
calls SweepPositionTo: the position of the actor becomes (3,4), its scale stays (1,1), and the
value returned, (3,4), is the position. The overload with a step count, given 5 steps, changes
the scale to (3,4) and leaves the position. -/
theorem C25_SweepScaleTo_distance_moves_position :
    (SweepScaleToDistance Scenario.sqrt ⟨3, 4⟩ 1 Scenario.free {}).2.2 =
      { Position := ⟨3, 4⟩, Rotation := 0, Scale := ⟨1, 1⟩ } ∧
    (SweepScaleToDistance Scenario.sqrt ⟨3, 4⟩ 1 Scenario.free {}).1 = ⟨3, 4⟩ ∧
    (SweepScaleTo ⟨3, 4⟩ 5 Scenario.free {}).2.2 =
      { Position := ⟨0, 0⟩, Rotation := 0, Scale := ⟨3, 4⟩ } ∧
    (SweepScaleTo ⟨3, 4⟩ 5 Scenario.free {}).1 = ⟨3, 4⟩ := by
  decide!

end FureyEngine

namespace FureyEngine

/-- C29: when cosine is even and sine is odd at the rotation of the parent and
cos^2 + sin^2 = 1 there, a parent transform `p` with both scale components non-zero gives
WorldToRelative(RelativeToWorld(t, p), p) = t for every transform t. For every world transform
and every parent, a parent scale component equal to zero makes the matching position and scale
components of the result of WorldToRelative zero. -/
theorem C29_WorldToRelative_undoes_RelativeToWorld (T : Trig) (t p : Transform)
    (hcos : T.cos (-p.Rotation) = T.cos p.Rotation)
    (hsin : T.sin (-p.Rotation) = -T.sin p.Rotation)
    (hunit : T.cos p.Rotation ^ 2 + T.sin p.Rotation ^ 2 = 1)
    (hx : p.Scale.x ≠ 0) (hy : p.Scale.y ≠ 0) :
    Transform.WorldToRelative T (Transform.RelativeToWorld T t p) p = t ∧
    (∀ w q : Transform, q.Scale.x = 0 →
      (Transform.WorldToRelative T w q).Position.x = 0 ∧
      (Transform.WorldToRelative T w q).Scale.x = 0) ∧
    (∀ w q : Transform, q.Scale.y = 0 →
      (Transform.WorldToRelative T w q).Position.y = 0 ∧
      (Transform.WorldToRelative T w q).Scale.y = 0) := by
  refine ⟨?_, ?_, ?_⟩
  · obtain ⟨⟨tx, ty⟩, tr, ⟨sx, sy⟩⟩ := t
    obtain ⟨⟨px, py⟩, pr, ⟨qx, qy⟩⟩ := p
    simp only at hcos hsin hunit hx hy
    simp only [Transform.WorldToRelative, Transform.RelativeToWorld, Math.Rotate, neg_neg,
      hcos, hsin, ne_eq, hx, hy, not_false_eq_true, if_true, Transform.mk.injEq, Vec2.mk.injEq]
    refine ⟨⟨?_, ?_⟩, by ring, ?_, ?_⟩
    · field_simp
      linear_combination (tx * qx) * hunit
    · field_simp
      linear_combination (ty * qy) * hunit
    · field_simp
    · field_simp
  · intro w q h
    simp [Transform.WorldToRelative, h]
  · intro w q h
    simp [Transform.WorldToRelative, h]

/-- C29 for a parent at (1,2) rotated by 30 with scale (2,3) and the 3-4-5 rotation: the
relative transform at (5,7), rotated by 10, with scale (1/2, 4) comes back unchanged. -/
theorem C29_WorldToRelative_undoes_RelativeToWorld_witness :
    Transform.WorldToRelative Trig.pythagorean
      (Transform.RelativeToWorld Trig.pythagorean
        { Position := ⟨5, 7⟩, Rotation := 10, Scale := ⟨1 / 2, 4⟩ }
        { Position := ⟨1, 2⟩, Rotation := 30, Scale := ⟨2, 3⟩ })
      { Position := ⟨1, 2⟩, Rotation := 30, Scale := ⟨2, 3⟩ } =
      { Position := ⟨5, 7⟩, Rotation := 10, Scale := ⟨1 / 2, 4⟩ } :=
  (C29_WorldToRelative_undoes_RelativeToWorld Trig.pythagorean
    { Position := ⟨5, 7⟩, Rotation := 10, Scale := ⟨1 / 2, 4⟩ }
    { Position := ⟨1, 2⟩, Rotation := 30, Scale := ⟨2, 3⟩ }
    (by decide!) (by decide!) (by decide!) (by decide!) (by decide!)).1

end FureyEngine

namespace FureyEngine

/-- C15: an actor that is not active (at position `k` of a world in which addresses are not
shared) is skipped by World::Update, for every program. Every step of the tick loop and of the
late-tick loop leaves the actor and its components as they are, BeginTick flags included, and
makes no call on the actor or on one of its components. A whole Update that returns has made
on the actor only calls of Destroy or OnDestroy and on its components only calls of Remove or
OnRemove (those of cleanup closures), so none of Spawn, Start, Tick, LateTick, Attach and
their delegates; and an actor with that address still in the world has its BeginTick flag
and components of it, unchanged. Update returns for every program that spawns no actor, given
fuel above the number of actors. -/
theorem C15_inactive_actor_skipped (P : Program) (T : Trig) (fuel : Nat) (w : World) (k : Nat)
    (a : Actor) (hapart : w.Apart k a) (hidle : a.IsActive = false) :
    (∀ (v : World) (i : Nat), v.Apart k a →
      World.Skips k a v (v.tickActor P T i) ∧ World.Skips k a v (v.lateActor P T i)) ∧
    (∀ w', w.Update P T fuel = some w' →
      World.Holds a w' ∧ ∃ tr, w'.Trace = w.Trace ++ tr ∧
        (∀ e ∈ tr, e.object = Object.actor a.ptr →
          e.method = Method.Destroy ∨ e.method = Method.OnDestroy) ∧
        (∀ e ∈ tr, ∀ c ∈ a.Components, e.object = Object.component c.ptr →
          e.method = Method.Remove ∨ e.method = Method.OnRemove)) ∧
    (P.noSpawn → w.Actors.length < fuel → ∃ w', w.Update P T fuel = some w') := by
  have hidle' : a.Active = false := hidle
  refine ⟨fun v i hv => ⟨World.tickActor_skips hidle' hv, World.lateActor_skips hidle' hv⟩,
    ?_, ?_⟩
  · intro w' h
    obtain ⟨hh, tr, ht, hm⟩ := World.Update_skips hidle' hapart h
    refine ⟨hh, tr, ht, ?_, ?_⟩
    · intro e he ho
      rcases hm e he with h1 | h1
      · exact absurd ho h1.1
      · obtain ⟨o, m⟩ := e
        simp only at ho
        subst ho
        cases m <;> simp [Call.cleans] at h1 ⊢
    · intro e he c hc ho
      rcases hm e he with h1 | h1
      · exact absurd ho (h1.2 c hc)
      · obtain ⟨o, m⟩ := e
        simp only at ho
        subst ho
        cases m <;> simp [Call.cleans] at h1 ⊢
  · intro hP hfuel
    obtain ⟨w', hw', -⟩ := World.Update_returns (P := P) (T := T) hP hfuel
    exact ⟨w', hw'⟩

/-- A world with an actor that destroys itself and an idle actor: the Update returns and the
idle actor is in the world as it was. -/
theorem C15_inactive_actor_skipped_witness :
    ∃ w', Scenario.idleWorld.Update Scenario.selfDestroyProgram Trig.unrotated 3 = some w' ∧
      World.Holds Scenario.idleActor w' := by
  have h := C15_inactive_actor_skipped Scenario.selfDestroyProgram Trig.unrotated 3
    Scenario.idleWorld 1 Scenario.idleActor Scenario.idleWorld_apart rfl
  obtain ⟨w', hw'⟩ := h.2.2 Scenario.selfDestroyProgram_noSpawn (by decide)
  exact ⟨w', hw', (h.2.1 w' hw').1⟩

end FureyEngine

